import Mathlib

/-!
Anagram search engine: embedding of `src/main.c` and `src/util.h`.

Conventions of the embedding.

* A byte string `str_t` (size + data pointer) is the list of its bytes, each a `Nat`.
* A letter count table `breakdown_t` (`i8 counts[27]`) is a function `Fin 27 → Int`;
  every store into an `i8` slot goes through `wrap8`.
* A failed `assert` (and a dereference of a null pointer) is the result `none`.
* A pointer into the per-query `subkeys` list is the position of the node in that
  list; the null pointer is `none`; `p->next` is position `p + 1` when it exists.
* Singly linked lists are Lean lists in link order.
-/

namespace Anagram

/-! ## util.h -/

/-- Byte strings: `str_t`. -/
abbrev str_t := List Nat

/-- Conversion of an integer to `i8` (two's complement). -/
def wrap8 (x : Int) : Int := (x + 128) % 256 - 128

/-- Conversion of an integer to `u32`. -/
def toU32 (x : Int) : Nat := (x % 4294967296).toNat

/-- Source: `is_upper` in util.h. -/
def is_upper (c : Nat) : Bool := decide (65 ≤ c) && decide (c ≤ 90)

/-- Source: `is_lower` in util.h. -/
def is_lower (c : Nat) : Bool := decide (97 ≤ c) && decide (c ≤ 122)

/-- Source: `is_alpha` in util.h. -/
def is_alpha (c : Nat) : Bool :=
  (decide (65 ≤ c) && decide (c ≤ 90)) || (decide (97 ≤ c) && decide (c ≤ 122))

/-- Source: `to_lower` in util.h (`result |= 0x20` for letters). -/
def to_lower (c : Nat) : Nat := if is_alpha c then c ||| 32 else c

/-- Source: `str_eq` in util.h: equal sizes and equal bytes at every position. -/
def str_eq (a b : str_t) : Bool :=
  if a.length = b.length then (List.zip a b).all (fun p => decide (p.1 = p.2)) else false

/-! ## Letter count tables -/

/-- Source: `breakdown_t`, the array `i8 counts[27]`. -/
abbrev breakdown_t := Fin 27 → Int

/-- The index range `0 .. array_count(counts) - 1` of the loops over a table. -/
def count_idxs : List (Fin 27) := List.finRange 27

/-- The zero-initialised table `{0}`. -/
def breakdown_zero : breakdown_t := fun _ => 0

/-- One round of the loop of `breakdown_word`: a letter byte increments its slot, with the
two assertions `breakdown_idx < array_count` and `counts[breakdown_idx] < I8_MAX`. -/
def breakdown_word_step (result : breakdown_t) (c : Nat) : Option breakdown_t :=
  if is_alpha c then
    let breakdown_idx := toU32 ((to_lower c : Int) - 97)
    if h : breakdown_idx < 27 then
      if result ⟨breakdown_idx, h⟩ < 127 then
        some (Function.update result ⟨breakdown_idx, h⟩ (wrap8 (result ⟨breakdown_idx, h⟩ + 1)))
      else none
    else none
  else some result

/-- Source: `breakdown_word`. -/
def breakdown_word (word : str_t) : Option breakdown_t :=
  word.foldlM breakdown_word_step breakdown_zero

/-- Source: `breakdown_eq`. -/
def breakdown_eq (a b : breakdown_t) : Bool :=
  count_idxs.all (fun idx => decide (a idx = b idx))

/-- Source: `breakdown_is_empty`. -/
def breakdown_is_empty (a : breakdown_t) : Bool :=
  count_idxs.all (fun idx => decide (a idx = 0))

/-- Source: `breakdown_underflowed`. -/
def breakdown_underflowed (a : breakdown_t) : Bool :=
  count_idxs.any (fun idx => decide (a idx < 0))

/-- Source: `breakdown_contains`. -/
def breakdown_contains (a b : breakdown_t) : Bool :=
  count_idxs.all (fun idx => decide (a idx ≥ b idx))

/-- Source: `breakdown_add`; `none` when `assert(sum <= I8_MAX)` fails. -/
def breakdown_add (a b : breakdown_t) : Option breakdown_t :=
  if count_idxs.all (fun idx => decide (a idx + b idx ≤ 127)) then
    some (fun idx => wrap8 (a idx + b idx))
  else none

/-- Source: `breakdown_subtract`; `none` when `assert(difference >= I8_MIN)` fails, otherwise
the new table and the returned flag `!negative`. -/
def breakdown_subtract (a b : breakdown_t) : Option (breakdown_t × Bool) :=
  if count_idxs.all (fun idx => decide (a idx - b idx ≥ -128)) then
    some (fun idx => wrap8 (a idx - b idx), !(count_idxs.any (fun idx => decide (a idx - b idx < 0))))
  else none

/-- Source: `breakdown_sum`. -/
def breakdown_sum (a : breakdown_t) : Int :=
  count_idxs.foldl (fun sum idx => sum + a idx) 0

/-- Source: `hash_breakdown` (`u32` arithmetic). -/
def hash_breakdown (breakdown : breakdown_t) : Nat :=
  count_idxs.foldl (fun result idx => toU32 (107 * (result : Int) + breakdown idx)) 1

/-! ## Dictionary index -/

/-- Source: `keylink_t` without its `next` link: the key and the word list, whose first
node `first_word` is embedded in the struct (`more_words` is the chain `first_word.next`). -/
structure keylink_t where
  key : breakdown_t
  first_word : str_t
  more_words : List str_t

instance : DecidableEq keylink_t := fun a b =>
  decidable_of_iff (a.key = b.key ∧ a.first_word = b.first_word ∧ a.more_words = b.more_words)
    (by cases a; cases b; simp)

/-- The word list of a class, from `&first_word` along `next`. -/
def keylink_t.words (k : keylink_t) : List str_t := k.first_word :: k.more_words

/-- Source: `hashtable_t`: bucket index ↦ chain of classes, for the indices below
`array_count(entries) = 128 * 1024`. -/
structure hashtable_t where
  entries : Nat → List keylink_t

/-- Number of buckets, `array_count(hashtable->entries)`. -/
def bucket_count : Nat := 131072

/-- The table after `alloc_struct_clear`: all buckets null. -/
def hashtable_empty : hashtable_t := ⟨fun _ => []⟩

/-- The `else` branch of `hashtable_add_word`: the first class of the chain whose key equals
`breakdown` gets `word` as its first word, its former words following. -/
def chain_add_word (word : str_t) (breakdown : breakdown_t) : List keylink_t → List keylink_t
  | [] => []
  | link :: rest =>
    if breakdown_eq link.key breakdown then
      { key := link.key, first_word := word, more_words := link.first_word :: link.more_words } :: rest
    else link :: chain_add_word word breakdown rest

/-- Source: `hashtable_add_word`. -/
def hashtable_add_word (hashtable : hashtable_t) (word : str_t) (breakdown : breakdown_t) :
    hashtable_t :=
  let hash := hash_breakdown breakdown
  let entry_idx := hash % bucket_count
  let hashtable_entry := hashtable.entries entry_idx
  if hashtable_entry.any (fun link => breakdown_eq link.key breakdown) then
    ⟨Function.update hashtable.entries entry_idx (chain_add_word word breakdown hashtable_entry)⟩
  else
    ⟨Function.update hashtable.entries entry_idx
      ({ key := breakdown, first_word := word, more_words := [] } :: hashtable_entry)⟩

/-- The body of the dictionary loop of `main` for one valid entry (lines 1969-1974): the
entry is indexed under its own table unless it has no letter. -/
def index_add_entry (hashtable : hashtable_t) (word : str_t) : Option hashtable_t :=
  (breakdown_word word).map (fun breakdown =>
    if breakdown_sum breakdown > 0 then hashtable_add_word hashtable word breakdown
    else hashtable)

/-- The index after the valid entries `words` of the dictionary, in dictionary order. -/
def index_of_entries (words : List str_t) : Option hashtable_t :=
  words.foldlM index_add_entry hashtable_empty

/-! ## Result store -/

/-- Source: `anagram_result_t` (without the `next_result` link). -/
structure anagram_result_t where
  word_count : Nat
  words : List str_t
  deriving DecidableEq

/-- Source: `anagram_results_t`: the list runs from `first_result` to `last_result`. -/
structure anagram_results_t where
  result_count : Nat
  not_done : Bool
  results : List anagram_result_t
  deriving DecidableEq

/-- Source: `begin_anagram_result`: a cleared record of `word_count` slots is linked in at
the end and counted (`u32` counter). -/
def begin_anagram_result (results : anagram_results_t) (word_count : Nat) : anagram_results_t :=
  { results with
    results := results.results ++ [{ word_count := word_count, words := List.replicate word_count [] }]
    result_count := (results.result_count + 1) % 4294967296 }

/-- The stores through the pointer returned by `begin_anagram_result`: the slots of the last
record are overwritten with `words`. -/
def fill_last_result (results : anagram_results_t) (words : List str_t) : anagram_results_t :=
  { results with
    results := match results.results.getLast? with
      | none => results.results
      | some last => results.results.dropLast ++ [{ last with words := words }] }

/-! ## Incremental driver -/

/-- Source: `anagram_context_t` (arena bookkeeping left out). `chain` holds
`chain[0 .. chain_length - 1]`. -/
structure anagram_context_t where
  subkeys : List keylink_t
  chain_max_length : Nat
  chain : List Nat
  remaining_breakdown : breakdown_t
  next_subkey_to_add : Option Nat
  results : anagram_results_t

instance : DecidableEq anagram_context_t := fun a b =>
  decidable_of_iff
    (a.subkeys = b.subkeys ∧ a.chain_max_length = b.chain_max_length ∧ a.chain = b.chain ∧
      a.remaining_breakdown = b.remaining_breakdown ∧
      a.next_subkey_to_add = b.next_subkey_to_add ∧ a.results = b.results)
    (by cases a; cases b; simp)

/-- One round of the loop that separates the excluded words by space; the state is
`(last_wordstart, excluded_words)`. -/
def exclude_step (text : str_t) (st : Int × List str_t) (idx : Nat) : Int × List str_t :=
  if idx = text.length ∨ text.getD idx 0 = 32 then
    let size : Int := (idx : Int) - st.1
    if size > 0 then
      ((idx : Int) + 1, ((text.drop st.1.toNat).take size.toNat) :: st.2)
    else ((idx : Int) + 1, st.2)
  else st

/-- The list `excluded_words` built from the exclude string (a new word is linked in at
the front). -/
def parse_excluded (text : str_t) : List str_t :=
  ((List.range (text.length + 1)).foldl (exclude_step text) (0, [])).2

/-- The loop over `excluded_words` that sets `excluded`. -/
def is_excluded (excluded_words : List str_t) (word : str_t) : Bool :=
  excluded_words.any (fun excluded_word => str_eq word excluded_word)

/-- The `while` loop of "Insert longest words first": the number of leading subkeys whose
sum is at least `key_sum` (comparison in `u32`). -/
def insert_position (subkeys : List keylink_t) (key_sum : Nat) : Nat :=
  (subkeys.takeWhile (fun s => decide (toU32 (breakdown_sum s.key) ≥ key_sum))).length

/-- Appending one word at the tail of the word list of the subkey at position `pos`
(`current_wordlink->next = new_word`). -/
def append_word : List keylink_t → Nat → str_t → List keylink_t
  | [], _, _ => []
  | k :: ks, 0, word => { k with more_words := k.more_words ++ [word] } :: ks
  | k :: ks, pos + 1, word => k :: append_word ks pos word

/-- One round of the loop over the words of a class; the state is the subkey list and the
position of the subkey that holds `current_wordlink` (none while it is null). -/
def scan_word (excluded_words : List str_t) (key : breakdown_t)
    (st : List keylink_t × Option Nat) (word : str_t) : List keylink_t × Option Nat :=
  if is_excluded excluded_words word then st
  else
    match st.2 with
    | none =>
      let key_sum := toU32 (breakdown_sum key)
      let pos := insert_position st.1 key_sum
      (st.1.take pos ++ { key := key, first_word := word, more_words := [] } :: st.1.drop pos,
        some pos)
    | some pos => (append_word st.1 pos word, some pos)

/-- The body of the loop over the classes of a bucket in `begin_anagram_context`. -/
def scan_class (reduced_input_breakdown : breakdown_t) (excluded_words : List str_t)
    (subkeys : List keylink_t) (key_link : keylink_t) : List keylink_t :=
  if breakdown_contains reduced_input_breakdown key_link.key then
    (key_link.words.foldl (scan_word excluded_words key_link.key) (subkeys, none)).1
  else subkeys

/-- Source comment "Find words that could fit into the input": the subkey list after the outer loop has
run over the buckets `0 .. n - 1`, each chain from its head. -/
def scan_buckets (hashtable : hashtable_t) (reduced_input_breakdown : breakdown_t)
    (excluded_words : List str_t) : Nat → List keylink_t
  | 0 => []
  | n + 1 =>
    (hashtable.entries n).foldl (scan_class reduced_input_breakdown excluded_words)
      (scan_buckets hashtable reduced_input_breakdown excluded_words n)

/-- The subkey list after the loop over all `array_count(hashtable->entries)` buckets. -/
@[irreducible] def find_subkeys (hashtable : hashtable_t) (reduced_input_breakdown : breakdown_t)
    (excluded_words : List str_t) : List keylink_t :=
  scan_buckets hashtable reduced_input_breakdown excluded_words bucket_count

/-- The context `ctx = {0}` with `not_done = true`. -/
def context_zero : anagram_context_t :=
  { subkeys := [], chain_max_length := 0, chain := [], remaining_breakdown := breakdown_zero,
    next_subkey_to_add := none,
    results := { result_count := 0, not_done := true, results := [] } }

/-- The block `if(subkeys) { ... }` at the end of `begin_anagram_context`: the chain is
allocated and the first subkey is pushed. -/
def setup_search (subkeys : List keylink_t) (input_breakdown : breakdown_t)
    (reduced_input_breakdown : breakdown_t) : Option anagram_context_t :=
  match subkeys with
  | [] => some context_zero
  | first :: _ =>
    let chain_max_length := toU32 (max 1 (breakdown_sum input_breakdown))
    match breakdown_subtract reduced_input_breakdown first.key with
    | none => none
    | some (remaining_breakdown, no_underflow) =>
      if no_underflow then
        some { context_zero with
          subkeys := subkeys
          chain_max_length := chain_max_length
          chain := [0]
          remaining_breakdown := remaining_breakdown
          next_subkey_to_add := some 0 }
      else none

/-- Source: `begin_anagram_context`. -/
def begin_anagram_context (hashtable : hashtable_t) (input_breakdown : breakdown_t)
    (must_include_breakdown : breakdown_t) (space_separated_must_exclude : str_t) :
    Option anagram_context_t :=
  match breakdown_subtract input_breakdown must_include_breakdown with
  | none => none
  | some (reduced_input_breakdown, must_include_is_valid) =>
    if !must_include_is_valid then some context_zero
    else if !breakdown_is_empty must_include_breakdown
        && breakdown_is_empty reduced_input_breakdown then
      some { context_zero with results := begin_anagram_result context_zero.results 0 }
    else
      let excluded_words := parse_excluded space_separated_must_exclude
      let subkeys := find_subkeys hashtable reduced_input_breakdown excluded_words
      setup_search subkeys input_breakdown reduced_input_breakdown

/-- A word-list pointer `p`, as the list of the nodes from `p` on (null is `[]`):
`p->word`. -/
def wordlink_word : List str_t → Option str_t
  | [] => none
  | word :: _ => some word

/-- The pointer `p->next` of a word-list pointer. -/
def wordlink_next : List str_t → Option (List str_t)
  | [] => none
  | _ :: next => some next

/-- The carry loop `for(link_idx = 0; link_idx < chain_length - 1; ++link_idx)` of the
expander, over the classes and pointers from `link_idx` on: an exhausted pointer is reset to
the first word of its class and the next pointer advances. -/
def carry_links : List keylink_t → List (List str_t) → Option (List (List str_t))
  | link :: links, tmp :: tmp1 :: tmps =>
    if tmp.isEmpty then
      (wordlink_next tmp1).bind (fun next1 =>
        (carry_links links (next1 :: tmps)).map (fun rest => link.words :: rest))
    else (carry_links links (tmp1 :: tmps)).map (fun rest => tmp :: rest)
  | _, tmps => some tmps

/-- The `for(;;)` loop of the expander, unrolled at most `fuel` times (`none` when the fuel
runs out): one record per round, then the pointers advance; the loop ends when the last
pointer is null. -/
def expander_loop (links : List keylink_t) :
    Nat → List (List str_t) → anagram_results_t → Option anagram_results_t
  | 0, _, _ => none
  | fuel + 1, tmp_links, results =>
    match tmp_links.mapM wordlink_word with
    | none => none
    | some words =>
      let results1 := fill_last_result (begin_anagram_result results links.length) words
      match tmp_links with
      | [] => none
      | tmp0 :: tmps =>
        match wordlink_next tmp0 with
        | none => none
        | some next0 =>
          match carry_links links (next0 :: tmps) with
          | none => none
          | some tmp_links1 =>
            if tmp_links1.getLast? = some [] then some results1
            else expander_loop links fuel tmp_links1 results1

/-- The number of rounds granted to the `for(;;)` loop of the expander: the number of word
combinations of the chain. -/
def expander_fuel (links : List keylink_t) : Nat :=
  (links.map (fun link => link.words.length)).prod

/-- The first branch of the loop body of `compute_anagrams`: "Print results, with per-word
anagram combinations". -/
def expand_chain (ctx : anagram_context_t) : Option anagram_context_t :=
  match ctx.chain.mapM (fun p => ctx.subkeys[p]?) with
  | none => none
  | some links =>
    match expander_loop links (expander_fuel links) (links.map keylink_t.words) ctx.results with
    | none => none
    | some results => some { ctx with results := results, next_subkey_to_add := none }

/-- Pushing the subkey at position `p` on the chain and subtracting its key, as both the
second and the third branch do; with `assert(ctx->chain_length < chain_max_length)`. -/
def push_subkey (ctx : anagram_context_t) (chain : List Nat) (remaining : breakdown_t)
    (p : Nat) : Option anagram_context_t :=
  if chain.length < ctx.chain_max_length then
    match ctx.subkeys[p]? with
    | none => none
    | some link =>
      match breakdown_subtract remaining link.key with
      | none => none
      | some (remaining1, ok) =>
        some { ctx with
          chain := chain ++ [p]
          remaining_breakdown := remaining1
          next_subkey_to_add := if ok then (chain ++ [p]).getLast? else none }
  else none

/-- The loop body of `compute_anagrams` (the chain is not empty). -/
def compute_anagrams_step (ctx : anagram_context_t) : Option anagram_context_t :=
  match ctx.next_subkey_to_add with
  | some next =>
    if breakdown_is_empty ctx.remaining_breakdown then expand_chain ctx
    else if breakdown_underflowed ctx.remaining_breakdown then none
    else push_subkey ctx ctx.chain ctx.remaining_breakdown next
  | none =>
    match ctx.chain.getLast? with
    | none => none
    | some prev_last_subkey =>
      match ctx.subkeys[prev_last_subkey]? with
      | none => none
      | some prev_link =>
        match breakdown_add ctx.remaining_breakdown prev_link.key with
        | none => none
        | some remaining =>
          if prev_last_subkey + 1 < ctx.subkeys.length then
            push_subkey ctx ctx.chain.dropLast remaining (prev_last_subkey + 1)
          else
            some { ctx with
              chain := ctx.chain.dropLast
              remaining_breakdown := remaining
              next_subkey_to_add := none }

/-- The `for` loop of `compute_anagrams`: at most `iterations` rounds while the chain is
not empty. -/
def compute_anagrams_loop : Nat → anagram_context_t → Option anagram_context_t
  | 0, ctx => some ctx
  | iterations + 1, ctx =>
    if ctx.chain.length > 0 then
      (compute_anagrams_step ctx).bind (compute_anagrams_loop iterations)
    else some ctx

/-- Source: `compute_anagrams`. -/
def compute_anagrams (ctx : anagram_context_t) (iterations : Nat) : Option anagram_context_t :=
  (compute_anagrams_loop iterations ctx).map (fun ctx1 =>
    { ctx1 with results := { ctx1.results with not_done := decide (ctx1.chain.length > 0) } })



/-- The store after the records with the word rows `rows`, each of `word_count` slots, have
been appended. -/
def add_rows (results : anagram_results_t) (word_count : Nat) (rows : List (List str_t)) :
    anagram_results_t :=
  { results with
    results := results.results ++ rows.map (fun words => { word_count := word_count, words := words })
    result_count := (results.result_count + rows.length) % 4294967296 }

/-- The pointers of the expander after `q` rounds, for the word lists `lists` from the
current slot on: slot `j` stands at digit `j` of `q` in the mixed radix of the list sizes. -/
def odometer : List (List str_t) → Nat → List (List str_t)
  | [], _ => []
  | ws :: rest, q => ws.drop (q % ws.length) :: odometer rest (q / ws.length)

/-- Row `q` of the expansion of the word lists `lists`. -/
def odometer_row (lists : List (List str_t)) (q : Nat) : List str_t :=
  (odometer lists q).map (fun tmp => tmp.headD [])

/-- The key of the subkey at position `p` (the zero table outside the list). -/
def key_at (subkeys : List keylink_t) (p : Nat) : breakdown_t :=
  match subkeys[p]? with
  | some link => link.key
  | none => breakdown_zero

/-- Componentwise sum of the keys of the subkeys at the positions of `chain`. -/
def chain_sum (subkeys : List keylink_t) (chain : List Nat) : breakdown_t :=
  fun idx => (chain.map (fun p => key_at subkeys p idx)).sum

/-- Every count of the table lies in `0 .. 127`, as in the table of a byte string. -/
def letter_bag (a : breakdown_t) : Prop := ∀ idx, 0 ≤ a idx ∧ a idx ≤ 127

/-- Invariant of the search state for the subkey list `S` and the reduced target `R`. -/
structure SearchInv (S : List keylink_t) (R : breakdown_t) (ctx : anagram_context_t) : Prop where
  subkeys_eq : ctx.subkeys = S
  in_range : ∀ p ∈ ctx.chain, p < S.length
  sorted : ctx.chain.Chain' (fun a b => a ≤ b)
  remaining_eq : ∀ idx, ctx.remaining_breakdown idx = R idx - chain_sum S ctx.chain idx
  prefix_ok : ∀ idx, 0 ≤ R idx - chain_sum S ctx.chain.dropLast idx
  next_ok : ∀ p, ctx.next_subkey_to_add = some p →
    ctx.chain.getLast? = some p ∧ ∀ idx, 0 ≤ ctx.remaining_breakdown idx

/-- The context after the subkey at position `p` has been pushed on the chain `chain` with
the remaining table `remaining` (no count leaving the `i8` range). -/
def pushed (ctx : anagram_context_t) (chain : List Nat) (remaining : breakdown_t) (p : Nat) :
    anagram_context_t :=
  { ctx with
    chain := chain ++ [p]
    remaining_breakdown := fun idx => remaining idx - key_at ctx.subkeys p idx
    next_subkey_to_add :=
      if breakdown_underflowed (fun idx => remaining idx - key_at ctx.subkeys p idx) then none
      else some p }

/-- Successive calls `compute_anagrams(ctx, k)`, one for each budget `k` of `budgets`. -/
def compute_anagrams_calls (ctx : anagram_context_t) (budgets : List Nat) :
    Option anagram_context_t :=
  budgets.foldlM compute_anagrams ctx

/-- A record is the row of a solution chain: its words come, slot by slot, from the subkeys
of a chain of non-decreasing positions whose keys sum to the reduced target `R`. -/
def record_ok (S : List keylink_t) (R : breakdown_t) (r : anagram_result_t) : Prop :=
  ∃ c : List Nat, (∀ p ∈ c, p < S.length) ∧ c.Chain' (fun a b => a ≤ b) ∧
    (∀ idx, chain_sum S c idx = R idx) ∧ r.word_count = c.length ∧
    List.Forall₂ (fun w p => ∃ k, S[p]? = some k ∧ w ∈ k.words) r.words c

/-- The classes of the buckets `0 .. n - 1`, bucket by bucket, each chain from its head. -/
def classes_upto (hashtable : hashtable_t) : Nat → List keylink_t
  | 0 => []
  | n + 1 => classes_upto hashtable n ++ hashtable.entries n

/-- All classes of the index in the order of the traversal of `begin_anagram_context`. -/
@[irreducible] def classes (hashtable : hashtable_t) : List keylink_t :=
  classes_upto hashtable bucket_count

/-- The words of a class that are not excluded, in their order. -/
def keep_words (excluded_words : List str_t) (words : List str_t) : List str_t :=
  words.filter (fun word => !is_excluded excluded_words word)

/-- The subkey list after `link` has been put behind the leading subkeys whose sum is at
least its own. -/
def insert_subkey (subkeys : List keylink_t) (link : keylink_t) : List keylink_t :=
  subkeys.take (insert_position subkeys (toU32 (breakdown_sum link.key)))
    ++ link :: subkeys.drop (insert_position subkeys (toU32 (breakdown_sum link.key)))

/-- The effect of the loop body for one class: the class contributes a subkey with its
kept words when its key fits and a word is kept. -/
def scan_class_result (reduced_input_breakdown : breakdown_t) (excluded_words : List str_t)
    (subkeys : List keylink_t) (key_link : keylink_t) : List keylink_t :=
  if breakdown_contains reduced_input_breakdown key_link.key then
    match keep_words excluded_words key_link.words with
    | [] => subkeys
    | word :: words => insert_subkey subkeys { key := key_link.key, first_word := word, more_words := words }
  else subkeys

/-- One call `hashtable_add_word(hashtable, arena, word, &breakdown)` with the table
`breakdown = breakdown_word(word)` of the word itself. -/
def add_own_word (hashtable : hashtable_t) (word : str_t) : Option hashtable_t :=
  (breakdown_word word).map (fun breakdown => hashtable_add_word hashtable word breakdown)

/-- The index built by `hashtable_add_word` from the words `words`, each with its own
table, in this order. -/
def index_of_words (words : List str_t) : Option hashtable_t :=
  words.foldlM add_own_word hashtable_empty

/-- Every word of every class has the key of the class as its table. -/
def index_own (hashtable : hashtable_t) : Prop :=
  ∀ i, ∀ kl ∈ hashtable.entries i, ∀ w ∈ kl.words, breakdown_word w = some kl.key

/-- Every class key has a positive sum. -/
def index_pos (hashtable : hashtable_t) : Prop :=
  ∀ i, ∀ kl ∈ hashtable.entries i, 0 < breakdown_sum kl.key

/-- The chains for which the first `n` rounds of the loop of `compute_anagrams` take the
expander branch ("Print results"), in the order of the rounds. -/
def handed_chains : Nat → anagram_context_t → List (List Nat)
  | 0, _ => []
  | n + 1, ctx =>
    if ctx.chain.length > 0 then
      (if ctx.next_subkey_to_add.isSome && breakdown_is_empty ctx.remaining_breakdown
        then [ctx.chain] else [])
      ++ (match compute_anagrams_step ctx with
          | none => []
          | some ctx1 => handed_chains n ctx1)
    else []

/-- Invariant of the driver for the subkey list `S` and the reduced target `R`: either the
search is set up and its state invariant holds, or the chain is empty; every record is the
row of a solution chain. -/
def DriverInv (S : List keylink_t) (R : breakdown_t) (ctx : anagram_context_t) : Prop :=
  ((letter_bag R ∧ (∀ k ∈ S, letter_bag k.key) ∧ SearchInv S R ctx) ∨
      (ctx.chain = [] ∧ ctx.subkeys = S)) ∧
    ∀ r ∈ ctx.results.results, record_ok S R r

/-- Every class lies in the bucket of its key, and its words are words of `words`. -/
def index_supp (words : List str_t) (hashtable : hashtable_t) : Prop :=
  ∀ i, ∀ kl ∈ hashtable.entries i,
    i = hash_breakdown kl.key % bucket_count ∧ ∀ w ∈ kl.words, w ∈ words

/-- The dictionary of the end-to-end scenarios: listen, silent, tinsel, cat, act, tac, dog. -/
def example_dictionary : List str_t :=
  [[108, 105, 115, 116, 101, 110], [115, 105, 108, 101, 110, 116],
   [116, 105, 110, 115, 101, 108], [99, 97, 116], [97, 99, 116], [116, 97, 99],
   [100, 111, 103]]

/-- The table with the counts `counts` in the slots `0, 1, ...` and zero behind them. -/
def breakdown_of_list (counts : List Int) : breakdown_t := fun idx => counts.getD idx.val 0

/-- The index that `main` builds from `example_dictionary`. -/
def example_index : hashtable_t :=
  (index_of_entries example_dictionary).getD hashtable_empty

/-- The index that `hashtable_add_word` builds from the words of `example_dictionary`, each
with its own table. -/
def example_index_words : hashtable_t :=
  (index_of_words example_dictionary).getD hashtable_empty

/-- Table of `listen`. -/
def bag_listen : breakdown_t :=
  breakdown_of_list [0, 0, 0, 0, 1, 0, 0, 0, 1, 0, 0, 1, 0, 1, 0, 0, 0, 0, 1, 1]

/-- Table of `cat`. -/
def bag_cat : breakdown_t :=
  breakdown_of_list [1, 0, 1, 0, 0, 0, 0, 0, 0, 0, 0, 0, 0, 0, 0, 0, 0, 0, 0, 1]

/-- Table of `dog`. -/
def bag_dog : breakdown_t :=
  breakdown_of_list [0, 0, 0, 1, 0, 0, 1, 0, 0, 0, 0, 0, 0, 0, 1]

/-- Table of `listencat`. -/
def bag_listencat : breakdown_t :=
  breakdown_of_list [1, 0, 1, 0, 1, 0, 0, 0, 1, 0, 0, 1, 0, 1, 0, 0, 0, 0, 1, 2]

/-- Table of `x`. -/
def bag_x : breakdown_t :=
  breakdown_of_list [0, 0, 0, 0, 0, 0, 0, 0, 0, 0, 0, 0, 0, 0, 0, 0, 0, 0, 0, 0, 0, 0, 0, 1]

/-- The class of listen, silent, tinsel in the example index. -/
def class_listen : keylink_t :=
  { key := bag_listen, first_word := [116, 105, 110, 115, 101, 108],
    more_words := [[115, 105, 108, 101, 110, 116], [108, 105, 115, 116, 101, 110]] }

/-- The class of dog in the example index. -/
def class_dog : keylink_t :=
  { key := bag_dog, first_word := [100, 111, 103], more_words := [] }

/-- The class of cat, act, tac in the example index. -/
def class_cat : keylink_t :=
  { key := bag_cat, first_word := [116, 97, 99], more_words := [[97, 99, 116], [99, 97, 116]] }

/-- The classes of the example index in traversal order (buckets 16695, 39128, 79376). -/
def example_classes : List keylink_t := [class_listen, class_dog, class_cat]

/-- The context of the query `listencat` (no include, no exclude) on the example index. -/
def listencat_context : anagram_context_t :=
  { subkeys := [class_listen, class_cat], chain_max_length := 9, chain := [0],
    remaining_breakdown := bag_cat, next_subkey_to_add := some 0,
    results := { result_count := 0, not_done := true, results := [] } }

/-- The context of the query `cat` (no include, no exclude) on the example index. -/
def cat_context : anagram_context_t :=
  { subkeys := [class_cat], chain_max_length := 3, chain := [0],
    remaining_breakdown := breakdown_zero, next_subkey_to_add := some 0,
    results := { result_count := 0, not_done := true, results := [] } }

/-- Comparison of an optional value with a value (`false` for `none`). -/
def option_is {α : Type} [DecidableEq α] (o : Option α) (x : α) : Bool :=
  match o with
  | some y => decide (y = x)
  | none => false

/-- The solution chains, as lists of positions, in the part of the search that starts when
the subkey at position `p` is pushed while the remaining table is `rem`; in the order in
which the search reaches them. `fuel` bounds the depth. -/
def dfs (S : List keylink_t) : Nat → breakdown_t → Nat → List (List Nat)
  | 0, _, _ => []
  | fuel + 1, rem, p =>
    if breakdown_underflowed (fun idx => rem idx - key_at S p idx) then []
    else if breakdown_is_empty (fun idx => rem idx - key_at S p idx) then [[p]]
    else ((List.range' p (S.length - p)).flatMap
            (fun q => dfs S fuel (fun idx => rem idx - key_at S p idx) q)).map (fun s => p :: s)

/-- The subkeys of the chain `c`. -/
def chain_links (S : List keylink_t) (c : List Nat) : List keylink_t :=
  c.filterMap (fun p => S[p]?)

/-- The word rows of the chain `c`, in the order of the expander. -/
def chain_rows (S : List keylink_t) (c : List Nat) : List (List str_t) :=
  (List.range (expander_fuel (chain_links S c))).map
    (odometer_row ((chain_links S c).map keylink_t.words))

/-- The store after the rows of the chains `chains` have been appended, chain by chain. -/
def emit_chains (S : List keylink_t) (results : anagram_results_t) (chains : List (List Nat)) :
    anagram_results_t :=
  chains.foldl (fun res c => add_rows res c.length (chain_rows S c)) results

/-- A context given by its fields. -/
def search_state (S : List keylink_t) (M : Nat) (c : List Nat) (rem : breakdown_t)
    (next : Option Nat) (results : anagram_results_t) : anagram_context_t :=
  { subkeys := S, chain_max_length := M, chain := c, remaining_breakdown := rem,
    next_subkey_to_add := next, results := results }

/-- The state right after the subkey at `p` has been pushed on the chain `c`, where the
remaining table was `rem`. -/
def pushed_state (S : List keylink_t) (M : Nat) (c : List Nat) (rem : breakdown_t) (p : Nat)
    (results : anagram_results_t) : anagram_context_t :=
  search_state S M (c ++ [p]) (fun idx => rem idx - key_at S p idx)
    (if breakdown_underflowed (fun idx => rem idx - key_at S p idx) then none else some p)
    results

/-- The state in which everything below the subkey at `p` on top of the chain `c` has been
searched. -/
def popped_state (S : List keylink_t) (M : Nat) (c : List Nat) (rem : breakdown_t) (p : Nat)
    (results : anagram_results_t) : anagram_context_t :=
  search_state S M (c ++ [p]) (fun idx => rem idx - key_at S p idx) none results

/-- The relation `Reach a b tr`: some number of rounds of the loop of `compute_anagrams` leads from `a` to
`b`, and the chains handed to the expander on the way are `tr`. -/
def Reach (a b : anagram_context_t) (tr : List (List Nat)) : Prop :=
  ∃ t, compute_anagrams_loop t a = some b ∧ handed_chains t a = tr

/-- All solution chains for the subkey list `S` and the reduced target `R`, in the order in
which the search reaches them. -/
def all_solutions (S : List keylink_t) (R : breakdown_t) : List (List Nat) :=
  (List.range S.length).flatMap (dfs S (breakdown_sum R).toNat R)

/-- The final store of `compute_anagrams`: `ctx->results.not_done = (ctx->chain_length > 0)`;
here for an arbitrary flag. -/
def set_not_done (ctx : anagram_context_t) (b : Bool) : anagram_context_t :=
  { ctx with results := { ctx.results with not_done := b } }

/-- The context of the query `cat` with the exclude string `act` on the example index. -/
def cat_not_act_context : anagram_context_t :=
  { subkeys := [{ key := bag_cat, first_word := [116, 97, 99], more_words := [[99, 97, 116]] }],
    chain_max_length := 3, chain := [0],
    remaining_breakdown := breakdown_zero, next_subkey_to_add := some 0,
    results := { result_count := 0, not_done := true, results := [] } }

/-! ## Batch enumerator `list_anagrams_for` -/

/-- Conversion of an integer to `i32` (two's complement). -/
def wrap32 (x : Int) : Int := (x + 2147483648) % 4294967296 - 2147483648

/-- Source: `breakdown_max0`. -/
def breakdown_max0 (a : breakdown_t) : breakdown_t := fun idx => max 0 (a idx)

/-- One line of the output of `list_anagrams_for`, with the arguments of its `printf` calls:
`missing_count` is the line `Missing %d letters:`, `missing_letter` a line `  %dx '%c'` for
the count of the slot `breakdown_idx` (letter `'a' + breakdown_idx`), `possible_additions`
the line `Possible additions:`, `include_only` the line `  %.*s` of the branch in which the
include uses up the input, and `result_row` a line of the search: the include string, which
is printed in front when its size is not zero, and the words of the row. -/
inductive print_t where
  | missing_count (sum : Int)
  | missing_letter (count : Int) (breakdown_idx : Nat)
  | possible_additions
  | include_only (must_include : str_t)
  | result_row (must_include : str_t) (words : List str_t)
  deriving DecidableEq

/-- The lines that show a result: the rows of the search and the line of the include
alone. -/
def print_t.is_result : print_t → Bool
  | print_t.result_row _ _ => true
  | print_t.include_only _ => true
  | _ => false

/-- The locals of the search loop of `list_anagrams_for` that change, and the output so
far. `chain` holds `chain[0 .. chain_length - 1]` as positions in the subkey list. -/
structure search_t where
  chain : List Nat
  remaining_breakdown : breakdown_t
  next_min_subkey : Option Nat
  result_count : Int
  printed : List print_t

instance : DecidableEq search_t := fun a b =>
  decidable_of_iff
    (a.chain = b.chain ∧ a.remaining_breakdown = b.remaining_breakdown ∧
      a.next_min_subkey = b.next_min_subkey ∧ a.result_count = b.result_count ∧
      a.printed = b.printed)
    (by cases a; cases b; simp)

/-- The loop `while(max_results < 0 || result_count < max_results)` that prints the word
combinations of a chain, unrolled at most `fuel` times (`none` when the fuel runs out): one
line per round, then the pointers advance; the loop is left when the last pointer is null. -/
def print_rows (links : List keylink_t) (must_include : str_t) (max_results : Int) :
    Nat → List (List str_t) → Int → List print_t → Option (Int × List print_t)
  | 0, _, _, _ => none
  | fuel + 1, tmp_links, result_count, printed =>
    if max_results < 0 ∨ result_count < max_results then
      match tmp_links.mapM wordlink_word with
      | none => none
      | some words =>
        match tmp_links with
        | [] => none
        | tmp0 :: tmps =>
          match wordlink_next tmp0 with
          | none => none
          | some next0 =>
            match carry_links links (next0 :: tmps) with
            | none => none
            | some tmp_links1 =>
              if tmp_links1.getLast? = some [] then
                some (wrap32 (result_count + 1),
                  printed ++ [print_t.result_row must_include words])
              else
                print_rows links must_include max_results fuel tmp_links1
                  (wrap32 (result_count + 1))
                  (printed ++ [print_t.result_row must_include words])
    else some (result_count, printed)

/-- The block "Print results, with per-word anagram combinations" of `list_anagrams_for`. -/
def print_chain (subkeys : List keylink_t) (must_include : str_t) (max_results : Int)
    (st : search_t) : Option search_t :=
  match st.chain.mapM (fun p => subkeys[p]?) with
  | none => none
  | some links =>
    (print_rows links must_include max_results (expander_fuel links)
        (links.map keylink_t.words) st.result_count st.printed).map
      (fun r => { st with result_count := r.1, printed := r.2 })

/-- The pointer `p->next` of the subkey at position `p`: null behind the last subkey. -/
def subkey_next (subkeys : List keylink_t) (p : Nat) : Option Nat :=
  if p + 1 < subkeys.length then some (p + 1) else none

/-- The scan `for(...; next_subkey && !found_next; next_subkey = next_subkey->next)` over the
subkeys `links` that start at position `p`: the position of the first one whose key is
contained in `remaining`. -/
def first_fit (remaining : breakdown_t) : List keylink_t → Nat → Option Nat
  | [], _ => none
  | link :: links, p =>
    if breakdown_contains remaining link.key then some p
    else first_fit remaining links (p + 1)

/-- The scan for the next chain element from the pointer `start` on. -/
def find_next (subkeys : List keylink_t) (remaining : breakdown_t) (start : Option Nat) :
    Option Nat :=
  match start with
  | none => none
  | some p => first_fit remaining (subkeys.drop p) p

/-- The body of the `if(breakdown_contains(...))` of both scans: the subkey at position `p`
is pushed on `chain` and its key is subtracted from `remaining`. -/
def push_found (subkeys : List keylink_t) (chain_max_length : Nat) (st : search_t)
    (chain : List Nat) (remaining : breakdown_t) (p : Nat) : Option search_t :=
  if chain.length < chain_max_length then
    match subkeys[p]? with
    | none => none
    | some link =>
      match breakdown_subtract remaining link.key with
      | none => none
      | some (remaining1, _) =>
        some { st with
          chain := chain ++ [p]
          remaining_breakdown := remaining1
          next_min_subkey := (chain ++ [p]).getLast? }
  else none

/-- The part of the loop body behind the printing: "Try adding a new chain element", and
when none fits, "Try changing the last chain element". -/
def search_advance (subkeys : List keylink_t) (chain_max_length : Nat) (st : search_t) :
    Option search_t :=
  match find_next subkeys st.remaining_breakdown st.next_min_subkey with
  | some p => push_found subkeys chain_max_length st st.chain st.remaining_breakdown p
  | none =>
    match st.chain.getLast? with
    | none => none
    | some prev_last_subkey =>
      match subkeys[prev_last_subkey]? with
      | none => none
      | some prev_link =>
        match breakdown_add st.remaining_breakdown prev_link.key with
        | none => none
        | some remaining =>
          match find_next subkeys remaining (subkey_next subkeys prev_last_subkey) with
          | some p => push_found subkeys chain_max_length st st.chain.dropLast remaining p
          | none =>
            some { st with
              chain := st.chain.dropLast
              remaining_breakdown := remaining
              next_min_subkey := subkey_next subkeys prev_last_subkey }

/-- The body of the search loop of `list_anagrams_for`. -/
def search_step (subkeys : List keylink_t) (chain_max_length : Nat) (must_include : str_t)
    (max_results : Int) (st : search_t) : Option search_t :=
  (if breakdown_is_empty st.remaining_breakdown then
      print_chain subkeys must_include max_results st
    else some st).bind (search_advance subkeys chain_max_length)

/-- The loop `while(chain_length > 0 && (max_results < 0 || result_count < max_results))`,
unrolled at most `fuel` times (`none` when the fuel runs out). -/
def search_loop (subkeys : List keylink_t) (chain_max_length : Nat) (must_include : str_t)
    (max_results : Int) : Nat → search_t → Option search_t
  | fuel, st =>
    if st.chain.length > 0 ∧ (max_results < 0 ∨ st.result_count < max_results) then
      match fuel with
      | 0 => none
      | fuel1 + 1 =>
        (search_step subkeys chain_max_length must_include max_results st).bind
          (search_loop subkeys chain_max_length must_include max_results fuel1)
    else some st

/-- The block `if(subkeys) { ... }` of `list_anagrams_for`: the chain starts with the first
subkey and the search loop runs. -/
def search_from (subkeys : List keylink_t) (fuel : Nat) (input_breakdown : breakdown_t)
    (reduced_input_breakdown : breakdown_t) (must_include : str_t) (max_results : Int) :
    Option (List print_t) :=
  match subkeys with
  | [] => some []
  | first :: _ =>
    let chain_max_length := toU32 (max 1 (breakdown_sum input_breakdown))
    match breakdown_subtract reduced_input_breakdown first.key with
    | none => none
    | some (remaining_breakdown, no_underflow) =>
      if no_underflow then
        (search_loop subkeys chain_max_length must_include max_results fuel
          { chain := [0], remaining_breakdown := remaining_breakdown,
            next_min_subkey := some 0, result_count := 0, printed := [] }).map
          (fun st => st.printed)
      else none

/-- The last branch of `list_anagrams_for`: the excluded words are separated, the subkeys are
found and the search runs. -/
def search_anagrams (hashtable : hashtable_t) (fuel : Nat) (input_breakdown : breakdown_t)
    (reduced_input_breakdown : breakdown_t) (must_include : str_t)
    (space_separated_must_exclude : str_t) (max_results : Int) : Option (List print_t) :=
  search_from
    (find_subkeys hashtable reduced_input_breakdown
      (parse_excluded space_separated_must_exclude))
    fuel input_breakdown reduced_input_breakdown must_include max_results

/-- The lines of the report of the missing letters, up to `Possible additions:`. -/
def missing_report (missing_letters : breakdown_t) : List print_t :=
  print_t.missing_count (breakdown_sum missing_letters)
    :: (count_idxs.filter (fun idx => decide (missing_letters idx ≠ 0))).map
        (fun idx => print_t.missing_letter (missing_letters idx) idx.val)
    ++ [print_t.possible_additions]

/-- The body of `list_anagrams_for`, with `recurse` for the call of the function itself. -/
def list_anagrams_body
    (recurse : breakdown_t → str_t → str_t → Int → Option (List print_t))
    (hashtable : hashtable_t) (fuel : Nat) (input_breakdown : breakdown_t)
    (must_include : str_t) (space_separated_must_exclude : str_t) (max_results : Int) :
    Option (List print_t) :=
  match breakdown_word must_include with
  | none => none
  | some must_include_breakdown =>
    match breakdown_subtract input_breakdown must_include_breakdown with
    | none => none
    | some (reduced_input_breakdown, must_include_is_valid) =>
      if !must_include_is_valid then
        match breakdown_subtract must_include_breakdown input_breakdown with
        | none => none
        | some (difference, _) =>
          (recurse (breakdown_max0 difference) [] [] 20).map
            (fun additions => missing_report (breakdown_max0 difference) ++ additions)
      else if breakdown_is_empty reduced_input_breakdown then
        some [print_t.include_only must_include]
      else
        search_anagrams hashtable fuel input_breakdown reduced_input_breakdown must_include
          space_separated_must_exclude max_results

/-- Source: `list_anagrams_for`. The output is the list of the printed lines; `depth` bounds
the nesting of calls of the function by itself and `fuel` the rounds of each search loop
(`none` when either runs out, and when an assertion fails). -/
def list_anagrams_for (hashtable : hashtable_t) :
    Nat → Nat → breakdown_t → str_t → str_t → Int → Option (List print_t)
  | 0, _, _, _, _, _ => none
  | depth + 1, fuel, input_breakdown, must_include, space_separated_must_exclude,
      max_results =>
    list_anagrams_body (list_anagrams_for hashtable depth fuel) hashtable fuel
      input_breakdown must_include space_separated_must_exclude max_results

/-- A byte that counts for slot `idx` of a letter count table: the lowercase or the uppercase
letter number `idx` of the alphabet. -/
def letter_hit (idx : Nat) (c : Nat) : Bool :=
  decide (idx < 26) && (decide (c = 97 + idx) || decide (c = 65 + idx))

/-- The number of bytes of `word` that count for slot `idx`. -/
def letter_count (word : str_t) (idx : Nat) : Nat := word.countP (letter_hit idx)

/-! ## Dictionary scan of `main` -/

/-- Source: `is_ascii` in util.h (`(c & 0x80) == 0`). -/
def is_ascii (c : Nat) : Bool := decide (c &&& 128 = 0)

/-- Source: `is_linebreak` in util.h. -/
def is_linebreak (c : Nat) : Bool := decide (10 ≤ c) && decide (c ≤ 13)

/-- The locals of the loop "Build hash" of `main` besides the cursor, and the index;
`word_start` is an offset into the file contents. -/
structure build_hash_t where
  word_start : Nat
  word_valid : Bool
  hashtable : hashtable_t

/-- The body of the loop "Build hash" of `main` for the cursor at offset `cursor`: at a line
break, and past the end, the entry from `word_start` up to the cursor is indexed when it is
valid; any other byte that is not ASCII, or is an uppercase letter while `include_uppercase`
is off, makes the entry invalid. -/
def build_hash_step (include_uppercase : Bool) (contents : str_t) (st : build_hash_t)
    (cursor : Nat) : Option build_hash_t :=
  if cursor = contents.length ∨ is_linebreak (contents.getD cursor 0) then
    (if st.word_valid then
        index_add_entry st.hashtable
          ((contents.drop st.word_start).take (cursor - st.word_start))
      else some st.hashtable).map
      (fun hashtable => { word_start := cursor + 1, word_valid := true, hashtable := hashtable })
  else if !is_ascii (contents.getD cursor 0)
      || (!include_uppercase && is_upper (contents.getD cursor 0)) then
    some { st with word_valid := false }
  else some st

/-- The loop "Build hash" of `main` over the contents of the dictionary file, the cursor
running from the first byte to the position past the end (for an empty file `main` skips
the loop, and everything else). -/
def build_hash (include_uppercase : Bool) (contents : str_t) : Option hashtable_t :=
  ((List.range (contents.length + 1)).foldlM (build_hash_step include_uppercase contents)
    { word_start := 0, word_valid := true, hashtable := hashtable_empty }).map
    (fun st => st.hashtable)

/-- The acceptance rule for a dictionary entry: no byte from `0x80` on, no uppercase letter
unless `include_uppercase` is set, and at least one letter. -/
def entry_accepted (include_uppercase : Bool) (entry : str_t) : Bool :=
  entry.all (fun c => decide (c < 128) && (include_uppercase || !is_upper c))
    && entry.any is_alpha

/-- The words of `words` whose table is `key`, in their order. -/
def words_of_table (key : breakdown_t) (words : List str_t) : List str_t :=
  words.filter (fun w =>
    match breakdown_word w with
    | some b => breakdown_eq b key
    | none => false)

/-- Invariant of the index after `hashtable_add_word` has been called for the words `words`
in this order, each with its own table: every class lies in the bucket of its key, no bucket
has two classes with one key, the word list of a class holds the indexed words with its
key, the last one first, and every indexed word has a class. -/
structure IndexInv (words : List str_t) (hashtable : hashtable_t) : Prop where
  bucket : ∀ i, ∀ kl ∈ hashtable.entries i, i = hash_breakdown kl.key % bucket_count
  unique : ∀ i, (hashtable.entries i).Pairwise (fun a b => a.key ≠ b.key)
  words_eq : ∀ i, ∀ kl ∈ hashtable.entries i,
    kl.words = (words_of_table kl.key words).reverse
  covered : ∀ w ∈ words, ∀ b, breakdown_word w = some b →
    ∃ kl ∈ hashtable.entries (hash_breakdown b % bucket_count), kl.key = b

/-! ## Undo history -/

/-- Source: `ui_state_t`; `ui_strs` holds the strings of the fields `UI_STR_INPUT`,
`UI_STR_INCLUDE` and `UI_STR_EXCLUDE`. -/
structure ui_state_t where
  ui_strs : Fin 3 → str_t
  active_ui_str_idx : Nat
  cursor_pos : Int
  skip_results : Int
  skip_results_target : Int
  show_help : Bool
  help_expansion : Int
  help_visible : Bool
  show_debug : Bool

instance : DecidableEq ui_state_t := fun a b =>
  decidable_of_iff
    (a.ui_strs = b.ui_strs ∧ a.active_ui_str_idx = b.active_ui_str_idx ∧
      a.cursor_pos = b.cursor_pos ∧ a.skip_results = b.skip_results ∧
      a.skip_results_target = b.skip_results_target ∧ a.show_help = b.show_help ∧
      a.help_expansion = b.help_expansion ∧ a.help_visible = b.help_visible ∧
      a.show_debug = b.show_debug)
    (by cases a; cases b; simp)

/-- Source: `undo_history_t` with its list of `undo_entry_t`: `entries` runs from
`first_entry` along `next` to `last_entry`, each entry being the state it stores with its own
copies of the strings; `current_entry` is a position of this list, or null. -/
structure undo_history_t where
  entries : List ui_state_t
  current_entry : Option Nat
  deriving DecidableEq

/-- Source: `record_for_undo`: the returned flag `do_record` and the history afterwards;
`none` when `current_entry` does not point to an entry. A new entry is linked in behind the
current one, whose followers are released. -/
def record_for_undo (state : ui_state_t) (history : undo_history_t) :
    Option (Bool × undo_history_t) :=
  match history.current_entry with
  | none => some (true, { entries := [state], current_entry := some 0 })
  | some current =>
    match history.entries[current]? with
    | none => none
    | some previous_state =>
      let do_record := (List.finRange 3).foldl
        (fun do_record str_idx =>
          do_record || !str_eq (state.ui_strs str_idx) (previous_state.ui_strs str_idx))
        false
      if do_record then
        some (true,
          { entries := history.entries.take (current + 1) ++ [state],
            current_entry := some (current + 1) })
      else some (false, history)

/-- The state `(ui_state_t){0}` with which `go_live` starts: empty strings, all fields zero. -/
def ui_state_zero : ui_state_t :=
  { ui_strs := fun _ => [], active_ui_str_idx := 0, cursor_pos := 0, skip_results := 0,
    skip_results_target := 0, show_help := false, help_expansion := 0, help_visible := false,
    show_debug := false }

/-- The history after the first `record_for_undo` of `go_live`. -/
def history_start : undo_history_t :=
  { entries := [ui_state_zero], current_entry := some 0 }

/-- Invariant of the state of the search loop of `list_anagrams_for` for the subkey list `S`
and the reduced target `R`: the chain and the pointer `next_min_subkey` point into the list,
and the remaining table is `R` minus the keys on the chain and has no negative count. -/
structure BatchInv (S : List keylink_t) (R : breakdown_t) (st : search_t) : Prop where
  in_range : ∀ p ∈ st.chain, p < S.length
  remaining_eq : ∀ idx, st.remaining_breakdown idx = R idx - chain_sum S st.chain idx
  nonneg : ∀ idx, 0 ≤ st.remaining_breakdown idx
  next_range : ∀ p, st.next_min_subkey = some p → p < S.length

/-- The number with the digits `d + 1`, for the elements `d` of a list, in the `width` leading
places of the base `base`. -/
def search_rank (base : Nat) : Nat → List Nat → Nat
  | 0, _ => 0
  | _ + 1, [] => 0
  | width + 1, d :: ds => (d + 1) * base ^ width + search_rank base width ds

/-- Progress measure of the search loop of `list_anagrams_for`: the rank of the chain followed
by the pointer `next_min_subkey` (the length of the list for the null pointer). -/
def search_measure (S : List keylink_t) (m : Nat) (st : search_t) : Nat :=
  search_rank (S.length + 2) (m + 1) (st.chain ++ [st.next_min_subkey.getD S.length])

/-- Source: `apply_undo_entry_to_state`: the three strings are copied from the entry into the
buffers of the state, and the active field, the cursor position and `skip_results` are
taken over; the other fields of the state stay. -/
def apply_undo_entry_to_state (state : ui_state_t) (entry : ui_state_t) : ui_state_t :=
  { state with
    ui_strs := entry.ui_strs
    active_ui_str_idx := entry.active_ui_str_idx
    cursor_pos := entry.cursor_pos
    skip_results := entry.skip_results }

/-- The pointer `entry->previous` of the entry at position `p`: null for the first entry. -/
def entry_previous (p : Nat) : Option Nat :=
  if p = 0 then none else some (p - 1)

/-- The pointer `entry->next` of the entry at position `p`: null for the last entry. -/
def entry_next (history : undo_history_t) (p : Nat) : Option Nat :=
  if p + 1 < history.entries.length then some (p + 1) else none

/-- Source: `undo`: the returned flag, the state and the history afterwards; `none` when a
pointer that is followed does not point to an entry. -/
def undo (state : ui_state_t) (history : undo_history_t) :
    Option (Bool × ui_state_t × undo_history_t) :=
  match record_for_undo state history with
  | none => none
  | some (_, history1) =>
    match history1.current_entry with
    | none => some (false, state, history1)
    | some current =>
      match history1.entries[current]? with
      | none => none
      | some _ =>
        match entry_previous current with
        | none => some (false, state, history1)
        | some previous =>
          match history1.entries[previous]? with
          | none => none
          | some entry =>
            some (true, apply_undo_entry_to_state state entry,
              { history1 with current_entry := some previous })

/-- Source: `redo`: the returned flag, the state and the history afterwards; `none` when
`current_entry` is null or does not point to an entry. -/
def redo (state : ui_state_t) (history : undo_history_t) :
    Option (Bool × ui_state_t × undo_history_t) :=
  match history.current_entry with
  | none => none
  | some current =>
    match history.entries[current]? with
    | none => none
    | some _ =>
      match entry_next history current with
      | none => some (false, state, history)
      | some next =>
        match history.entries[next]? with
        | none => none
        | some entry =>
          some (true, apply_undo_entry_to_state state entry,
            { history with current_entry := some next })

/-- The position behind the current entry, where `record_for_undo` links in a new entry: the
start of the list when there is no current entry. -/
def record_position (history : undo_history_t) : Nat :=
  match history.current_entry with
  | none => 0
  | some current => current + 1

/-- A state with the strings `input`, `must_include` and `must_exclude` in its three fields and the
cursor at `cursor_pos`. -/
def ui_state_of (input must_include must_exclude : str_t) (cursor_pos : Int) : ui_state_t :=
  { ui_state_zero with
    ui_strs := fun i => if i = 0 then input else if i = 1 then must_include else must_exclude
    cursor_pos := cursor_pos }

/-- The history after the input string `abc` was typed and undone: the snapshots of the empty
state and of `abc`, the first one being current. -/
def history_undone : undo_history_t :=
  { entries := [ui_state_zero, ui_state_of [97, 98, 99] [] [] 3], current_entry := some 0 }

/-- The subkey that the loop body of `begin_anagram_context` makes of a class for the reduced
target `R` and the excluded words: none when the key does not fit or every word is excluded,
otherwise a copy of the key with the words that are kept. -/
def subkey_of (reduced_input_breakdown : breakdown_t) (excluded_words : List str_t)
    (key_link : keylink_t) : Option keylink_t :=
  if breakdown_contains reduced_input_breakdown key_link.key then
    match keep_words excluded_words key_link.words with
    | [] => none
    | word :: words => some { key := key_link.key, first_word := word, more_words := words }
  else none

/-- The subkeys of the classes in the order in which the traversal of the index visits the
classes: bucket by bucket, each chain from its head. -/
def visited_subkeys (hashtable : hashtable_t) (reduced_input_breakdown : breakdown_t)
    (excluded_words : List str_t) : List keylink_t :=
  (classes hashtable).filterMap (subkey_of reduced_input_breakdown excluded_words)

/-- The entries of a subkey list whose key has the sum `sum`, in their order. -/
def with_sum (sum : Int) (subkeys : List keylink_t) : List keylink_t :=
  subkeys.filter (fun k => decide (breakdown_sum k.key = sum))

/-- The slots of the 26 letters `a` to `z` of a table: all slots but the last. -/
def letter_idxs : List (Fin 27) := count_idxs.take 26

/-- The recurrence `h := 107 * h + c` over the counts of the slots `idxs`, from `seed`, in
unbounded integers. -/
def hash_fold (breakdown : breakdown_t) (idxs : List (Fin 27)) (seed : Int) : Int :=
  idxs.foldl (fun h idx => 107 * h + breakdown idx) seed

/-- Invariant of the driver that keeps the assertions of the search path from failing, for the
subkey list `S`, the reduced target `R` and the chain capacity `M`: the invariant of the
search state, the capacity of the context, and room on the chain: the keys below the top
element leave a letter of the target over. -/
structure SafeInv (S : List keylink_t) (R : breakdown_t) (M : Nat) (ctx : anagram_context_t) :
    Prop where
  search : SearchInv S R ctx
  max_length : ctx.chain_max_length = M
  room : ctx.chain ≠ [] →
    breakdown_is_empty (fun idx => R idx - chain_sum S ctx.chain.dropLast idx) = false

/-- A state of the driver in which no assertion of the search path can fail: the search is over
or was never set up (empty chain, `next_subkey_to_add` null), or the invariant holds. -/
def SafeState (S : List keylink_t) (R : breakdown_t) (M : Nat) (ctx : anagram_context_t) : Prop :=
  (ctx.chain = [] ∧ ctx.next_subkey_to_add = none) ∨ SafeInv S R M ctx

/-- The words of a printed line of the search; none for the other lines. -/
def print_t.row_words : print_t → Option (List str_t)
  | print_t.result_row _ words => some words
  | _ => none

/-- The lines that `list_anagrams_for` prints for the solution chains `chains`: the word rows
of every chain in the order of the expander, each behind the include string. -/
def print_chains (S : List keylink_t) (must_include : str_t) (chains : List (List Nat)) :
    List print_t :=
  chains.flatMap (fun c => (chain_rows S c).map (print_t.result_row must_include))

/-- A state of the search loop of `list_anagrams_for` given by its fields. -/
def batch_state (chain : List Nat) (remaining : breakdown_t) (next : Option Nat)
    (result_count : Int) (printed : List print_t) : search_t :=
  { chain := chain, remaining_breakdown := remaining, next_min_subkey := next,
    result_count := result_count, printed := printed }

/-- The state in which the search below the subkey at `p` on top of the chain `c` is over,
where the remaining table was `rem` before `p` was pushed: "Try changing the last chain
element" has popped `p` and pushed the next subkey behind `p` that fits, or, when none fits,
left the chain `c` with the pointer `next_min_subkey` behind `p`. -/
def after_state (S : List keylink_t) (c : List Nat) (rem : breakdown_t) (p : Nat)
    (result_count : Int) (printed : List print_t) : search_t :=
  match find_next S rem (subkey_next S p) with
  | some q =>
    batch_state (c ++ [q]) (fun idx => rem idx - key_at S q idx) (some q) result_count printed
  | none => batch_state c rem (subkey_next S p) result_count printed

/-- The relation `BatchReach a b`: some number of rounds of the search loop of
`list_anagrams_for` without a bound on the results (`max_results = -1`) leads from the state
`a` to the state `b`. -/
def BatchReach (S : List keylink_t) (m : Nat) (must_include : str_t) (a b : search_t) : Prop :=
  ∃ n, ∀ fuel, search_loop S m must_include (-1) (n + fuel) a
    = search_loop S m must_include (-1) fuel b

/-- A dictionary file for the examples: the lines `cat`, `Dog`, `act` (ending in CR LF), a
line with two bytes that are not ASCII, and `12`. -/
def example_file : str_t :=
  [99, 97, 116, 10, 68, 111, 103, 10, 97, 99, 116, 13, 10, 195, 169, 116, 10, 49, 50]

/-! ## Lemmas on letter count tables -/

theorem wrap8_id {x : Int} (h1 : -128 ≤ x) (h2 : x ≤ 127) : wrap8 x = x := by
  unfold wrap8; omega

theorem mem_count_idxs (idx : Fin 27) : idx ∈ count_idxs := by
  unfold count_idxs; exact List.mem_finRange idx

theorem all_idxs_iff (p : Fin 27 → Bool) : count_idxs.all p = true ↔ ∀ idx, p idx = true := by
  simp [List.all_eq_true, mem_count_idxs]

theorem any_idxs_iff (p : Fin 27 → Bool) : count_idxs.any p = true ↔ ∃ idx, p idx = true := by
  simp [List.any_eq_true, mem_count_idxs]

theorem breakdown_is_empty_iff (a : breakdown_t) :
    breakdown_is_empty a = true ↔ ∀ idx, a idx = 0 := by
  simp [breakdown_is_empty, mem_count_idxs]

theorem breakdown_underflowed_iff (a : breakdown_t) :
    breakdown_underflowed a = true ↔ ∃ idx, a idx < 0 := by
  simp [breakdown_underflowed, mem_count_idxs]

theorem breakdown_contains_iff (a b : breakdown_t) :
    breakdown_contains a b = true ↔ ∀ idx, b idx ≤ a idx := by
  simp [breakdown_contains, mem_count_idxs]

theorem breakdown_eq_iff (a b : breakdown_t) : breakdown_eq a b = true ↔ a = b := by
  simp [breakdown_eq, mem_count_idxs, funext_iff]

theorem breakdown_sum_eq (a : breakdown_t) : breakdown_sum a = ∑ idx, a idx := by
  unfold breakdown_sum count_idxs
  rw [← List.sum_ofFn, List.ofFn_eq_map, List.sum_eq_foldl]
  generalize (0 : Int) = z
  induction List.finRange 27 generalizing z with
  | nil => rfl
  | cons x xs ih => simp [List.foldl_cons, ih]

theorem breakdown_sum_nonneg {a : breakdown_t} (h : ∀ idx, 0 ≤ a idx) : 0 ≤ breakdown_sum a := by
  rw [breakdown_sum_eq]; exact Finset.sum_nonneg (fun i _ => h i)

theorem breakdown_sum_pos {a : breakdown_t} (h : ∀ idx, 0 ≤ a idx) (j : Fin 27) (hj : 0 < a j) :
    0 < breakdown_sum a := by
  rw [breakdown_sum_eq]
  exact Finset.sum_pos' (fun i _ => h i) ⟨j, Finset.mem_univ j, hj⟩

theorem breakdown_sum_sub (a b : breakdown_t) :
    breakdown_sum (fun idx => a idx - b idx) = breakdown_sum a - breakdown_sum b := by
  simp [breakdown_sum_eq, Finset.sum_sub_distrib]

theorem breakdown_sum_le {a b : breakdown_t} (h : ∀ idx, a idx ≤ b idx) :
    breakdown_sum a ≤ breakdown_sum b := by
  rw [breakdown_sum_eq, breakdown_sum_eq]; exact Finset.sum_le_sum (fun i _ => h i)

theorem breakdown_sum_zero {a : breakdown_t} (h : ∀ idx, a idx = 0) : breakdown_sum a = 0 := by
  rw [breakdown_sum_eq]; exact Finset.sum_eq_zero (fun i _ => h i)

/-- Specification of `breakdown_subtract` when no difference leaves the `i8` range. -/
theorem breakdown_subtract_spec {a b : breakdown_t}
    (h1 : ∀ idx, -128 ≤ a idx - b idx) (h2 : ∀ idx, a idx - b idx ≤ 127) :
    breakdown_subtract a b =
      some (fun idx => a idx - b idx, !breakdown_underflowed (fun idx => a idx - b idx)) := by
  unfold breakdown_subtract
  have hall : count_idxs.all (fun idx => decide (a idx - b idx ≥ -128)) = true := by
    rw [all_idxs_iff]; intro idx; simpa using h1 idx
  rw [if_pos hall]
  have : (fun idx => wrap8 (a idx - b idx)) = fun idx => a idx - b idx := by
    funext idx; exact wrap8_id (h1 idx) (h2 idx)
  rw [this]; rfl

/-- Specification of `breakdown_add` when no sum leaves the `i8` range. -/
theorem breakdown_add_spec {a b : breakdown_t}
    (h1 : ∀ idx, -128 ≤ a idx + b idx) (h2 : ∀ idx, a idx + b idx ≤ 127) :
    breakdown_add a b = some (fun idx => a idx + b idx) := by
  unfold breakdown_add
  have hall : count_idxs.all (fun idx => decide (a idx + b idx ≤ 127)) = true := by
    rw [all_idxs_iff]; intro idx; simpa using h2 idx
  rw [if_pos hall]
  have : (fun idx => wrap8 (a idx + b idx)) = fun idx => a idx + b idx := by
    funext idx; exact wrap8_id (h1 idx) (h2 idx)
  rw [this]

theorem fill_begin (results : anagram_results_t) (m : Nat) (words : List str_t) :
    fill_last_result (begin_anagram_result results m) words = add_rows results m [words] := by
  simp [fill_last_result, begin_anagram_result, add_rows]

theorem add_rows_nil (results : anagram_results_t) (m : Nat)
    (h : results.result_count < 4294967296) : add_rows results m [] = results := by
  cases results
  simp only [add_rows, List.map_nil, List.append_nil, List.length_nil, Nat.add_zero]
  simp at h
  simp [Nat.mod_eq_of_lt h]

theorem add_rows_append (results : anagram_results_t) (m : Nat) (r1 r2 : List (List str_t)) :
    add_rows (add_rows results m r1) m r2 = add_rows results m (r1 ++ r2) := by
  simp only [add_rows, List.map_append, List.append_assoc, List.length_append]
  congr 1
  omega

theorem odometer_length (lists : List (List str_t)) (q : Nat) :
    (odometer lists q).length = lists.length := by
  induction lists generalizing q with
  | nil => rfl
  | cons ws rest ih => simp [odometer, ih]

theorem odometer_ne_nil {lists : List (List str_t)} (hne : ∀ ws ∈ lists, ws ≠ [])
    (q : Nat) : ∀ tmp ∈ odometer lists q, tmp ≠ [] := by
  induction lists generalizing q with
  | nil => simp [odometer]
  | cons ws rest ih =>
    intro tmp htmp
    simp only [odometer, List.mem_cons] at htmp
    rcases htmp with h | h
    · subst h
      have hpos : 0 < ws.length := List.length_pos.mpr (hne ws (List.mem_cons_self _ _))
      have : q % ws.length < ws.length := Nat.mod_lt _ hpos
      intro h0
      have := congrArg List.length h0
      simp at this
      omega
    · exact ih (fun w hw => hne w (List.mem_cons_of_mem _ hw)) _ tmp h

theorem mapM_wordlink_word {tmps : List (List str_t)} (hne : ∀ tmp ∈ tmps, tmp ≠ []) :
    tmps.mapM wordlink_word = some (tmps.map (fun tmp => tmp.headD [])) := by
  induction tmps with
  | nil => rfl
  | cons t ts ih =>
    have h1 := ih (fun x hx => hne x (List.mem_cons_of_mem _ hx))
    have h2 := hne t (List.mem_cons_self _ _)
    cases t with
    | nil => exact absurd rfl h2
    | cons w ws => rw [List.mapM_cons, h1]; simp [wordlink_word]

/-- The carry loop leaves pointers alone when none of them is null. -/
theorem carry_links_id (links : List keylink_t) {tmps : List (List str_t)}
    (hne : ∀ tmp ∈ tmps, tmp ≠ []) : carry_links links tmps = some tmps := by
  induction links generalizing tmps with
  | nil => cases tmps <;> simp [carry_links]
  | cons l ls ih =>
    match tmps with
    | [] => simp [carry_links]
    | [t] => simp [carry_links]
    | t :: t1 :: ts =>
      have ht : t ≠ [] := hne t (List.mem_cons_self _ _)
      have hrest := @ih (t1 :: ts) (fun x hx => hne x (List.mem_cons_of_mem _ hx))
      cases t with
      | nil => exact absurd rfl ht
      | cons w ws => simp [carry_links, hrest]

theorem succ_digit_lt {q n : Nat} (h : q % n + 1 < n) :
    (q + 1) % n = q % n + 1 ∧ (q + 1) / n = q / n := by
  have e : q + 1 = n * (q / n) + (q % n + 1) := by
    have := Nat.div_add_mod q n; omega
  constructor
  · rw [e, Nat.mul_add_mod, Nat.mod_eq_of_lt h]
  · have hn : 0 < n := by omega
    rw [e, Nat.mul_add_div hn, Nat.div_eq_of_lt h]
    simp [Nat.mul_add_div hn, Nat.div_eq_of_lt (Nat.lt_of_succ_lt h)]

theorem succ_digit_eq {q n : Nat} (hn : 0 < n) (h : ¬ q % n + 1 < n) :
    (q + 1) % n = 0 ∧ (q + 1) / n = q / n + 1 := by
  have hm : q % n < n := Nat.mod_lt _ hn
  have e : q + 1 = n * (q / n + 1) := by
    have := Nat.div_add_mod q n
    rw [Nat.mul_add, Nat.mul_one]; omega
  constructor
  · rw [e]; exact Nat.mul_mod_right _ _
  · rw [e]; exact Nat.mul_div_cancel_left _ hn

theorem succ_lt_mul_of_digit_lt {q n F : Nat} (hq : q < n * F) (h : q % n + 1 < n) :
    q + 1 < n * F := by
  have hn : 0 < n := by omega
  have hd : q / n < F := Nat.div_lt_of_lt_mul hq
  have := Nat.div_add_mod q n
  have : n * (q / n + 1) ≤ n * F := Nat.mul_le_mul_left _ hd
  rw [Nat.mul_add, Nat.mul_one] at this
  omega

theorem succ_lt_mul_iff {q n F : Nat} (hn : 0 < n) (h : ¬ q % n + 1 < n) :
    q + 1 < n * F ↔ q / n + 1 < F := by
  have e := (succ_digit_eq hn h).2
  constructor
  · intro hq
    have := Nat.div_lt_of_lt_mul hq
    omega
  · intro hd
    have hm : q % n < n := Nat.mod_lt _ hn
    have := Nat.div_add_mod q n
    have h2 : n * (q / n + 2) ≤ n * F := Nat.mul_le_mul_left _ hd
    rw [Nat.mul_add] at h2
    omega

theorem wordlink_next_drop (ws : List str_t) {k : Nat} (hk : k < ws.length) :
    wordlink_next (ws.drop k) = some (ws.drop (k + 1)) := by
  rw [List.drop_eq_getElem_cons hk]
  rfl

theorem drop_isEmpty (ws : List str_t) (k : Nat) :
    (ws.drop k).isEmpty = true ↔ ¬ k < ws.length := by
  rw [List.isEmpty_iff, List.drop_eq_nil_iff]
  omega

theorem expander_fuel_cons (l : keylink_t) (links : List keylink_t) :
    expander_fuel (l :: links) = l.words.length * expander_fuel links := by
  simp [expander_fuel]

theorem expander_fuel_single (l : keylink_t) : expander_fuel [l] = l.words.length := by
  simp [expander_fuel]

theorem words_length_pos (l : keylink_t) : 0 < l.words.length := by
  simp [keylink_t.words]

/-- The carry loop after the first pointer has advanced: the pointers then stand at `q + 1`,
or the last pointer is null when row `q` was the last one. -/
theorem carry_links_advance (links : List keylink_t) :
    ∀ (l : keylink_t) (q : Nat), q < expander_fuel (l :: links) →
      ∃ Y, carry_links (l :: links)
          (l.words.drop (q % l.words.length + 1)
            :: odometer (links.map keylink_t.words) (q / l.words.length)) = some Y ∧
        (q + 1 < expander_fuel (l :: links) →
          Y = odometer ((l :: links).map keylink_t.words) (q + 1)) ∧
        (¬ q + 1 < expander_fuel (l :: links) → Y.getLast? = some []) := by
  induction links with
  | nil =>
    intro l q hq
    refine ⟨[l.words.drop (q % l.words.length + 1)], by simp [odometer, carry_links], ?_, ?_⟩
    · intro h
      rw [expander_fuel_single] at h hq
      simp [odometer, Nat.mod_eq_of_lt hq, Nat.mod_eq_of_lt h]
    · intro h
      rw [expander_fuel_single] at h hq
      simp only [odometer, Nat.mod_eq_of_lt hq, List.getLast?_singleton, Option.some.injEq,
        List.drop_eq_nil_iff]
      omega
  | cons l1 ls ih =>
    intro l q hq
    rw [expander_fuel_cons] at hq ⊢
    have hn := words_length_pos l
    have hn1 := words_length_pos l1
    have hq1 : q / l.words.length < expander_fuel (l1 :: ls) := Nat.div_lt_of_lt_mul hq
    by_cases hd : q % l.words.length + 1 < l.words.length
    · -- no carry
      have hemp : (l.words.drop (q % l.words.length + 1)).isEmpty = false := by
        rw [Bool.eq_false_iff, Ne, drop_isEmpty]; simpa using hd
      have hid := carry_links_id (l1 :: ls)
        (@odometer_ne_nil ((l1 :: ls).map keylink_t.words)
          (by intro ws hws; simp only [List.mem_map] at hws
              obtain ⟨k, _, rfl⟩ := hws; simp [keylink_t.words]) (q / l.words.length))
      simp only [List.map_cons, odometer] at hid ⊢
      refine ⟨_, by simp only [carry_links, hemp, hid]; rfl, ?_, ?_⟩
      · intro _
        simp [(succ_digit_lt hd).1, (succ_digit_lt hd).2]
      · intro h
        exact absurd (succ_lt_mul_of_digit_lt hq hd) h
    · -- carry into the next slot
      have hemp : (l.words.drop (q % l.words.length + 1)).isEmpty = true := by
        rw [drop_isEmpty]; exact hd
      obtain ⟨Y, hY, hY1, hY2⟩ := ih l1 (q / l.words.length) hq1
      have hnext := wordlink_next_drop l1.words
        (Nat.mod_lt (q / l.words.length) hn1)
      refine ⟨l.words :: Y, ?_, ?_, ?_⟩
      · simp only [List.map_cons, odometer, carry_links, hemp, if_true, hnext]
        simp [hY]
      · intro h
        rw [succ_lt_mul_iff hn hd] at h
        rw [hY1 h]
        simp [odometer, (succ_digit_eq hn hd).1, (succ_digit_eq hn hd).2]
      · intro h
        rw [succ_lt_mul_iff hn hd] at h
        have := hY2 h
        cases Y with
        | nil => simp at this
        | cons y ys => simpa [List.getLast?_cons_cons] using this

theorem words_ne_nil (links : List keylink_t) : ∀ ws ∈ links.map keylink_t.words, ws ≠ [] := by
  intro ws hws
  simp only [List.mem_map] at hws
  obtain ⟨k, _, rfl⟩ := hws
  simp [keylink_t.words]

theorem odometer_zero (lists : List (List str_t)) : odometer lists 0 = lists := by
  induction lists with
  | nil => rfl
  | cons ws rest ih => simp [odometer, ih]

theorem odometer_getLast (links : List keylink_t) (q : Nat) :
    (odometer (links.map keylink_t.words) q).getLast? ≠ some [] := by
  intro h
  exact odometer_ne_nil (words_ne_nil links) q [] (List.mem_of_getLast?_eq_some h) rfl

/-- The `for(;;)` loop of the expander, started with the pointers at row `q`, appends the
rows `q, q + 1, ...` up to the last one; the fuel `expander_fuel links - q` is enough. -/
theorem expander_loop_from (links : List keylink_t) (hne : links ≠ []) :
    ∀ (fuel q : Nat) (results : anagram_results_t),
      q < expander_fuel links → expander_fuel links - q ≤ fuel →
      expander_loop links fuel (odometer (links.map keylink_t.words) q) results =
        some (add_rows results links.length
          ((List.range' q (expander_fuel links - q)).map
            (odometer_row (links.map keylink_t.words)))) := by
  intro fuel
  induction fuel with
  | zero => intro q results hq hf; omega
  | succ f ih =>
    intro q results hq hf
    obtain ⟨l, ls, rfl⟩ := List.exists_cons_of_ne_nil hne
    have hmap := mapM_wordlink_word
      (odometer_ne_nil (words_ne_nil (l :: ls)) q)
    obtain ⟨Y, hY, hY1, hY2⟩ := carry_links_advance ls l q hq
    have hnext := wordlink_next_drop l.words (Nat.mod_lt q (words_length_pos l))
    have hrange : List.range' q (expander_fuel (l :: ls) - q)
        = q :: List.range' (q + 1) (expander_fuel (l :: ls) - (q + 1)) := by
      have : expander_fuel (l :: ls) - q = (expander_fuel (l :: ls) - (q + 1)) + 1 := by omega
      rw [this, List.range'_succ]
    unfold expander_loop
    rw [hmap]
    simp only [fill_begin]
    simp only [List.map_cons, odometer] at hnext hY ⊢
    rw [hnext]
    simp only [hY]
    by_cases hlast : q + 1 < expander_fuel (l :: ls)
    · have hYe := hY1 hlast
      have hnl : Y.getLast? ≠ some [] := by rw [hYe]; exact odometer_getLast (l :: ls) (q + 1)
      rw [if_neg hnl, hYe, ih (q + 1) _ hlast (by omega), add_rows_append, hrange]
      rfl
    · rw [if_pos (hY2 hlast)]
      have : expander_fuel (l :: ls) - q = 1 := by omega
      rw [this]
      rfl

/-- The expander branch of the loop body appends one record per row of the odometer and
clears `next_subkey_to_add`. -/
theorem expand_chain_spec (ctx : anagram_context_t) (links : List keylink_t)
    (hlinks : ctx.chain.mapM (fun p => ctx.subkeys[p]?) = some links) (hne : links ≠ []) :
    expand_chain ctx =
      some { ctx with
        results := add_rows ctx.results links.length
          ((List.range (expander_fuel links)).map (odometer_row (links.map keylink_t.words)))
        next_subkey_to_add := none } := by
  have hpos : 0 < expander_fuel links := by
    unfold expander_fuel
    apply List.prod_pos
    intro n hn
    simp only [List.mem_map] at hn
    obtain ⟨k, _, rfl⟩ := hn
    exact words_length_pos k
  have h := expander_loop_from links hne (expander_fuel links) 0 ctx.results hpos (by omega)
  rw [odometer_zero] at h
  unfold expand_chain
  rw [hlinks]
  simp only [h, Nat.sub_zero, List.range_eq_range']

/-- Slot `j` of row `r` holds the word at position `(r / (n₀ ⋯ n_{j-1})) % n_j` of the
`j`-th word list. -/
theorem odometer_row_slot (lists : List (List str_t)) (hne : ∀ ws ∈ lists, ws ≠ []) :
    ∀ (r j : Nat), (odometer_row lists r)[j]? =
      (lists[j]?).bind (fun ws =>
        ws[(r / ((lists.take j).map List.length).prod) % ws.length]?) := by
  induction lists with
  | nil => intro r j; simp [odometer_row, odometer]
  | cons ws rest ih =>
    intro r j
    have hpos : 0 < ws.length := List.length_pos.mpr (hne ws (List.mem_cons_self _ _))
    cases j with
    | zero =>
      have hlt : r % ws.length < ws.length := Nat.mod_lt _ hpos
      simp only [odometer_row, odometer, List.map_cons, List.getElem?_cons_zero, List.take_zero,
        List.map_nil, List.prod_nil, Nat.div_one, Option.bind_some]
      rw [List.drop_eq_getElem_cons hlt]
      simp [List.getElem?_eq_getElem hlt]
    | succ j =>
      have := ih (fun w hw => hne w (List.mem_cons_of_mem _ hw)) (r / ws.length) j
      simp only [odometer_row] at this
      simp only [odometer_row, odometer, List.map_cons, List.getElem?_cons_succ, this,
        List.take_succ_cons, List.prod_cons, Nat.div_div_eq_div_mul]

theorem odometer_row_length (lists : List (List str_t)) (r : Nat) :
    (odometer_row lists r).length = lists.length := by
  simp [odometer_row, odometer_length]

theorem chain_sum_nil (S : List keylink_t) (idx : Fin 27) : chain_sum S [] idx = 0 := rfl

theorem chain_sum_concat (S : List keylink_t) (c : List Nat) (p : Nat) (idx : Fin 27) :
    chain_sum S (c ++ [p]) idx = chain_sum S c idx + key_at S p idx := by
  simp [chain_sum, List.map_append, List.sum_append]

theorem chain_sum_cons (S : List keylink_t) (c : List Nat) (p : Nat) (idx : Fin 27) :
    chain_sum S (p :: c) idx = key_at S p idx + chain_sum S c idx := by
  simp [chain_sum]

theorem key_at_of_get {S : List keylink_t} {p : Nat} {link : keylink_t}
    (h : S[p]? = some link) : key_at S p = link.key := by
  simp [key_at, h]

theorem key_at_nonneg {S : List keylink_t} (hS : ∀ k ∈ S, letter_bag k.key) (p : Nat)
    (idx : Fin 27) : 0 ≤ key_at S p idx ∧ key_at S p idx ≤ 127 := by
  unfold key_at
  cases h : S[p]? with
  | none => simp [breakdown_zero]
  | some link => exact hS link (List.getElem?_mem h) idx

theorem chain_sum_nonneg {S : List keylink_t} (hS : ∀ k ∈ S, letter_bag k.key) (c : List Nat)
    (idx : Fin 27) : 0 ≤ chain_sum S c idx := by
  unfold chain_sum
  apply List.sum_nonneg
  intro x hx
  simp only [List.mem_map] at hx
  obtain ⟨p, _, rfl⟩ := hx
  exact (key_at_nonneg hS p idx).1

theorem chain_eq_dropLast_concat {c : List Nat} {p : Nat} (h : c.getLast? = some p) :
    c = c.dropLast ++ [p] := by
  obtain ⟨ys, rfl⟩ := List.getLast?_eq_some_iff.mp h
  simp

theorem chain'_concat_same {c : List Nat} {p : Nat} (hs : c.Chain' (fun a b => a ≤ b))
    (h : c.getLast? = some p) : (c ++ [p]).Chain' (fun a b => a ≤ b) := by
  rw [List.chain'_append]
  refine ⟨hs, List.chain'_singleton _, ?_⟩
  intro x hx y hy
  simp only [List.head?_cons, Option.mem_def, Option.some.injEq] at hy
  rw [h] at hx
  simp only [Option.mem_def, Option.some.injEq] at hx
  omega

theorem chain'_replace_last {c : List Nat} {p q : Nat}
    (hs : (c ++ [p]).Chain' (fun a b => a ≤ b)) (hpq : p ≤ q) :
    (c ++ [q]).Chain' (fun a b => a ≤ b) := by
  rw [List.chain'_append] at hs ⊢
  refine ⟨hs.1, List.chain'_singleton _, ?_⟩
  intro x hx y hy
  simp only [List.head?_cons, Option.mem_def, Option.some.injEq] at hy
  have := hs.2.2 x hx p (by simp)
  omega

theorem mapM_some_forall₂ {α β : Type} (f : α → Option β) :
    ∀ (l : List α) (ys : List β), l.mapM f = some ys → List.Forall₂ (fun x y => f x = some y) l ys := by
  intro l
  induction l with
  | nil =>
    intro ys h
    rw [List.mapM_nil] at h
    cases Option.some.inj h
    exact List.Forall₂.nil
  | cons x xs ih =>
    intro ys h
    rw [List.mapM_cons] at h
    cases hx : f x with
    | none => rw [hx] at h; cases h
    | some y =>
      cases hxs : xs.mapM f with
      | none => rw [hx, hxs] at h; cases h
      | some ys' =>
        rw [hx, hxs] at h
        cases Option.some.inj h
        exact List.Forall₂.cons hx (ih ys' hxs)

theorem mapM_of_forall₂ {α β : Type} (f : α → Option β) :
    ∀ (l : List α) (ys : List β), List.Forall₂ (fun x y => f x = some y) l ys → l.mapM f = some ys := by
  intro l ys h
  induction h with
  | nil => rfl
  | cons hx _ ih => rw [List.mapM_cons, hx, ih]; rfl

theorem mapM_deref_exists (S : List keylink_t) :
    ∀ (c : List Nat), (∀ p ∈ c, p < S.length) → ∃ links, c.mapM (fun p => S[p]?) = some links := by
  intro c
  induction c with
  | nil => intro _; exact ⟨[], rfl⟩
  | cons p ps ih =>
    intro h
    obtain ⟨links, hl⟩ := ih (fun q hq => h q (List.mem_cons_of_mem _ hq))
    have hp := h p (List.mem_cons_self _ _)
    refine ⟨S[p] :: links, ?_⟩
    rw [List.mapM_cons, hl, List.getElem?_eq_getElem hp]
    rfl

theorem expander_loop_nil (fuel : Nat) (results : anagram_results_t) :
    expander_loop [] fuel [] results = none := by
  cases fuel with
  | zero => rfl
  | succ f => unfold expander_loop; rw [List.mapM_nil]

/-- What the expander branch does when it returns. -/
theorem expand_chain_some {ctx ctx1 : anagram_context_t} (h : expand_chain ctx = some ctx1) :
    ∃ links, links ≠ [] ∧ ctx.chain.mapM (fun p => ctx.subkeys[p]?) = some links ∧
      ctx1 = { ctx with
        results := add_rows ctx.results links.length
          ((List.range (expander_fuel links)).map (odometer_row (links.map keylink_t.words)))
        next_subkey_to_add := none } := by
  cases hl : ctx.chain.mapM (fun p => ctx.subkeys[p]?) with
  | none => unfold expand_chain at h; rw [hl] at h; cases h
  | some links =>
    by_cases hne : links = []
    · subst hne
      unfold expand_chain at h
      rw [hl] at h
      simp only [List.map_nil, expander_loop_nil] at h
      cases h
    · refine ⟨links, hne, rfl, ?_⟩
      rw [expand_chain_spec ctx links hl hne] at h
      exact (Option.some.inj h).symm

/-- The function `push_subkey` on in-range tables: it succeeds exactly when the chain has room and the
position exists. -/
theorem push_subkey_eq (ctx : anagram_context_t) (c : List Nat) (rem : breakdown_t) (p : Nat)
    (hrem : ∀ idx, -1 ≤ rem idx ∧ rem idx ≤ 127)
    (hS : ∀ k ∈ ctx.subkeys, letter_bag k.key) :
    push_subkey ctx c rem p =
      if c.length < ctx.chain_max_length ∧ p < ctx.subkeys.length then some (pushed ctx c rem p)
      else none := by
  unfold push_subkey
  by_cases hlen : c.length < ctx.chain_max_length
  · by_cases hp : p < ctx.subkeys.length
    · have hk := key_at_nonneg hS p
      have hget : ctx.subkeys[p]? = some ctx.subkeys[p] := List.getElem?_eq_getElem hp
      have hkey : key_at ctx.subkeys p = ctx.subkeys[p].key := key_at_of_get hget
      rw [if_pos hlen, if_pos ⟨hlen, hp⟩, hget]
      have hsub := breakdown_subtract_spec (a := rem) (b := ctx.subkeys[p].key)
        (by intro idx; have := hk idx; have := hrem idx; rw [hkey] at *; omega)
        (by intro idx; have := hk idx; have := hrem idx; rw [hkey] at *; omega)
      simp only [hsub]
      unfold pushed
      rw [hkey]
      cases hu : breakdown_underflowed (fun idx => rem idx - ctx.subkeys[p].key idx) <;> simp
    · rw [if_pos hlen, if_neg (by tauto)]
      have : ctx.subkeys[p]? = none := List.getElem?_eq_none (by omega)
      rw [this]
  · rw [if_neg hlen, if_neg (by tauto)]

/-- In the backtrack branch the key of the popped subkey is added back without overflow:
the remaining table is again the target minus the keys of the shortened chain. -/
theorem backtrack_add {S : List keylink_t} {R : breakdown_t} {ctx : anagram_context_t}
    (hR : letter_bag R) (hS : ∀ k ∈ S, letter_bag k.key) (hinv : SearchInv S R ctx)
    {prev : Nat} (hlast : ctx.chain.getLast? = some prev) :
    ∃ link, ctx.subkeys[prev]? = some link ∧
      breakdown_add ctx.remaining_breakdown link.key =
        some (fun idx => R idx - chain_sum S ctx.chain.dropLast idx) := by
  have hmem : prev ∈ ctx.chain := List.mem_of_getLast?_eq_some hlast
  have hlt : prev < S.length := hinv.in_range prev hmem
  have hget : S[prev]? = some S[prev] := List.getElem?_eq_getElem hlt
  refine ⟨S[prev], by rw [hinv.subkeys_eq]; exact hget, ?_⟩
  have hkey : key_at S prev = S[prev].key := key_at_of_get hget
  have hc := chain_eq_dropLast_concat hlast
  have hrem : ∀ idx, ctx.remaining_breakdown idx + S[prev].key idx
      = R idx - chain_sum S ctx.chain.dropLast idx := by
    intro idx
    have h1 := hinv.remaining_eq idx
    rw [hc, chain_sum_concat, hkey] at h1
    omega
  have hfun : (fun idx => ctx.remaining_breakdown idx + S[prev].key idx)
      = fun idx => R idx - chain_sum S ctx.chain.dropLast idx := funext hrem
  rw [breakdown_add_spec, hfun]
  · intro idx; rw [hrem]; have := hinv.prefix_ok idx; omega
  · intro idx; rw [hrem]
    have := chain_sum_nonneg hS ctx.chain.dropLast idx
    have := (hR idx).2
    omega

theorem prefix_letter_bag {S : List keylink_t} {R : breakdown_t} {ctx : anagram_context_t}
    (hR : letter_bag R) (hS : ∀ k ∈ S, letter_bag k.key) (hinv : SearchInv S R ctx) :
    ∀ idx, 0 ≤ R idx - chain_sum S ctx.chain.dropLast idx ∧
      R idx - chain_sum S ctx.chain.dropLast idx ≤ 127 := by
  intro idx
  have := hinv.prefix_ok idx
  have := chain_sum_nonneg hS ctx.chain.dropLast idx
  have := (hR idx).2
  constructor <;> omega

theorem pushed_inv {S : List keylink_t} {R : breakdown_t} {ctx : anagram_context_t}
    (hsub : ctx.subkeys = S)
    {c : List Nat} {p : Nat} (hp : p < S.length)
    (hrange : ∀ q ∈ c, q < S.length) (hsorted : (c ++ [p]).Chain' (fun a b => a ≤ b))
    (hpre : ∀ idx, 0 ≤ R idx - chain_sum S c idx) :
    SearchInv S R (pushed ctx c (fun idx => R idx - chain_sum S c idx) p) := by
  refine ⟨hsub, ?_, hsorted, ?_, ?_, ?_⟩
  · intro q hq
    simp only [pushed, List.mem_append, List.mem_singleton] at hq
    rcases hq with hq | hq
    · exact hrange q hq
    · omega
  · intro idx
    simp only [pushed, chain_sum_concat, hsub]
    omega
  · intro idx
    simp only [pushed, List.dropLast_concat]
    exact hpre idx
  · intro q hq
    simp only [pushed] at hq ⊢
    split at hq
    · cases hq
    · rename_i hu
      cases Option.some.inj hq
      refine ⟨by simp, ?_⟩
      intro idx
      by_contra hneg
      exact hu ((breakdown_underflowed_iff _).mpr ⟨idx, by omega⟩)

/-- The invariant of the search state is kept by every round of the loop of
`compute_anagrams`. -/
theorem step_preserves_inv {S : List keylink_t} {R : breakdown_t} {ctx ctx1 : anagram_context_t}
    (hR : letter_bag R) (hS : ∀ k ∈ S, letter_bag k.key) (hinv : SearchInv S R ctx)
    (hstep : compute_anagrams_step ctx = some ctx1) : SearchInv S R ctx1 := by
  unfold compute_anagrams_step at hstep
  cases hnext : ctx.next_subkey_to_add with
  | some next =>
    rw [hnext] at hstep
    simp only at hstep
    obtain ⟨hlast, hnonneg⟩ := hinv.next_ok next hnext
    by_cases hemp : breakdown_is_empty ctx.remaining_breakdown = true
    · rw [if_pos hemp] at hstep
      obtain ⟨links, _, _, rfl⟩ := expand_chain_some hstep
      exact ⟨hinv.subkeys_eq, hinv.in_range, hinv.sorted, hinv.remaining_eq, hinv.prefix_ok,
        by intro p hp; cases hp⟩
    · rw [if_neg hemp] at hstep
      have hnu : ¬ breakdown_underflowed ctx.remaining_breakdown = true := by
        rw [breakdown_underflowed_iff]; push_neg; exact hnonneg
      rw [if_neg hnu] at hstep
      have hremfun : ctx.remaining_breakdown = fun idx => R idx - chain_sum S ctx.chain idx :=
        funext hinv.remaining_eq
      have hrange : ∀ idx, -1 ≤ ctx.remaining_breakdown idx ∧ ctx.remaining_breakdown idx ≤ 127 := by
        intro idx
        have h1 := hnonneg idx
        have h2 := hinv.remaining_eq idx
        have := chain_sum_nonneg hS ctx.chain idx
        have := (hR idx).2
        constructor <;> omega
      rw [push_subkey_eq ctx _ _ _ hrange (by rw [hinv.subkeys_eq]; exact hS)] at hstep
      split at hstep
      · rename_i hcond
        cases Option.some.inj hstep
        rw [hremfun]
        refine pushed_inv hinv.subkeys_eq (by rw [← hinv.subkeys_eq]; exact hcond.2)
          hinv.in_range (chain'_concat_same hinv.sorted hlast) ?_
        intro idx; rw [← hinv.remaining_eq]; exact hnonneg idx
      · cases hstep
  | none =>
    rw [hnext] at hstep
    simp only at hstep
    cases hlast : ctx.chain.getLast? with
    | none => rw [hlast] at hstep; cases hstep
    | some prev =>
      rw [hlast] at hstep
      simp only at hstep
      obtain ⟨link, hlink, hadd⟩ := backtrack_add hR hS hinv hlast
      rw [hlink] at hstep
      simp only [hadd] at hstep
      have hc := chain_eq_dropLast_concat hlast
      have hpl := prefix_letter_bag hR hS hinv
      have hdrop_range : ∀ q ∈ ctx.chain.dropLast, q < S.length :=
        fun q hq => hinv.in_range q (List.mem_of_mem_dropLast hq)
      split at hstep
      · rw [push_subkey_eq ctx _ _ _ (fun idx => ⟨by have := (hpl idx).1; omega, (hpl idx).2⟩)
          (by rw [hinv.subkeys_eq]; exact hS)] at hstep
        split at hstep
        · rename_i hcond
          cases Option.some.inj hstep
          refine pushed_inv hinv.subkeys_eq (by rw [← hinv.subkeys_eq]; exact hcond.2)
            hdrop_range ?_ hinv.prefix_ok
          have hs := hinv.sorted
          rw [hc] at hs
          exact chain'_replace_last hs (Nat.le_succ prev)
        · cases hstep
      · cases Option.some.inj hstep
        refine ⟨hinv.subkeys_eq, hdrop_range, ?_, fun idx => rfl, ?_, by intro p hp; cases hp⟩
        · have hs := hinv.sorted
          rw [hc, List.chain'_append] at hs
          exact hs.1
        · intro idx
          simp only
          have h1 := hinv.prefix_ok idx
          cases hl2 : ctx.chain.dropLast.getLast? with
          | none =>
            have : ctx.chain.dropLast = [] := by
              cases hd : ctx.chain.dropLast with
              | nil => rfl
              | cons a as => rw [hd] at hl2; simp [List.getLast?_cons] at hl2
            rw [this] at h1 ⊢
            exact h1
          | some q =>
            have hc2 := chain_eq_dropLast_concat hl2
            rw [hc2, chain_sum_concat] at h1
            have := (key_at_nonneg hS q idx).1
            omega

/-- A property kept by the loop body is kept by the `for` loop. -/
theorem loop_invariant (P : anagram_context_t → Prop)
    (hstep : ∀ c c1, P c → c.chain.length > 0 → compute_anagrams_step c = some c1 → P c1) :
    ∀ (n : Nat) (c c1 : anagram_context_t), P c → compute_anagrams_loop n c = some c1 → P c1 := by
  intro n
  induction n with
  | zero => intro c c1 hP h; cases Option.some.inj h; exact hP
  | succ n ih =>
    intro c c1 hP h
    unfold compute_anagrams_loop at h
    split at h
    · rename_i hlen
      cases hs : compute_anagrams_step c with
      | none => rw [hs] at h; cases h
      | some c2 =>
        rw [hs] at h
        exact ih c2 c1 (hstep c c2 hP hlen hs) h
    · cases Option.some.inj h; exact hP

/-- A property kept by the loop body and by the final store to `not_done` is kept by any
sequence of calls of `compute_anagrams`. -/
theorem calls_invariant (P : anagram_context_t → Prop)
    (hstep : ∀ c c1, P c → c.chain.length > 0 → compute_anagrams_step c = some c1 → P c1)
    (hdone : ∀ c b, P c → P { c with results := { c.results with not_done := b } }) :
    ∀ (budgets : List Nat) (c c1 : anagram_context_t),
      P c → compute_anagrams_calls c budgets = some c1 → P c1 := by
  intro budgets
  induction budgets with
  | nil =>
    intro c c1 hP h
    cases Option.some.inj h
    exact hP
  | cons k ks ih =>
    intro c c1 hP h
    unfold compute_anagrams_calls at h
    rw [List.foldlM_cons] at h
    cases hk : compute_anagrams c k with
    | none => rw [hk] at h; cases h
    | some c2 =>
      rw [hk] at h
      refine ih c2 c1 ?_ h
      unfold compute_anagrams at hk
      cases hl : compute_anagrams_loop k c with
      | none => rw [hl] at hk; cases hk
      | some c3 =>
        rw [hl] at hk
        cases Option.some.inj hk
        exact hdone c3 _ (loop_invariant P hstep k c c3 hP hl)

theorem odometer_row_mem (lists : List (List str_t)) (hne : ∀ ws ∈ lists, ws ≠ []) :
    ∀ r, List.Forall₂ (fun w ws => w ∈ ws) (odometer_row lists r) lists := by
  induction lists with
  | nil => intro r; exact List.Forall₂.nil
  | cons ws rest ih =>
    intro r
    have hpos : 0 < ws.length := List.length_pos.mpr (hne ws (List.mem_cons_self _ _))
    have hlt : r % ws.length < ws.length := Nat.mod_lt _ hpos
    simp only [odometer_row, odometer, List.map_cons]
    refine List.Forall₂.cons ?_ (ih (fun w hw => hne w (List.mem_cons_of_mem _ hw)) _)
    rw [List.drop_eq_getElem_cons hlt]
    exact List.getElem_mem hlt

theorem mem_add_rows {results : anagram_results_t} {m : Nat} {rows : List (List str_t)}
    {r : anagram_result_t} (h : r ∈ (add_rows results m rows).results) :
    r ∈ results.results ∨ ∃ words ∈ rows, r = { word_count := m, words := words } := by
  simp only [add_rows, List.mem_append, List.mem_map] at h
  rcases h with h | ⟨words, hw, rfl⟩
  · exact Or.inl h
  · exact Or.inr ⟨words, hw, rfl⟩

/-- The records stay rows of solution chains through every round of the loop. -/
theorem step_preserves_records {S : List keylink_t} {R : breakdown_t}
    {ctx ctx1 : anagram_context_t} (hinv : SearchInv S R ctx)
    (hrec : ∀ r ∈ ctx.results.results, record_ok S R r)
    (hstep : compute_anagrams_step ctx = some ctx1) :
    ∀ r ∈ ctx1.results.results, record_ok S R r := by
  unfold compute_anagrams_step at hstep
  cases hnext : ctx.next_subkey_to_add with
  | some next =>
    rw [hnext] at hstep
    simp only at hstep
    by_cases hemp : breakdown_is_empty ctx.remaining_breakdown = true
    · rw [if_pos hemp] at hstep
      obtain ⟨links, _, hlinks, rfl⟩ := expand_chain_some hstep
      intro r hr
      rcases mem_add_rows hr with h | ⟨words, hw, rfl⟩
      · exact hrec r h
      · simp only [List.mem_map, List.mem_range] at hw
        obtain ⟨q, _, rfl⟩ := hw
        have hF := mapM_some_forall₂ _ _ _ hlinks
        refine ⟨ctx.chain, hinv.in_range, hinv.sorted, ?_, ?_, ?_⟩
        · intro idx
          have h1 := hinv.remaining_eq idx
          have h2 := (breakdown_is_empty_iff _).mp hemp idx
          omega
        · exact (List.Forall₂.length_eq hF).symm
        · have hrow := odometer_row_mem (links.map keylink_t.words) (words_ne_nil links) q
          rw [List.forall₂_map_right_iff] at hrow
          have hcomp := List.Forall₂.flip hF
          rw [hinv.subkeys_eq] at hcomp
          exact List.forall₂_iff_get.mpr ⟨by
              rw [(List.forall₂_iff_get.mp hrow).1, (List.forall₂_iff_get.mp hcomp).1], by
              intro i h1 h2
              have hl : i < links.length := by
                rw [(List.forall₂_iff_get.mp hcomp).1]; exact h2
              exact ⟨links.get ⟨i, hl⟩, (List.forall₂_iff_get.mp hcomp).2 i hl h2,
                (List.forall₂_iff_get.mp hrow).2 i h1 hl⟩⟩
    · rw [if_neg hemp] at hstep
      split at hstep
      · cases hstep
      · unfold push_subkey at hstep
        split at hstep
        · split at hstep
          · cases hstep
          · split at hstep
            · cases hstep
            · cases Option.some.inj hstep; exact hrec
        · cases hstep
  | none =>
    rw [hnext] at hstep
    simp only at hstep
    split at hstep
    · cases hstep
    · split at hstep
      · cases hstep
      · split at hstep
        · cases hstep
        · split at hstep
          · unfold push_subkey at hstep
            split at hstep
            · split at hstep
              · cases hstep
              · split at hstep
                · cases hstep
                · cases Option.some.inj hstep; exact hrec
            · cases hstep
          · cases Option.some.inj hstep; exact hrec

theorem append_word_at (A B : List keylink_t) (k : keylink_t) (word : str_t) :
    append_word (A ++ k :: B) A.length word
      = A ++ { k with more_words := k.more_words ++ [word] } :: B := by
  induction A with
  | nil => rfl
  | cons a as ih => simp [append_word, ih]

/-- Once the subkey of the class is in the list, the remaining words of the class are
appended to it when they are kept. -/
theorem scan_words_tail (excluded_words : List str_t) (key : breakdown_t)
    (A B : List keylink_t) (first : str_t) :
    ∀ (words acc : List str_t),
      words.foldl (scan_word excluded_words key)
          (A ++ { key := key, first_word := first, more_words := acc } :: B, some A.length)
        = (A ++ { key := key, first_word := first,
                  more_words := acc ++ keep_words excluded_words words } :: B, some A.length) := by
  intro words
  induction words with
  | nil => intro acc; simp [keep_words]
  | cons w ws ih =>
    intro acc
    rw [List.foldl_cons]
    by_cases hex : is_excluded excluded_words w = true
    · have : scan_word excluded_words key
          (A ++ { key := key, first_word := first, more_words := acc } :: B, some A.length) w
          = (A ++ { key := key, first_word := first, more_words := acc } :: B, some A.length) := by
        simp [scan_word, hex]
      rw [this, ih acc]
      simp [keep_words, hex]
    · have : scan_word excluded_words key
          (A ++ { key := key, first_word := first, more_words := acc } :: B, some A.length) w
          = (A ++ { key := key, first_word := first, more_words := acc ++ [w] } :: B,
              some A.length) := by
        simp [scan_word, hex, append_word_at]
      rw [this, ih (acc ++ [w])]
      simp [keep_words, hex]

theorem insert_position_le (subkeys : List keylink_t) (key_sum : Nat) :
    insert_position subkeys key_sum ≤ subkeys.length := by
  unfold insert_position
  exact (List.takeWhile_sublist _).length_le

theorem scan_words_head (excluded_words : List str_t) (key : breakdown_t)
    (subkeys : List keylink_t) :
    ∀ (words : List str_t),
      (words.foldl (scan_word excluded_words key) (subkeys, none)).1
        = match keep_words excluded_words words with
          | [] => subkeys
          | word :: rest =>
            insert_subkey subkeys { key := key, first_word := word, more_words := rest } := by
  intro words
  induction words with
  | nil => simp [keep_words]
  | cons w ws ih =>
    rw [List.foldl_cons]
    by_cases hex : is_excluded excluded_words w = true
    · have : scan_word excluded_words key (subkeys, none) w = (subkeys, none) := by
        simp [scan_word, hex]
      rw [this, ih]
      simp [keep_words, hex]
    · have hlen : (subkeys.take (insert_position subkeys (toU32 (breakdown_sum key)))).length
          = insert_position subkeys (toU32 (breakdown_sum key)) := by
        rw [List.length_take]; exact Nat.min_eq_left (insert_position_le _ _)
      have : scan_word excluded_words key (subkeys, none) w
          = (subkeys.take (insert_position subkeys (toU32 (breakdown_sum key)))
              ++ { key := key, first_word := w, more_words := [] }
                :: subkeys.drop (insert_position subkeys (toU32 (breakdown_sum key))),
             some (subkeys.take (insert_position subkeys (toU32 (breakdown_sum key)))).length) := by
        simp only [scan_word, hex, hlen]
        rfl
      rw [this, scan_words_tail]
      simp [keep_words, hex, insert_subkey]

/-- The loop body for one class, in closed form. -/
theorem scan_class_eq (R : breakdown_t) (excluded_words : List str_t)
    (subkeys : List keylink_t) (key_link : keylink_t) :
    scan_class R excluded_words subkeys key_link
      = scan_class_result R excluded_words subkeys key_link := by
  unfold scan_class scan_class_result
  split
  · exact scan_words_head excluded_words key_link.key subkeys key_link.words
  · rfl

theorem scan_buckets_eq (hashtable : hashtable_t) (R : breakdown_t) (excluded_words : List str_t) :
    ∀ n, scan_buckets hashtable R excluded_words n
      = (classes_upto hashtable n).foldl (scan_class_result R excluded_words) [] := by
  have hfun : scan_class R excluded_words = scan_class_result R excluded_words := by
    funext subkeys key_link; exact scan_class_eq R excluded_words subkeys key_link
  intro n
  induction n with
  | zero => rfl
  | succ n ih =>
    unfold scan_buckets classes_upto
    rw [List.foldl_append, ← ih, hfun]

theorem find_subkeys_eq (hashtable : hashtable_t) (R : breakdown_t) (excluded_words : List str_t) :
    find_subkeys hashtable R excluded_words
      = (classes hashtable).foldl (scan_class_result R excluded_words) [] := by
  unfold find_subkeys classes
  exact scan_buckets_eq hashtable R excluded_words bucket_count

theorem insert_subkey_cons (a : keylink_t) (S : List keylink_t) (k : keylink_t) :
    insert_subkey (a :: S) k
      = if toU32 (breakdown_sum a.key) ≥ toU32 (breakdown_sum k.key) then a :: insert_subkey S k
        else k :: a :: S := by
  unfold insert_subkey insert_position
  by_cases h : toU32 (breakdown_sum a.key) ≥ toU32 (breakdown_sum k.key)
  · simp [List.takeWhile_cons, h]
  · simp [List.takeWhile_cons, h]

theorem insert_subkey_nil (k : keylink_t) : insert_subkey [] k = [k] := by
  simp [insert_subkey, insert_position]

theorem mem_insert_subkey {S : List keylink_t} {k x : keylink_t} :
    x ∈ insert_subkey S k ↔ x = k ∨ x ∈ S := by
  unfold insert_subkey
  rw [List.mem_append, List.mem_cons]
  constructor
  · rintro (h | h | h)
    · exact Or.inr (List.mem_of_mem_take h)
    · exact Or.inl h
    · exact Or.inr (List.mem_of_mem_drop h)
  · rintro (h | h)
    · exact Or.inr (Or.inl h)
    · rw [← List.take_append_drop (insert_position S (toU32 (breakdown_sum k.key))) S,
        List.mem_append] at h
      rcases h with h | h
      · exact Or.inl h
      · exact Or.inr (Or.inr h)

/-- Inserting keeps the list non-increasing in the (`u32`) sum of the keys. -/
theorem insert_subkey_sorted {S : List keylink_t} (k : keylink_t)
    (hS : S.Pairwise (fun a b => toU32 (breakdown_sum a.key) ≥ toU32 (breakdown_sum b.key))) :
    (insert_subkey S k).Pairwise
      (fun a b => toU32 (breakdown_sum a.key) ≥ toU32 (breakdown_sum b.key)) := by
  induction S with
  | nil => rw [insert_subkey_nil]; exact List.pairwise_singleton _ _
  | cons a S ih =>
    rw [insert_subkey_cons]
    rw [List.pairwise_cons] at hS
    split
    · rename_i h
      rw [List.pairwise_cons]
      refine ⟨?_, ih hS.2⟩
      intro x hx
      rcases mem_insert_subkey.mp hx with rfl | hx
      · exact h
      · exact hS.1 x hx
    · rename_i h
      rw [List.pairwise_cons]
      refine ⟨?_, List.pairwise_cons.mpr hS⟩
      intro x hx
      rcases List.mem_cons.mp hx with rfl | hx
      · omega
      · have := hS.1 x hx
        omega

theorem scan_class_result_sorted (R : breakdown_t) (ex : List str_t) {S : List keylink_t}
    (kl : keylink_t)
    (hS : S.Pairwise (fun a b => toU32 (breakdown_sum a.key) ≥ toU32 (breakdown_sum b.key))) :
    (scan_class_result R ex S kl).Pairwise
      (fun a b => toU32 (breakdown_sum a.key) ≥ toU32 (breakdown_sum b.key)) := by
  unfold scan_class_result
  split
  · split
    · exact hS
    · exact insert_subkey_sorted _ hS
  · exact hS

theorem mem_scan_class_result {R : breakdown_t} {ex : List str_t} {S : List keylink_t}
    {kl x : keylink_t} (hx : x ∈ scan_class_result R ex S kl) :
    x ∈ S ∨ (breakdown_contains R kl.key = true ∧ x.key = kl.key ∧
      x.words = keep_words ex kl.words) := by
  unfold scan_class_result at hx
  split at hx
  · rename_i hc
    split at hx
    · exact Or.inl hx
    · rename_i w ws hk
      rcases mem_insert_subkey.mp hx with rfl | hx
      · exact Or.inr ⟨hc, rfl, hk.symm⟩
      · exact Or.inl hx
  · exact Or.inl hx

theorem foldl_scan_sorted (R : breakdown_t) (ex : List str_t) (L : List keylink_t) :
    ∀ (S : List keylink_t),
      S.Pairwise (fun a b => toU32 (breakdown_sum a.key) ≥ toU32 (breakdown_sum b.key)) →
      (L.foldl (scan_class_result R ex) S).Pairwise
        (fun a b => toU32 (breakdown_sum a.key) ≥ toU32 (breakdown_sum b.key)) := by
  induction L with
  | nil => intro S hS; exact hS
  | cons kl L ih => intro S hS; exact ih _ (scan_class_result_sorted R ex kl hS)

theorem mem_foldl_scan (R : breakdown_t) (ex : List str_t) (L : List keylink_t) :
    ∀ (S : List keylink_t) (x : keylink_t), x ∈ L.foldl (scan_class_result R ex) S →
      x ∈ S ∨ ∃ kl ∈ L, breakdown_contains R kl.key = true ∧ x.key = kl.key ∧
        x.words = keep_words ex kl.words := by
  induction L with
  | nil => intro S x hx; exact Or.inl hx
  | cons kl L ih =>
    intro S x hx
    rcases ih _ x hx with h | ⟨kl2, hkl2, h⟩
    · rcases mem_scan_class_result h with h | h
      · exact Or.inl h
      · exact Or.inr ⟨kl, List.mem_cons_self _ _, h⟩
    · exact Or.inr ⟨kl2, List.mem_cons_of_mem _ hkl2, h⟩

/-- The per-query subkey list is non-increasing in the sum of the keys. -/
theorem find_subkeys_sorted (hashtable : hashtable_t) (R : breakdown_t) (ex : List str_t) :
    (find_subkeys hashtable R ex).Pairwise
      (fun a b => toU32 (breakdown_sum a.key) ≥ toU32 (breakdown_sum b.key)) := by
  rw [find_subkeys_eq]
  exact foldl_scan_sorted R ex _ [] List.Pairwise.nil

/-- Every subkey is the copy of a class of the index whose key fits into the reduced
target, with the kept words of that class. -/
theorem mem_find_subkeys {hashtable : hashtable_t} {R : breakdown_t} {ex : List str_t}
    {x : keylink_t} (hx : x ∈ find_subkeys hashtable R ex) :
    ∃ kl ∈ classes hashtable, breakdown_contains R kl.key = true ∧ x.key = kl.key ∧
      x.words = keep_words ex kl.words := by
  rw [find_subkeys_eq] at hx
  rcases mem_foldl_scan R ex _ [] x hx with h | h
  · cases h
  · exact h

theorem mem_classes_upto {hashtable : hashtable_t} {kl : keylink_t} :
    ∀ n, kl ∈ classes_upto hashtable n ↔ ∃ i < n, kl ∈ hashtable.entries i := by
  intro n
  induction n with
  | zero => simp [classes_upto]
  | succ n ih =>
    unfold classes_upto
    rw [List.mem_append, ih]
    constructor
    · rintro (⟨i, hi, h⟩ | h)
      · exact ⟨i, by omega, h⟩
      · exact ⟨n, by omega, h⟩
    · rintro ⟨i, hi, h⟩
      by_cases hin : i = n
      · subst hin; exact Or.inr h
      · exact Or.inl ⟨i, by omega, h⟩

theorem mem_classes {hashtable : hashtable_t} {kl : keylink_t} :
    kl ∈ classes hashtable ↔ ∃ i < bucket_count, kl ∈ hashtable.entries i := by
  unfold classes
  exact mem_classes_upto bucket_count

theorem foldlM_invariant {σ α : Type} (P : σ → Prop) (f : σ → α → Option σ)
    (hf : ∀ s a s1, P s → f s a = some s1 → P s1) :
    ∀ (l : List α) (s s1 : σ), P s → l.foldlM f s = some s1 → P s1 := by
  intro l
  induction l with
  | nil => intro s s1 hP h; rw [List.foldlM_nil] at h; cases Option.some.inj h; exact hP
  | cons a as ih =>
    intro s s1 hP h
    rw [List.foldlM_cons] at h
    cases hs : f s a with
    | none => rw [hs] at h; cases h
    | some s2 => rw [hs] at h; exact ih s2 s1 (hf s a s2 hP hs) h

theorem breakdown_word_step_letter_bag {r r1 : breakdown_t} {c : Nat} (hr : letter_bag r)
    (h : breakdown_word_step r c = some r1) : letter_bag r1 := by
  unfold breakdown_word_step at h
  split at h
  · simp only at h
    split at h
    · rename_i hidx
      split at h
      · rename_i hlt
        cases Option.some.inj h
        intro idx
        by_cases he : idx = ⟨toU32 ((to_lower c : Int) - 97), hidx⟩
        · subst he
          rw [Function.update_same]
          have := hr ⟨toU32 ((to_lower c : Int) - 97), hidx⟩
          rw [wrap8_id (by omega) (by omega)]
          omega
        · rw [Function.update_noteq he]
          exact hr idx
      · cases h
    · cases h
  · cases Option.some.inj h; exact hr

/-- The table of a byte string has all its counts in `0 .. 127`. -/
theorem breakdown_word_letter_bag {word : str_t} {b : breakdown_t}
    (h : breakdown_word word = some b) : letter_bag b :=
  foldlM_invariant letter_bag breakdown_word_step
    (fun _ _ _ hs hstep => breakdown_word_step_letter_bag hs hstep) word breakdown_zero b
    (by intro idx; simp [breakdown_zero]) h

theorem mem_chain_add_word {word : str_t} {b : breakdown_t} {chain : List keylink_t}
    {x : keylink_t} (hx : x ∈ chain_add_word word b chain) :
    x ∈ chain ∨ ∃ l ∈ chain, breakdown_eq l.key b = true ∧
      x = { key := l.key, first_word := word, more_words := l.first_word :: l.more_words } := by
  induction chain with
  | nil => cases hx
  | cons l rest ih =>
    unfold chain_add_word at hx
    split at hx
    · rename_i heq
      rcases List.mem_cons.mp hx with rfl | hx
      · exact Or.inr ⟨l, List.mem_cons_self _ _, heq, rfl⟩
      · exact Or.inl (List.mem_cons_of_mem _ hx)
    · rcases List.mem_cons.mp hx with rfl | hx
      · exact Or.inl (List.mem_cons_self _ _)
      · rcases ih hx with h | ⟨l2, hl2, h⟩
        · exact Or.inl (List.mem_cons_of_mem _ h)
        · exact Or.inr ⟨l2, List.mem_cons_of_mem _ hl2, h⟩

/-- What a class of the index is after one call of `hashtable_add_word`. -/
theorem mem_hashtable_add_word {hashtable : hashtable_t} {word : str_t} {b : breakdown_t}
    {i : Nat} {x : keylink_t} (hx : x ∈ (hashtable_add_word hashtable word b).entries i) :
    x ∈ hashtable.entries i ∨ x = { key := b, first_word := word, more_words := [] } ∨
      ∃ l ∈ hashtable.entries i, l.key = b ∧
        x = { key := l.key, first_word := word, more_words := l.first_word :: l.more_words } := by
  unfold hashtable_add_word at hx
  simp only at hx
  split at hx
  · simp only [Function.update_apply] at hx
    split at hx
    · rename_i hi
      subst hi
      rcases mem_chain_add_word hx with h | ⟨l, hl, heq, h⟩
      · exact Or.inl h
      · exact Or.inr (Or.inr ⟨l, hl, (breakdown_eq_iff _ _).mp heq, h⟩)
    · exact Or.inl hx
  · simp only [Function.update_apply] at hx
    split at hx
    · rename_i hi
      subst hi
      rcases List.mem_cons.mp hx with h | h
      · exact Or.inr (Or.inl h)
      · exact Or.inl h
    · exact Or.inl hx

theorem hashtable_add_word_own {hashtable : hashtable_t} {word : str_t} {b : breakdown_t}
    (hb : breakdown_word word = some b) (h : index_own hashtable) :
    index_own (hashtable_add_word hashtable word b) := by
  intro i x hx w hw
  rcases mem_hashtable_add_word hx with hx | rfl | ⟨l, hl, hkey, rfl⟩
  · exact h i x hx w hw
  · simp only [keylink_t.words, List.mem_singleton] at hw
    subst hw; exact hb
  · simp only [keylink_t.words, List.mem_cons] at hw
    rcases hw with rfl | hw
    · rw [hkey]; exact hb
    · exact h i l hl w (by simpa [keylink_t.words] using hw)

theorem hashtable_add_word_pos {hashtable : hashtable_t} {word : str_t} {b : breakdown_t}
    (hb : 0 < breakdown_sum b) (h : index_pos hashtable) :
    index_pos (hashtable_add_word hashtable word b) := by
  intro i x hx
  rcases mem_hashtable_add_word hx with hx | rfl | ⟨l, hl, _, rfl⟩
  · exact h i x hx
  · exact hb
  · exact h i l hl

theorem index_own_empty : index_own hashtable_empty := by
  intro i kl hkl; cases hkl

theorem index_pos_empty : index_pos hashtable_empty := by
  intro i kl hkl; cases hkl

/-- An index built by `hashtable_add_word` from words with their own tables keeps, in every
class, only words whose table is the key of the class. -/
theorem index_of_words_own {words : List str_t} {hashtable : hashtable_t}
    (h : index_of_words words = some hashtable) : index_own hashtable := by
  refine foldlM_invariant index_own add_own_word ?_ words hashtable_empty hashtable
    index_own_empty h
  intro s a s1 hs hstep
  unfold add_own_word at hstep
  cases hb : breakdown_word a with
  | none => rw [hb] at hstep; cases hstep
  | some b =>
    rw [hb] at hstep
    cases Option.some.inj hstep
    exact hashtable_add_word_own hb hs

/-- The index built by `main` has the same property, and all its keys have a positive
sum. -/
theorem index_of_entries_ok {words : List str_t} {hashtable : hashtable_t}
    (h : index_of_entries words = some hashtable) : index_own hashtable ∧ index_pos hashtable := by
  refine foldlM_invariant (fun ht => index_own ht ∧ index_pos ht) index_add_entry ?_ words
    hashtable_empty hashtable ⟨index_own_empty, index_pos_empty⟩ h
  intro s a s1 hs hstep
  unfold index_add_entry at hstep
  cases hb : breakdown_word a with
  | none => rw [hb] at hstep; cases hstep
  | some b =>
    rw [hb] at hstep
    cases Option.some.inj hstep
    simp only
    split
    · rename_i hpos
      exact ⟨hashtable_add_word_own hb hs.1, hashtable_add_word_pos hpos hs.2⟩
    · exact hs

theorem index_own_key_letter_bag {hashtable : hashtable_t} (h : index_own hashtable)
    {i : Nat} {kl : keylink_t} (hkl : kl ∈ hashtable.entries i) : letter_bag kl.key :=
  breakdown_word_letter_bag (h i kl hkl kl.first_word (by simp [keylink_t.words]))

/-- What `push_subkey` leaves alone when it returns. -/
theorem push_subkey_some {ctx ctx1 : anagram_context_t} {c : List Nat} {rem : breakdown_t}
    {p : Nat} (h : push_subkey ctx c rem p = some ctx1) :
    ctx1.subkeys = ctx.subkeys ∧ ctx1.chain_max_length = ctx.chain_max_length ∧
      ctx1.results = ctx.results ∧ ctx1.chain = c ++ [p] ∧ c.length < ctx.chain_max_length ∧
      p < ctx.subkeys.length := by
  unfold push_subkey at h
  split at h
  · rename_i hlen
    split at h
    · cases h
    · rename_i link hlink
      split at h
      · cases h
      · cases Option.some.inj h
        exact ⟨rfl, rfl, rfl, rfl, hlen, (List.getElem?_eq_some_iff.mp hlink).1⟩
  · cases h

/-- The three branches of the loop body of `compute_anagrams`. -/
theorem step_cases {ctx ctx1 : anagram_context_t} (h : compute_anagrams_step ctx = some ctx1) :
    (∃ next, ctx.next_subkey_to_add = some next ∧
        breakdown_is_empty ctx.remaining_breakdown = true ∧ expand_chain ctx = some ctx1) ∨
    (∃ next, ctx.next_subkey_to_add = some next ∧
        breakdown_is_empty ctx.remaining_breakdown = false ∧
        push_subkey ctx ctx.chain ctx.remaining_breakdown next = some ctx1) ∨
    (ctx.next_subkey_to_add = none ∧ ∃ prev link rem,
        ctx.chain.getLast? = some prev ∧ ctx.subkeys[prev]? = some link ∧
        breakdown_add ctx.remaining_breakdown link.key = some rem ∧
        ((prev + 1 < ctx.subkeys.length ∧
            push_subkey ctx ctx.chain.dropLast rem (prev + 1) = some ctx1) ∨
         (¬ prev + 1 < ctx.subkeys.length ∧
            ctx1 = { ctx with chain := ctx.chain.dropLast, remaining_breakdown := rem,
                              next_subkey_to_add := none }))) := by
  unfold compute_anagrams_step at h
  cases hnext : ctx.next_subkey_to_add with
  | some next =>
    rw [hnext] at h
    simp only at h
    cases hemp : breakdown_is_empty ctx.remaining_breakdown with
    | true =>
      rw [hemp] at h
      exact Or.inl ⟨next, rfl, rfl, by simpa using h⟩
    | false =>
      rw [hemp] at h
      simp only [Bool.false_eq_true, if_false] at h
      split at h
      · cases h
      · exact Or.inr (Or.inl ⟨next, rfl, rfl, h⟩)
  | none =>
    rw [hnext] at h
    simp only at h
    refine Or.inr (Or.inr ⟨rfl, ?_⟩)
    split at h
    · cases h
    · rename_i prev hprev
      split at h
      · cases h
      · rename_i link hlink
        split at h
        · cases h
        · rename_i rem hrem
          refine ⟨prev, link, rem, hprev, hlink, hrem, ?_⟩
          split at h
          · rename_i hlt
            exact Or.inl ⟨hlt, h⟩
          · rename_i hlt
            exact Or.inr ⟨hlt, (Option.some.inj h).symm⟩

/-- No round of the loop changes the subkey list or the capacity of the chain. -/
theorem step_subkeys {ctx ctx1 : anagram_context_t} (h : compute_anagrams_step ctx = some ctx1) :
    ctx1.subkeys = ctx.subkeys ∧ ctx1.chain_max_length = ctx.chain_max_length := by
  rcases step_cases h with ⟨_, _, _, he⟩ | ⟨_, _, _, hp⟩ | ⟨_, _, _, _, _, _, _, hc⟩
  · obtain ⟨links, _, _, rfl⟩ := expand_chain_some he
    exact ⟨rfl, rfl⟩
  · exact ⟨(push_subkey_some hp).1, (push_subkey_some hp).2.1⟩
  · rcases hc with ⟨_, hp⟩ | ⟨_, rfl⟩
    · exact ⟨(push_subkey_some hp).1, (push_subkey_some hp).2.1⟩
    · exact ⟨rfl, rfl⟩

/-- Every word of a record added by a round of the loop is a word of a subkey. -/
theorem step_result_words {ctx ctx1 : anagram_context_t}
    (h : compute_anagrams_step ctx = some ctx1) :
    ∀ r ∈ ctx1.results.results, r ∈ ctx.results.results ∨
      ∀ w ∈ r.words, ∃ k ∈ ctx.subkeys, w ∈ k.words := by
  rcases step_cases h with ⟨_, _, _, he⟩ | ⟨_, _, _, hp⟩ | ⟨_, _, _, _, _, _, _, hc⟩
  · obtain ⟨links, _, hlinks, rfl⟩ := expand_chain_some he
    intro r hr
    rcases mem_add_rows hr with hr | ⟨words, hw, rfl⟩
    · exact Or.inl hr
    · right
      simp only [List.mem_map, List.mem_range] at hw
      obtain ⟨q, _, rfl⟩ := hw
      intro w hw
      have hrow := odometer_row_mem (links.map keylink_t.words) (words_ne_nil links) q
      have hF := mapM_some_forall₂ _ _ _ hlinks
      obtain ⟨i, hi, rfl⟩ := List.mem_iff_getElem.mp hw
      have hlen := (List.forall₂_iff_get.mp hrow).1
      have hi2 : i < (links.map keylink_t.words).length := by rw [← hlen]; exact hi
      have hmem := (List.forall₂_iff_get.mp hrow).2 i hi hi2
      simp only [List.get_eq_getElem, List.getElem_map] at hmem
      have hi3 : i < links.length := by simpa using hi2
      refine ⟨links[i], ?_, hmem⟩
      have hi4 : i < ctx.chain.length := by rw [(List.forall₂_iff_get.mp hF).1]; exact hi3
      have := (List.forall₂_iff_get.mp hF).2 i hi4 hi3
      exact List.getElem?_mem this
  · intro r hr; left; rw [(push_subkey_some hp).2.2.1] at hr; exact hr
  · rcases hc with ⟨_, hp⟩ | ⟨_, rfl⟩
    · intro r hr; left; rw [(push_subkey_some hp).2.2.1] at hr; exact hr
    · intro r hr; exact Or.inl hr

/-- A chain handed to the expander is the chain of a state that the loop reaches, in which
`next_subkey_to_add` is set and the remaining table is empty. -/
theorem mem_handed_chains (P : anagram_context_t → Prop)
    (hstep : ∀ c c1, P c → c.chain.length > 0 → compute_anagrams_step c = some c1 → P c1) :
    ∀ (n : Nat) (ctx : anagram_context_t) (c : List Nat), P ctx → c ∈ handed_chains n ctx →
      ∃ ctx1, P ctx1 ∧ ctx1.chain = c ∧ ctx1.next_subkey_to_add.isSome = true ∧
        breakdown_is_empty ctx1.remaining_breakdown = true := by
  intro n
  induction n with
  | zero => intro ctx c _ hc; cases hc
  | succ n ih =>
    intro ctx c hP hc
    unfold handed_chains at hc
    split at hc
    · rename_i hlen
      rcases List.mem_append.mp hc with hc | hc
      · split at hc
        · rename_i hcond
          simp only [List.mem_singleton] at hc
          subst hc
          simp only [Bool.and_eq_true] at hcond
          exact ⟨ctx, hP, rfl, hcond.1, hcond.2⟩
        · cases hc
      · cases hs : compute_anagrams_step ctx with
        | none => rw [hs] at hc; cases hc
        | some ctx2 =>
          rw [hs] at hc
          exact ih ctx2 c (hstep ctx ctx2 hP hlen hs) hc
    · cases hc

theorem subkeys_in_index {hashtable : hashtable_t} {R : breakdown_t} {ex : List str_t}
    {k : keylink_t} (hk : k ∈ find_subkeys hashtable R ex) :
    ∃ i kl, kl ∈ hashtable.entries i ∧ breakdown_contains R kl.key = true ∧ k.key = kl.key ∧
      k.words = keep_words ex kl.words := by
  obtain ⟨kl, hkl, h⟩ := mem_find_subkeys hk
  obtain ⟨i, _, hi⟩ := mem_classes.mp hkl
  exact ⟨i, kl, hi, h⟩

theorem subkeys_letter_bag {hashtable : hashtable_t} (hown : index_own hashtable)
    {R : breakdown_t} {ex : List str_t} :
    ∀ k ∈ find_subkeys hashtable R ex, letter_bag k.key := by
  intro k hk
  obtain ⟨i, kl, hi, _, hkey, _⟩ := subkeys_in_index hk
  rw [hkey]; exact index_own_key_letter_bag hown hi

theorem subkeys_contained {hashtable : hashtable_t} {R : breakdown_t} {ex : List str_t} :
    ∀ k ∈ find_subkeys hashtable R ex, ∀ idx, k.key idx ≤ R idx := by
  intro k hk
  obtain ⟨i, kl, _, hc, hkey, _⟩ := subkeys_in_index hk
  rw [hkey]; exact (breakdown_contains_iff _ _).mp hc

theorem subkeys_own {hashtable : hashtable_t} (hown : index_own hashtable)
    {R : breakdown_t} {ex : List str_t} :
    ∀ k ∈ find_subkeys hashtable R ex, ∀ w ∈ k.words, breakdown_word w = some k.key := by
  intro k hk w hw
  obtain ⟨i, kl, hi, _, hkey, hwords⟩ := subkeys_in_index hk
  rw [hwords] at hw
  rw [hkey]
  exact hown i kl hi w (List.mem_of_mem_filter hw)

theorem subkeys_not_excluded {hashtable : hashtable_t} {R : breakdown_t} {ex : List str_t} :
    ∀ k ∈ find_subkeys hashtable R ex, ∀ w ∈ k.words, is_excluded ex w = false := by
  intro k hk w hw
  obtain ⟨i, kl, _, _, _, hwords⟩ := subkeys_in_index hk
  rw [hwords] at hw
  have := (List.mem_filter.mp hw).2
  simpa using this

theorem subkeys_pos {hashtable : hashtable_t} (hpos : index_pos hashtable)
    {R : breakdown_t} {ex : List str_t} :
    ∀ k ∈ find_subkeys hashtable R ex, 0 < breakdown_sum k.key := by
  intro k hk
  obtain ⟨i, kl, hi, _, hkey, _⟩ := subkeys_in_index hk
  rw [hkey]; exact hpos i kl hi

theorem subtract_letter_bags {T I : breakdown_t} (hT : letter_bag T) (hI : letter_bag I) :
    breakdown_subtract T I =
      some (fun idx => T idx - I idx, !breakdown_underflowed (fun idx => T idx - I idx)) :=
  breakdown_subtract_spec
    (by intro idx; have := hT idx; have := hI idx; omega)
    (by intro idx; have := hT idx; have := hI idx; omega)

/-- The result of `begin_anagram_context` when the include does not fit into the input. -/
theorem begin_invalid {hashtable : hashtable_t} {T I : breakdown_t} (ex : str_t)
    (hT : letter_bag T) (hI : letter_bag I)
    (hu : breakdown_underflowed (fun idx => T idx - I idx) = true) :
    begin_anagram_context hashtable T I ex = some context_zero := by
  unfold begin_anagram_context
  rw [subtract_letter_bags hT hI]
  simp only [hu, Bool.not_true, Bool.not_false, if_true]

/-- The result of `begin_anagram_context` when the include alone uses up the input. -/
theorem begin_alone {hashtable : hashtable_t} {T I : breakdown_t} (ex : str_t)
    (hT : letter_bag T) (hI : letter_bag I)
    (hI0 : breakdown_is_empty I = false)
    (hR0 : breakdown_is_empty (fun idx => T idx - I idx) = true) :
    begin_anagram_context hashtable T I ex =
      some { context_zero with results := begin_anagram_result context_zero.results 0 } := by
  have hu : breakdown_underflowed (fun idx => T idx - I idx) = false := by
    rw [Bool.eq_false_iff, Ne, breakdown_underflowed_iff]
    rintro ⟨idx, h⟩
    have := (breakdown_is_empty_iff _).mp hR0 idx
    simp only at this
    omega
  unfold begin_anagram_context
  rw [subtract_letter_bags hT hI]
  simp only [hu, hI0, hR0, Bool.not_false, Bool.not_true, Bool.false_eq_true, if_false,
    Bool.and_self, if_true]

/-- The result of `begin_anagram_context` in the remaining case: the search is set up when a subkey
exists. -/
theorem begin_search {hashtable : hashtable_t} {T I : breakdown_t} (ex : str_t)
    (hT : letter_bag T) (hI : letter_bag I) (hown : index_own hashtable)
    (hu : breakdown_underflowed (fun idx => T idx - I idx) = false)
    (hna : (!breakdown_is_empty I && breakdown_is_empty (fun idx => T idx - I idx)) = false) :
    begin_anagram_context hashtable T I ex =
      match find_subkeys hashtable (fun idx => T idx - I idx) (parse_excluded ex) with
      | [] => some context_zero
      | first :: rest =>
        some { context_zero with
          subkeys := first :: rest
          chain_max_length := toU32 (max 1 (breakdown_sum T))
          chain := [0]
          remaining_breakdown := fun idx => T idx - I idx - first.key idx
          next_subkey_to_add := some 0 } := by
  unfold begin_anagram_context
  rw [subtract_letter_bags hT hI]
  simp only [hu, Bool.not_false, Bool.not_true, Bool.false_eq_true, if_false, hna]
  unfold setup_search
  cases hS : find_subkeys hashtable (fun idx => T idx - I idx) (parse_excluded ex) with
  | nil => rfl
  | cons first rest =>
    simp only
    have hmem : first ∈ find_subkeys hashtable (fun idx => T idx - I idx) (parse_excluded ex) := by
      rw [hS]; exact List.mem_cons_self _ _
    have hk := subkeys_letter_bag hown first hmem
    have hc := subkeys_contained first hmem
    have hsub := breakdown_subtract_spec (a := fun idx => T idx - I idx) (b := first.key)
      (by intro idx; have := hk idx; have := hc idx; have := hT idx; have := hI idx
          simp only at *; omega)
      (by intro idx; have := hk idx; have := hc idx; have := hT idx; have := hI idx
          simp only at *; omega)
    have hnu : breakdown_underflowed (fun idx => T idx - I idx - first.key idx) = false := by
      rw [Bool.eq_false_iff, Ne, breakdown_underflowed_iff]
      rintro ⟨idx, h⟩
      have := hc idx
      simp only at this
      omega
    rw [hsub]
    simp [hnu]

theorem driver_inv_step {S : List keylink_t} {R : breakdown_t} :
    ∀ c c1, DriverInv S R c → c.chain.length > 0 → compute_anagrams_step c = some c1 →
      DriverInv S R c1 := by
  intro c c1 hinv hlen hstep
  rcases hinv.1 with ⟨hR, hS, hs⟩ | ⟨hnil, _⟩
  · exact ⟨Or.inl ⟨hR, hS, step_preserves_inv hR hS hs hstep⟩,
      step_preserves_records hs hinv.2 hstep⟩
  · rw [hnil] at hlen; simp at hlen

theorem driver_inv_done {S : List keylink_t} {R : breakdown_t} :
    ∀ (c : anagram_context_t) (b : Bool), DriverInv S R c →
      DriverInv S R { c with results := { c.results with not_done := b } } := by
  intro c b hinv
  refine ⟨?_, hinv.2⟩
  rcases hinv.1 with ⟨hR, hS, hs⟩ | hn
  · exact Or.inl ⟨hR, hS,
      ⟨hs.subkeys_eq, hs.in_range, hs.sorted, hs.remaining_eq, hs.prefix_ok, hs.next_ok⟩⟩
  · exact Or.inr hn

theorem driver_inv_subkeys {S : List keylink_t} {R : breakdown_t} {ctx : anagram_context_t}
    (h : DriverInv S R ctx) : ctx.subkeys = S := by
  rcases h.1 with ⟨_, _, hs⟩ | ⟨_, hn⟩
  · exact hs.subkeys_eq
  · exact hn

/-- The invariant of the driver holds after any number of rounds of the loop. -/
theorem driver_inv_loop {S : List keylink_t} {R : breakdown_t} {ctx0 ctx : anagram_context_t}
    (h0 : DriverInv S R ctx0) {n : Nat} (h : compute_anagrams_loop n ctx0 = some ctx) :
    DriverInv S R ctx :=
  loop_invariant (DriverInv S R) driver_inv_step n ctx0 ctx h0 h

/-- The invariant of the driver holds after any sequence of calls of `compute_anagrams`. -/
theorem driver_inv_calls {S : List keylink_t} {R : breakdown_t} {ctx0 ctx : anagram_context_t}
    (h0 : DriverInv S R ctx0) {budgets : List Nat}
    (h : compute_anagrams_calls ctx0 budgets = some ctx) : DriverInv S R ctx :=
  calls_invariant (DriverInv S R) driver_inv_step driver_inv_done budgets ctx0 ctx h0 h

theorem context_zero_inv (R : breakdown_t) : DriverInv [] R context_zero :=
  ⟨Or.inr ⟨rfl, rfl⟩, by intro r hr; cases hr⟩

/-- The state produced by `begin_anagram_context` satisfies the invariant of the driver, for
its own subkey list and the reduced target `T - I`. -/
theorem begin_driver_inv {hashtable : hashtable_t} {T I : breakdown_t} (ex : str_t)
    (hT : letter_bag T) (hI : letter_bag I) (hown : index_own hashtable) :
    ∃ ctx0, begin_anagram_context hashtable T I ex = some ctx0 ∧
      DriverInv ctx0.subkeys (fun idx => T idx - I idx) ctx0 ∧
      (ctx0.subkeys = [] ∨
        (ctx0.subkeys = find_subkeys hashtable (fun idx => T idx - I idx) (parse_excluded ex) ∧
          letter_bag (fun idx => T idx - I idx) ∧ (∀ k ∈ ctx0.subkeys, letter_bag k.key) ∧
          SearchInv ctx0.subkeys (fun idx => T idx - I idx) ctx0)) := by
  cases hu : breakdown_underflowed (fun idx => T idx - I idx) with
  | true =>
    exact ⟨context_zero, begin_invalid ex hT hI hu, context_zero_inv _, Or.inl rfl⟩
  | false =>
    have hRnn : ∀ idx, 0 ≤ T idx - I idx := by
      intro idx
      by_contra hneg
      have : breakdown_underflowed (fun idx => T idx - I idx) = true :=
        (breakdown_underflowed_iff _).mpr ⟨idx, by omega⟩
      rw [hu] at this; cases this
    have hR : letter_bag (fun idx => T idx - I idx) := by
      intro idx
      have := hRnn idx; have := hT idx; have := hI idx
      constructor <;> simp only <;> omega
    cases hna : (!breakdown_is_empty I && breakdown_is_empty (fun idx => T idx - I idx)) with
    | true =>
      simp only [Bool.and_eq_true, Bool.not_eq_true'] at hna
      refine ⟨_, begin_alone ex hT hI hna.1 hna.2, ⟨Or.inr ⟨rfl, rfl⟩, ?_⟩, Or.inl rfl⟩
      intro r hr
      simp only [begin_anagram_result, context_zero, List.nil_append, List.mem_singleton] at hr
      subst hr
      unfold record_ok
      refine ⟨[], ?_, List.chain'_nil, ?_, rfl, List.Forall₂.nil⟩
      · intro p hp; cases hp
      · intro idx
        have := (breakdown_is_empty_iff _).mp hna.2 idx
        rw [chain_sum_nil]
        simp only at this ⊢
        omega
    | false =>
      have hbs := begin_search ex hT hI hown hu hna
      cases hS : find_subkeys hashtable (fun idx => T idx - I idx) (parse_excluded ex) with
      | nil =>
        rw [hS] at hbs
        exact ⟨context_zero, hbs, context_zero_inv _, Or.inl rfl⟩
      | cons first rest =>
        rw [hS] at hbs
        have hbag : ∀ k ∈ first :: rest, letter_bag k.key := by
          intro k hk
          exact subkeys_letter_bag hown k (by rw [hS]; exact hk)
        have hsi : SearchInv (first :: rest) (fun idx => T idx - I idx)
            { context_zero with
              subkeys := first :: rest
              chain_max_length := toU32 (max 1 (breakdown_sum T))
              chain := [0]
              remaining_breakdown := fun idx => T idx - I idx - first.key idx
              next_subkey_to_add := some 0 } := by
          have hc := subkeys_contained first (by rw [hS]; exact List.mem_cons_self _ _)
          refine ⟨rfl, ?_, List.chain'_singleton _, ?_, ?_, ?_⟩
          · intro p hp
            simp only [List.mem_singleton] at hp
            subst hp
            simp
          · intro idx
            simp [chain_sum, key_at]
          · intro idx
            simp only [List.dropLast_single, chain_sum_nil]
            have := hRnn idx
            omega
          · intro p hp
            cases Option.some.inj hp
            refine ⟨rfl, ?_⟩
            intro idx
            have := hc idx
            simp only at this ⊢
            omega
        refine ⟨_, hbs, ⟨Or.inl ⟨hR, hbag, hsi⟩, ?_⟩, Or.inr ⟨rfl, hR, hbag, hsi⟩⟩
        intro r hr
        cases hr

theorem foldlM_invariant_mem {σ α : Type} (P : σ → Prop) (f : σ → α → Option σ) :
    ∀ (l : List α), (∀ s a s1, a ∈ l → P s → f s a = some s1 → P s1) →
      ∀ (s s1 : σ), P s → l.foldlM f s = some s1 → P s1 := by
  intro l
  induction l with
  | nil => intro _ s s1 hP h; rw [List.foldlM_nil] at h; cases Option.some.inj h; exact hP
  | cons a as ih =>
    intro hf s s1 hP h
    rw [List.foldlM_cons] at h
    cases hs : f s a with
    | none => rw [hs] at h; cases h
    | some s2 =>
      rw [hs] at h
      exact ih (fun s a' s1 ha => hf s a' s1 (List.mem_cons_of_mem _ ha)) s2 s1
        (hf s a s2 (List.mem_cons_self _ _) hP hs) h

/-- The bucket of a class that `hashtable_add_word` has created or changed. -/
theorem mem_hashtable_add_word_bucket {hashtable : hashtable_t} {word : str_t} {b : breakdown_t}
    {i : Nat} {x : keylink_t} (hx : x ∈ (hashtable_add_word hashtable word b).entries i) :
    x ∈ hashtable.entries i ∨ (i = hash_breakdown b % bucket_count ∧
      (x = { key := b, first_word := word, more_words := [] } ∨
        ∃ l ∈ hashtable.entries i, l.key = b ∧
          x = { key := l.key, first_word := word, more_words := l.first_word :: l.more_words })) := by
  by_cases hi : i = hash_breakdown b % bucket_count
  · rcases mem_hashtable_add_word hx with h | h | h
    · exact Or.inl h
    · exact Or.inr ⟨hi, Or.inl h⟩
    · exact Or.inr ⟨hi, Or.inr h⟩
  · left
    unfold hashtable_add_word at hx
    simp only at hx
    split at hx
    · simpa [Function.update_apply, hi] using hx
    · simpa [Function.update_apply, hi] using hx

theorem hashtable_add_word_supp {words : List str_t} {hashtable : hashtable_t} {word : str_t}
    {b : breakdown_t} (hw : word ∈ words) (h : index_supp words hashtable) :
    index_supp words (hashtable_add_word hashtable word b) := by
  intro i x hx
  rcases mem_hashtable_add_word_bucket hx with hx | ⟨hi, rfl | ⟨l, hl, hkey, rfl⟩⟩
  · exact h i x hx
  · refine ⟨hi, ?_⟩
    intro w hw2
    simp only [keylink_t.words, List.mem_singleton] at hw2
    subst hw2; exact hw
  · refine ⟨by rw [hkey]; exact hi, ?_⟩
    intro w hw2
    simp only [keylink_t.words, List.mem_cons] at hw2
    rcases hw2 with rfl | hw2
    · exact hw
    · exact (h i l hl).2 w (by simpa [keylink_t.words] using hw2)

theorem index_of_words_supp {words : List str_t} {hashtable : hashtable_t}
    (h : index_of_words words = some hashtable) : index_supp words hashtable := by
  refine foldlM_invariant_mem (index_supp words) add_own_word words ?_ hashtable_empty hashtable
    (by intro i kl hkl; cases hkl) h
  intro s a s1 ha hs hstep
  unfold add_own_word at hstep
  cases hb : breakdown_word a with
  | none => rw [hb] at hstep; cases hstep
  | some b =>
    rw [hb] at hstep
    cases Option.some.inj hstep
    exact hashtable_add_word_supp ha hs

theorem index_of_entries_supp {words : List str_t} {hashtable : hashtable_t}
    (h : index_of_entries words = some hashtable) : index_supp words hashtable := by
  refine foldlM_invariant_mem (index_supp words) index_add_entry words ?_ hashtable_empty
    hashtable (by intro i kl hkl; cases hkl) h
  intro s a s1 ha hs hstep
  unfold index_add_entry at hstep
  cases hb : breakdown_word a with
  | none => rw [hb] at hstep; cases hstep
  | some b =>
    rw [hb] at hstep
    cases Option.some.inj hstep
    simp only
    split
    · exact hashtable_add_word_supp ha hs
    · exact hs

/-- An occupied bucket is the bucket of the table of one of the indexed words. -/
theorem bucket_of_word {words : List str_t} {hashtable : hashtable_t}
    (hsupp : index_supp words hashtable) (hown : index_own hashtable) {i : Nat}
    (hne : hashtable.entries i ≠ []) :
    ∃ w ∈ words, (breakdown_word w).map (fun b => hash_breakdown b % bucket_count) = some i := by
  obtain ⟨kl, rest, hkl⟩ := List.exists_cons_of_ne_nil hne
  have hmem : kl ∈ hashtable.entries i := by rw [hkl]; exact List.mem_cons_self _ _
  have hfw : kl.first_word ∈ kl.words := by simp [keylink_t.words]
  refine ⟨kl.first_word, (hsupp i kl hmem).2 _ hfw, ?_⟩
  rw [hown i kl hmem _ hfw]
  simp only [Option.map_some', Option.some.injEq]
  exact (hsupp i kl hmem).1.symm

/-- The traversal visits only the occupied buckets: when they are among the strictly
decreasing list `buckets`, the classes are those of these buckets in increasing order. -/
theorem classes_upto_sparse (hashtable : hashtable_t) :
    ∀ (n : Nat) (buckets : List Nat), buckets.Pairwise (fun a b => a > b) →
      (∀ i ∈ buckets, i < n) → (∀ i < n, i ∉ buckets → hashtable.entries i = []) →
      classes_upto hashtable n = buckets.reverse.flatMap hashtable.entries := by
  intro n
  induction n with
  | zero =>
    intro buckets _ hb _
    cases buckets with
    | nil => rfl
    | cons b bs => exact absurd (hb b (List.mem_cons_self _ _)) (Nat.not_lt_zero _)
  | succ n ih =>
    intro buckets hs hb hz
    unfold classes_upto
    by_cases hn : n ∈ buckets
    · cases buckets with
      | nil => cases hn
      | cons b bs =>
        rw [List.pairwise_cons] at hs
        have hbn : b = n := by
          rcases List.mem_cons.mp hn with h | h
          · exact h.symm
          · have := hs.1 n h
            have := hb b (List.mem_cons_self _ _)
            omega
        subst hbn
        rw [ih bs hs.2 (fun i hi => hs.1 i hi)
          (fun i hi hnot => hz i (by omega) (by
            intro hmem
            rcases List.mem_cons.mp hmem with h | h
            · omega
            · exact hnot h))]
        simp [List.flatMap_append]
    · rw [hz n (by omega) hn, List.append_nil]
      exact ih buckets hs
        (fun i hi => by
          have := hb i hi
          have : i ≠ n := fun h => hn (h ▸ hi)
          omega)
        (fun i hi hnot => hz i (by omega) hnot)

/-- The classes of an index whose words all hash into the strictly decreasing list
`buckets`. -/
theorem classes_of_buckets {words : List str_t} {hashtable : hashtable_t}
    (hsupp : index_supp words hashtable) (hown : index_own hashtable) (buckets : List Nat)
    (hs : buckets.Pairwise (fun a b => a > b)) (hb : ∀ i ∈ buckets, i < bucket_count)
    (hw : words.all (fun w =>
      match breakdown_word w with
      | none => true
      | some b => decide (hash_breakdown b % bucket_count ∈ buckets)) = true) :
    classes hashtable = buckets.reverse.flatMap hashtable.entries := by
  unfold classes
  refine classes_upto_sparse hashtable bucket_count buckets hs hb ?_
  intro i _ hnot
  by_contra hne
  obtain ⟨w, hwm, hwi⟩ := bucket_of_word hsupp hown hne
  have := List.all_eq_true.mp hw w hwm
  cases hb : breakdown_word w with
  | none => rw [hb] at hwi; cases hwi
  | some b =>
    rw [hb] at hwi this
    simp only [Option.map_some', Option.some.injEq] at hwi
    simp only [decide_eq_true_eq] at this
    rw [hwi] at this
    exact hnot this

theorem getD_eq_some {α : Type} {o : Option α} {d : α} (h : o.isSome = true) :
    o = some (o.getD d) := by
  cases o with
  | none => cases h
  | some x => rfl

theorem example_index_eq : index_of_entries example_dictionary = some example_index :=
  getD_eq_some (by decide)

theorem example_index_words_eq : index_of_words example_dictionary = some example_index_words :=
  getD_eq_some (by decide)

theorem example_index_classes : classes example_index = example_classes := by
  have hok := index_of_entries_ok example_index_eq
  rw [classes_of_buckets (index_of_entries_supp example_index_eq) hok.1 [79376, 39128, 16695]
    (by decide) (by decide) (by decide)]
  decide

theorem example_index_words_classes : classes example_index_words = example_classes := by
  rw [classes_of_buckets (index_of_words_supp example_index_words_eq)
    (index_of_words_own example_index_words_eq) [79376, 39128, 16695]
    (by decide) (by decide) (by decide)]
  decide

theorem breakdown_ext_list {a b : breakdown_t} (h : count_idxs.map a = count_idxs.map b) :
    a = b := by
  funext idx
  have hmem := mem_count_idxs idx
  obtain ⟨i, hi, hget⟩ := List.mem_iff_getElem.mp hmem
  have h1 : (count_idxs.map a)[i]? = (count_idxs.map b)[i]? := by rw [h]
  simp only [List.getElem?_map, List.getElem?_eq_getElem hi, Option.map_some', hget,
    Option.some.injEq] at h1
  exact h1

/-- A table is determined by the list of its counts: this turns the evaluation of
`breakdown_word` into a comparison of lists. -/
theorem breakdown_word_eq_of_list {word : str_t} {b : breakdown_t}
    (h : (breakdown_word word).map (fun a => count_idxs.map a) = some (count_idxs.map b)) :
    breakdown_word word = some b := by
  cases hw : breakdown_word word with
  | none => rw [hw] at h; cases h
  | some a =>
    rw [hw] at h
    simp only [Option.map_some', Option.some.injEq] at h
    rw [breakdown_ext_list h]

theorem bag_listencat_eq :
    breakdown_word [108, 105, 115, 116, 101, 110, 99, 97, 116] = some bag_listencat :=
  breakdown_word_eq_of_list (by decide)

theorem bag_cat_eq : breakdown_word [99, 97, 116] = some bag_cat :=
  breakdown_word_eq_of_list (by decide)

theorem bag_x_eq : breakdown_word [120] = some bag_x :=
  breakdown_word_eq_of_list (by decide)

theorem bag_empty_eq : breakdown_word [] = some breakdown_zero := rfl

/-- Evaluation of `begin_anagram_context` from the list of the classes of the index, for a
query whose include fits and does not use up the input. -/
theorem begin_eval {hashtable : hashtable_t} {C : List keylink_t} (hcls : classes hashtable = C)
    {T I : breakdown_t} (ex : str_t) (hT : letter_bag T) (hI : letter_bag I)
    (hu : breakdown_underflowed (fun idx => T idx - I idx) = false)
    (hna : (!breakdown_is_empty I && breakdown_is_empty (fun idx => T idx - I idx)) = false) :
    begin_anagram_context hashtable T I ex =
      setup_search
        (C.foldl (scan_class_result (fun idx => T idx - I idx) (parse_excluded ex)) [])
        T (fun idx => T idx - I idx) := by
  unfold begin_anagram_context
  rw [subtract_letter_bags hT hI]
  simp only [hu, Bool.not_false, Bool.not_true, Bool.false_eq_true, if_false, hna]
  rw [find_subkeys_eq, hcls]

theorem option_is_eq {α : Type} [DecidableEq α] {o : Option α} {x : α}
    (h : option_is o x = true) : o = some x := by
  cases o with
  | none => cases h
  | some y =>
    simp only [option_is, decide_eq_true_eq] at h
    rw [h]

theorem listencat_begin :
    begin_anagram_context example_index bag_listencat breakdown_zero [] = some listencat_context := by
  rw [begin_eval example_index_classes []
    (breakdown_word_letter_bag bag_listencat_eq) (breakdown_word_letter_bag bag_empty_eq)
    (by decide) (by decide)]
  exact option_is_eq (by decide)

theorem cat_begin :
    begin_anagram_context example_index bag_cat breakdown_zero [] = some cat_context := by
  rw [begin_eval example_index_classes []
    (breakdown_word_letter_bag bag_cat_eq) (breakdown_word_letter_bag bag_empty_eq)
    (by decide) (by decide)]
  exact option_is_eq (by decide)

theorem cat_begin_words :
    begin_anagram_context example_index_words bag_cat breakdown_zero [] = some cat_context := by
  rw [begin_eval example_index_words_classes []
    (breakdown_word_letter_bag bag_cat_eq) (breakdown_word_letter_bag bag_empty_eq)
    (by decide) (by decide)]
  exact option_is_eq (by decide)

theorem x_begin :
    begin_anagram_context example_index bag_x breakdown_zero [] = some context_zero := by
  rw [begin_eval example_index_classes []
    (breakdown_word_letter_bag bag_x_eq) (breakdown_word_letter_bag bag_empty_eq)
    (by decide) (by decide)]
  exact option_is_eq (by decide)

theorem loop_succ (n : Nat) (ctx : anagram_context_t) :
    compute_anagrams_loop (n + 1) ctx
      = if ctx.chain.length > 0 then
          (compute_anagrams_step ctx).bind (compute_anagrams_loop n)
        else some ctx := rfl

theorem handed_succ (n : Nat) (ctx : anagram_context_t) :
    handed_chains (n + 1) ctx
      = if ctx.chain.length > 0 then
          (if ctx.next_subkey_to_add.isSome && breakdown_is_empty ctx.remaining_breakdown
            then [ctx.chain] else [])
          ++ (match compute_anagrams_step ctx with
              | none => []
              | some ctx1 => handed_chains n ctx1)
        else [] := rfl

/-- With an empty chain the loop does nothing. -/
theorem loop_of_chain_nil (n : Nat) {ctx : anagram_context_t} (h : ¬ ctx.chain.length > 0) :
    compute_anagrams_loop n ctx = some ctx := by
  cases n with
  | zero => rfl
  | succ n => rw [loop_succ, if_neg h]

theorem handed_of_chain_nil (n : Nat) {ctx : anagram_context_t} (h : ¬ ctx.chain.length > 0) :
    handed_chains n ctx = [] := by
  cases n with
  | zero => rfl
  | succ n => rw [handed_succ, if_neg h]

theorem loop_add (a b : Nat) :
    ∀ ctx, compute_anagrams_loop (a + b) ctx
      = (compute_anagrams_loop a ctx).bind (compute_anagrams_loop b) := by
  induction a with
  | zero => intro ctx; simp [compute_anagrams_loop]
  | succ a ih =>
    intro ctx
    rw [Nat.succ_add, loop_succ, loop_succ]
    split
    · cases hs : compute_anagrams_step ctx with
      | none => rfl
      | some c1 => exact ih c1
    · rename_i hlen
      exact (loop_of_chain_nil b hlen).symm

theorem handed_add (a b : Nat) :
    ∀ ctx, handed_chains (a + b) ctx
      = handed_chains a ctx ++
          (match compute_anagrams_loop a ctx with
            | none => []
            | some c1 => handed_chains b c1) := by
  induction a with
  | zero => intro ctx; simp [compute_anagrams_loop, handed_chains]
  | succ a ih =>
    intro ctx
    rw [Nat.succ_add, handed_succ, handed_succ, loop_succ]
    split
    · cases hs : compute_anagrams_step ctx with
      | none => simp
      | some c1 =>
        simp only [List.append_assoc]
        rw [ih c1]
        rfl
    · rename_i hlen
      simp only [List.nil_append]
      exact (handed_of_chain_nil b hlen).symm

theorem reach_refl (a : anagram_context_t) : Reach a a [] := ⟨0, rfl, rfl⟩

theorem reach_trans {a b c : anagram_context_t} {tr1 tr2 : List (List Nat)}
    (h1 : Reach a b tr1) (h2 : Reach b c tr2) : Reach a c (tr1 ++ tr2) := by
  obtain ⟨t1, hl1, ht1⟩ := h1
  obtain ⟨t2, hl2, ht2⟩ := h2
  refine ⟨t1 + t2, ?_, ?_⟩
  · rw [loop_add, hl1]; exact hl2
  · rw [handed_add, hl1, ht1]; simp [ht2]

theorem reach_step {a b : anagram_context_t} (hne : a.chain.length > 0)
    (h : compute_anagrams_step a = some b) :
    Reach a b (if a.next_subkey_to_add.isSome && breakdown_is_empty a.remaining_breakdown
      then [a.chain] else []) := by
  refine ⟨1, ?_, ?_⟩
  · simp [compute_anagrams_loop, hne, h]
  · simp [handed_chains, hne, h]

theorem emit_chains_nil (S : List keylink_t) (res : anagram_results_t) :
    emit_chains S res [] = res := rfl

theorem emit_chains_append (S : List keylink_t) (res : anagram_results_t)
    (a b : List (List Nat)) :
    emit_chains S res (a ++ b) = emit_chains S (emit_chains S res a) b := by
  simp [emit_chains, List.foldl_append]

theorem emit_chains_single (S : List keylink_t) (res : anagram_results_t) (c : List Nat) :
    emit_chains S res [c] = add_rows res c.length (chain_rows S c) := rfl

theorem mapM_chain_links (S : List keylink_t) :
    ∀ (c : List Nat), (∀ p ∈ c, p < S.length) →
      c.mapM (fun p => S[p]?) = some (chain_links S c) ∧ (chain_links S c).length = c.length := by
  intro c
  induction c with
  | nil => intro _; exact ⟨rfl, rfl⟩
  | cons p ps ih =>
    intro h
    obtain ⟨h1, h2⟩ := ih (fun q hq => h q (List.mem_cons_of_mem _ hq))
    have hp := h p (List.mem_cons_self _ _)
    have hget : S[p]? = some S[p] := List.getElem?_eq_getElem hp
    constructor
    · rw [List.mapM_cons, h1, hget]
      simp [chain_links, List.filterMap_cons, hget]
    · simp [chain_links, List.filterMap_cons, hget] at h2 ⊢
      exact h2

/-- The expander round at a solution: the rows of the chain are appended. -/
theorem step_expand (S : List keylink_t) (M : Nat) (c : List Nat) (rem : breakdown_t) (p : Nat)
    (res : anagram_results_t)
    (hu : breakdown_underflowed (fun idx => rem idx - key_at S p idx) = false)
    (he : breakdown_is_empty (fun idx => rem idx - key_at S p idx) = true)
    (hp : p < S.length) (hc : ∀ q ∈ c, q < S.length) :
    compute_anagrams_step (pushed_state S M c rem p res)
      = some (popped_state S M c rem p (emit_chains S res [c ++ [p]])) := by
  have hrange : ∀ q ∈ c ++ [p], q < S.length := by
    intro q hq
    rcases List.mem_append.mp hq with h | h
    · exact hc q h
    · simp only [List.mem_singleton] at h; omega
  obtain ⟨hl, hlen⟩ := mapM_chain_links S (c ++ [p]) hrange
  have hne : chain_links S (c ++ [p]) ≠ [] := by
    intro h0; rw [h0] at hlen; simp at hlen
  have hspec := expand_chain_spec (pushed_state S M c rem p res) (chain_links S (c ++ [p]))
    (by simpa [pushed_state, search_state] using hl) hne
  unfold compute_anagrams_step
  simp only [pushed_state, search_state, hu, Bool.false_eq_true, if_false, he, if_true] at hspec ⊢
  rw [hspec, emit_chains_single, hlen]
  rfl

/-- The extend round: the subkey on top of the chain is pushed once more. -/
theorem step_extend (S : List keylink_t) (M : Nat) (c : List Nat) (rem : breakdown_t) (p : Nat)
    (res : anagram_results_t) (hS : ∀ k ∈ S, letter_bag k.key) (hrem : letter_bag rem)
    (hu : breakdown_underflowed (fun idx => rem idx - key_at S p idx) = false)
    (he : breakdown_is_empty (fun idx => rem idx - key_at S p idx) = false)
    (hp : p < S.length) (hlen : c.length + 1 < M) :
    compute_anagrams_step (pushed_state S M c rem p res)
      = some (pushed_state S M (c ++ [p]) (fun idx => rem idx - key_at S p idx) p res) := by
  have hrange : ∀ idx, -1 ≤ rem idx - key_at S p idx ∧ rem idx - key_at S p idx ≤ 127 := by
    intro idx
    have h1 := hrem idx
    have h2 := key_at_nonneg hS p idx
    have h3 : ¬ rem idx - key_at S p idx < 0 := by
      intro hneg
      have : breakdown_underflowed (fun idx => rem idx - key_at S p idx) = true :=
        (breakdown_underflowed_iff _).mpr ⟨idx, hneg⟩
      rw [hu] at this; cases this
    constructor <;> omega
  have hpush := push_subkey_eq (pushed_state S M c rem p res) (c ++ [p])
    (fun idx => rem idx - key_at S p idx) p hrange (by simpa [pushed_state, search_state] using hS)
  unfold compute_anagrams_step
  simp only [pushed_state, search_state, hu, Bool.false_eq_true, if_false, he] at hpush ⊢
  rw [hpush, if_pos ⟨by simpa using hlen, hp⟩]
  simp [pushed, hu]

/-- The backtrack round when the popped subkey has a successor: the successor is pushed. -/
theorem step_backtrack_next (S : List keylink_t) (M : Nat) (c : List Nat) (rem : breakdown_t)
    (p : Nat) (res : anagram_results_t) (hS : ∀ k ∈ S, letter_bag k.key) (hrem : letter_bag rem)
    (hp : p + 1 < S.length) (hlen : c.length < M) :
    compute_anagrams_step (popped_state S M c rem p res)
      = some (pushed_state S M c rem (p + 1) res) := by
  have hp0 : p < S.length := by omega
  have hget : S[p]? = some S[p] := List.getElem?_eq_getElem hp0
  have hkey : key_at S p = S[p].key := key_at_of_get hget
  have hk := key_at_nonneg hS p
  have hadd := breakdown_add_spec (a := fun idx => rem idx - key_at S p idx) (b := S[p].key)
    (by intro idx; have := hrem idx; rw [← hkey]; simp only; omega)
    (by intro idx; have := hrem idx; rw [← hkey]; simp only; omega)
  have hfun : (fun idx => rem idx - key_at S p idx + S[p].key idx) = rem := by
    funext idx; rw [← hkey]; omega
  rw [hfun] at hadd
  have hpush := push_subkey_eq (popped_state S M c rem p res) c rem (p + 1)
    (fun idx => ⟨by have := (hrem idx).1; omega, (hrem idx).2⟩)
    (by simpa [popped_state, search_state] using hS)
  unfold compute_anagrams_step
  simp only [popped_state, search_state, List.getLast?_concat, hget, hadd, hp, if_true, List.dropLast_concat] at hpush ⊢
  rw [hpush, if_pos ⟨hlen, trivial⟩]
  rfl

/-- The backtrack round when the popped subkey is the last of the list. -/
theorem step_backtrack_last (S : List keylink_t) (M : Nat) (c : List Nat) (rem : breakdown_t)
    (p : Nat) (res : anagram_results_t) (hS : ∀ k ∈ S, letter_bag k.key) (hrem : letter_bag rem)
    (hp0 : p < S.length) (hp : ¬ p + 1 < S.length) :
    compute_anagrams_step (popped_state S M c rem p res)
      = some (search_state S M c rem none res) := by
  have hget : S[p]? = some S[p] := List.getElem?_eq_getElem hp0
  have hkey : key_at S p = S[p].key := key_at_of_get hget
  have hk := key_at_nonneg hS p
  have hadd := breakdown_add_spec (a := fun idx => rem idx - key_at S p idx) (b := S[p].key)
    (by intro idx; have := hrem idx; rw [← hkey]; simp only; omega)
    (by intro idx; have := hrem idx; rw [← hkey]; simp only; omega)
  have hfun : (fun idx => rem idx - key_at S p idx + S[p].key idx) = rem := by
    funext idx; rw [← hkey]; omega
  rw [hfun] at hadd
  unfold compute_anagrams_step
  simp only [popped_state, search_state, List.getLast?_concat, hget, hadd, hp, if_false, List.dropLast_concat]

theorem dfs_succ (S : List keylink_t) (fuel : Nat) (rem : breakdown_t) (p : Nat) :
    dfs S (fuel + 1) rem p
      = if breakdown_underflowed (fun idx => rem idx - key_at S p idx) then []
        else if breakdown_is_empty (fun idx => rem idx - key_at S p idx) then [[p]]
        else ((List.range' p (S.length - p)).flatMap
                (fun q => dfs S fuel (fun idx => rem idx - key_at S p idx) q)).map
              (fun s => p :: s) := rfl

theorem key_at_sum_pos {S : List keylink_t} (hpos : ∀ k ∈ S, 0 < breakdown_sum k.key) {p : Nat}
    (hp : p < S.length) : 0 < breakdown_sum (key_at S p) := by
  have hget : S[p]? = some S[p] := List.getElem?_eq_getElem hp
  rw [key_at_of_get hget]
  exact hpos _ (List.getElem_mem hp)

theorem sum_pos_of_not_empty {a : breakdown_t} (hnn : ∀ idx, 0 ≤ a idx)
    (he : breakdown_is_empty a = false) : 0 < breakdown_sum a := by
  have : ¬ ∀ idx, a idx = 0 := by
    intro h
    rw [(breakdown_is_empty_iff a).mpr h] at he
    cases he
  push_neg at this
  obtain ⟨j, hj⟩ := this
  exact breakdown_sum_pos hnn j (lt_of_le_of_ne (hnn j) (Ne.symm hj))

/-- The rounds that search the later siblings of the subkey at `q`, given that every subtree
is searched as `dfs` says. -/
theorem reach_siblings (S : List keylink_t) (M : Nat) (f : Nat) (c : List Nat) (rem : breakdown_t)
    (hS : ∀ k ∈ S, letter_bag k.key) (hrem : letter_bag rem) (hlen : c.length < M)
    (hexp : ∀ q res, q < S.length →
      Reach (pushed_state S M c rem q res)
        (popped_state S M c rem q (emit_chains S res ((dfs S f rem q).map (fun s => c ++ s))))
        ((dfs S f rem q).map (fun s => c ++ s))) :
    ∀ (k q : Nat) (res : anagram_results_t), q + k + 1 = S.length →
      Reach (popped_state S M c rem q res)
        (search_state S M c rem none
          (emit_chains S res
            (((List.range' (q + 1) k).flatMap (dfs S f rem)).map (fun s => c ++ s))))
        (((List.range' (q + 1) k).flatMap (dfs S f rem)).map (fun s => c ++ s)) := by
  intro k
  induction k with
  | zero =>
    intro q res hq
    have hstep := step_backtrack_last S M c rem q res hS hrem (by omega) (by omega)
    have := reach_step (a := popped_state S M c rem q res) (by simp [popped_state, search_state])
      hstep
    simpa [popped_state, search_state, emit_chains_nil] using this
  | succ k ih =>
    intro q res hq
    have hstep := step_backtrack_next S M c rem q res hS hrem (by omega) hlen
    have h1 := reach_step (a := popped_state S M c rem q res)
      (by simp [popped_state, search_state]) hstep
    have h2 := hexp (q + 1) res (by omega)
    have h3 := ih (q + 1) (emit_chains S res ((dfs S f rem (q + 1)).map (fun s => c ++ s)))
      (by omega)
    have h := reach_trans (reach_trans h1 h2) h3
    have hr : List.range' (q + 1) (k + 1) = (q + 1) :: List.range' (q + 1 + 1) k :=
      List.range'_succ _ _ _
    rw [hr, List.flatMap_cons, List.map_append, emit_chains_append]
    simpa [popped_state, search_state] using h

/-- The search below one pushed subkey: the loop reaches the state in which that subkey is
due to be popped, having handed exactly the chains of `dfs` to the expander, in order. -/
theorem reach_subtree (S : List keylink_t) (M : Nat)
    (hS : ∀ k ∈ S, letter_bag k.key) (hpos : ∀ k ∈ S, 0 < breakdown_sum k.key) :
    ∀ (f : Nat) (c : List Nat) (rem : breakdown_t) (p : Nat) (res : anagram_results_t),
      letter_bag rem → breakdown_is_empty rem = false → breakdown_sum rem ≤ f →
      (c.length : Int) + breakdown_sum rem ≤ M → p < S.length → (∀ q ∈ c, q < S.length) →
      Reach (pushed_state S M c rem p res)
        (popped_state S M c rem p (emit_chains S res ((dfs S f rem p).map (fun s => c ++ s))))
        ((dfs S f rem p).map (fun s => c ++ s)) := by
  intro f
  induction f with
  | zero =>
    intro c rem p res hrem hne hsum _ _ _
    have := sum_pos_of_not_empty (fun idx => (hrem idx).1) hne
    omega
  | succ f ih =>
    intro c rem p res hrem hne hsum hcap hp hc
    have hkpos := key_at_sum_pos hpos hp
    have hknn := key_at_nonneg hS p
    have hsumsub := breakdown_sum_sub rem (key_at S p)
    rw [dfs_succ]
    cases hu : breakdown_underflowed (fun idx => rem idx - key_at S p idx) with
    | true =>
      simp only [if_true, List.map_nil, emit_chains_nil]
      have : pushed_state S M c rem p res = popped_state S M c rem p res := by
        simp [pushed_state, popped_state, hu]
      rw [this]
      exact reach_refl _
    | false =>
      have hnn1 : ∀ idx, 0 ≤ rem idx - key_at S p idx := by
        intro idx
        by_contra hneg
        have : breakdown_underflowed (fun idx => rem idx - key_at S p idx) = true :=
          (breakdown_underflowed_iff _).mpr ⟨idx, by omega⟩
        rw [hu] at this; cases this
      cases he : breakdown_is_empty (fun idx => rem idx - key_at S p idx) with
      | true =>
        simp only [Bool.false_eq_true, if_false, if_true, List.map_cons, List.map_nil]
        have hstep := step_expand S M c rem p res hu he hp hc
        have := reach_step (a := pushed_state S M c rem p res)
          (by simp [pushed_state, search_state]) hstep
        simpa [pushed_state, search_state, hu, he] using this
      | false =>
        simp only [Bool.false_eq_true, if_false]
        have hrem1 : letter_bag (fun idx => rem idx - key_at S p idx) := by
          intro idx
          have := hnn1 idx; have := hrem idx; have := hknn idx
          constructor <;> simp only <;> omega
        have hsum1pos := sum_pos_of_not_empty hnn1 he
        have hlen1 : c.length + 1 < M := by
          have : ((c.length : Int) + 1 : Int) < M := by omega
          exact_mod_cast this
        have hstep := step_extend S M c rem p res hS hrem hu he hp hlen1
        have h1 := reach_step (a := pushed_state S M c rem p res)
          (by simp [pushed_state, search_state]) hstep
        have hc1 : ∀ q ∈ c ++ [p], q < S.length := by
          intro q hq
          rcases List.mem_append.mp hq with h | h
          · exact hc q h
          · simp only [List.mem_singleton] at h; omega
        have hcap1 : ((c ++ [p]).length : Int)
            + breakdown_sum (fun idx => rem idx - key_at S p idx) ≤ M := by
          simp only [List.length_append, List.length_singleton, Nat.cast_add, Nat.cast_one]
          omega
        have hexp : ∀ q res, q < S.length →
            Reach (pushed_state S M (c ++ [p]) (fun idx => rem idx - key_at S p idx) q res)
              (popped_state S M (c ++ [p]) (fun idx => rem idx - key_at S p idx) q
                (emit_chains S res
                  ((dfs S f (fun idx => rem idx - key_at S p idx) q).map
                    (fun s => (c ++ [p]) ++ s))))
              ((dfs S f (fun idx => rem idx - key_at S p idx) q).map
                (fun s => (c ++ [p]) ++ s)) :=
          fun q res hq => ih (c ++ [p]) _ q res hrem1 he (by omega) hcap1 hq hc1
        have h2 := hexp p res hp
        have h3 := reach_siblings S M f (c ++ [p]) _ hS hrem1 (by simpa using hlen1) hexp
          (S.length - p - 1) p
          (emit_chains S res
            ((dfs S f (fun idx => rem idx - key_at S p idx) p).map (fun s => (c ++ [p]) ++ s)))
          (by omega)
        have h := reach_trans (reach_trans h1 h2) h3
        have hr : List.range' p (S.length - p) = p :: List.range' (p + 1) (S.length - p - 1) := by
          have : S.length - p = (S.length - p - 1) + 1 := by omega
          rw [this, List.range'_succ]
          simp
        have hmap : ∀ (l : List (List Nat)),
            (l.map (fun s => p :: s)).map (fun s => c ++ s) = l.map (fun s => (c ++ [p]) ++ s) := by
          intro l; simp [List.map_map]
        rw [hmap, hr, List.flatMap_cons, List.map_append, emit_chains_append]
        simpa [pushed_state, popped_state, search_state, hu, he] using h

/-- The complete run of the search from the state set up by `begin_anagram_context`: the
chain ends empty and exactly the chains of `all_solutions` are handed to the expander. -/
theorem reach_all (S : List keylink_t) (M : Nat) (R : breakdown_t) (res : anagram_results_t)
    (hS : ∀ k ∈ S, letter_bag k.key) (hpos : ∀ k ∈ S, 0 < breakdown_sum k.key)
    (hR : letter_bag R) (hRne : breakdown_is_empty R = false) (hcap : breakdown_sum R ≤ M)
    (hne : 0 < S.length) :
    Reach (pushed_state S M [] R 0 res)
      (search_state S M [] R none (emit_chains S res (all_solutions S R)))
      (all_solutions S R) := by
  have hsum := sum_pos_of_not_empty (fun idx => (hR idx).1) hRne
  have hF : breakdown_sum R ≤ ((breakdown_sum R).toNat : Int) := by
    rw [Int.toNat_of_nonneg (le_of_lt hsum)]
  have hexp : ∀ q res, q < S.length →
      Reach (pushed_state S M [] R q res)
        (popped_state S M [] R q
          (emit_chains S res ((dfs S (breakdown_sum R).toNat R q).map (fun s => [] ++ s))))
        ((dfs S (breakdown_sum R).toNat R q).map (fun s => [] ++ s)) :=
    fun q res hq => reach_subtree S M hS hpos _ [] R q res hR hRne hF
      (by simpa using hcap) hq (by intro q hq; cases hq)
  have hM : 0 < M := by
    have : (0 : Int) < M := by omega
    exact_mod_cast this
  have h1 := hexp 0 res hne
  have h2 := reach_siblings S M _ [] R hS hR (by simpa using hM) hexp (S.length - 1) 0
    (emit_chains S res ((dfs S (breakdown_sum R).toNat R 0).map (fun s => [] ++ s))) (by omega)
  have h := reach_trans h1 h2
  have hr : List.range S.length = 0 :: List.range' (0 + 1) (S.length - 1) := by
    rw [List.range_eq_range']
    have : S.length = (S.length - 1) + 1 := by omega
    rw [this, List.range'_succ]
    simp
  unfold all_solutions
  rw [hr, List.flatMap_cons, emit_chains_append]
  simpa using h

theorem dfs_head (S : List keylink_t) :
    ∀ (f : Nat) (rem : breakdown_t) (p : Nat) (s : List Nat), s ∈ dfs S f rem p →
      ∃ s1, s = p :: s1 := by
  intro f
  cases f with
  | zero => intro rem p s hs; cases hs
  | succ f =>
    intro rem p s hs
    rw [dfs_succ] at hs
    split at hs
    · cases hs
    · split at hs
      · simp only [List.mem_singleton] at hs
        exact ⟨[], hs⟩
      · simp only [List.mem_map] at hs
        obtain ⟨s1, _, rfl⟩ := hs
        exact ⟨s1, rfl⟩

/-- Every chain of `dfs` starts at `p`, has non-decreasing positions inside the subkey list,
and its keys sum to the remaining table. -/
theorem dfs_sound (S : List keylink_t) :
    ∀ (f : Nat) (rem : breakdown_t) (p : Nat) (s : List Nat), p < S.length →
      s ∈ dfs S f rem p →
      s.Chain' (fun a b => a ≤ b) ∧ (∀ q ∈ s, q < S.length) ∧
        ∀ idx, chain_sum S s idx = rem idx := by
  intro f
  induction f with
  | zero => intro rem p s _ hs; cases hs
  | succ f ih =>
    intro rem p s hp hs
    rw [dfs_succ] at hs
    split at hs
    · cases hs
    · split at hs
      · rename_i he
        simp only [List.mem_singleton] at hs
        subst hs
        refine ⟨List.chain'_singleton _, by simpa using hp, ?_⟩
        intro idx
        have := (breakdown_is_empty_iff _).mp he idx
        simp only at this
        rw [chain_sum_cons, chain_sum_nil]
        omega
      · simp only [List.mem_map, List.mem_flatMap, List.mem_range'_1] at hs
        obtain ⟨s1, ⟨q, hq, hs1⟩, rfl⟩ := hs
        have hq2 : q < S.length := by omega
        obtain ⟨h1, h2, h3⟩ := ih _ q s1 hq2 hs1
        obtain ⟨s2, rfl⟩ := dfs_head S f _ q s1 hs1
        refine ⟨List.Chain'.cons hq.1 h1, ?_, ?_⟩
        · intro x hx
          rcases List.mem_cons.mp hx with rfl | hx
          · exact hp
          · exact h2 x hx
        · intro idx
          rw [chain_sum_cons, h3 idx]
          omega

theorem dfs_nodup (S : List keylink_t) :
    ∀ (f : Nat) (rem : breakdown_t) (p : Nat), (dfs S f rem p).Nodup := by
  intro f
  induction f with
  | zero => intro rem p; exact List.nodup_nil
  | succ f ih =>
    intro rem p
    rw [dfs_succ]
    split
    · exact List.nodup_nil
    · split
      · exact List.nodup_singleton _
      · refine List.Nodup.map (fun a b h => List.tail_eq_of_cons_eq h) ?_
        rw [List.nodup_flatMap]
        refine ⟨fun q _ => ih _ q, ?_⟩
        refine List.Pairwise.imp ?_ (List.nodup_range' p (S.length - p))
        intro a b hab x hxa hxb
        obtain ⟨s1, h1⟩ := dfs_head S f _ a x hxa
        obtain ⟨s2, h2⟩ := dfs_head S f _ b x hxb
        rw [h1] at h2
        exact hab (List.head_eq_of_cons_eq h2)

theorem all_solutions_nodup (S : List keylink_t) (R : breakdown_t) :
    (all_solutions S R).Nodup := by
  unfold all_solutions
  rw [List.nodup_flatMap]
  refine ⟨fun q _ => dfs_nodup S _ R q, ?_⟩
  refine List.Pairwise.imp ?_ (List.nodup_range S.length)
  intro a b hab x hxa hxb
  obtain ⟨s1, h1⟩ := dfs_head S _ _ a x hxa
  obtain ⟨s2, h2⟩ := dfs_head S _ _ b x hxb
  rw [h1] at h2
  exact hab (List.head_eq_of_cons_eq h2)

theorem all_solutions_sound (S : List keylink_t) (R : breakdown_t) :
    ∀ s ∈ all_solutions S R, s.Chain' (fun a b => a ≤ b) ∧ (∀ q ∈ s, q < S.length) ∧
      ∀ idx, chain_sum S s idx = R idx := by
  intro s hs
  unfold all_solutions at hs
  simp only [List.mem_flatMap, List.mem_range] at hs
  obtain ⟨q, hq, hs⟩ := hs
  exact dfs_sound S _ R q s hq hs

/-- No two chains of `all_solutions` are permutations of one another. -/
theorem all_solutions_not_perm (S : List keylink_t) (R : breakdown_t) :
    (all_solutions S R).Pairwise (fun c1 c2 => ¬ c1.Perm c2) := by
  refine List.Pairwise.imp_of_mem ?_ (all_solutions_nodup S R)
  intro a b ha hb hab hperm
  have hsa := (all_solutions_sound S R a ha).1
  have hsb := (all_solutions_sound S R b hb).1
  rw [List.chain'_iff_pairwise] at hsa hsb
  exact hab (List.eq_of_perm_of_sorted hperm hsa hsb)

/-- Every chain of non-decreasing positions that starts at `p` and whose keys sum to the
remaining table is found by `dfs`. -/
theorem dfs_complete (S : List keylink_t) (hS : ∀ k ∈ S, letter_bag k.key)
    (hpos : ∀ k ∈ S, 0 < breakdown_sum k.key) :
    ∀ (f : Nat) (rem : breakdown_t) (p : Nat) (s : List Nat),
      (p :: s).Chain' (fun a b => a ≤ b) → (∀ q ∈ p :: s, q < S.length) →
      (∀ idx, chain_sum S (p :: s) idx = rem idx) → breakdown_sum rem ≤ f →
      (p :: s) ∈ dfs S f rem p := by
  intro f
  induction f with
  | zero =>
    intro rem p s _ hr hsum hf
    have hp := hr p (List.mem_cons_self _ _)
    have h1 := key_at_sum_pos hpos hp
    have h2 : breakdown_sum (key_at S p) ≤ breakdown_sum rem := by
      apply breakdown_sum_le
      intro idx
      have := hsum idx
      rw [chain_sum_cons] at this
      have := chain_sum_nonneg hS s idx
      omega
    omega
  | succ f ih =>
    intro rem p s hch hr hsum hf
    have hp := hr p (List.mem_cons_self _ _)
    have hrem1 : ∀ idx, rem idx - key_at S p idx = chain_sum S s idx := by
      intro idx
      have := hsum idx
      rw [chain_sum_cons] at this
      omega
    have hu : breakdown_underflowed (fun idx => rem idx - key_at S p idx) = false := by
      rw [Bool.eq_false_iff, Ne, breakdown_underflowed_iff]
      rintro ⟨idx, h⟩
      have := chain_sum_nonneg hS s idx
      simp only [hrem1] at h
      omega
    rw [dfs_succ, hu]
    simp only [Bool.false_eq_true, if_false]
    cases s with
    | nil =>
      have he : breakdown_is_empty (fun idx => rem idx - key_at S p idx) = true := by
        rw [breakdown_is_empty_iff]
        intro idx
        simp only [hrem1, chain_sum_nil]
      rw [he]
      simp
    | cons q s1 =>
      have hq := hr q (List.mem_cons_of_mem _ (List.mem_cons_self _ _))
      have hqpos := key_at_sum_pos hpos hq
      have he : breakdown_is_empty (fun idx => rem idx - key_at S p idx) = false := by
        rw [Bool.eq_false_iff, Ne, breakdown_is_empty_iff]
        intro h0
        have hz : ∀ idx, key_at S q idx = 0 := by
          intro idx
          have h1 := h0 idx
          simp only [hrem1, chain_sum_cons] at h1
          have := chain_sum_nonneg hS s1 idx
          have := (key_at_nonneg hS q idx).1
          omega
        have := breakdown_sum_zero hz
        omega
      rw [he]
      simp only [Bool.false_eq_true, if_false, List.mem_map, List.mem_flatMap, List.mem_range'_1]
      rw [List.chain'_cons] at hch
      refine ⟨q :: s1, ⟨q, ⟨hch.1, by omega⟩, ?_⟩, rfl⟩
      refine ih _ q s1 hch.2 (fun x hx => hr x (List.mem_cons_of_mem _ hx)) ?_ ?_
      · intro idx; exact (hrem1 idx).symm
      · have h1 := breakdown_sum_sub rem (key_at S p)
        have h2 := key_at_sum_pos hpos hp
        omega

theorem all_solutions_complete (S : List keylink_t) (R : breakdown_t)
    (hS : ∀ k ∈ S, letter_bag k.key) (hpos : ∀ k ∈ S, 0 < breakdown_sum k.key)
    (c : List Nat) (hne : c ≠ []) (hch : c.Chain' (fun a b => a ≤ b))
    (hr : ∀ q ∈ c, q < S.length) (hsum : ∀ idx, chain_sum S c idx = R idx) :
    c ∈ all_solutions S R := by
  obtain ⟨p, s, rfl⟩ := List.exists_cons_of_ne_nil hne
  unfold all_solutions
  simp only [List.mem_flatMap, List.mem_range]
  refine ⟨p, hr p (List.mem_cons_self _ _), dfs_complete S hS hpos _ R p s hch hr hsum ?_⟩
  exact Int.self_le_toNat _

theorem add_rows_not_done (res : anagram_results_t) (m : Nat) (rows : List (List str_t))
    (b : Bool) :
    add_rows { res with not_done := b } m rows = { add_rows res m rows with not_done := b } := rfl

theorem push_subkey_not_done (ctx : anagram_context_t) (b : Bool) (c : List Nat)
    (rem : breakdown_t) (p : Nat) :
    push_subkey (set_not_done ctx b) c rem p
      = (push_subkey ctx c rem p).map (fun c1 => set_not_done c1 b) := by
  unfold push_subkey set_not_done
  simp only
  split
  · cases ctx.subkeys[p]? with
    | none => rfl
    | some link =>
      simp only
      cases breakdown_subtract rem link.key with
      | none => rfl
      | some r => rfl
  · rfl

theorem expand_chain_not_done (ctx : anagram_context_t) (b : Bool) :
    expand_chain (set_not_done ctx b) = (expand_chain ctx).map (fun c1 => set_not_done c1 b) := by
  cases hl : ctx.chain.mapM (fun p => ctx.subkeys[p]?) with
  | none =>
    unfold expand_chain set_not_done
    simp only [hl]
    rfl
  | some links =>
    by_cases hne : links = []
    · subst hne
      unfold expand_chain set_not_done
      simp only [hl, List.map_nil, expander_loop_nil]
      rfl
    · rw [expand_chain_spec ctx links hl hne,
        expand_chain_spec (set_not_done ctx b) links (by simpa [set_not_done] using hl) hne]
      rfl

/-- The flag `not_done` has no influence on a round of the loop. -/
theorem step_not_done (ctx : anagram_context_t) (b : Bool) :
    compute_anagrams_step (set_not_done ctx b)
      = (compute_anagrams_step ctx).map (fun c1 => set_not_done c1 b) := by
  unfold compute_anagrams_step
  have h1 : (set_not_done ctx b).next_subkey_to_add = ctx.next_subkey_to_add := rfl
  have h2 : (set_not_done ctx b).remaining_breakdown = ctx.remaining_breakdown := rfl
  have h3 : (set_not_done ctx b).chain = ctx.chain := rfl
  have h4 : (set_not_done ctx b).subkeys = ctx.subkeys := rfl
  rw [h1, h2, h3, h4]
  cases ctx.next_subkey_to_add with
  | some next =>
    simp only
    split
    · exact expand_chain_not_done ctx b
    · split
      · rfl
      · exact push_subkey_not_done ctx b _ _ _
  | none =>
    simp only
    cases ctx.chain.getLast? with
    | none => rfl
    | some prev =>
      simp only
      cases ctx.subkeys[prev]? with
      | none => rfl
      | some link =>
        simp only
        cases breakdown_add ctx.remaining_breakdown link.key with
        | none => rfl
        | some rem =>
          simp only
          split
          · exact push_subkey_not_done ctx b _ _ _
          · rfl

theorem loop_not_done (n : Nat) :
    ∀ (ctx : anagram_context_t) (b : Bool),
      compute_anagrams_loop n (set_not_done ctx b)
        = (compute_anagrams_loop n ctx).map (fun c1 => set_not_done c1 b) := by
  induction n with
  | zero => intro ctx b; rfl
  | succ n ih =>
    intro ctx b
    rw [loop_succ, loop_succ, step_not_done]
    have h3 : (set_not_done ctx b).chain = ctx.chain := rfl
    rw [h3]
    split
    · cases compute_anagrams_step ctx with
      | none => rfl
      | some c1 => exact ih c1 b
    · rfl

theorem compute_anagrams_eq (ctx : anagram_context_t) (k : Nat) :
    compute_anagrams ctx k
      = (compute_anagrams_loop k ctx).map
          (fun c1 => set_not_done c1 (decide (c1.chain.length > 0))) := rfl

/-- A sequence of calls of `compute_anagrams` runs the loop for the sum of the budgets and
then stores `not_done`. -/
theorem calls_eq_loop :
    ∀ (budgets : List Nat) (ctx : anagram_context_t), budgets ≠ [] →
      compute_anagrams_calls ctx budgets
        = (compute_anagrams_loop budgets.sum ctx).map
            (fun c1 => set_not_done c1 (decide (c1.chain.length > 0))) := by
  intro budgets
  induction budgets with
  | nil => intro ctx h; exact absurd rfl h
  | cons k ks ih =>
    intro ctx _
    unfold compute_anagrams_calls
    rw [List.foldlM_cons, compute_anagrams_eq, List.sum_cons, loop_add]
    cases hk : compute_anagrams_loop k ctx with
    | none => rfl
    | some c1 =>
      simp only [Option.map_some', Option.bind_some]
      by_cases hks : ks = []
      · subst hks
        simp only [List.foldlM_nil, List.sum_nil]
        rfl
      · have := ih (set_not_done c1 (decide (c1.chain.length > 0))) hks
        unfold compute_anagrams_calls at this
        change List.foldlM compute_anagrams (set_not_done c1 (decide (c1.chain.length > 0))) ks
          = Option.map _ (compute_anagrams_loop ks.sum c1)
        rw [this, loop_not_done]
        cases compute_anagrams_loop ks.sum c1 with
        | none => rfl
        | some c2 => rfl

theorem breakdown_sum_bound {a : breakdown_t} (h : letter_bag a) :
    0 ≤ breakdown_sum a ∧ breakdown_sum a ≤ 3429 := by
  constructor
  · exact breakdown_sum_nonneg (fun idx => (h idx).1)
  · have h1 := breakdown_sum_le (a := a) (b := fun _ => 127) (fun idx => (h idx).2)
    have h2 : breakdown_sum (fun _ => 127) = 3429 := by decide
    omega

theorem toU32_of_small {x : Int} (h0 : 0 ≤ x) (h1 : x < 4294967296) : (toU32 x : Int) = x := by
  unfold toU32
  rw [Int.emod_eq_of_lt h0 h1, Int.toNat_of_nonneg h0]

theorem all_solutions_nil (R : breakdown_t) : all_solutions [] R = [] := rfl

/-- The complete run of the driver on an index built by `main`: `begin_anagram_context`
returns a context from which the loop reaches an empty chain, handing exactly the chains of
`all_solutions` to the expander and appending their rows. -/
theorem begin_run {hashtable : hashtable_t} {T I : breakdown_t} (ex : str_t)
    (hT : letter_bag T) (hI : letter_bag I)
    (hown : index_own hashtable) (hpos : index_pos hashtable) :
    ∃ ctx0, begin_anagram_context hashtable T I ex = some ctx0 ∧
      (∀ k ∈ ctx0.subkeys, letter_bag k.key) ∧ (∀ k ∈ ctx0.subkeys, 0 < breakdown_sum k.key) ∧
      ∃ t ctxf, compute_anagrams_loop t ctx0 = some ctxf ∧ ctxf.chain = [] ∧
        handed_chains t ctx0 = all_solutions ctx0.subkeys (fun idx => T idx - I idx) ∧
        ctxf.results = emit_chains ctx0.subkeys ctx0.results
          (all_solutions ctx0.subkeys (fun idx => T idx - I idx)) := by
  have hzero : ∀ (c : anagram_context_t), c.subkeys = [] → c.chain = [] →
      (∀ k ∈ c.subkeys, letter_bag k.key) ∧ (∀ k ∈ c.subkeys, 0 < breakdown_sum k.key) ∧
      ∃ t ctxf, compute_anagrams_loop t c = some ctxf ∧ ctxf.chain = [] ∧
        handed_chains t c = all_solutions c.subkeys (fun idx => T idx - I idx) ∧
        ctxf.results = emit_chains c.subkeys c.results
          (all_solutions c.subkeys (fun idx => T idx - I idx)) := by
    intro c hs hc
    rw [hs]
    refine ⟨?_, ?_, 0, c, rfl, hc, rfl, rfl⟩
    · intro k hk; cases hk
    · intro k hk; cases hk
  cases hu : breakdown_underflowed (fun idx => T idx - I idx) with
  | true => exact ⟨context_zero, begin_invalid ex hT hI hu, hzero _ rfl rfl⟩
  | false =>
    have hRnn : ∀ idx, 0 ≤ T idx - I idx := by
      intro idx
      by_contra hneg
      have : breakdown_underflowed (fun idx => T idx - I idx) = true :=
        (breakdown_underflowed_iff _).mpr ⟨idx, by omega⟩
      rw [hu] at this; cases this
    have hR : letter_bag (fun idx => T idx - I idx) := by
      intro idx
      have := hRnn idx; have := hT idx; have := hI idx
      constructor <;> simp only <;> omega
    cases hna : (!breakdown_is_empty I && breakdown_is_empty (fun idx => T idx - I idx)) with
    | true =>
      simp only [Bool.and_eq_true, Bool.not_eq_true'] at hna
      exact ⟨_, begin_alone ex hT hI hna.1 hna.2, hzero _ rfl rfl⟩
    | false =>
      have hbs := begin_search ex hT hI hown hu hna
      cases hS : find_subkeys hashtable (fun idx => T idx - I idx) (parse_excluded ex) with
      | nil =>
        rw [hS] at hbs
        exact ⟨context_zero, hbs, hzero _ rfl rfl⟩
      | cons first rest =>
        rw [hS] at hbs
        have hmem : ∀ k ∈ first :: rest,
            k ∈ find_subkeys hashtable (fun idx => T idx - I idx) (parse_excluded ex) := by
          intro k hk; rw [hS]; exact hk
        have hSbag : ∀ k ∈ first :: rest, letter_bag k.key :=
          fun k hk => subkeys_letter_bag hown k (hmem k hk)
        have hSpos : ∀ k ∈ first :: rest, 0 < breakdown_sum k.key :=
          fun k hk => subkeys_pos hpos k (hmem k hk)
        have hc := subkeys_contained first (hmem first (List.mem_cons_self _ _))
        have hfpos := hSpos first (List.mem_cons_self _ _)
        have hRne : breakdown_is_empty (fun idx => T idx - I idx) = false := by
          rw [Bool.eq_false_iff, Ne, breakdown_is_empty_iff]
          intro h0
          have hz : ∀ idx, first.key idx = 0 := by
            intro idx
            have := h0 idx; have := hc idx; have := (hSbag first (List.mem_cons_self _ _) idx).1
            simp only at *
            omega
          have := breakdown_sum_zero hz
          omega
        have hTb := breakdown_sum_bound hT
        have hIb := breakdown_sum_bound hI
        have hsub := breakdown_sum_sub T I
        have hM : (toU32 (max 1 (breakdown_sum T)) : Int) = max 1 (breakdown_sum T) :=
          toU32_of_small (by omega) (by omega)
        have hcap : breakdown_sum (fun idx => T idx - I idx)
            ≤ (toU32 (max 1 (breakdown_sum T)) : Int) := by
          rw [hM]; omega
        have hnu : breakdown_underflowed
            (fun idx => T idx - I idx - first.key idx) = false := by
          rw [Bool.eq_false_iff, Ne, breakdown_underflowed_iff]
          rintro ⟨idx, h⟩
          have := hc idx
          omega
        have hstate : ({ context_zero with
            subkeys := first :: rest
            chain_max_length := toU32 (max 1 (breakdown_sum T))
            chain := [0]
            remaining_breakdown := fun idx => T idx - I idx - first.key idx
            next_subkey_to_add := some 0 } : anagram_context_t)
            = pushed_state (first :: rest) (toU32 (max 1 (breakdown_sum T))) []
                (fun idx => T idx - I idx) 0 context_zero.results := by
          simp only [pushed_state, search_state, hnu, key_at, List.getElem?_cons_zero,
            List.nil_append, Bool.false_eq_true, if_false]
        simp only at hbs
        rw [hstate] at hbs
        obtain ⟨t, hl, ht⟩ := reach_all (first :: rest) (toU32 (max 1 (breakdown_sum T)))
          (fun idx => T idx - I idx) context_zero.results hSbag hSpos hR hRne hcap (by simp)
        exact ⟨_, hbs, hSbag, hSpos, t, _, hl, rfl, ht, rfl⟩

/-- The function `str_eq` is equality of byte strings. -/
theorem str_eq_iff (a b : str_t) : str_eq a b = true ↔ a = b := by
  unfold str_eq
  constructor
  · intro h
    split at h
    · rename_i hlen
      rw [List.all_eq_true] at h
      apply List.ext_getElem hlen
      intro i h1 h2
      have hz : (a[i], b[i]) ∈ List.zip a b := by
        rw [List.mem_iff_getElem]
        exact ⟨i, by simp [List.length_zip]; omega, by simp⟩
      simpa using h _ hz
    · cases h
  · rintro rfl
    simp only [if_true, List.all_eq_true, decide_eq_true_eq]
    intro p hp
    obtain ⟨i, hi, rfl⟩ := List.mem_iff_getElem.mp hp
    simp

theorem is_excluded_false {E : List str_t} {w : str_t} (h : is_excluded E w = false) :
    ∀ e ∈ E, str_eq w e = false := by
  intro e he
  unfold is_excluded at h
  rw [List.any_eq_false] at h
  simpa using h e he

/-- The shape of the context returned by `begin_anagram_context`, for any index and any
tables. -/
theorem begin_shape {hashtable : hashtable_t} {T I : breakdown_t} {ex : str_t}
    {ctx0 : anagram_context_t} (h : begin_anagram_context hashtable T I ex = some ctx0) :
    (ctx0.subkeys = [] ∨ ∃ R, ctx0.subkeys = find_subkeys hashtable R (parse_excluded ex)) ∧
      ∀ r ∈ ctx0.results.results, r.words = [] := by
  unfold begin_anagram_context at h
  split at h
  · cases h
  · split at h
    · cases Option.some.inj h
      exact ⟨Or.inl rfl, by intro r hr; cases hr⟩
    · split at h
      · cases Option.some.inj h
        refine ⟨Or.inl rfl, ?_⟩
        intro r hr
        simp only [begin_anagram_result, context_zero, List.nil_append, List.mem_singleton] at hr
        subst hr
        rfl
      · rename_i R v _ _ _
        simp only at h
        unfold setup_search at h
        split at h
        · cases Option.some.inj h
          exact ⟨Or.inl rfl, by intro r hr; cases hr⟩
        · rename_i first rest hS
          simp only at h
          split at h
          · cases h
          · split at h
            · cases Option.some.inj h
              exact ⟨Or.inr ⟨R, rfl⟩, by intro r hr; cases hr⟩
            · cases h

/-- Once the loop has emptied the chain, every sequence of calls with at least as many
rounds in total returns that final state, with `not_done` cleared. -/
theorem calls_of_loop_done {ctx0 ctxf : anagram_context_t} {t : Nat}
    (hl : compute_anagrams_loop t ctx0 = some ctxf) (hnil : ctxf.chain = [])
    {budgets : List Nat} (hne : budgets ≠ []) (hsum : t ≤ budgets.sum) :
    compute_anagrams_calls ctx0 budgets = some (set_not_done ctxf false) := by
  rw [calls_eq_loop budgets ctx0 hne]
  have : budgets.sum = t + (budgets.sum - t) := by omega
  rw [this, loop_add, hl]
  have h2 : compute_anagrams_loop (budgets.sum - t) ctxf = some ctxf :=
    loop_of_chain_nil _ (by rw [hnil]; simp)
  simp [h2, hnil]

/-- The chains handed to the expander in the first `n` rounds are an initial part of those
handed in a complete run. -/
theorem handed_prefix {ctx0 ctxf : anagram_context_t} {t : Nat}
    (hl : compute_anagrams_loop t ctx0 = some ctxf) (hnil : ctxf.chain = []) (n : Nat) :
    handed_chains n ctx0 <+: handed_chains t ctx0 := by
  by_cases hn : n ≤ t
  · have : t = n + (t - n) := by omega
    rw [this, handed_add]
    exact List.prefix_append _ _
  · have : n = t + (n - t) := by omega
    have h2 : handed_chains (n - t) ctxf = [] :=
      handed_of_chain_nil _ (by rw [hnil]; simp)
    rw [this, handed_add, hl]
    simp only
    rw [h2, List.append_nil]

theorem emit_chains_results (S : List keylink_t) (chains : List (List Nat)) :
    ∀ (res : anagram_results_t),
      (emit_chains S res chains).results = res.results ++
        chains.flatMap (fun c =>
          (chain_rows S c).map (fun words => { word_count := c.length, words := words })) := by
  induction chains with
  | nil => intro res; simp [emit_chains]
  | cons c cs ih =>
    intro res
    have : emit_chains S res (c :: cs) = emit_chains S (add_rows res c.length (chain_rows S c)) cs :=
      rfl
    rw [this, ih]
    simp [add_rows, List.flatMap_cons, List.append_assoc]

theorem breakdown_sum_add (a b : breakdown_t) :
    breakdown_sum (fun idx => a idx + b idx) = breakdown_sum a + breakdown_sum b := by
  simp [breakdown_sum_eq, Finset.sum_add_distrib]

theorem breakdown_sum_chain_sum (S : List keylink_t) (c : List Nat) :
    breakdown_sum (chain_sum S c) = (c.map (fun p => breakdown_sum (key_at S p))).sum := by
  induction c with
  | nil => exact breakdown_sum_zero (fun idx => chain_sum_nil S idx)
  | cons p ps ih =>
    have : chain_sum S (p :: ps) = fun idx => key_at S p idx + chain_sum S ps idx := by
      funext idx; exact chain_sum_cons S ps p idx
    rw [this, breakdown_sum_add, ih]
    simp

/-- Along a chain of non-decreasing positions in a subkey list that is non-increasing in the
sum of its keys, the sums do not increase. -/
theorem chain_sums_sorted (S : List keylink_t)
    (hsorted : S.Pairwise (fun a b => breakdown_sum a.key ≥ breakdown_sum b.key)) :
    ∀ (c : List Nat), c.Chain' (fun a b => a ≤ b) → (∀ p ∈ c, p < S.length) →
      (c.map (fun p => breakdown_sum (key_at S p))).Chain' (fun a b => a ≥ b) := by
  intro c
  induction c with
  | nil => intro _ _; exact List.chain'_nil
  | cons p ps ih =>
    intro hch hr
    cases ps with
    | nil => exact List.chain'_singleton _
    | cons q qs =>
      rw [List.chain'_cons] at hch
      have hp := hr p (List.mem_cons_self _ _)
      have hq := hr q (List.mem_cons_of_mem _ (List.mem_cons_self _ _))
      simp only [List.map_cons]
      rw [List.chain'_cons]
      refine ⟨?_, by simpa using ih hch.2 (fun x hx => hr x (List.mem_cons_of_mem _ hx))⟩
      rw [key_at_of_get (List.getElem?_eq_getElem hp), key_at_of_get (List.getElem?_eq_getElem hq)]
      by_cases hpq : p = q
      · subst hpq; exact le_refl _
      · exact (List.pairwise_iff_getElem.mp hsorted) p q hp hq (by omega)

theorem listencat_begin_words :
    begin_anagram_context example_index_words bag_listencat breakdown_zero []
      = some listencat_context := by
  rw [begin_eval example_index_words_classes []
    (breakdown_word_letter_bag bag_listencat_eq) (breakdown_word_letter_bag bag_empty_eq)
    (by decide) (by decide)]
  exact option_is_eq (by decide)

theorem cat_not_act_begin :
    begin_anagram_context example_index bag_cat breakdown_zero [97, 99, 116]
      = some cat_not_act_context := by
  rw [begin_eval example_index_classes [97, 99, 116]
    (breakdown_word_letter_bag bag_cat_eq) (breakdown_word_letter_bag bag_empty_eq)
    (by decide) (by decide)]
  exact option_is_eq (by decide)

theorem infix_flatMap_of_mem {α β : Type} {l : List α} {f : α → List β} {a : α} (h : a ∈ l) :
    f a <:+: l.flatMap f := by
  obtain ⟨l1, l2, rfl⟩ := List.append_of_mem h
  exact ⟨l1.flatMap f, l2.flatMap f, by simp [List.flatMap_append, List.flatMap_cons]⟩

/-! ## The claims -/

/-- C1 (completeness of the enumerator). For an index built by `main`, a query given by its
input and include strings and any exclude string, let `ctx0` be the context of
`begin_anagram_context` and `S = ctx0.subkeys` its subkey list. Every non-empty chain `c` of
non-decreasing positions of `S` whose keys sum to `T - I` is handed to the expander; and there
is a number `n` of rounds such that every sequence of calls of `compute_anagrams` with at least
`n` rounds in total ends with an empty chain and a result store that contains, as one block,
the records that the expander produces for `c`. -/
theorem enumerator_complete (words : List str_t) (hashtable : hashtable_t)
    (input must_include must_exclude : str_t) (T I : breakdown_t) (ctx0 : anagram_context_t)
    (hindex : index_of_entries words = some hashtable)
    (hT : breakdown_word input = some T) (hI : breakdown_word must_include = some I)
    (hbegin : begin_anagram_context hashtable T I must_exclude = some ctx0)
    (c : List Nat) (hne : c ≠ []) (hsorted : c.Chain' (fun a b => a ≤ b))
    (hrange : ∀ p ∈ c, p < ctx0.subkeys.length)
    (hsum : ∀ idx, chain_sum ctx0.subkeys c idx = T idx - I idx) :
    ∃ n, c ∈ handed_chains n ctx0 ∧
      ∀ budgets : List Nat, budgets ≠ [] → n ≤ budgets.sum →
        ∃ ctx ctxe, compute_anagrams_calls ctx0 budgets = some ctx ∧ ctx.chain = [] ∧
          expand_chain (search_state ctx0.subkeys ctx0.chain_max_length c breakdown_zero (some 0)
            { result_count := 0, not_done := true, results := [] }) = some ctxe ∧
          ctxe.results.results ≠ [] ∧
          ctxe.results.results <:+: ctx.results.results := by
  have hok := index_of_entries_ok hindex
  obtain ⟨ctx0', hb, hSbag, hSpos, t, ctxf, hl, hnil, hh, hres⟩ :=
    begin_run must_exclude (breakdown_word_letter_bag hT) (breakdown_word_letter_bag hI)
      hok.1 hok.2
  rw [hbegin] at hb
  cases Option.some.inj hb
  have hmem : c ∈ all_solutions ctx0.subkeys (fun idx => T idx - I idx) :=
    all_solutions_complete ctx0.subkeys _ hSbag hSpos c hne hsorted hrange hsum
  refine ⟨t, by rw [hh]; exact hmem, ?_⟩
  intro budgets hbne hsumb
  obtain ⟨hlinks, hlen⟩ := mapM_chain_links ctx0.subkeys c hrange
  have hlne : chain_links ctx0.subkeys c ≠ [] := by
    intro h0
    rw [h0] at hlen
    exact hne (List.length_eq_zero.mp hlen.symm)
  have hexp := expand_chain_spec
    (search_state ctx0.subkeys ctx0.chain_max_length c breakdown_zero (some 0)
      { result_count := 0, not_done := true, results := [] })
    (chain_links ctx0.subkeys c) hlinks hlne
  refine ⟨_, _, calls_of_loop_done hl hnil hbne hsumb, hnil, hexp, ?_, ?_⟩
  · have hpos : 0 < expander_fuel (chain_links ctx0.subkeys c) := by
      unfold expander_fuel
      apply List.prod_pos
      intro n hn
      simp only [List.mem_map] at hn
      obtain ⟨k, _, rfl⟩ := hn
      exact words_length_pos k
    simp only [add_rows, search_state, List.nil_append, ne_eq, List.map_eq_nil_iff,
      List.range_eq_nil]
    omega
  · have hinf := infix_flatMap_of_mem
      (f := fun c => (chain_rows ctx0.subkeys c).map
        (fun words => anagram_result_t.mk c.length words)) hmem
    have hsuf : (all_solutions ctx0.subkeys (fun idx => T idx - I idx)).flatMap
        (fun c => (chain_rows ctx0.subkeys c).map
          (fun words => anagram_result_t.mk c.length words))
        <:+: (set_not_done ctxf false).results.results := by
      simp only [set_not_done, hres, emit_chains_results]
      exact (List.suffix_append _ _).isInfix
    refine List.IsInfix.trans ?_ hsuf
    simpa [add_rows, search_state, hlen, chain_rows] using hinf

/-- Witness of C1: the chain (listen class, cat class) for the input `listencat` over the
example dictionary. -/
theorem enumerator_complete_witness :
    ∃ n, [0, 1] ∈ handed_chains n listencat_context ∧
      ∀ budgets : List Nat, budgets ≠ [] → n ≤ budgets.sum →
        ∃ ctx ctxe, compute_anagrams_calls listencat_context budgets = some ctx ∧ ctx.chain = [] ∧
          expand_chain (search_state listencat_context.subkeys
            listencat_context.chain_max_length [0, 1] breakdown_zero (some 0)
            { result_count := 0, not_done := true, results := [] }) = some ctxe ∧
          ctxe.results.results ≠ [] ∧
          ctxe.results.results <:+: ctx.results.results :=
  enumerator_complete example_dictionary example_index
    [108, 105, 115, 116, 101, 110, 99, 97, 116] [] [] bag_listencat breakdown_zero
    listencat_context example_index_eq bag_listencat_eq bag_empty_eq listencat_begin
    [0, 1] (by decide) (by simp) (by decide) (by decide)

/-- C2 (multiset closure). For an index built by `hashtable_add_word` from words with their
own tables and a query given by its input and include strings, every record that
`begin_anagram_context` followed by any calls of `compute_anagrams` puts in the result store
consists of words whose tables exist and add up, together with the table of the include, to
the table of the input, count by count. -/
theorem multiset_closure (words : List str_t) (hashtable : hashtable_t)
    (input must_include must_exclude : str_t) (T I : breakdown_t) (ctx0 ctx : anagram_context_t)
    (hindex : index_of_words words = some hashtable)
    (hT : breakdown_word input = some T) (hI : breakdown_word must_include = some I)
    (hbegin : begin_anagram_context hashtable T I must_exclude = some ctx0)
    (budgets : List Nat) (hcalls : compute_anagrams_calls ctx0 budgets = some ctx) :
    ∀ r ∈ ctx.results.results, ∃ bs : List breakdown_t,
      r.words.mapM breakdown_word = some bs ∧
      ∀ idx, (bs.map (fun b => b idx)).sum + I idx = T idx := by
  have hown := index_of_words_own hindex
  obtain ⟨ctx0', hb, hinv, hsub⟩ :=
    begin_driver_inv must_exclude (breakdown_word_letter_bag hT) (breakdown_word_letter_bag hI)
      hown
  rw [hbegin] at hb
  cases Option.some.inj hb
  have hfinal := driver_inv_calls hinv hcalls
  intro r hr
  obtain ⟨c, hrange, _, hsum, _, hF⟩ := hfinal.2 r hr
  have hown2 : ∀ k ∈ ctx0.subkeys, ∀ w ∈ k.words, breakdown_word w = some k.key := by
    rcases hsub with h | ⟨h, _⟩
    · rw [h]; intro k hk; cases hk
    · rw [h]; exact subkeys_own hown
  refine ⟨c.map (key_at ctx0.subkeys), ?_, ?_⟩
  · apply mapM_of_forall₂
    rw [List.forall₂_map_right_iff]
    refine List.Forall₂.imp ?_ hF
    intro w p ⟨k, hk, hw⟩
    rw [key_at_of_get hk]
    exact hown2 k (List.getElem?_mem hk) w hw
  · intro idx
    have := hsum idx
    simp only [chain_sum] at this
    simp only [List.map_map, Function.comp_def]
    omega

/-- Witness of C2: the query `cat` over the index of the example dictionary, after two calls
of `compute_anagrams`. -/
theorem multiset_closure_witness :
    ((compute_anagrams_calls cat_context [1, 4]).getD cat_context).results.results.length = 3 ∧
    ∀ r ∈ ((compute_anagrams_calls cat_context [1, 4]).getD cat_context).results.results,
      ∃ bs : List breakdown_t, r.words.mapM breakdown_word = some bs ∧
        ∀ idx, (bs.map (fun b => b idx)).sum + breakdown_zero idx = bag_cat idx :=
  ⟨by decide,
   multiset_closure example_dictionary example_index_words [99, 97, 116] [] [] bag_cat
    breakdown_zero cat_context _ example_index_words_eq bag_cat_eq bag_empty_eq cat_begin_words
    [1, 4] (getD_eq_some (by decide))⟩

/-- C3 (no forbidden words). For every index and every query, no word of a record that
`begin_anagram_context` followed by any calls of `compute_anagrams` puts in the result store
is byte-equal (`str_eq`) to a word obtained from the exclude string. -/
theorem no_forbidden_words (hashtable : hashtable_t) (T I : breakdown_t) (must_exclude : str_t)
    (ctx0 ctx : anagram_context_t)
    (hbegin : begin_anagram_context hashtable T I must_exclude = some ctx0)
    (budgets : List Nat) (hcalls : compute_anagrams_calls ctx0 budgets = some ctx) :
    ∀ r ∈ ctx.results.results, ∀ w ∈ r.words, ∀ e ∈ parse_excluded must_exclude,
      str_eq w e = false ∧ w ≠ e := by
  have hshape := begin_shape hbegin
  have hP : (∀ k ∈ ctx.subkeys, ∀ w ∈ k.words, is_excluded (parse_excluded must_exclude) w = false)
      ∧ ∀ r ∈ ctx.results.results, ∀ w ∈ r.words,
          is_excluded (parse_excluded must_exclude) w = false := by
    refine calls_invariant
      (fun c => (∀ k ∈ c.subkeys, ∀ w ∈ k.words,
          is_excluded (parse_excluded must_exclude) w = false)
        ∧ ∀ r ∈ c.results.results, ∀ w ∈ r.words,
          is_excluded (parse_excluded must_exclude) w = false)
      ?_ ?_ budgets ctx0 ctx ?_ hcalls
    · intro c c1 hc _ hstep
      refine ⟨by rw [(step_subkeys hstep).1]; exact hc.1, ?_⟩
      intro r hr w hw
      rcases step_result_words hstep r hr with h | h
      · exact hc.2 r h w hw
      · obtain ⟨k, hk, hwk⟩ := h w hw
        exact hc.1 k hk w hwk
    · intro c b hc
      exact hc
    · constructor
      · rcases hshape.1 with h | ⟨R, h⟩
        · rw [h]; intro k hk; cases hk
        · rw [h]; exact subkeys_not_excluded
      · intro r hr w hw
        rw [hshape.2 r hr] at hw
        cases hw
  intro r hr w hw e he
  have h := is_excluded_false (hP.2 r hr w hw) e he
  refine ⟨h, ?_⟩
  intro heq
  rw [(str_eq_iff w e).mpr heq] at h
  cases h

/-- Witness of C3: the query `cat` with the exclude string `act` over the example index. -/
theorem no_forbidden_words_witness :
    parse_excluded [97, 99, 116] = [[97, 99, 116]] ∧
    ((compute_anagrams_calls cat_not_act_context [5]).getD cat_not_act_context).results.results.length
      = 2 ∧
    ∀ r ∈ ((compute_anagrams_calls cat_not_act_context [5]).getD
        cat_not_act_context).results.results,
      ∀ w ∈ r.words, ∀ e ∈ parse_excluded [97, 99, 116], str_eq w e = false ∧ w ≠ e :=
  ⟨by decide, by decide,
   no_forbidden_words example_index bag_cat breakdown_zero [97, 99, 116] cat_not_act_context _
    cat_not_act_begin [5] (getD_eq_some (by decide))⟩

/-- C4 (no permutation duplicates). For an index built by `main` and any query, among the
chains handed to the expander in any number of rounds of the driver, in particular in a
complete run, no two (at different rounds) are permutations of one another; so no chain is
handed over twice. -/
theorem no_permutation_duplicates (words : List str_t) (hashtable : hashtable_t)
    (input must_include must_exclude : str_t) (T I : breakdown_t) (ctx0 : anagram_context_t)
    (hindex : index_of_entries words = some hashtable)
    (hT : breakdown_word input = some T) (hI : breakdown_word must_include = some I)
    (hbegin : begin_anagram_context hashtable T I must_exclude = some ctx0) (n : Nat) :
    (handed_chains n ctx0).Pairwise (fun c1 c2 => ¬ c1.Perm c2) := by
  have hok := index_of_entries_ok hindex
  obtain ⟨ctx0', hb, _, _, t, ctxf, hl, hnil, hh, _⟩ :=
    begin_run must_exclude (breakdown_word_letter_bag hT) (breakdown_word_letter_bag hI)
      hok.1 hok.2
  rw [hbegin] at hb
  cases Option.some.inj hb
  have hpre := handed_prefix hl hnil n
  rw [hh] at hpre
  exact List.Pairwise.sublist hpre.sublist (all_solutions_not_perm _ _)

/-- Witness of C4: the complete run for `listencat` over the example dictionary hands over
exactly one chain. -/
theorem no_permutation_duplicates_witness :
    handed_chains 8 listencat_context = [[0, 1]] ∧
    (handed_chains 8 listencat_context).Pairwise (fun c1 c2 => ¬ c1.Perm c2) :=
  ⟨by decide,
   no_permutation_duplicates example_dictionary example_index
    [108, 105, 115, 116, 101, 110, 99, 97, 116] [] [] bag_listencat breakdown_zero
    listencat_context example_index_eq bag_listencat_eq bag_empty_eq listencat_begin 8⟩

/-- C6 (canonical order). For an index built by `hashtable_add_word` from words with their
own tables and any query, along every chain handed to the expander the sums
`breakdown_sum(key)` of the chosen subkeys do not increase. -/
theorem canonical_order (words : List str_t) (hashtable : hashtable_t)
    (input must_include must_exclude : str_t) (T I : breakdown_t) (ctx0 : anagram_context_t)
    (hindex : index_of_words words = some hashtable)
    (hT : breakdown_word input = some T) (hI : breakdown_word must_include = some I)
    (hbegin : begin_anagram_context hashtable T I must_exclude = some ctx0) (n : Nat) :
    ∀ c ∈ handed_chains n ctx0,
      (c.map (fun p => breakdown_sum (key_at ctx0.subkeys p))).Chain' (fun a b => a ≥ b) := by
  have hown := index_of_words_own hindex
  obtain ⟨ctx0', hb, hinv, hsub⟩ :=
    begin_driver_inv must_exclude (breakdown_word_letter_bag hT) (breakdown_word_letter_bag hI)
      hown
  rw [hbegin] at hb
  cases Option.some.inj hb
  intro c hc
  obtain ⟨ctx1, hinv1, rfl, _, _⟩ :=
    mem_handed_chains (DriverInv ctx0.subkeys (fun idx => T idx - I idx)) driver_inv_step
      n ctx0 c hinv hc
  rcases hinv1.1 with ⟨_, hSbag, hs⟩ | ⟨hnil, _⟩
  · rcases hsub with h | ⟨h, _⟩
    · have hr := hs.in_range
      rw [h] at hr
      cases hch : ctx1.chain with
      | nil => exact List.chain'_nil
      | cons p ps =>
        rw [hch] at hr
        exact absurd (hr p (List.mem_cons_self _ _)) (Nat.not_lt_zero _)
    · refine chain_sums_sorted ctx0.subkeys ?_ ctx1.chain hs.sorted hs.in_range
      have hsorted := find_subkeys_sorted hashtable (fun idx => T idx - I idx)
        (parse_excluded must_exclude)
      rw [← h] at hsorted
      refine List.Pairwise.imp_of_mem ?_ hsorted
      intro a b ha hb hab
      have h1 := breakdown_sum_bound (hSbag a ha)
      have h2 := breakdown_sum_bound (hSbag b hb)
      have e1 := toU32_of_small h1.1 (by omega : breakdown_sum a.key < 4294967296)
      have e2 := toU32_of_small h2.1 (by omega : breakdown_sum b.key < 4294967296)
      have : (toU32 (breakdown_sum b.key) : Int) ≤ toU32 (breakdown_sum a.key) := by
        exact_mod_cast hab
      omega
  · rw [hnil]; exact List.chain'_nil

/-- Witness of C6: the chain handed over for `listencat` has the sums 6 and 3. -/
theorem canonical_order_witness :
    handed_chains 8 listencat_context = [[0, 1]] ∧
    ([0, 1].map (fun p => breakdown_sum (key_at listencat_context.subkeys p))) = [6, 3] ∧
    ∀ c ∈ handed_chains 8 listencat_context,
      (c.map (fun p => breakdown_sum (key_at listencat_context.subkeys p))).Chain'
        (fun a b => a ≥ b) :=
  ⟨by decide, by decide,
   canonical_order example_dictionary example_index_words
    [108, 105, 115, 116, 101, 110, 99, 97, 116] [] [] bag_listencat breakdown_zero
    listencat_context example_index_words_eq bag_listencat_eq bag_empty_eq
    listencat_begin_words 8⟩

/-- C7 (include alone). When the input table minus the include table is empty and the
include table is not, `begin_anagram_context` puts exactly one record, of `word_count` 0, in
the store, and no later call of `compute_anagrams` adds another record. -/
theorem include_alone (hashtable : hashtable_t) (T I : breakdown_t) (must_exclude : str_t)
    (hdiff : ∀ idx, T idx - I idx = 0) (hI : breakdown_is_empty I = false) :
    ∃ ctx0, begin_anagram_context hashtable T I must_exclude = some ctx0 ∧
      ctx0.results.results = [{ word_count := 0, words := [] }] ∧
      ctx0.results.result_count = 1 ∧
      ∀ budgets : List Nat, ∃ ctx, compute_anagrams_calls ctx0 budgets = some ctx ∧
        ctx.results.results = [{ word_count := 0, words := [] }] ∧
        ctx.results.result_count = 1 := by
  have hsub : breakdown_subtract T I = some (fun idx => T idx - I idx,
      !breakdown_underflowed (fun idx => T idx - I idx)) :=
    breakdown_subtract_spec (by intro idx; rw [hdiff]; decide) (by intro idx; rw [hdiff]; decide)
  have hfun : (fun idx => T idx - I idx) = breakdown_zero := by
    funext idx; rw [hdiff]; rfl
  have hu : breakdown_underflowed breakdown_zero = false := by decide
  have he : breakdown_is_empty breakdown_zero = true := by decide
  refine ⟨{ context_zero with results := begin_anagram_result context_zero.results 0 }, ?_,
    rfl, rfl, ?_⟩
  · unfold begin_anagram_context
    rw [hsub, hfun]
    simp only [hu, hI, he, Bool.not_false, Bool.not_true, Bool.false_eq_true, if_false,
      Bool.and_self, if_true]
  · intro budgets
    cases budgets with
    | nil => exact ⟨_, rfl, rfl, rfl⟩
    | cons k ks =>
      have hcalls := @calls_of_loop_done
        { context_zero with results := begin_anagram_result context_zero.results 0 } _ 0
        rfl rfl (k :: ks) (by simp) (Nat.zero_le _)
      exact ⟨_, hcalls, rfl, rfl⟩

/-- Witness of C7: input `cat` with include `cat`. -/
theorem include_alone_witness :
    ∃ ctx0, begin_anagram_context example_index bag_cat bag_cat [] = some ctx0 ∧
      ctx0.results.results = [{ word_count := 0, words := [] }] ∧
      ctx0.results.result_count = 1 ∧
      ∀ budgets : List Nat, ∃ ctx, compute_anagrams_calls ctx0 budgets = some ctx ∧
        ctx.results.results = [{ word_count := 0, words := [] }] ∧
        ctx.results.result_count = 1 :=
  include_alone example_index bag_cat bag_cat [] (by decide) (by decide)

/-- C8, as stated, fails: for the input `x` over the example dictionary no subkey exists, the
search is not set up, and the zero-initialised `remaining_breakdown` differs from `T - I`
minus the keys of the (empty) chain in the slot of `x`; the sums differ as well. -/
theorem sum_conservation_counterexample :
    index_of_entries example_dictionary = some example_index ∧
    breakdown_word [120] = some bag_x ∧ breakdown_word [] = some breakdown_zero ∧
    begin_anagram_context example_index bag_x breakdown_zero [] = some context_zero ∧
    context_zero.remaining_breakdown 23
      ≠ bag_x 23 - breakdown_zero 23 - chain_sum context_zero.subkeys context_zero.chain 23 ∧
    breakdown_sum context_zero.remaining_breakdown
        + (context_zero.chain.map (fun p => breakdown_sum (key_at context_zero.subkeys p))).sum
      ≠ breakdown_sum bag_x - breakdown_sum breakdown_zero :=
  ⟨example_index_eq, bag_x_eq, bag_empty_eq, x_begin, by decide, by decide⟩

/-- C8, amended (sum conservation once the search is set up). For an index built by
`hashtable_add_word` from words with their own tables and a query given by its input and
include strings, if the subkey list built by `begin_anagram_context` is not empty, then in the
state it returns and after every round of `compute_anagrams` the remaining table is `T - I`
minus the keys of the subkeys on the chain, count by count; in particular
`sum(remaining) + Σ sum(key) = sum(T) - sum(I)`. -/
theorem sum_conservation (words : List str_t) (hashtable : hashtable_t)
    (input must_include must_exclude : str_t) (T I : breakdown_t) (ctx0 ctx : anagram_context_t)
    (hindex : index_of_words words = some hashtable)
    (hT : breakdown_word input = some T) (hI : breakdown_word must_include = some I)
    (hbegin : begin_anagram_context hashtable T I must_exclude = some ctx0)
    (hsetup : ctx0.subkeys ≠ []) (n : Nat) (hloop : compute_anagrams_loop n ctx0 = some ctx) :
    (∀ idx, ctx.remaining_breakdown idx
        = T idx - I idx - chain_sum ctx.subkeys ctx.chain idx) ∧
    breakdown_sum ctx.remaining_breakdown
        + (ctx.chain.map (fun p => breakdown_sum (key_at ctx.subkeys p))).sum
      = breakdown_sum T - breakdown_sum I := by
  have hown := index_of_words_own hindex
  obtain ⟨ctx0', hb, _, hsub⟩ :=
    begin_driver_inv must_exclude (breakdown_word_letter_bag hT) (breakdown_word_letter_bag hI)
      hown
  rw [hbegin] at hb
  cases Option.some.inj hb
  rcases hsub with h | ⟨_, hR, hSbag, hs0⟩
  · exact absurd h hsetup
  · have hs := loop_invariant (SearchInv ctx0.subkeys (fun idx => T idx - I idx))
      (fun c c1 hc _ hstep => step_preserves_inv hR hSbag hc hstep) n ctx0 ctx hs0 hloop
    have hpt : ∀ idx, ctx.remaining_breakdown idx
        = T idx - I idx - chain_sum ctx.subkeys ctx.chain idx := by
      intro idx
      rw [hs.subkeys_eq]
      exact hs.remaining_eq idx
    refine ⟨hpt, ?_⟩
    have hfun : ctx.remaining_breakdown
        = fun idx => (T idx - I idx) - chain_sum ctx.subkeys ctx.chain idx := funext hpt
    rw [hfun, breakdown_sum_sub (fun idx => T idx - I idx) (chain_sum ctx.subkeys ctx.chain),
      breakdown_sum_sub T I, breakdown_sum_chain_sum]
    omega

/-- Witness of C8 (amended): the query `listencat` after three rounds. -/
theorem sum_conservation_witness :
    ((compute_anagrams_loop 3 listencat_context).getD listencat_context).chain = [0, 1] ∧
    (∀ idx, ((compute_anagrams_loop 3 listencat_context).getD
          listencat_context).remaining_breakdown idx
        = bag_listencat idx - breakdown_zero idx
          - chain_sum ((compute_anagrams_loop 3 listencat_context).getD listencat_context).subkeys
              ((compute_anagrams_loop 3 listencat_context).getD listencat_context).chain idx) ∧
    breakdown_sum ((compute_anagrams_loop 3 listencat_context).getD
          listencat_context).remaining_breakdown
        + (((compute_anagrams_loop 3 listencat_context).getD listencat_context).chain.map
            (fun p => breakdown_sum (key_at
              ((compute_anagrams_loop 3 listencat_context).getD listencat_context).subkeys p))).sum
      = breakdown_sum bag_listencat - breakdown_sum breakdown_zero :=
  ⟨by decide,
   sum_conservation example_dictionary example_index_words
    [108, 105, 115, 116, 101, 110, 99, 97, 116] [] [] bag_listencat breakdown_zero
    listencat_context _ example_index_words_eq bag_listencat_eq bag_empty_eq
    listencat_begin_words (by decide) 3 (getD_eq_some (by decide))⟩

/-- C9 (termination). For an index built by `main` and a query given by its input and include
strings, `begin_anagram_context` returns a context, and there is a number `n` such that after
any sequence of calls of `compute_anagrams` that grants at least `n` rounds in total the chain
is empty and `results.not_done` is false; from then on `compute_anagrams` changes nothing, in
particular neither the chain nor the result store. -/
theorem termination (words : List str_t) (hashtable : hashtable_t)
    (input must_include must_exclude : str_t) (T I : breakdown_t)
    (hindex : index_of_entries words = some hashtable)
    (hT : breakdown_word input = some T) (hI : breakdown_word must_include = some I) :
    ∃ ctx0, begin_anagram_context hashtable T I must_exclude = some ctx0 ∧
      ∃ n, ∀ budgets : List Nat, budgets ≠ [] → n ≤ budgets.sum →
        ∃ ctx, compute_anagrams_calls ctx0 budgets = some ctx ∧ ctx.chain = [] ∧
          ctx.results.not_done = false ∧ ∀ k, compute_anagrams ctx k = some ctx := by
  have hok := index_of_entries_ok hindex
  obtain ⟨ctx0, hb, _, _, t, ctxf, hl, hnil, _, _⟩ :=
    begin_run must_exclude (breakdown_word_letter_bag hT) (breakdown_word_letter_bag hI)
      hok.1 hok.2
  refine ⟨ctx0, hb, t, ?_⟩
  intro budgets hne hsum
  refine ⟨_, calls_of_loop_done hl hnil hne hsum, hnil, rfl, ?_⟩
  intro k
  have hnil2 : (set_not_done ctxf false).chain = [] := hnil
  rw [compute_anagrams_eq, loop_of_chain_nil k (by rw [hnil2]; simp)]
  simp [hnil, set_not_done]

/-- Witness of C9: the query `listencat` over the example dictionary. -/
theorem termination_witness :
    ∃ ctx0, begin_anagram_context example_index bag_listencat breakdown_zero [] = some ctx0 ∧
      ∃ n, ∀ budgets : List Nat, budgets ≠ [] → n ≤ budgets.sum →
        ∃ ctx, compute_anagrams_calls ctx0 budgets = some ctx ∧ ctx.chain = [] ∧
          ctx.results.not_done = false ∧ ∀ k, compute_anagrams ctx k = some ctx :=
  termination example_dictionary example_index [108, 105, 115, 116, 101, 110, 99, 97, 116] []
    [] bag_listencat breakdown_zero example_index_eq bag_listencat_eq bag_empty_eq

/-- C5 (the expander emits the full product, first slot fastest). When the loop body runs at a
solution (`next_subkey_to_add` set, remaining table empty) whose chain consists of the subkeys
`links = (k₁, …, kₘ)`, it appends exactly `n₁ ⋯ nₘ` records, `nⱼ` the number of words of `kⱼ`;
record `r` (from 0) has `m` slots and in slot `j` (from 0) the word at position
`(r / (n₁ ⋯ n_{j})) % n_{j+1}` of the word list of the `j`-th subkey, so the first slot varies
fastest. For the input `listencat` over the example dictionary this gives nine pairs whose
first word comes from the six-letter class. -/
theorem expander_product (ctx : anagram_context_t) (next : Nat) (links : List keylink_t)
    (hnext : ctx.next_subkey_to_add = some next)
    (hempty : breakdown_is_empty ctx.remaining_breakdown = true)
    (hlinks : ctx.chain.mapM (fun p => ctx.subkeys[p]?) = some links) (hne : links ≠ []) :
    (∃ ctx1 rows, compute_anagrams_step ctx = some ctx1 ∧
      ctx1.results.results = ctx.results.results ++ rows ∧
      rows.length = (links.map (fun l => l.words.length)).prod ∧
      ∀ r, r < rows.length → ∃ record, rows[r]? = some record ∧
        record.word_count = links.length ∧ record.words.length = links.length ∧
        ∀ j, j < links.length →
          record.words[j]? = (links[j]?).bind (fun l =>
            l.words[(r / ((links.take j).map (fun l => l.words.length)).prod)
              % l.words.length]?)) ∧
    (index_of_entries example_dictionary = some example_index ∧
      breakdown_word [108, 105, 115, 116, 101, 110, 99, 97, 116] = some bag_listencat ∧
      begin_anagram_context example_index bag_listencat breakdown_zero []
        = some listencat_context ∧
      (compute_anagrams listencat_context 3).map (fun c => c.results.results) = some
        [{ word_count := 2, words := [[116, 105, 110, 115, 101, 108], [116, 97, 99]] },
         { word_count := 2, words := [[115, 105, 108, 101, 110, 116], [116, 97, 99]] },
         { word_count := 2, words := [[108, 105, 115, 116, 101, 110], [116, 97, 99]] },
         { word_count := 2, words := [[116, 105, 110, 115, 101, 108], [97, 99, 116]] },
         { word_count := 2, words := [[115, 105, 108, 101, 110, 116], [97, 99, 116]] },
         { word_count := 2, words := [[108, 105, 115, 116, 101, 110], [97, 99, 116]] },
         { word_count := 2, words := [[116, 105, 110, 115, 101, 108], [99, 97, 116]] },
         { word_count := 2, words := [[115, 105, 108, 101, 110, 116], [99, 97, 116]] },
         { word_count := 2, words := [[108, 105, 115, 116, 101, 110], [99, 97, 116]] }]) := by
  refine ⟨?_, example_index_eq, bag_listencat_eq, listencat_begin, by decide⟩
  have hstep : compute_anagrams_step ctx = expand_chain ctx := by
    unfold compute_anagrams_step
    rw [hnext]
    simp only [hempty, if_true]
  refine ⟨_, ((List.range (expander_fuel links)).map
      (odometer_row (links.map keylink_t.words))).map
      (fun words => { word_count := links.length, words := words }),
    by rw [hstep]; exact expand_chain_spec ctx links hlinks hne, rfl, ?_, ?_⟩
  · simp [expander_fuel]
  · intro r hr
    simp only [List.length_map, List.length_range] at hr
    refine ⟨{ word_count := links.length,
              words := odometer_row (links.map keylink_t.words) r }, ?_, rfl, ?_, ?_⟩
    · simp [List.getElem?_map, List.getElem?_range hr]
    · simp [odometer_row_length]
    · intro j _
      simp only
      rw [odometer_row_slot _ (words_ne_nil links)]
      simp only [List.getElem?_map, ← List.map_take, List.map_map, Function.comp_def]
      cases links[j]? with
      | none => rfl
      | some l => rfl

/-- Witness of C5: the solution state of the query `cat`, reached by no round at all (the
first subkey uses up the input). -/
theorem expander_product_witness :
    ∃ ctx1 rows, compute_anagrams_step cat_context = some ctx1 ∧
      ctx1.results.results = cat_context.results.results ++ rows ∧
      rows.length = ([class_cat].map (fun l => l.words.length)).prod ∧
      ∀ r, r < rows.length → ∃ record, rows[r]? = some record ∧
        record.word_count = [class_cat].length ∧ record.words.length = [class_cat].length ∧
        ∀ j, j < [class_cat].length →
          record.words[j]? = ([class_cat][j]?).bind (fun l =>
            l.words[(r / (([class_cat].take j).map (fun l => l.words.length)).prod)
              % l.words.length]?) :=
  (expander_product cat_context 0 [class_cat] rfl (by decide) rfl (by decide)).1

/-- C10, as stated, fails: for the input `cat` over the example dictionary one round of the
loop (`compute_anagrams(ctx, 1)`) appends three records to the empty store. -/
theorem one_step_one_row_counterexample :
    index_of_entries example_dictionary = some example_index ∧
    breakdown_word [99, 97, 116] = some bag_cat ∧
    begin_anagram_context example_index bag_cat breakdown_zero [] = some cat_context ∧
    cat_context.results.results = [] ∧
    (compute_anagrams cat_context 1).map (fun c => c.results.results.length) = some 3 :=
  ⟨example_index_eq, bag_cat_eq, cat_begin, rfl, by decide⟩

/-- C10, amended (the three kinds of rounds). Every round of the loop of `compute_anagrams`
that returns is exactly one of: one run of the expander, which appends one record for every
word combination of the chain (`n₁ ⋯ nₘ` records) and leaves the chain as it is; one extend
attempt, which pushes `next_subkey_to_add` and appends no record; or one backtrack, which pops
the last subkey, pushes its successor if there is one, and appends no record. -/
theorem step_kinds (ctx ctx1 : anagram_context_t)
    (hstep : compute_anagrams_step ctx = some ctx1) :
    (ctx.next_subkey_to_add.isSome = true ∧
        breakdown_is_empty ctx.remaining_breakdown = true ∧
        ∃ links, ctx.chain.mapM (fun p => ctx.subkeys[p]?) = some links ∧
          ctx1.chain = ctx.chain ∧
          ctx1.results.results.length
            = ctx.results.results.length + (links.map (fun l => l.words.length)).prod) ∨
    (breakdown_is_empty ctx.remaining_breakdown = false ∧
        ∃ next, ctx.next_subkey_to_add = some next ∧ ctx1.chain = ctx.chain ++ [next] ∧
          ctx1.results = ctx.results) ∨
    (ctx.next_subkey_to_add = none ∧
        ∃ prev, ctx.chain.getLast? = some prev ∧
          (ctx1.chain = ctx.chain.dropLast ++ [prev + 1] ∨ ctx1.chain = ctx.chain.dropLast) ∧
          ctx1.results = ctx.results) := by
  rcases step_cases hstep with ⟨next, hn, he, hexp⟩ | ⟨next, hn, he, hp⟩ |
    ⟨hn, prev, link, rem, hlast, _, _, hc⟩
  · left
    obtain ⟨links, _, hlinks, rfl⟩ := expand_chain_some hexp
    refine ⟨by rw [hn]; rfl, he, links, hlinks, rfl, ?_⟩
    simp [add_rows, expander_fuel]
  · right; left
    have := push_subkey_some hp
    exact ⟨he, next, hn, this.2.2.2.1, this.2.2.1⟩
  · right; right
    refine ⟨hn, prev, hlast, ?_⟩
    rcases hc with ⟨_, hp⟩ | ⟨_, rfl⟩
    · have := push_subkey_some hp
      exact ⟨Or.inl this.2.2.2.1, this.2.2.1⟩
    · exact ⟨Or.inr rfl, rfl⟩

/-- Witness of C10 (amended): the first round for the query `cat` is a run of the expander
that appends three records. -/
theorem step_kinds_witness :
    ((compute_anagrams_step cat_context).getD cat_context).results.results.length = 3 ∧
    ((cat_context.next_subkey_to_add.isSome = true ∧
        breakdown_is_empty cat_context.remaining_breakdown = true ∧
        ∃ links, cat_context.chain.mapM (fun p => cat_context.subkeys[p]?) = some links ∧
          ((compute_anagrams_step cat_context).getD cat_context).chain = cat_context.chain ∧
          ((compute_anagrams_step cat_context).getD cat_context).results.results.length
            = cat_context.results.results.length
              + (links.map (fun l => l.words.length)).prod) ∨
    (breakdown_is_empty cat_context.remaining_breakdown = false ∧
        ∃ next, cat_context.next_subkey_to_add = some next ∧
          ((compute_anagrams_step cat_context).getD cat_context).chain
            = cat_context.chain ++ [next] ∧
          ((compute_anagrams_step cat_context).getD cat_context).results
            = cat_context.results) ∨
    (cat_context.next_subkey_to_add = none ∧
        ∃ prev, cat_context.chain.getLast? = some prev ∧
          (((compute_anagrams_step cat_context).getD cat_context).chain
              = cat_context.chain.dropLast ++ [prev + 1] ∨
            ((compute_anagrams_step cat_context).getD cat_context).chain
              = cat_context.chain.dropLast) ∧
          ((compute_anagrams_step cat_context).getD cat_context).results
            = cat_context.results)) :=
  ⟨by decide, step_kinds cat_context _ (getD_eq_some (by decide))⟩

theorem search_anagrams_eval {hashtable : hashtable_t} {C : List keylink_t}
    (hcls : classes hashtable = C) (fuel : Nat) (T R : breakdown_t) (inc ex : str_t)
    (n : Int) :
    search_anagrams hashtable fuel T R inc ex n
      = search_from (C.foldl (scan_class_result R (parse_excluded ex)) []) fuel T R inc n := by
  unfold search_anagrams
  rw [find_subkeys_eq, hcls]


theorem wrap32_id {x : Int} (h1 : -2147483648 ≤ x) (h2 : x < 2147483648) : wrap32 x = x := by
  unfold wrap32; omega

/-- The table of the missing letters is a letter table. -/
theorem missing_letter_bag {T I : breakdown_t} (hT : letter_bag T) (hI : letter_bag I) :
    letter_bag (fun idx => max 0 (I idx - T idx)) := by
  intro idx
  have := hT idx
  have := hI idx
  constructor
  · exact le_max_left _ _
  · exact max_le (by omega) (by omega)

/-- The body of `list_anagrams_for` when some letter of the include is missing in the input:
the report of the missing letters, then the output of the call for the missing letters. -/
theorem list_body_shortfall
    (recurse : breakdown_t → str_t → str_t → Int → Option (List print_t))
    (hashtable : hashtable_t) (fuel : Nat) {T I : breakdown_t} {inc : str_t} (ex : str_t)
    (n : Int) (hT : letter_bag T) (hinc : breakdown_word inc = some I)
    (hu : ∃ idx, T idx < I idx) :
    list_anagrams_body recurse hashtable fuel T inc ex n
      = (recurse (fun idx => max 0 (I idx - T idx)) [] [] 20).map
          (fun additions => missing_report (fun idx => max 0 (I idx - T idx)) ++ additions) := by
  have hI := breakdown_word_letter_bag hinc
  have hund : breakdown_underflowed (fun idx => T idx - I idx) = true := by
    rw [breakdown_underflowed_iff]
    obtain ⟨idx, h⟩ := hu
    exact ⟨idx, by omega⟩
  unfold list_anagrams_body
  rw [hinc]
  simp only [subtract_letter_bags hT hI, subtract_letter_bags hI hT, hund, Bool.not_true,
    Bool.not_false, if_true]
  rfl

/-- The body of `list_anagrams_for` when the include fits into the input. -/
theorem list_body_valid
    (recurse : breakdown_t → str_t → str_t → Int → Option (List print_t))
    (hashtable : hashtable_t) (fuel : Nat) {T I : breakdown_t} {inc : str_t} (ex : str_t)
    (n : Int) (hT : letter_bag T) (hinc : breakdown_word inc = some I)
    (hu : ¬ ∃ idx, T idx < I idx) :
    list_anagrams_body recurse hashtable fuel T inc ex n
      = if breakdown_is_empty (fun idx => T idx - I idx) then
          some [print_t.include_only inc]
        else search_anagrams hashtable fuel T (fun idx => T idx - I idx) inc ex n := by
  have hI := breakdown_word_letter_bag hinc
  have hund : breakdown_underflowed (fun idx => T idx - I idx) = false := by
    rw [Bool.eq_false_iff, Ne, breakdown_underflowed_iff]
    rintro ⟨idx, h⟩
    exact hu ⟨idx, by omega⟩
  unfold list_anagrams_body
  rw [hinc]
  simp only [subtract_letter_bags hT hI, hund, Bool.not_false, Bool.not_true,
    Bool.false_eq_true, if_false]

/-- A call of `list_anagrams_for` for a table of missing letters, with empty include and
exclude, runs the search for this table. -/
theorem list_missing (hashtable : hashtable_t) (depth fuel : Nat) {T I : breakdown_t}
    (hT : letter_bag T) (hI : letter_bag I) (hu : ∃ idx, T idx < I idx) (n : Int) :
    breakdown_is_empty (fun idx => max 0 (I idx - T idx)) = false ∧
    list_anagrams_for hashtable (depth + 1) fuel (fun idx => max 0 (I idx - T idx)) [] [] n
      = search_anagrams hashtable fuel (fun idx => max 0 (I idx - T idx))
          (fun idx => max 0 (I idx - T idx)) [] [] n := by
  have hM := missing_letter_bag hT hI
  have hne : breakdown_is_empty (fun idx => max 0 (I idx - T idx)) = false := by
    rw [Bool.eq_false_iff, Ne, breakdown_is_empty_iff]
    intro h
    obtain ⟨idx, hlt⟩ := hu
    have := h idx
    simp only at this
    have h2 : I idx - T idx ≤ max 0 (I idx - T idx) := le_max_right _ _
    omega
  refine ⟨hne, ?_⟩
  have hsub : (fun idx => max 0 (I idx - T idx) - breakdown_zero idx)
      = fun idx => max 0 (I idx - T idx) := by
    funext idx; simp [breakdown_zero]
  have hv : ¬ ∃ idx, max 0 (I idx - T idx) < breakdown_zero idx := by
    rintro ⟨idx, h⟩
    have := (hM idx).1
    simp only [breakdown_zero] at h
    omega
  show list_anagrams_body _ hashtable fuel _ [] [] n = _
  rw [list_body_valid _ hashtable fuel [] n hM bag_empty_eq hv, hsub, hne]
  simp


/-- Induction principle for the printing loop: a property of the counter and the output that
every printed row preserves holds when the loop is left. -/
theorem print_rows_invariant (P : Int → List print_t → Prop) (links : List keylink_t)
    (inc : str_t) (n : Int)
    (hrow : ∀ rc out words, (n < 0 ∨ rc < n) → P rc out →
      P (wrap32 (rc + 1)) (out ++ [print_t.result_row inc words])) :
    ∀ (fuel : Nat) (tmp : List (List str_t)) (rc : Int) (out : List print_t)
      (r : Int × List print_t),
      P rc out → print_rows links inc n fuel tmp rc out = some r → P r.1 r.2 := by
  intro fuel
  induction fuel with
  | zero => intro tmp rc out r _ h; simp [print_rows] at h
  | succ fuel ih =>
    intro tmp rc out r hP h
    unfold print_rows at h
    by_cases hc : n < 0 ∨ rc < n
    · rw [if_pos hc] at h
      cases hw : tmp.mapM wordlink_word with
      | none => rw [hw] at h; cases h
      | some words =>
        rw [hw] at h
        simp only at h
        cases tmp with
        | nil => cases h
        | cons tmp0 tmps =>
          simp only at h
          cases hn : wordlink_next tmp0 with
          | none => rw [hn] at h; cases h
          | some next0 =>
            rw [hn] at h
            simp only at h
            cases hcl : carry_links links (next0 :: tmps) with
            | none => rw [hcl] at h; cases h
            | some tmp1 =>
              rw [hcl] at h
              simp only at h
              split at h
              · cases Option.some.inj h
                exact hrow rc out words hc hP
              · exact ih tmp1 _ _ r (hrow rc out words hc hP) h
    · rw [if_neg hc] at h
      cases Option.some.inj h
      exact hP

theorem push_found_printed {S : List keylink_t} {m : Nat} {st st1 : search_t}
    {chain : List Nat} {remaining : breakdown_t} {p : Nat}
    (h : push_found S m st chain remaining p = some st1) :
    st1.result_count = st.result_count ∧ st1.printed = st.printed := by
  unfold push_found at h
  split at h
  · cases hS : S[p]? with
    | none => rw [hS] at h; cases h
    | some link =>
      rw [hS] at h
      simp only at h
      cases hsub : breakdown_subtract remaining link.key with
      | none => rw [hsub] at h; cases h
      | some r =>
        rw [hsub] at h
        cases Option.some.inj h
        exact ⟨rfl, rfl⟩
  · cases h

/-- The scans for the next chain element print nothing and leave the counter alone. -/
theorem search_advance_printed {S : List keylink_t} {m : Nat} {st st1 : search_t}
    (h : search_advance S m st = some st1) :
    st1.result_count = st.result_count ∧ st1.printed = st.printed := by
  unfold search_advance at h
  cases hf : find_next S st.remaining_breakdown st.next_min_subkey with
  | some p => rw [hf] at h; exact push_found_printed h
  | none =>
    rw [hf] at h
    simp only at h
    cases hl : st.chain.getLast? with
    | none => rw [hl] at h; cases h
    | some prev =>
      rw [hl] at h
      simp only at h
      cases hS : S[prev]? with
      | none => rw [hS] at h; cases h
      | some link =>
        rw [hS] at h
        simp only at h
        cases ha : breakdown_add st.remaining_breakdown link.key with
        | none => rw [ha] at h; cases h
        | some remaining =>
          rw [ha] at h
          simp only at h
          cases hf2 : find_next S remaining (subkey_next S prev) with
          | some p => rw [hf2] at h; exact push_found_printed h
          | none =>
            rw [hf2] at h
            cases Option.some.inj h
            exact ⟨rfl, rfl⟩

theorem search_step_invariant (P : Int → List print_t → Prop) (S : List keylink_t) (m : Nat)
    (inc : str_t) (n : Int)
    (hrow : ∀ rc out words, (n < 0 ∨ rc < n) → P rc out →
      P (wrap32 (rc + 1)) (out ++ [print_t.result_row inc words]))
    {st st1 : search_t} (hP : P st.result_count st.printed)
    (h : search_step S m inc n st = some st1) : P st1.result_count st1.printed := by
  unfold search_step at h
  rw [Option.bind_eq_some] at h
  obtain ⟨st2, h2, hadv⟩ := h
  have hP2 : P st2.result_count st2.printed := by
    split at h2
    · unfold print_chain at h2
      cases hl : st.chain.mapM (fun p => S[p]?) with
      | none => rw [hl] at h2; cases h2
      | some links =>
        rw [hl] at h2
        simp only [Option.map_eq_some'] at h2
        obtain ⟨r, hr, rfl⟩ := h2
        exact print_rows_invariant P links inc n hrow _ _ _ _ r hP hr
    · cases Option.some.inj h2
      exact hP
  obtain ⟨e1, e2⟩ := search_advance_printed hadv
  rw [e1, e2]
  exact hP2

/-- Induction principle for the search loop of `list_anagrams_for`: a property of the counter
and the output that every printed row preserves holds when the loop is left. -/
theorem search_loop_invariant (P : Int → List print_t → Prop) (S : List keylink_t) (m : Nat)
    (inc : str_t) (n : Int)
    (hrow : ∀ rc out words, (n < 0 ∨ rc < n) → P rc out →
      P (wrap32 (rc + 1)) (out ++ [print_t.result_row inc words])) :
    ∀ (fuel : Nat) (st st1 : search_t), P st.result_count st.printed →
      search_loop S m inc n fuel st = some st1 → P st1.result_count st1.printed := by
  intro fuel
  induction fuel with
  | zero =>
    intro st st1 hP h
    unfold search_loop at h
    split at h
    · cases h
    · cases Option.some.inj h
      exact hP
  | succ fuel ih =>
    intro st st1 hP h
    unfold search_loop at h
    split at h
    · simp only [Option.bind_eq_some] at h
      obtain ⟨st2, h2, hl⟩ := h
      exact ih st2 st1 (search_step_invariant P S m inc n hrow hP h2) hl
    · cases Option.some.inj h
      exact hP

theorem search_from_invariant (P : Int → List print_t → Prop) (S : List keylink_t)
    (fuel : Nat) (T R : breakdown_t) (inc : str_t) (n : Int)
    (hrow : ∀ rc out words, (n < 0 ∨ rc < n) → P rc out →
      P (wrap32 (rc + 1)) (out ++ [print_t.result_row inc words]))
    (h0 : P 0 []) {out : List print_t} (h : search_from S fuel T R inc n = some out) :
    ∃ rc, P rc out := by
  unfold search_from at h
  cases S with
  | nil =>
    cases Option.some.inj h
    exact ⟨0, h0⟩
  | cons first rest =>
    simp only at h
    cases hsub : breakdown_subtract R first.key with
    | none => rw [hsub] at h; cases h
    | some r =>
      rw [hsub] at h
      simp only at h
      split at h
      · simp only [Option.map_eq_some'] at h
        obtain ⟨st1, hl, rfl⟩ := h
        exact ⟨_, search_loop_invariant P _ _ inc n hrow fuel _ st1 h0 hl⟩
      · cases h

/-- The search prints result rows only. -/
theorem search_anagrams_rows {hashtable : hashtable_t} {fuel : Nat} {T R : breakdown_t}
    {inc ex : str_t} {n : Int} {out : List print_t}
    (h : search_anagrams hashtable fuel T R inc ex n = some out) :
    ∀ e ∈ out, ∃ words, e = print_t.result_row inc words := by
  unfold search_anagrams at h
  obtain ⟨_, hP⟩ := search_from_invariant
    (fun _ out => ∀ e ∈ out, ∃ words, e = print_t.result_row inc words) _ fuel T R inc n
    (by
      intro rc out words _ hP e he
      rcases List.mem_append.mp he with h1 | h1
      · exact hP e h1
      · exact ⟨words, List.mem_singleton.mp h1⟩)
    (by intro e he; cases he) h
  exact hP

/-- The search with a limit `n ≥ 0` prints at most `n` lines. -/
theorem search_anagrams_limit {hashtable : hashtable_t} {fuel : Nat} {T R : breakdown_t}
    {inc ex : str_t} {n : Int} (hn : 0 ≤ n) (hn32 : n < 2147483648) {out : List print_t}
    (h : search_anagrams hashtable fuel T R inc ex n = some out) :
    (out.length : Int) ≤ n := by
  unfold search_anagrams at h
  obtain ⟨rc, hP⟩ := search_from_invariant
    (fun rc out => (out.length : Int) = rc ∧ rc ≤ n) _ fuel T R inc n
    (by
      intro rc out words hc hP
      have hlt : rc < n := by
        rcases hc with h1 | h1
        · omega
        · exact h1
      have h0 : (0 : Int) ≤ rc := by rw [← hP.1]; exact Int.natCast_nonneg _
      rw [wrap32_id (by omega) (by omega)]
      refine ⟨?_, by omega⟩
      rw [List.length_append, List.length_singleton]
      push_cast
      omega)
    ⟨rfl, hn⟩ h
  omega


/-- More fuel does not change the result of the search loop. -/
theorem search_loop_mono (S : List keylink_t) (m : Nat) (inc : str_t) (n : Int) :
    ∀ (fuel : Nat) (st r : search_t), search_loop S m inc n fuel st = some r →
      ∀ fuel1, fuel ≤ fuel1 → search_loop S m inc n fuel1 st = some r := by
  intro fuel
  induction fuel with
  | zero =>
    intro st r h fuel1 _
    unfold search_loop at h ⊢
    split at h
    · cases h
    · rename_i hc
      rw [if_neg hc]
      exact h
  | succ fuel ih =>
    intro st r h fuel1 hle
    obtain ⟨f1, rfl⟩ : ∃ f1, fuel1 = f1 + 1 := ⟨fuel1 - 1, by omega⟩
    unfold search_loop at h ⊢
    split at h
    · rename_i hc
      rw [if_pos hc]
      simp only [Option.bind_eq_some] at h ⊢
      obtain ⟨st2, h2, hl⟩ := h
      exact ⟨st2, h2, ih st2 r hl f1 (by omega)⟩
    · rename_i hc
      rw [if_neg hc]
      exact h

theorem search_from_mono {S : List keylink_t} {fuel : Nat} {T R : breakdown_t} {inc : str_t}
    {n : Int} {out : List print_t} (h : search_from S fuel T R inc n = some out)
    {fuel1 : Nat} (hle : fuel ≤ fuel1) : search_from S fuel1 T R inc n = some out := by
  unfold search_from at h ⊢
  cases S with
  | nil => exact h
  | cons first rest =>
    simp only at h ⊢
    cases hsub : breakdown_subtract R first.key with
    | none => rw [hsub] at h; cases h
    | some r =>
      rw [hsub] at h
      simp only at h ⊢
      split at h
      · rename_i hc
        rw [if_pos hc]
        simp only [Option.map_eq_some'] at h ⊢
        obtain ⟨st1, hl, rfl⟩ := h
        exact ⟨st1, search_loop_mono _ _ inc n fuel _ st1 hl fuel1 hle, rfl⟩
      · cases h

/-- More fuel and a greater bound on the nesting of calls do not change the output of
`list_anagrams_for`. -/
theorem list_anagrams_for_mono (hashtable : hashtable_t) :
    ∀ (depth fuel : Nat) (T : breakdown_t) (inc ex : str_t) (n : Int) (out : List print_t),
      list_anagrams_for hashtable depth fuel T inc ex n = some out →
      ∀ depth1 fuel1, depth ≤ depth1 → fuel ≤ fuel1 →
        list_anagrams_for hashtable depth1 fuel1 T inc ex n = some out := by
  intro depth
  induction depth with
  | zero => intro fuel T inc ex n out h; simp [list_anagrams_for] at h
  | succ depth ih =>
    intro fuel T inc ex n out h depth1 fuel1 hd hf
    obtain ⟨d1, rfl⟩ : ∃ d1, depth1 = d1 + 1 := ⟨depth1 - 1, by omega⟩
    unfold list_anagrams_for at h ⊢
    unfold list_anagrams_body at h ⊢
    cases hw : breakdown_word inc with
    | none => rw [hw] at h; cases h
    | some I =>
      rw [hw] at h
      simp only at h ⊢
      cases hsub : breakdown_subtract T I with
      | none => rw [hsub] at h; cases h
      | some r =>
        rw [hsub] at h
        simp only at h ⊢
        split at h
        · rename_i hc
          rw [if_pos hc]
          cases hsub2 : breakdown_subtract I T with
          | none => rw [hsub2] at h; cases h
          | some r2 =>
            rw [hsub2] at h
            simp only [Option.map_eq_some'] at h ⊢
            obtain ⟨additions, ha, rfl⟩ := h
            exact ⟨additions, ih fuel _ _ _ _ additions ha d1 fuel1 (by omega) hf, rfl⟩
        · rename_i hc
          rw [if_neg hc]
          split at h
          · rename_i he
            rw [if_pos he]
            exact h
          · rename_i he
            rw [if_neg he]
            unfold search_anagrams at h ⊢
            exact search_from_mono h hf

theorem bag_listen_eq : breakdown_word [108, 105, 115, 116, 101, 110] = some bag_listen :=
  breakdown_word_eq_of_list (by decide)

/-- C12, as stated, fails: `listen` has the `t` of `cat`, so for the input `listen` with the
include `cat` the table of missing letters has the sum 2, not 3, its slot 19 (letter `t`) is
zero, and the output has no line for a missing `t`. -/
theorem shortfall_scenario_counterexample :
    breakdown_word [108, 105, 115, 116, 101, 110] = some bag_listen ∧
    breakdown_word [99, 97, 116] = some bag_cat ∧
    breakdown_sum (fun idx => max 0 (bag_cat idx - bag_listen idx)) ≠ 3 ∧
    (fun idx => max 0 (bag_cat idx - bag_listen idx) : breakdown_t) 19 = 0 ∧
    index_of_entries example_dictionary = some example_index ∧
    ∃ out, list_anagrams_for example_index 2 1 bag_listen [99, 97, 116] [] (-1) = some out ∧
      print_t.missing_count 3 ∉ out ∧ ∀ count, print_t.missing_letter count 19 ∉ out := by
  refine ⟨bag_listen_eq, bag_cat_eq, by decide, by decide, example_index_eq,
    [print_t.missing_count 2, print_t.missing_letter 1 0, print_t.missing_letter 1 2,
      print_t.possible_additions], ?_, by decide, by intro count; simp⟩
  have hTb := breakdown_word_letter_bag bag_listen_eq
  have hIb := breakdown_word_letter_bag bag_cat_eq
  have hu : ∃ idx, bag_listen idx < bag_cat idx := ⟨0, by decide⟩
  have h1 : list_anagrams_for example_index 2 1 bag_listen [99, 97, 116] [] (-1) = _ :=
    list_body_shortfall _ example_index 1 [] (-1) hTb bag_cat_eq hu
  rw [h1, (list_missing example_index 0 1 hTb hIb hu 20).2,
    search_anagrams_eval example_index_classes]
  decide

/-- C12, amended (scenario `listen` with include `cat`). Over every index the include does
not fit; the report counts 2 missing letters, one `a` (slot 0) and one `c` (slot 2), and the
possible additions are the output of the search for the table of these two letters with
empty include and exclude and limit 20. Over the example dictionary there is none. -/
theorem shortfall_scenario :
    breakdown_word [108, 105, 115, 116, 101, 110] = some bag_listen ∧
    breakdown_word [97, 99] = some (fun idx => max 0 (bag_cat idx - bag_listen idx)) ∧
    (∀ (hashtable : hashtable_t) (depth fuel : Nat) (must_exclude : str_t) (max_results : Int),
      list_anagrams_for hashtable (depth + 2) fuel bag_listen [99, 97, 116] must_exclude
          max_results
        = (search_anagrams hashtable fuel (fun idx => max 0 (bag_cat idx - bag_listen idx))
            (fun idx => max 0 (bag_cat idx - bag_listen idx)) [] [] 20).map
          (fun additions =>
            [print_t.missing_count 2, print_t.missing_letter 1 0, print_t.missing_letter 1 2,
              print_t.possible_additions] ++ additions)) ∧
    index_of_entries example_dictionary = some example_index ∧
    ∀ depth fuel, 2 ≤ depth → 1 ≤ fuel → ∀ max_results,
      list_anagrams_for example_index depth fuel bag_listen [99, 97, 116] [] max_results
        = some [print_t.missing_count 2, print_t.missing_letter 1 0,
            print_t.missing_letter 1 2, print_t.possible_additions] := by
  have hTb := breakdown_word_letter_bag bag_listen_eq
  have hIb := breakdown_word_letter_bag bag_cat_eq
  have hu : ∃ idx, bag_listen idx < bag_cat idx := ⟨0, by decide⟩
  have hgen : ∀ (hashtable : hashtable_t) (depth fuel : Nat) (must_exclude : str_t)
      (max_results : Int),
      list_anagrams_for hashtable (depth + 2) fuel bag_listen [99, 97, 116] must_exclude
          max_results
        = (search_anagrams hashtable fuel (fun idx => max 0 (bag_cat idx - bag_listen idx))
            (fun idx => max 0 (bag_cat idx - bag_listen idx)) [] [] 20).map
          (fun additions =>
            [print_t.missing_count 2, print_t.missing_letter 1 0, print_t.missing_letter 1 2,
              print_t.possible_additions] ++ additions) := by
    intro hashtable depth fuel must_exclude max_results
    have h1 : list_anagrams_for hashtable (depth + 2) fuel bag_listen [99, 97, 116]
        must_exclude max_results = _ :=
      list_body_shortfall _ hashtable fuel must_exclude max_results hTb bag_cat_eq hu
    rw [h1, (list_missing hashtable depth fuel hTb hIb hu 20).2]
    have hrep : missing_report (fun idx => max 0 (bag_cat idx - bag_listen idx))
        = [print_t.missing_count 2, print_t.missing_letter 1 0, print_t.missing_letter 1 2,
            print_t.possible_additions] := by decide
    rw [hrep]
  refine ⟨bag_listen_eq, breakdown_word_eq_of_list (by decide), hgen, example_index_eq, ?_⟩
  intro depth fuel hd hf max_results
  refine list_anagrams_for_mono example_index 2 1 _ _ _ _ _ ?_ depth fuel hd hf
  rw [hgen example_index 0 1 [] max_results, search_anagrams_eval example_index_classes]
  decide

theorem cat_not_act_begin_words :
    begin_anagram_context example_index_words bag_cat breakdown_zero [97, 99, 116]
      = some cat_not_act_context := by
  rw [begin_eval example_index_words_classes [97, 99, 116]
    (breakdown_word_letter_bag bag_cat_eq) (breakdown_word_letter_bag bag_empty_eq)
    (by decide) (by decide)]
  exact option_is_eq (by decide)

theorem is_excluded_eq (E : List str_t) (w : str_t) : is_excluded E w = decide (w ∈ E) := by
  unfold is_excluded
  rw [Bool.eq_iff_iff, List.any_eq_true, decide_eq_true_iff]
  constructor
  · rintro ⟨e, he, h⟩
    rw [(str_eq_iff w e).mp h]
    exact he
  · intro h
    exact ⟨w, h, (str_eq_iff w w).mpr rfl⟩

theorem keep_words_eq (E : List str_t) (ws : List str_t) :
    keep_words E ws = ws.filter (fun w => decide (w ∉ E)) := by
  unfold keep_words
  congr 1
  funext w
  rw [is_excluded_eq]
  simp

theorem insert_subkey_perm (S : List keylink_t) (k : keylink_t) :
    (insert_subkey S k).Perm (S ++ [k]) := by
  unfold insert_subkey
  have h1 : (S.take (insert_position S (toU32 (breakdown_sum k.key)))
      ++ k :: S.drop (insert_position S (toU32 (breakdown_sum k.key)))).Perm
      (k :: (S.take (insert_position S (toU32 (breakdown_sum k.key)))
        ++ S.drop (insert_position S (toU32 (breakdown_sum k.key))))) := List.perm_middle
  rw [List.take_append_drop] at h1
  exact h1.trans (List.perm_append_singleton k S).symm

/-- The subkey that a class contributes for the reduced target `R` and the excluded words
`E`: none when its key does not fit or all its words are excluded, otherwise the key with
the words that are not excluded, in their order. -/
theorem scan_class_result_perm (R : breakdown_t) (E : List str_t) (S : List keylink_t)
    (kl : keylink_t) :
    (scan_class_result R E S kl).Perm
      (S ++ (if breakdown_contains R kl.key then
          match kl.words.filter (fun w => decide (w ∉ E)) with
          | [] => []
          | w :: ws => [{ key := kl.key, first_word := w, more_words := ws }]
        else [])) := by
  unfold scan_class_result
  rw [keep_words_eq]
  by_cases hc : breakdown_contains R kl.key = true
  · rw [if_pos hc, if_pos hc]
    cases hf : kl.words.filter (fun w => decide (w ∉ E)) with
    | nil => simp
    | cons w ws => exact insert_subkey_perm S _
  · rw [if_neg hc, if_neg hc]
    simp

theorem foldl_scan_perm (R : breakdown_t) (E : List str_t) (L : List keylink_t) :
    ∀ S : List keylink_t,
      (L.foldl (scan_class_result R E) S).Perm
        (S ++ L.flatMap (fun kl =>
          if breakdown_contains R kl.key then
            match kl.words.filter (fun w => decide (w ∉ E)) with
            | [] => []
            | w :: ws => [{ key := kl.key, first_word := w, more_words := ws }]
          else [])) := by
  induction L with
  | nil => intro S; simp
  | cons kl L ih =>
    intro S
    rw [List.foldl_cons, List.flatMap_cons, ← List.append_assoc]
    exact (ih _).trans (List.Perm.append_right _ (scan_class_result_perm R E S kl))

/-- The subkey list has, up to its order, one entry for every class whose key fits into the
reduced target and that has a word that is not excluded: the key with these words in their
order. -/
theorem find_subkeys_perm (hashtable : hashtable_t) (R : breakdown_t) (E : List str_t) :
    (find_subkeys hashtable R E).Perm
      ((classes hashtable).flatMap (fun kl =>
        if breakdown_contains R kl.key then
          match kl.words.filter (fun w => decide (w ∉ E)) with
          | [] => []
          | w :: ws => [{ key := kl.key, first_word := w, more_words := ws }]
        else [])) := by
  rw [find_subkeys_eq]
  have h := foldl_scan_perm R E (classes hashtable) []
  rw [List.nil_append] at h
  exact h

/-- The subkey list of the context is the list found by the loop over the index, when the
include fits and does not use up the input. -/
theorem begin_subkeys {hashtable : hashtable_t} {T I : breakdown_t} (ex : str_t)
    (hT : letter_bag T) (hI : letter_bag I) (hown : index_own hashtable)
    (hu : breakdown_underflowed (fun idx => T idx - I idx) = false)
    (hne : breakdown_is_empty (fun idx => T idx - I idx) = false)
    {ctx0 : anagram_context_t} (hbegin : begin_anagram_context hashtable T I ex = some ctx0) :
    ctx0.subkeys = find_subkeys hashtable (fun idx => T idx - I idx) (parse_excluded ex) := by
  rw [begin_search ex hT hI hown hu (by rw [hne]; simp)] at hbegin
  cases hf : find_subkeys hashtable (fun idx => T idx - I idx) (parse_excluded ex) with
  | nil =>
    rw [hf] at hbegin
    cases Option.some.inj hbegin
    rfl
  | cons first rest =>
    rw [hf] at hbegin
    cases Option.some.inj hbegin
    rfl

/-- C14, as stated, fails: over the example dictionary the complete run for the input `cat`
stores three one-word records, but not in the order cat, act, tac. -/
theorem cat_scenario_counterexample :
    index_of_entries example_dictionary = some example_index ∧
    breakdown_word [99, 97, 116] = some bag_cat ∧
    breakdown_word [] = some breakdown_zero ∧
    begin_anagram_context example_index bag_cat breakdown_zero [] = some cat_context ∧
    ∃ ctx, compute_anagrams cat_context 2 = some ctx ∧ ctx.chain = [] ∧
      ctx.results.not_done = false ∧
      ctx.results.results.map (fun r => r.words)
        ≠ [[[99, 97, 116]], [[97, 99, 116]], [[116, 97, 99]]] :=
  ⟨example_index_eq, bag_cat_eq, bag_empty_eq, cat_begin,
    (compute_anagrams cat_context 2).getD cat_context, getD_eq_some (by decide),
    by decide, by decide, by decide⟩

/-- C14, amended (scenario `cat`). With the dictionary listen, silent, tinsel, cat, act, tac,
dog indexed in that order, the query with input `cat`, empty include and empty exclude yields
exactly three one-word results, in the order tac, act, cat: every sequence of calls of
`compute_anagrams` that grants at least two rounds ends with this store and `not_done` false,
and the batch enumerator prints the same rows. -/
theorem cat_scenario :
    index_of_entries example_dictionary = some example_index ∧
    breakdown_word [99, 97, 116] = some bag_cat ∧
    breakdown_word [] = some breakdown_zero ∧
    begin_anagram_context example_index bag_cat breakdown_zero [] = some cat_context ∧
    (∀ budgets : List Nat, budgets ≠ [] → 2 ≤ budgets.sum →
      ∃ ctx, compute_anagrams_calls cat_context budgets = some ctx ∧
        ctx.results.not_done = false ∧ ctx.results.result_count = 3 ∧
        ctx.results.results
          = [{ word_count := 1, words := [[116, 97, 99]] },
             { word_count := 1, words := [[97, 99, 116]] },
             { word_count := 1, words := [[99, 97, 116]] }]) ∧
    ∀ depth fuel, 1 ≤ depth → 1 ≤ fuel →
      list_anagrams_for example_index depth fuel bag_cat [] [] (-1)
        = some [print_t.result_row [] [[116, 97, 99]], print_t.result_row [] [[97, 99, 116]],
            print_t.result_row [] [[99, 97, 116]]] := by
  refine ⟨example_index_eq, bag_cat_eq, bag_empty_eq, cat_begin, ?_, ?_⟩
  · intro budgets hne hsum
    have hl : compute_anagrams_loop 2 cat_context
        = some ((compute_anagrams_loop 2 cat_context).getD cat_context) :=
      getD_eq_some (by decide)
    exact ⟨_, calls_of_loop_done hl (by decide) hne hsum, rfl, by decide, by decide⟩
  · intro depth fuel hd hf
    refine list_anagrams_for_mono example_index 1 1 _ _ _ _ _ ?_ depth fuel hd hf
    have h1 : list_anagrams_for example_index 1 1 bag_cat [] [] (-1) = _ :=
      list_body_valid _ example_index 1 [] (-1) (breakdown_word_letter_bag bag_cat_eq)
        bag_empty_eq (by decide)
    have hsub : (fun idx => bag_cat idx - breakdown_zero idx) = bag_cat := by
      funext idx; simp [breakdown_zero]
    rw [h1, hsub, search_anagrams_eval example_index_classes]
    decide

/-- C15 (word-level exclusion). For an index built by `hashtable_add_word` from words with
their own tables and a query whose include fits into the input without using it up, the
subkey list of `begin_anagram_context` has, up to its order, exactly one entry for every
class of the index whose key is contained in `T - I` and that has a word which is not
byte-equal to an excluded word; the entry has the key of the class and, as its word list, the
word list of the class without the excluded words, the other words in their order. For the
input `cat` with the exclude string `act` over the example dictionary the class of cat
contributes tac and cat, which are the results. -/
theorem word_level_exclusion (words : List str_t) (hashtable : hashtable_t)
    (input must_include must_exclude : str_t) (T I : breakdown_t) (ctx0 : anagram_context_t)
    (hindex : index_of_words words = some hashtable)
    (hT : breakdown_word input = some T) (hI : breakdown_word must_include = some I)
    (hfit : ∀ idx, I idx ≤ T idx)
    (hne : breakdown_is_empty (fun idx => T idx - I idx) = false)
    (hbegin : begin_anagram_context hashtable T I must_exclude = some ctx0) :
    ctx0.subkeys.Perm
      ((classes hashtable).flatMap (fun kl =>
        if breakdown_contains (fun idx => T idx - I idx) kl.key then
          match kl.words.filter (fun w => decide (w ∉ parse_excluded must_exclude)) with
          | [] => []
          | w :: ws => [{ key := kl.key, first_word := w, more_words := ws }]
        else [])) ∧
    (∀ s ∈ ctx0.subkeys, ∃ kl ∈ classes hashtable,
      breakdown_contains (fun idx => T idx - I idx) kl.key = true ∧ s.key = kl.key ∧
      s.words = kl.words.filter (fun w => decide (w ∉ parse_excluded must_exclude)) ∧
      s.words ≠ []) ∧
    (∀ kl ∈ classes hashtable,
      breakdown_contains (fun idx => T idx - I idx) kl.key = true →
      (∃ w ∈ kl.words, w ∉ parse_excluded must_exclude) →
      ∃ s ∈ ctx0.subkeys, s.key = kl.key ∧
        s.words = kl.words.filter (fun w => decide (w ∉ parse_excluded must_exclude))) ∧
    (index_of_entries example_dictionary = some example_index ∧
      parse_excluded [97, 99, 116] = [[97, 99, 116]] ∧
      begin_anagram_context example_index bag_cat breakdown_zero [97, 99, 116]
        = some cat_not_act_context ∧
      cat_not_act_context.subkeys
        = [{ key := bag_cat, first_word := [116, 97, 99], more_words := [[99, 97, 116]] }] ∧
      (compute_anagrams cat_not_act_context 2).map
          (fun ctx => (ctx.results.not_done, ctx.results.results.map (fun r => r.words)))
        = some (false, [[[116, 97, 99]], [[99, 97, 116]]])) := by
  have hsub := begin_subkeys must_exclude (breakdown_word_letter_bag hT)
    (breakdown_word_letter_bag hI) (index_of_words_own hindex)
    (by
      rw [Bool.eq_false_iff, Ne, breakdown_underflowed_iff]
      rintro ⟨idx, h⟩
      have := hfit idx
      omega) hne hbegin
  have hperm := find_subkeys_perm hashtable (fun idx => T idx - I idx)
    (parse_excluded must_exclude)
  rw [← hsub] at hperm
  refine ⟨hperm, ?_, ?_,
    example_index_eq, by decide, cat_not_act_begin, rfl, by decide⟩
  · intro s hs
    rw [hsub] at hs
    obtain ⟨kl, hkl, hc, hk, hw⟩ := mem_find_subkeys hs
    rw [keep_words_eq] at hw
    exact ⟨kl, hkl, hc, hk, hw, by simp [keylink_t.words]⟩
  · intro kl hkl hc ⟨w, hw, hnot⟩
    cases hf : kl.words.filter (fun w => decide (w ∉ parse_excluded must_exclude)) with
    | nil =>
      have : w ∈ kl.words.filter (fun w => decide (w ∉ parse_excluded must_exclude)) :=
        List.mem_filter.mpr ⟨hw, by simpa using hnot⟩
      rw [hf] at this
      cases this
    | cons w1 ws =>
      refine ⟨{ key := kl.key, first_word := w1, more_words := ws }, ?_, rfl, rfl⟩
      apply hperm.symm.subset
      rw [List.mem_flatMap]
      exact ⟨kl, hkl, by rw [if_pos hc, hf]; exact List.mem_singleton.mpr rfl⟩

/-- Witness of C15: the query `cat` with the exclude string `act` over the index that
`hashtable_add_word` builds from the example dictionary. -/
theorem word_level_exclusion_witness :
    cat_not_act_context.subkeys.Perm
      ((classes example_index_words).flatMap (fun kl =>
        if breakdown_contains (fun idx => bag_cat idx - breakdown_zero idx) kl.key then
          match kl.words.filter (fun w => decide (w ∉ parse_excluded [97, 99, 116])) with
          | [] => []
          | w :: ws => [{ key := kl.key, first_word := w, more_words := ws }]
        else [])) ∧
    (∀ s ∈ cat_not_act_context.subkeys, ∃ kl ∈ classes example_index_words,
      breakdown_contains (fun idx => bag_cat idx - breakdown_zero idx) kl.key = true ∧
      s.key = kl.key ∧
      s.words = kl.words.filter (fun w => decide (w ∉ parse_excluded [97, 99, 116])) ∧
      s.words ≠ []) ∧
    (∀ kl ∈ classes example_index_words,
      breakdown_contains (fun idx => bag_cat idx - breakdown_zero idx) kl.key = true →
      (∃ w ∈ kl.words, w ∉ parse_excluded [97, 99, 116]) →
      ∃ s ∈ cat_not_act_context.subkeys, s.key = kl.key ∧
        s.words = kl.words.filter (fun w => decide (w ∉ parse_excluded [97, 99, 116]))) ∧
    (index_of_entries example_dictionary = some example_index ∧
      parse_excluded [97, 99, 116] = [[97, 99, 116]] ∧
      begin_anagram_context example_index bag_cat breakdown_zero [97, 99, 116]
        = some cat_not_act_context ∧
      cat_not_act_context.subkeys
        = [{ key := bag_cat, first_word := [116, 97, 99], more_words := [[99, 97, 116]] }] ∧
      (compute_anagrams cat_not_act_context 2).map
          (fun ctx => (ctx.results.not_done, ctx.results.results.map (fun r => r.words)))
        = some (false, [[[116, 97, 99]], [[99, 97, 116]]])) :=
  word_level_exclusion example_dictionary example_index_words [99, 97, 116] []
    [97, 99, 116] bag_cat breakdown_zero cat_not_act_context example_index_words_eq
    bag_cat_eq bag_empty_eq (by decide) (by decide) cat_not_act_begin_words

/-- A list from position `s` on: the part up to position `k`, the element at `k`, and the
rest. -/
theorem drop_split_at (text : str_t) {s k : Nat} (hs : s ≤ k) (hk : k < text.length) :
    text.drop s = (text.drop s).take (k - s) ++ text[k] :: text.drop (k + 1) := by
  have h1 : (text.drop s).drop (k - s) = text.drop k := by
    rw [List.drop_drop]
    congr 1
    omega
  have h2 : text.drop k = text[k] :: text.drop (k + 1) := List.drop_eq_getElem_cons hk
  conv_lhs => rw [← List.take_append_drop (k - s) (text.drop s), h1, h2]

/-- The loop that separates the excluded words, from round `k` on with the current word
starting at `s`: the words found are the non-empty pieces of the text from `s` on between
space bytes, the last one first. -/
theorem exclude_fold (text : str_t) :
    ∀ (d k s : Nat) (acc : List str_t), k + d = text.length → s ≤ k →
      (∀ x ∈ (text.drop s).take (k - s), x ≠ 32) →
      ((List.range' k (d + 1)).foldl (exclude_step text) ((s : Int), acc)).2
        = (((text.drop s).splitOnP (fun x => x == 32)).filter
            (fun w => decide (w ≠ []))).reverse ++ acc := by
  intro d
  induction d with
  | zero =>
    intro k s acc hk hs hno
    have hklen : k = text.length := by omega
    have htake : (text.drop s).take (k - s) = text.drop s := by
      apply List.take_of_length_le
      rw [List.length_drop]
      omega
    rw [htake] at hno
    have hsingle : (text.drop s).splitOnP (fun x => x == 32) = [text.drop s] :=
      List.splitOnP_eq_single _ _ (by intro x hx; simpa using hno x hx)
    simp only [List.range', List.foldl_cons, List.foldl_nil, exclude_step, hklen, true_or,
      if_true]
    rw [hsingle]
    by_cases hlt : s < text.length
    · have hpos : ((text.length : Int) - (s : Int)) > 0 := by omega
      have hne : text.drop s ≠ [] := by
        intro h0
        have := congrArg List.length h0
        rw [List.length_drop] at this
        simp at this
        omega
      rw [if_pos hpos]
      have e1 : ((text.length : Int) - (s : Int)).toNat = text.length - s := by omega
      simp only [Int.toNat_ofNat, e1]
      rw [← hklen, htake]
      simp [hne]
    · have hnpos : ¬ ((text.length : Int) - (s : Int)) > 0 := by omega
      have he : text.drop s = [] := List.drop_eq_nil_of_le (by omega)
      rw [if_neg hnpos, he]
      simp
  | succ d ih =>
    intro k s acc hk hs hno
    have hklt : k < text.length := by omega
    have hdec := drop_split_at text hs hklt
    rw [show d + 1 + 1 = (d + 1) + 1 from rfl, List.range'_succ, List.foldl_cons]
    have hget : text.getD k 0 = text[k] := by
      rw [List.getD_eq_getElem?_getD, List.getElem?_eq_getElem hklt]
      rfl
    by_cases hsp : text[k] = 32
    · have hstep : exclude_step text ((s : Int), acc) k
          = (((k + 1 : Nat) : Int),
              if s < k then (text.drop s).take (k - s) :: acc else acc) := by
        unfold exclude_step
        rw [if_pos (Or.inr (by rw [hget]; exact hsp))]
        by_cases hlt : s < k
        · have hpos : ((k : Int) - (s : Int)) > 0 := by omega
          have e1 : ((k : Int) - (s : Int)).toNat = k - s := by omega
          simp only [hpos, if_true, Int.toNat_ofNat, e1, hlt]
          push_cast
          rfl
        · have hnpos : ¬ ((k : Int) - (s : Int)) > 0 := by omega
          simp only [hnpos, if_false, hlt]
          push_cast
          rfl
      rw [hstep, ih (k + 1) (k + 1) _ (by omega) (le_refl _) (by simp)]
      have hfirst : (text.drop s).splitOnP (fun x => x == 32)
          = (text.drop s).take (k - s) :: (text.drop (k + 1)).splitOnP (fun x => x == 32) := by
        conv_lhs => rw [hdec]
        exact List.splitOnP_first _ _ (by intro x hx; simpa using hno x hx) _
          (by simpa using hsp) _
      rw [hfirst]
      by_cases hlt : s < k
      · have hne : (text.drop s).take (k - s) ≠ [] := by
          intro h0
          have := congrArg List.length h0
          rw [List.length_take, List.length_drop] at this
          simp at this
          omega
        simp [hlt, hne]
      · have he : (text.drop s).take (k - s) = [] := by
          rw [show k - s = 0 by omega]
          rfl
        simp [hlt, he]
    · have hstep : exclude_step text ((s : Int), acc) k = ((s : Int), acc) := by
        unfold exclude_step
        rw [if_neg]
        rw [hget]
        rintro (h | h)
        · omega
        · exact hsp h
      rw [hstep]
      apply ih (k + 1) s acc (by omega) (by omega)
      intro x hx
      have htk : (text.drop s).take (k + 1 - s)
          = (text.drop s).take (k - s) ++ [text[k]] := by
        conv_lhs => rw [hdec]
        have hlen : ((text.drop s).take (k - s)).length = k - s := by
          rw [List.length_take, List.length_drop]
          omega
        rw [List.take_append_eq_append_take, hlen]
        rw [show k + 1 - s - (k - s) = 1 by omega]
        rw [List.take_of_length_le (by rw [hlen]; omega)]
        rfl
      rw [htk] at hx
      rcases List.mem_append.mp hx with h | h
      · exact hno x h
      · rw [List.mem_singleton.mp h]
        exact hsp

/-- The excluded words are the non-empty pieces of the exclude string between space bytes,
the last one first. -/
theorem parse_excluded_eq (text : str_t) :
    parse_excluded text
      = ((text.splitOn 32).filter (fun w => decide (w ≠ []))).reverse := by
  unfold parse_excluded
  rw [List.range_eq_range']
  have h := exclude_fold text text.length 0 0 [] (by omega) (le_refl _) (by simp)
  simp only [List.drop_zero, List.append_nil, Nat.cast_zero] at h
  exact h

/-- No piece of a split contains a separator. -/
theorem splitOnP_pieces {α : Type} (p : α → Bool) :
    ∀ l : List α, ∀ w ∈ l.splitOnP p, ∀ x ∈ w, p x = false := by
  intro l
  induction l with
  | nil =>
    intro w hw x hx
    rw [List.splitOnP_nil, List.mem_singleton] at hw
    rw [hw] at hx
    cases hx
  | cons a l ih =>
    intro w hw x hx
    rw [List.splitOnP_cons] at hw
    by_cases hp : p a = true
    · rw [if_pos hp] at hw
      rcases List.mem_cons.mp hw with h | h
      · rw [h] at hx; cases hx
      · exact ih w h x hx
    · rw [if_neg hp] at hw
      cases hsp : l.splitOnP p with
      | nil => exact absurd hsp (List.splitOnP_ne_nil p l)
      | cons hd tl =>
        rw [hsp] at hw ih
        simp only [List.modifyHead_cons, List.mem_cons] at hw
        rcases hw with h | h
        · rw [h] at hx
          rcases List.mem_cons.mp hx with h1 | h1
          · rw [h1]; simpa using hp
          · exact ih hd (List.mem_cons_self _ _) x h1
        · exact ih w (List.mem_cons_of_mem _ h) x hx

/-- C16, as stated, fails: only the space byte separates words. For the exclude string
`a<TAB>b` (bytes 97, 9, 98) the one excluded word is the whole string, which contains the
whitespace byte 9. -/
theorem exclude_parsing_counterexample :
    parse_excluded [97, 9, 98] = [[97, 9, 98]] ∧
    ∃ w ∈ parse_excluded [97, 9, 98], 9 ∈ w :=
  ⟨by decide, [97, 9, 98], by decide, by decide⟩

/-- C16, amended (exclude parsing). For every exclude string, the excluded words are exactly
the non-empty maximal substrings between space bytes (byte 32), the last one first in the
list: the string is its pieces `splitOn 32` joined by one space each, no piece contains a
space, and the excluded words are the pieces that are not empty. So no excluded word is empty
and none contains a space byte. -/
theorem exclude_parsing (text : str_t) :
    parse_excluded text = ((text.splitOn 32).filter (fun w => decide (w ≠ []))).reverse ∧
    [32].intercalate (text.splitOn 32) = text ∧
    (∀ w ∈ text.splitOn 32, 32 ∉ w) ∧
    ∀ w ∈ parse_excluded text, w ≠ [] ∧ 32 ∉ w := by
  have hp : ∀ w ∈ text.splitOn 32, 32 ∉ w := by
    intro w hw h32
    have := splitOnP_pieces (fun x => x == 32) text w hw 32 h32
    simp at this
  refine ⟨parse_excluded_eq text, List.intercalate_splitOn text 32, hp, ?_⟩
  intro w hw
  rw [parse_excluded_eq, List.mem_reverse, List.mem_filter] at hw
  exact ⟨by simpa using hw.2, hp w hw.1⟩

theorem to_lower_upper {c : Nat} (h1 : 65 ≤ c) (h2 : c ≤ 90) : to_lower c = c + 32 := by
  have ha : is_alpha c = true := by simp [is_alpha, h1, h2]
  unfold to_lower
  rw [if_pos ha]
  interval_cases c <;> rfl

theorem to_lower_lower {c : Nat} (h1 : 97 ≤ c) (h2 : c ≤ 122) : to_lower c = c := by
  have ha : is_alpha c = true := by simp [is_alpha, h1, h2]
  unfold to_lower
  rw [if_pos ha]
  interval_cases c <;> rfl

theorem is_alpha_iff (c : Nat) :
    is_alpha c = true ↔ (65 ≤ c ∧ c ≤ 90) ∨ (97 ≤ c ∧ c ≤ 122) := by
  simp [is_alpha]

/-- The slot of a letter: the byte counts for exactly this slot. -/
theorem letter_slot_spec {c : Nat} (h : is_alpha c = true) :
    toU32 ((to_lower c : Int) - 97) < 26 ∧
    ∀ idx, letter_hit idx c = decide (idx = toU32 ((to_lower c : Int) - 97)) := by
  rcases (is_alpha_iff c).mp h with ⟨h1, h2⟩ | ⟨h1, h2⟩
  · rw [to_lower_upper h1 h2]
    have e : toU32 (((c + 32 : Nat) : Int) - 97) = c - 65 := by
      unfold toU32; omega
    rw [e]
    refine ⟨by omega, ?_⟩
    intro idx
    unfold letter_hit
    rw [Bool.eq_iff_iff]
    simp only [Bool.and_eq_true, Bool.or_eq_true, decide_eq_true_eq]
    omega
  · rw [to_lower_lower h1 h2]
    have e : toU32 ((c : Int) - 97) = c - 97 := by
      unfold toU32; omega
    rw [e]
    refine ⟨by omega, ?_⟩
    intro idx
    unfold letter_hit
    rw [Bool.eq_iff_iff]
    simp only [Bool.and_eq_true, Bool.or_eq_true, decide_eq_true_eq]
    omega

/-- A byte that is no letter counts for no slot. -/
theorem letter_hit_of_not_alpha {c : Nat} (h : is_alpha c = false) (idx : Nat) :
    letter_hit idx c = false := by
  rw [Bool.eq_false_iff, Ne, is_alpha_iff] at h
  unfold letter_hit
  rw [Bool.eq_false_iff]
  simp only [ne_eq, Bool.and_eq_true, Bool.or_eq_true, decide_eq_true_eq]
  omega

theorem letter_count_append (w1 w2 : str_t) (idx : Nat) :
    letter_count (w1 ++ w2) idx = letter_count w1 idx + letter_count w2 idx := by
  unfold letter_count
  exact List.countP_append _ _ _

theorem letter_count_single (c idx : Nat) :
    letter_count [c] idx = if letter_hit idx c then 1 else 0 := by
  unfold letter_count
  simp [List.countP_cons]

/-- The loop of `breakdown_word` from the counts of the bytes `pre` on: it ends with the
counts of all bytes when none of them exceeds 127, and an assertion fails otherwise. -/
theorem breakdown_fold_spec :
    ∀ (word pre : str_t), (∀ idx : Fin 27, letter_count pre idx.val ≤ 127) →
      word.foldlM breakdown_word_step (fun idx : Fin 27 => (letter_count pre idx.val : Int))
        = if ∀ idx : Fin 27, letter_count (pre ++ word) idx.val ≤ 127 then
            some (fun idx : Fin 27 => (letter_count (pre ++ word) idx.val : Int))
          else none := by
  intro word
  induction word with
  | nil =>
    intro pre hpre
    rw [List.append_nil, if_pos hpre]
    rfl
  | cons c word ih =>
    intro pre hpre
    rw [List.foldlM_cons]
    have hassoc : pre ++ c :: word = (pre ++ [c]) ++ word := by simp
    by_cases ha : is_alpha c = true
    · obtain ⟨hlt, hhit⟩ := letter_slot_spec ha
      have hcount : ∀ idx, letter_count (pre ++ [c]) idx
          = letter_count pre idx + if idx = toU32 ((to_lower c : Int) - 97) then 1 else 0 := by
        intro idx
        rw [letter_count_append, letter_count_single, hhit]
        simp
      by_cases hfull : letter_count pre (toU32 ((to_lower c : Int) - 97)) < 127
      · have hstep :
            breakdown_word_step (fun idx : Fin 27 => (letter_count pre idx.val : Int)) c
              = some (fun idx : Fin 27 => (letter_count (pre ++ [c]) idx.val : Int)) := by
          unfold breakdown_word_step
          rw [if_pos ha]
          simp only
          rw [dif_pos (by omega : toU32 ((to_lower c : Int) - 97) < 27)]
          rw [if_pos (by exact_mod_cast hfull)]
          congr 1
          funext idx
          by_cases he : idx = ⟨toU32 ((to_lower c : Int) - 97), by omega⟩
          · subst he
            rw [Function.update_same, hcount]
            simp only [if_true]
            rw [wrap8_id (by omega) (by omega)]
            push_cast
            rfl
          · rw [Function.update_noteq he, hcount]
            have : idx.val ≠ toU32 ((to_lower c : Int) - 97) := by
              intro h
              exact he (Fin.ext h)
            simp [this]
        rw [hstep]
        have hpre1 : ∀ idx : Fin 27, letter_count (pre ++ [c]) idx.val ≤ 127 := by
          intro idx
          rw [hcount]
          have := hpre idx
          split
          · rename_i h
            rw [h]
            omega
          · omega
        exact (ih (pre ++ [c]) hpre1).trans (by rw [hassoc])
      · have hstep :
            breakdown_word_step (fun idx : Fin 27 => (letter_count pre idx.val : Int)) c
              = none := by
          unfold breakdown_word_step
          rw [if_pos ha]
          simp only
          rw [dif_pos (by omega : toU32 ((to_lower c : Int) - 97) < 27)]
          rw [if_neg (by intro h; exact hfull (by exact_mod_cast h))]
        rw [hstep]
        rw [if_neg]
        · rfl
        · intro hall
          have h1 := hall ⟨toU32 ((to_lower c : Int) - 97), by omega⟩
          have h2 := hpre ⟨toU32 ((to_lower c : Int) - 97), by omega⟩
          simp only at h1 h2
          rw [hassoc, letter_count_append, hcount] at h1
          simp only [if_true] at h1
          omega
    · have ha2 : is_alpha c = false := by simpa using ha
      have hcount : ∀ idx, letter_count (pre ++ [c]) idx = letter_count pre idx := by
        intro idx
        rw [letter_count_append, letter_count_single, letter_hit_of_not_alpha ha2]
        simp
      have hstep :
          breakdown_word_step (fun idx : Fin 27 => (letter_count pre idx.val : Int)) c
            = some (fun idx : Fin 27 => (letter_count (pre ++ [c]) idx.val : Int)) := by
        unfold breakdown_word_step
        rw [if_neg ha]
        congr 1
        funext idx
        rw [hcount]
      rw [hstep]
      exact (ih (pre ++ [c]) (by intro idx; rw [hcount]; exact hpre idx)).trans
        (by rw [hassoc])

/-- Specification of `breakdown_word`: the table of the counts of the letters, each letter
in its slot whatever its case, when no letter occurs more than 127 times; otherwise an
assertion fails. -/
theorem breakdown_word_spec (word : str_t) :
    breakdown_word word
      = if ∀ idx : Fin 27, letter_count word idx.val ≤ 127 then
          some (fun idx : Fin 27 => (letter_count word idx.val : Int))
        else none := by
  have h := breakdown_fold_spec word [] (by intro idx; simp [letter_count])
  rw [List.nil_append] at h
  unfold breakdown_word
  have h0 : breakdown_zero = fun idx : Fin 27 => (letter_count [] idx.val : Int) := by
    funext idx
    simp [breakdown_zero, letter_count]
  rw [h0]
  exact h

theorem letter_hit_to_lower (idx c : Nat) : letter_hit idx (to_lower c) = letter_hit idx c := by
  by_cases ha : is_alpha c = true
  · rcases (is_alpha_iff c).mp ha with ⟨h1, h2⟩ | ⟨h1, h2⟩
    · rw [to_lower_upper h1 h2]
      unfold letter_hit
      rw [Bool.eq_iff_iff]
      simp only [Bool.and_eq_true, Bool.or_eq_true, decide_eq_true_eq]
      omega
    · rw [to_lower_lower h1 h2]
  · unfold to_lower
    rw [if_neg ha]

theorem letter_hit_alpha {idx c : Nat} (h : letter_hit idx c = true) : is_alpha c = true := by
  by_contra ha
  rw [letter_hit_of_not_alpha (by simpa using ha)] at h
  cases h

theorem letter_count_to_lower (word : str_t) (idx : Nat) :
    letter_count (word.map to_lower) idx = letter_count word idx := by
  unfold letter_count
  rw [List.countP_map]
  congr 1
  funext c
  exact letter_hit_to_lower idx c

theorem letter_count_letters (word : str_t) (idx : Nat) :
    letter_count (word.filter is_alpha) idx = letter_count word idx := by
  unfold letter_count
  rw [List.countP_filter]
  congr 1
  funext c
  cases hh : letter_hit idx c with
  | false => rfl
  | true => rw [letter_hit_alpha hh]; rfl

/-- C19 (`breakdown_word` is additive over concatenation). For two byte strings `w1` and `w2`
such that no letter occurs more than 127 times in `w1` followed by `w2`, the three tables
exist, `breakdown_add` of the tables of `w1` and `w2` succeeds, and its result, the sum count
by count, is the table of `w1 ++ w2`. The table of a string counts, in slot `i`, the bytes
that are letter `i` of the alphabet in either case; so the table does not change when the
string is lowercased or when its non-letter bytes are removed. -/
theorem breakdown_word_additive (w1 w2 : str_t)
    (h : ∀ idx : Fin 27, letter_count (w1 ++ w2) idx.val ≤ 127) :
    (∃ b1 b2 : breakdown_t, breakdown_word w1 = some b1 ∧ breakdown_word w2 = some b2 ∧
      breakdown_add b1 b2 = some (fun idx => b1 idx + b2 idx) ∧
      breakdown_word (w1 ++ w2) = breakdown_add b1 b2) ∧
    breakdown_word (w1 ++ w2)
      = some (fun idx : Fin 27 => (letter_count (w1 ++ w2) idx.val : Int)) ∧
    (∀ word : str_t, breakdown_word (word.map to_lower) = breakdown_word word) ∧
    (∀ word : str_t, breakdown_word (word.filter is_alpha) = breakdown_word word) := by
  have h1 : ∀ idx : Fin 27, letter_count w1 idx.val ≤ 127 := by
    intro idx
    have := h idx
    rw [letter_count_append] at this
    omega
  have h2 : ∀ idx : Fin 27, letter_count w2 idx.val ≤ 127 := by
    intro idx
    have := h idx
    rw [letter_count_append] at this
    omega
  have hadd : breakdown_add (fun idx : Fin 27 => (letter_count w1 idx.val : Int))
      (fun idx : Fin 27 => (letter_count w2 idx.val : Int))
      = some (fun idx : Fin 27 =>
          (letter_count w1 idx.val : Int) + (letter_count w2 idx.val : Int)) :=
    breakdown_add_spec
      (by intro idx; omega)
      (by
        intro idx
        have := h idx
        rw [letter_count_append] at this
        omega)
  have hcat : breakdown_word (w1 ++ w2)
      = some (fun idx : Fin 27 => (letter_count (w1 ++ w2) idx.val : Int)) := by
    rw [breakdown_word_spec, if_pos h]
  refine ⟨⟨_, _, by rw [breakdown_word_spec, if_pos h1], by rw [breakdown_word_spec, if_pos h2],
    hadd, ?_⟩, hcat, ?_, ?_⟩
  · rw [hcat, hadd]
    congr 1
    funext idx
    rw [letter_count_append]
    push_cast
    rfl
  · intro word
    rw [breakdown_word_spec, breakdown_word_spec]
    simp only [letter_count_to_lower]
  · intro word
    rw [breakdown_word_spec, breakdown_word_spec]
    simp only [letter_count_letters]

/-- Witness of C19: the strings `Ca` and `t!`. -/
theorem breakdown_word_additive_witness :
    (∃ b1 b2 : breakdown_t, breakdown_word [67, 97] = some b1 ∧
      breakdown_word [116, 33] = some b2 ∧
      breakdown_add b1 b2 = some (fun idx => b1 idx + b2 idx) ∧
      breakdown_word ([67, 97] ++ [116, 33]) = breakdown_add b1 b2) ∧
    breakdown_word ([67, 97] ++ [116, 33])
      = some (fun idx : Fin 27 => (letter_count ([67, 97] ++ [116, 33]) idx.val : Int)) ∧
    (∀ word : str_t, breakdown_word (word.map to_lower) = breakdown_word word) ∧
    (∀ word : str_t, breakdown_word (word.filter is_alpha) = breakdown_word word) :=
  breakdown_word_additive [67, 97] [116, 33] (by decide)

theorem is_ascii_iff {c : Nat} (h : c < 256) : is_ascii c = decide (c < 128) := by
  unfold is_ascii
  interval_cases c <;> rfl

/-- The sum of the table of a string is positive exactly when the string has a letter. -/
theorem letter_sum_pos (word : str_t) :
    0 < breakdown_sum (fun idx : Fin 27 => (letter_count word idx.val : Int))
      ↔ word.any is_alpha = true := by
  constructor
  · intro hpos
    by_contra hany
    have hz : ∀ idx : Fin 27, (letter_count word idx.val : Int) = 0 := by
      intro idx
      have : letter_count word idx.val = 0 := by
        unfold letter_count
        rw [List.countP_eq_zero]
        intro c hc hhit
        exact hany (List.any_eq_true.mpr ⟨c, hc, letter_hit_alpha hhit⟩)
      exact_mod_cast this
    rw [breakdown_sum_zero hz] at hpos
    exact absurd hpos (lt_irrefl _)
  · intro hany
    obtain ⟨c, hc, ha⟩ := List.any_eq_true.mp hany
    obtain ⟨hlt, hhit⟩ := letter_slot_spec ha
    refine breakdown_sum_pos (fun idx => Int.natCast_nonneg _)
      ⟨toU32 ((to_lower c : Int) - 97), by omega⟩ ?_
    have : 0 < letter_count word (toU32 ((to_lower c : Int) - 97)) := by
      unfold letter_count
      rw [List.countP_pos_iff]
      exact ⟨c, hc, by rw [hhit]; simp⟩
    exact_mod_cast this

/-- The body of the dictionary loop for a valid entry: the entry is indexed under its own
table when it has a letter, and skipped otherwise. -/
theorem index_add_entry_eq (hashtable : hashtable_t) (entry : str_t) :
    index_add_entry hashtable entry
      = if entry.any is_alpha then add_own_word hashtable entry else some hashtable := by
  unfold index_add_entry add_own_word
  rw [breakdown_word_spec]
  by_cases hc : ∀ idx : Fin 27, letter_count entry idx.val ≤ 127
  · rw [if_pos hc]
    simp only [Option.map_some']
    by_cases hany : entry.any is_alpha = true
    · rw [if_pos hany, if_pos ((letter_sum_pos entry).mpr hany)]
    · rw [if_neg hany, if_neg (fun h => hany ((letter_sum_pos entry).mp h))]
  · rw [if_neg hc]
    have hany : entry.any is_alpha = true := by
      rw [not_forall] at hc
      obtain ⟨idx, hidx⟩ := hc
      have hpos : 0 < letter_count entry idx.val := by omega
      unfold letter_count at hpos
      rw [List.countP_pos_iff] at hpos
      obtain ⟨c, hcm, hhit⟩ := hpos
      exact List.any_eq_true.mpr ⟨c, hcm, letter_hit_alpha hhit⟩
    rw [if_pos hany]
    rfl

/-- What the loop does with the entry `entry` that ends at a line break or at the end, `v`
telling whether it is valid. -/
theorem entry_step (hashtable : hashtable_t) (entry : str_t) (v : Bool)
    (p : Nat → Bool) (hv : v = entry.all p) :
    (if v then index_add_entry hashtable entry else some hashtable)
      = ([entry].filter (fun e => e.all p && e.any is_alpha)).foldlM add_own_word hashtable := by
  rw [index_add_entry_eq, hv]
  by_cases h1 : entry.all p = true
  · by_cases h2 : entry.any is_alpha = true
    · simp [List.filter_cons, h1, h2]
    · simp [List.filter_cons, h1, h2]
  · by_cases h2 : entry.any is_alpha = true
    · simp [List.filter_cons, h1, h2]
    · simp [List.filter_cons, h1, h2]

/-- The loop "Build hash" from the cursor offset `k` on, with the current entry starting at
`s`: the entries indexed are the accepted pieces of the contents from `s` on between line
breaks, in their order. -/
theorem build_fold (up : Bool) (text : str_t) :
    ∀ (d k s : Nat) (v : Bool) (h : hashtable_t), k + d = text.length → s ≤ k →
      (∀ x ∈ (text.drop s).take (k - s), is_linebreak x = false) →
      v = ((text.drop s).take (k - s)).all (fun c => is_ascii c && (up || !is_upper c)) →
      ((List.range' k (d + 1)).foldlM (build_hash_step up text)
          { word_start := s, word_valid := v, hashtable := h }).map (fun st => st.hashtable)
        = (((text.drop s).splitOnP is_linebreak).filter
            (fun e => e.all (fun c => is_ascii c && (up || !is_upper c))
              && e.any is_alpha)).foldlM add_own_word h := by
  intro d
  induction d with
  | zero =>
    intro k s v h hk hs hno hv
    have hklen : k = text.length := by omega
    have htake : (text.drop s).take (k - s) = text.drop s := by
      apply List.take_of_length_le
      rw [List.length_drop]
      omega
    have hsingle : (text.drop s).splitOnP is_linebreak = [text.drop s] :=
      List.splitOnP_eq_single _ _ (by
        intro x hx
        rw [← htake] at hx
        simp [hno x hx])
    rw [hsingle, ← entry_step h (text.drop s) v _ (by rw [hv, htake])]
    simp only [List.range', List.foldlM_cons, List.foldlM_nil, build_hash_step, hklen, true_or,
      if_true]
    rw [← hklen, htake]
    cases v with
    | true =>
      simp only [if_true]
      cases index_add_entry h (text.drop s) <;> rfl
    | false => rfl
  | succ d ih =>
    intro k s v h hk hs hno hv
    have hklt : k < text.length := by omega
    have hdec := drop_split_at text hs hklt
    rw [show d + 1 + 1 = (d + 1) + 1 from rfl, List.range'_succ, List.foldlM_cons]
    have hget : text.getD k 0 = text[k] := by
      rw [List.getD_eq_getElem?_getD, List.getElem?_eq_getElem hklt]
      rfl
    by_cases hlb : is_linebreak text[k] = true
    · have hstep : build_hash_step up text { word_start := s, word_valid := v, hashtable := h } k
          = (if v then index_add_entry h ((text.drop s).take (k - s)) else some h).map
              (fun h1 => { word_start := k + 1, word_valid := true, hashtable := h1 }) := by
        unfold build_hash_step
        rw [if_pos (Or.inr (by rw [hget]; exact hlb))]
      have hfirst : (text.drop s).splitOnP is_linebreak
          = (text.drop s).take (k - s) :: (text.drop (k + 1)).splitOnP is_linebreak := by
        conv_lhs => rw [hdec]
        exact List.splitOnP_first _ _ (by intro x hx; simp [hno x hx]) _ hlb _
      rw [hstep, hfirst, List.filter_cons]
      rw [entry_step h ((text.drop s).take (k - s)) v _ hv]
      have hih : ∀ h1 : hashtable_t,
          ((List.range' (k + 1) (d + 1)).foldlM (build_hash_step up text)
              { word_start := k + 1, word_valid := true, hashtable := h1 }).map
            (fun st => st.hashtable)
          = (((text.drop (k + 1)).splitOnP is_linebreak).filter
              (fun e => e.all (fun c => is_ascii c && (up || !is_upper c))
                && e.any is_alpha)).foldlM add_own_word h1 :=
        fun h1 => ih (k + 1) (k + 1) true h1 (by omega) (le_refl _) (by simp) (by simp)
      by_cases hacc : (((text.drop s).take (k - s)).all
          (fun c => is_ascii c && (up || !is_upper c))
          && ((text.drop s).take (k - s)).any is_alpha) = true
      · rw [if_pos hacc, List.filter_cons, if_pos hacc, List.filter_nil, List.foldlM_cons,
          List.foldlM_cons]
        cases add_own_word h ((text.drop s).take (k - s)) with
        | none => rfl
        | some h1 => exact hih h1
      · rw [if_neg hacc, List.filter_cons, if_neg hacc, List.filter_nil, List.foldlM_nil]
        exact hih h
    · have hlb2 : is_linebreak text[k] = false := by simpa using hlb
      have hstep : build_hash_step up text { word_start := s, word_valid := v, hashtable := h } k
          = some { word_start := s,
                   word_valid := v && (is_ascii text[k] && (up || !is_upper text[k])),
                   hashtable := h } := by
        unfold build_hash_step
        rw [if_neg (by
          rw [hget]
          rintro (h1 | h1)
          · omega
          · rw [hlb2] at h1; cases h1)]
        rw [hget]
        cases is_ascii text[k] <;> cases up <;> cases is_upper text[k] <;> cases v <;> rfl
      rw [hstep]
      have htk : (text.drop s).take (k + 1 - s)
          = (text.drop s).take (k - s) ++ [text[k]] := by
        conv_lhs => rw [hdec]
        have hlen : ((text.drop s).take (k - s)).length = k - s := by
          rw [List.length_take, List.length_drop]
          omega
        rw [List.take_append_eq_append_take, hlen]
        rw [show k + 1 - s - (k - s) = 1 by omega]
        rw [List.take_of_length_le (by rw [hlen]; omega)]
        rfl
      exact ih (k + 1) s _ h (by omega) (by omega)
        (by
          intro x hx
          rw [htk] at hx
          rcases List.mem_append.mp hx with h1 | h1
          · exact hno x h1
          · rw [List.mem_singleton.mp h1]; exact hlb2)
        (by rw [htk, List.all_append, hv]; simp)

/-- The elements of the pieces of a split are elements of the list. -/
theorem splitOnP_subset {α : Type} (p : α → Bool) :
    ∀ l : List α, ∀ w ∈ l.splitOnP p, ∀ x ∈ w, x ∈ l := by
  intro l
  induction l with
  | nil =>
    intro w hw x hx
    rw [List.splitOnP_nil, List.mem_singleton] at hw
    rw [hw] at hx
    cases hx
  | cons a l ih =>
    intro w hw x hx
    rw [List.splitOnP_cons] at hw
    by_cases hp : p a = true
    · rw [if_pos hp] at hw
      rcases List.mem_cons.mp hw with h | h
      · rw [h] at hx; cases hx
      · exact List.mem_cons_of_mem _ (ih w h x hx)
    · rw [if_neg hp] at hw
      cases hsp : l.splitOnP p with
      | nil => exact absurd hsp (List.splitOnP_ne_nil p l)
      | cons hd tl =>
        rw [hsp] at hw ih
        simp only [List.modifyHead_cons, List.mem_cons] at hw
        rcases hw with h | h
        · rw [h] at hx
          rcases List.mem_cons.mp hx with h1 | h1
          · rw [h1]; exact List.mem_cons_self _ _
          · exact List.mem_cons_of_mem _ (ih hd (List.mem_cons_self _ _) x h1)
        · exact List.mem_cons_of_mem _ (ih w (List.mem_cons_of_mem _ h) x hx)

theorem words_of_table_append (key : breakdown_t) (ws : List str_t) {w : str_t}
    {b : breakdown_t} (hb : breakdown_word w = some b) :
    words_of_table key (ws ++ [w])
      = words_of_table key ws ++ (if b = key then [w] else []) := by
  unfold words_of_table
  rw [List.filter_append]
  congr 1
  by_cases h : b = key
  · simp [List.filter_cons, hb, h, (breakdown_eq_iff key key).mpr rfl]
  · have : breakdown_eq b key = false := by
      rw [Bool.eq_false_iff, Ne, breakdown_eq_iff]
      exact h
    simp [List.filter_cons, hb, h, this]

/-- With one class per key, the `else` branch of `hashtable_add_word` puts the word in front
of the word list of the class with the key `b` and leaves the other classes alone. -/
theorem chain_add_word_map (word : str_t) (b : breakdown_t) :
    ∀ chain : List keylink_t, chain.Pairwise (fun x y => x.key ≠ y.key) →
      chain_add_word word b chain
        = chain.map (fun k =>
            if k.key = b then
              { key := k.key, first_word := word, more_words := k.first_word :: k.more_words }
            else k) := by
  intro chain
  induction chain with
  | nil => intro _; rfl
  | cons link rest ih =>
    intro hp
    rw [List.pairwise_cons] at hp
    unfold chain_add_word
    by_cases hk : link.key = b
    · rw [if_pos ((breakdown_eq_iff _ _).mpr hk), List.map_cons, if_pos hk]
      congr 1
      symm
      conv_rhs => rw [← List.map_id rest]
      apply List.map_congr_left
      intro k hkm
      rw [if_neg]
      · rfl
      · intro h
        exact hp.1 k hkm (hk.trans h.symm)
    · have : breakdown_eq link.key b = false := by
        rw [Bool.eq_false_iff, Ne, breakdown_eq_iff]
        exact hk
      rw [this, List.map_cons, if_neg hk, ih hp.2]
      rfl

/-- The buckets after one call of `hashtable_add_word`, given one class per key. -/
theorem hashtable_add_word_entries (hashtable : hashtable_t) (word : str_t) (b : breakdown_t)
    (hu : (hashtable.entries (hash_breakdown b % bucket_count)).Pairwise
      (fun x y => x.key ≠ y.key)) (j : Nat) :
    (hashtable_add_word hashtable word b).entries j
      = if j = hash_breakdown b % bucket_count then
          (if ∃ k ∈ hashtable.entries j, k.key = b then
            (hashtable.entries j).map (fun k =>
              if k.key = b then
                { key := k.key, first_word := word,
                  more_words := k.first_word :: k.more_words }
              else k)
          else { key := b, first_word := word, more_words := [] } :: hashtable.entries j)
        else hashtable.entries j := by
  unfold hashtable_add_word
  simp only
  by_cases hj : j = hash_breakdown b % bucket_count
  · subst hj
    rw [if_pos rfl]
    by_cases hany : ∃ k ∈ hashtable.entries (hash_breakdown b % bucket_count), k.key = b
    · have : (hashtable.entries (hash_breakdown b % bucket_count)).any
          (fun link => breakdown_eq link.key b) = true := by
        rw [List.any_eq_true]
        obtain ⟨k, hk, hkey⟩ := hany
        exact ⟨k, hk, (breakdown_eq_iff _ _).mpr hkey⟩
      rw [if_pos this, if_pos hany]
      simp only [Function.update_same]
      exact chain_add_word_map word b _ hu
    · have : ¬ (hashtable.entries (hash_breakdown b % bucket_count)).any
          (fun link => breakdown_eq link.key b) = true := by
        rw [List.any_eq_true]
        rintro ⟨k, hk, hkey⟩
        exact hany ⟨k, hk, (breakdown_eq_iff _ _).mp hkey⟩
      rw [if_neg this, if_neg hany]
      simp only [Function.update_same]
  · rw [if_neg hj]
    split <;> simp only [Function.update_noteq hj]

theorem index_inv_empty : IndexInv [] hashtable_empty :=
  { bucket := by intro i kl hkl; cases hkl
    unique := by intro i; exact List.Pairwise.nil
    words_eq := by intro i kl hkl; cases hkl
    covered := by intro w hw; cases hw }

/-- One call of `hashtable_add_word` with the table of the word itself keeps the invariant of
the index. -/
theorem index_inv_add {words : List str_t} {hashtable : hashtable_t} {word : str_t}
    {b : breakdown_t} (hinv : IndexInv words hashtable) (hb : breakdown_word word = some b) :
    IndexInv (words ++ [word]) (hashtable_add_word hashtable word b) := by
  have hent := hashtable_add_word_entries hashtable word b (hinv.unique _)
  have hother : ∀ i, ∀ kl ∈ hashtable.entries i, kl.key ≠ b →
      kl.words = (words_of_table kl.key (words ++ [word])).reverse := by
    intro i kl hkl hne
    rw [words_of_table_append kl.key words hb, if_neg (fun h => hne h.symm), List.append_nil]
    exact hinv.words_eq i kl hkl
  constructor
  · intro i kl hkl
    rw [hent i] at hkl
    by_cases hi : i = hash_breakdown b % bucket_count
    · rw [if_pos hi] at hkl
      split at hkl
      · obtain ⟨k, hk, rfl⟩ := List.mem_map.mp hkl
        have := hinv.bucket i k hk
        split <;> exact this
      · rcases List.mem_cons.mp hkl with rfl | h
        · exact hi
        · exact hinv.bucket i kl h
    · rw [if_neg hi] at hkl
      exact hinv.bucket i kl hkl
  · intro i
    rw [hent i]
    by_cases hi : i = hash_breakdown b % bucket_count
    · rw [if_pos hi]
      split
      · rw [List.pairwise_map]
        refine List.Pairwise.imp ?_ (hinv.unique i)
        intro x y hxy
        have hx : ∀ k : keylink_t, (if k.key = b then
            ({ key := k.key, first_word := word,
               more_words := k.first_word :: k.more_words } : keylink_t) else k).key
            = k.key := by
          intro k; split <;> rfl
        rw [hx, hx]
        exact hxy
      · rename_i hno
        rw [List.pairwise_cons]
        refine ⟨?_, hinv.unique i⟩
        intro k hk heq
        exact hno ⟨k, hk, heq.symm⟩
    · rw [if_neg hi]
      exact hinv.unique i
  · intro i kl hkl
    rw [hent i] at hkl
    by_cases hi : i = hash_breakdown b % bucket_count
    · rw [if_pos hi] at hkl
      split at hkl
      · obtain ⟨k, hk, rfl⟩ := List.mem_map.mp hkl
        by_cases hkey : k.key = b
        · rw [if_pos hkey]
          simp only [keylink_t.words]
          rw [words_of_table_append k.key words hb, if_pos hkey.symm, List.reverse_append,
            List.reverse_singleton, List.singleton_append, ← hinv.words_eq i k hk]
          rfl
        · rw [if_neg hkey]
          exact hother i k hk hkey
      · rename_i hno
        rcases List.mem_cons.mp hkl with rfl | h
        · simp only [keylink_t.words]
          rw [words_of_table_append b words hb, if_pos rfl]
          have hnone : words_of_table b words = [] := by
            unfold words_of_table
            rw [List.filter_eq_nil_iff]
            intro w hw hhas
            cases hbw : breakdown_word w with
            | none => rw [hbw] at hhas; simp at hhas
            | some b1 =>
              rw [hbw] at hhas
              have hb1 : b1 = b := (breakdown_eq_iff _ _).mp hhas
              obtain ⟨kl, hklm, hkey⟩ := hinv.covered w hw b1 hbw
              rw [hb1, ← hi] at hklm
              exact hno ⟨kl, hklm, hkey.trans hb1⟩
          rw [hnone]
          rfl
        · exact hother i kl h (fun heq => hno ⟨kl, h, heq⟩)
    · rw [if_neg hi] at hkl
      refine hother i kl hkl ?_
      intro heq
      have := hinv.bucket i kl hkl
      rw [heq] at this
      exact hi this
  · intro w hw b1 hb1
    have hpres : ∀ kl ∈ hashtable.entries (hash_breakdown b1 % bucket_count), kl.key = b1 →
        ∃ kl1 ∈ (hashtable_add_word hashtable word b).entries
          (hash_breakdown b1 % bucket_count), kl1.key = b1 := by
      intro kl hkl hkey
      rw [hent]
      by_cases hi : hash_breakdown b1 % bucket_count = hash_breakdown b % bucket_count
      · rw [if_pos hi]
        split
        · refine ⟨_, List.mem_map.mpr ⟨kl, hkl, rfl⟩, ?_⟩
          split <;> exact hkey
        · exact ⟨kl, List.mem_cons_of_mem _ hkl, hkey⟩
      · rw [if_neg hi]
        exact ⟨kl, hkl, hkey⟩
    rcases List.mem_append.mp hw with h | h
    · obtain ⟨kl, hkl, hkey⟩ := hinv.covered w h b1 hb1
      exact hpres kl hkl hkey
    · rw [List.mem_singleton.mp h, hb] at hb1
      cases Option.some.inj hb1
      by_cases hany : ∃ k ∈ hashtable.entries (hash_breakdown b % bucket_count), k.key = b
      · obtain ⟨k, hk, hkey⟩ := hany
        exact hpres k hk hkey
      · rw [hent, if_pos rfl, if_neg hany]
        exact ⟨_, List.mem_cons_self _ _, rfl⟩

/-- An invariant that relates the state of a fold to the elements folded so far. -/
theorem foldlM_invariant_prefix {σ α : Type} (P : List α → σ → Prop) (f : σ → α → Option σ)
    (hf : ∀ pre s a s1, P pre s → f s a = some s1 → P (pre ++ [a]) s1) :
    ∀ (l pre : List α) (s s1 : σ), P pre s → l.foldlM f s = some s1 → P (pre ++ l) s1 := by
  intro l
  induction l with
  | nil =>
    intro pre s s1 hP h
    rw [List.foldlM_nil] at h
    cases Option.some.inj h
    rw [List.append_nil]
    exact hP
  | cons a as ih =>
    intro pre s s1 hP h
    rw [List.foldlM_cons] at h
    cases hs : f s a with
    | none => rw [hs] at h; cases h
    | some s2 =>
      rw [hs] at h
      have := ih (pre ++ [a]) s2 s1 (hf pre s a s2 hP hs) h
      rw [List.append_assoc] at this
      exact this

/-- The invariant of the index holds for every index built by `hashtable_add_word` from
words with their own tables. -/
theorem index_of_words_inv {words : List str_t} {hashtable : hashtable_t}
    (h : index_of_words words = some hashtable) : IndexInv words hashtable := by
  have := foldlM_invariant_prefix IndexInv add_own_word
    (by
      intro pre s a s1 hP hstep
      unfold add_own_word at hstep
      cases hb : breakdown_word a with
      | none => rw [hb] at hstep; cases hstep
      | some b =>
        rw [hb] at hstep
        cases Option.some.inj hstep
        exact index_inv_add hP hb)
    words [] hashtable_empty hashtable index_inv_empty h
  rw [List.nil_append] at this
  exact this

theorem foldlM_filter {σ α : Type} (f g : σ → α → Option σ) (p : α → Bool)
    (h : ∀ s a, f s a = if p a then g s a else some s) :
    ∀ (l : List α) (s : σ), l.foldlM f s = (l.filter p).foldlM g s := by
  intro l
  induction l with
  | nil => intro s; rfl
  | cons a as ih =>
    intro s
    rw [List.foldlM_cons, h s a, List.filter_cons]
    by_cases hp : p a = true
    · rw [if_pos hp, if_pos hp, List.foldlM_cons]
      cases g s a with
      | none => rfl
      | some s1 => exact ih s1
    · rw [if_neg hp, if_neg hp]
      exact ih s

/-- The index that `main` builds from the valid entries is the index that
`hashtable_add_word` builds from the entries that have a letter. -/
theorem index_of_entries_eq (words : List str_t) :
    index_of_entries words = index_of_words (words.filter (fun w => w.any is_alpha)) := by
  unfold index_of_entries index_of_words
  exact foldlM_filter index_add_entry add_own_word (fun w => w.any is_alpha)
    (fun s a => index_add_entry_eq s a) words hashtable_empty

/-- A word whose table has a positive sum has a letter. -/
theorem any_alpha_of_table {w : str_t} {b : breakdown_t} (hb : breakdown_word w = some b)
    (hpos : 0 < breakdown_sum b) : w.any is_alpha = true := by
  rw [breakdown_word_spec] at hb
  split at hb
  · cases Option.some.inj hb
    exact (letter_sum_pos w).mp hpos
  · cases hb

theorem words_of_table_letters {key : breakdown_t} (hpos : 0 < breakdown_sum key)
    (words : List str_t) :
    words_of_table key (words.filter (fun w => w.any is_alpha)) = words_of_table key words := by
  unfold words_of_table
  rw [List.filter_filter]
  apply List.filter_congr
  intro w _
  cases hb : breakdown_word w with
  | none => simp
  | some b =>
    simp only
    cases he : breakdown_eq b key with
    | false => rfl
    | true =>
      rw [(breakdown_eq_iff _ _).mp he] at hb
      rw [any_alpha_of_table hb hpos]
      rfl

theorem words_of_table_mem {key : breakdown_t} {w : str_t} (hb : breakdown_word w = some key)
    (ws : List str_t) : words_of_table key (w :: ws) = w :: words_of_table key ws := by
  unfold words_of_table
  rw [List.filter_cons, hb]
  simp [(breakdown_eq_iff key key).mpr rfl]

theorem words_of_table_concat (key : breakdown_t) (A B : List str_t) :
    words_of_table key (A ++ B) = words_of_table key A ++ words_of_table key B := by
  unfold words_of_table
  exact List.filter_append _ _

/-- C17, as stated, fails: in the index of the example dictionary the class of cat, act, tac
has the word list tac, act, cat; cat comes before act in the dictionary and behind it in the
word list. -/
theorem class_word_order_counterexample :
    index_of_entries example_dictionary = some example_index ∧
    class_cat ∈ classes example_index ∧
    class_cat.words = [[116, 97, 99], [97, 99, 116], [99, 97, 116]] ∧
    words_of_table class_cat.key example_dictionary
      = [[99, 97, 116], [97, 99, 116], [116, 97, 99]] ∧
    example_dictionary.indexOf [99, 97, 116] < example_dictionary.indexOf [97, 99, 116] ∧
    class_cat.words.indexOf [97, 99, 116] < class_cat.words.indexOf [99, 97, 116] :=
  ⟨example_index_eq, by rw [example_index_classes]; decide, rfl, by decide, by decide,
    by decide⟩

/-- C17, amended (the word list of a class is in reverse dictionary order). In the index
that `main` builds from the valid entries `words` of the dictionary, the word list of every
class holds the entries with the key of the class as their table, the last one of the
dictionary first. So when two entries with the same table are indexed one after the other,
the one that comes later in the dictionary comes first in the word list. -/
theorem class_word_order (words : List str_t) (hashtable : hashtable_t)
    (hindex : index_of_entries words = some hashtable) :
    (∀ i, ∀ kl ∈ hashtable.entries i, kl.words = (words_of_table kl.key words).reverse) ∧
    ∀ i, ∀ kl ∈ hashtable.entries i, ∀ (A B C : List str_t) (w1 w2 : str_t),
      words = A ++ w1 :: (B ++ w2 :: C) → breakdown_word w1 = some kl.key →
      breakdown_word w2 = some kl.key →
      ∃ X Y Z : List str_t, kl.words = X ++ w2 :: (Y ++ w1 :: Z) := by
  have hpos := (index_of_entries_ok hindex).2
  rw [index_of_entries_eq] at hindex
  have hinv := index_of_words_inv hindex
  have hall : ∀ i, ∀ kl ∈ hashtable.entries i,
      kl.words = (words_of_table kl.key words).reverse := by
    intro i kl hkl
    rw [hinv.words_eq i kl hkl, words_of_table_letters (hpos i kl hkl)]
  refine ⟨hall, ?_⟩
  intro i kl hkl A B C w1 w2 hw h1 h2
  refine ⟨(words_of_table kl.key C).reverse, (words_of_table kl.key B).reverse,
    (words_of_table kl.key A).reverse, ?_⟩
  rw [hall i kl hkl, hw, words_of_table_concat, words_of_table_mem h1, words_of_table_concat,
    words_of_table_mem h2]
  simp

/-- Witness of C17 (amended): the example dictionary, with the entries cat and tac of the
class in bucket 79376. -/
theorem class_word_order_witness :
    (∀ i, ∀ kl ∈ example_index.entries i,
      kl.words = (words_of_table kl.key example_dictionary).reverse) ∧
    ∀ i, ∀ kl ∈ example_index.entries i, ∀ (A B C : List str_t) (w1 w2 : str_t),
      example_dictionary = A ++ w1 :: (B ++ w2 :: C) → breakdown_word w1 = some kl.key →
      breakdown_word w2 = some kl.key →
      ∃ X Y Z : List str_t, kl.words = X ++ w2 :: (Y ++ w1 :: Z) :=
  class_word_order example_dictionary example_index example_index_eq

/-- The flag `do_record` of `record_for_undo` when there is a current entry: some string of
the state differs from the string of the entry. -/
theorem do_record_iff (state previous : ui_state_t) :
    (List.finRange 3).foldl
        (fun do_record str_idx =>
          do_record || !str_eq (state.ui_strs str_idx) (previous.ui_strs str_idx))
        false = true
      ↔ ∃ i, state.ui_strs i ≠ previous.ui_strs i := by
  have h3 : List.finRange 3 = [0, 1, 2] := rfl
  rw [h3]
  simp only [List.foldl_cons, List.foldl_nil, Bool.false_or, Bool.or_eq_true,
    Bool.not_eq_true', ← Bool.not_eq_true, str_eq_iff]
  constructor
  · rintro ((h | h) | h)
    · exact ⟨0, h⟩
    · exact ⟨1, h⟩
    · exact ⟨2, h⟩
  · rintro ⟨i, h⟩
    fin_cases i
    · exact Or.inl (Or.inl h)
    · exact Or.inl (Or.inr h)
    · exact Or.inr h

/-- C20 (`record_for_undo` captures only on a string change). When the history has a current
entry, `record_for_undo` returns true and links in a new entry, a copy of the state, behind
the current one exactly when one of the three strings of the state differs from the string
of the current entry; otherwise it returns false and leaves the history as it is, whatever
the cursor and scroll positions and the other fields of the state are. -/
theorem record_on_string_change (state : ui_state_t) (history : undo_history_t)
    (current : Nat) (previous : ui_state_t)
    (hcurrent : history.current_entry = some current)
    (hprevious : history.entries[current]? = some previous) :
    ((∃ i, state.ui_strs i ≠ previous.ui_strs i) →
      record_for_undo state history
        = some (true,
            { entries := history.entries.take (current + 1) ++ [state],
              current_entry := some (current + 1) })) ∧
    ((∀ i, state.ui_strs i = previous.ui_strs i) →
      record_for_undo state history = some (false, history)) ∧
    ∀ flag history1, record_for_undo state history = some (flag, history1) →
      (flag = true ↔ ∃ i, state.ui_strs i ≠ previous.ui_strs i) ∧
      (flag = true ↔ history1 ≠ history) := by
  have hyes : (∃ i, state.ui_strs i ≠ previous.ui_strs i) →
      record_for_undo state history
        = some (true,
            { entries := history.entries.take (current + 1) ++ [state],
              current_entry := some (current + 1) }) := by
    intro h
    unfold record_for_undo
    rw [hcurrent]
    simp only [hprevious]
    rw [if_pos ((do_record_iff state previous).mpr h)]
  have hno : (∀ i, state.ui_strs i = previous.ui_strs i) →
      record_for_undo state history = some (false, history) := by
    intro h
    unfold record_for_undo
    rw [hcurrent]
    simp only [hprevious]
    rw [if_neg]
    intro hd
    obtain ⟨i, hi⟩ := (do_record_iff state previous).mp hd
    exact hi (h i)
  refine ⟨hyes, hno, ?_⟩
  intro flag history1 hrec
  by_cases hch : ∃ i, state.ui_strs i ≠ previous.ui_strs i
  · rw [hyes hch] at hrec
    cases hrec
    refine ⟨by simp [hch], ?_⟩
    simp only [true_iff]
    intro heq
    have := congrArg undo_history_t.current_entry heq
    rw [hcurrent] at this
    simp at this
  · have hall : ∀ i, state.ui_strs i = previous.ui_strs i := by
      intro i
      by_contra h
      exact hch ⟨i, h⟩
    rw [hno hall] at hrec
    cases hrec
    exact ⟨by simp [hch], by simp⟩

/-- Witness of C20: on the history with the one entry of the start, a state with the input
string `c` is recorded, and a state that differs in the cursor and scroll positions only is
not. -/
theorem record_on_string_change_witness :
    record_for_undo { ui_state_zero with cursor_pos := 5, skip_results := 3 } history_start
      = some (false, history_start) ∧
    ((∃ i, ({ ui_state_zero with ui_strs := fun i => if i = 0 then [99] else [],
                                  cursor_pos := 1 } : ui_state_t).ui_strs i
        ≠ ui_state_zero.ui_strs i) →
      record_for_undo
          { ui_state_zero with ui_strs := fun i => if i = 0 then [99] else [],
                               cursor_pos := 1 } history_start
        = some (true,
            { entries := history_start.entries.take (0 + 1)
                ++ [{ ui_state_zero with ui_strs := fun i => if i = 0 then [99] else [],
                                         cursor_pos := 1 }],
              current_entry := some (0 + 1) })) ∧
    ((∀ i, ({ ui_state_zero with ui_strs := fun i => if i = 0 then [99] else [],
                                  cursor_pos := 1 } : ui_state_t).ui_strs i
        = ui_state_zero.ui_strs i) →
      record_for_undo
          { ui_state_zero with ui_strs := fun i => if i = 0 then [99] else [],
                               cursor_pos := 1 } history_start
        = some (false, history_start)) ∧
    ∀ flag history1,
      record_for_undo
          { ui_state_zero with ui_strs := fun i => if i = 0 then [99] else [],
                               cursor_pos := 1 } history_start
        = some (flag, history1) →
      (flag = true ↔ ∃ i, ({ ui_state_zero with ui_strs := fun i => if i = 0 then [99] else [],
                                                cursor_pos := 1 } : ui_state_t).ui_strs i
        ≠ ui_state_zero.ui_strs i) ∧
      (flag = true ↔ history1 ≠ history_start) :=
  ⟨(record_on_string_change { ui_state_zero with cursor_pos := 5, skip_results := 3 }
      history_start 0 ui_state_zero rfl rfl).2.1 (fun _ => rfl),
    record_on_string_change
      { ui_state_zero with ui_strs := fun i => if i = 0 then [99] else [], cursor_pos := 1 }
      history_start 0 ui_state_zero rfl rfl⟩

/-- The scan for a fitting subkey, when it finds one: it lies at or behind the start, and its
key is contained in the remaining table. -/
theorem first_fit_some (remaining : breakdown_t) :
    ∀ (L : List keylink_t) (p q : Nat), first_fit remaining L p = some q →
      ∃ j, ∃ hj : j < L.length, q = p + j ∧ breakdown_contains remaining L[j].key = true := by
  intro L
  induction L with
  | nil => intro p q h; cases h
  | cons link rest ih =>
    intro p q h
    unfold first_fit at h
    split at h
    · rename_i hc
      cases Option.some.inj h
      exact ⟨0, by simp, rfl, hc⟩
    · obtain ⟨j, hj, hq, hc⟩ := ih (p + 1) q h
      exact ⟨j + 1, by simp; omega, by omega, by simpa using hc⟩

theorem find_next_some {S : List keylink_t} {remaining : breakdown_t} {start : Option Nat}
    {q : Nat} (h : find_next S remaining start = some q) :
    ∃ p, start = some p ∧ p ≤ q ∧ ∃ hq : q < S.length,
      breakdown_contains remaining S[q].key = true := by
  unfold find_next at h
  cases start with
  | none => cases h
  | some p =>
    simp only at h
    obtain ⟨j, hj, hq, hc⟩ := first_fit_some remaining _ p q h
    rw [List.length_drop] at hj
    have hlt : q < S.length := by omega
    refine ⟨p, rfl, by omega, hlt, ?_⟩
    rw [List.getElem_drop] at hc
    simpa [hq] using hc

/-- Pushing a subkey whose key is contained in the remaining table. -/
theorem push_found_some {S : List keylink_t} {m : Nat} (st : search_t) {chain : List Nat}
    {remaining : breakdown_t} {q : Nat} (hq : q < S.length) (hlen : chain.length < m)
    (hrem : letter_bag remaining) (hkey : letter_bag S[q].key)
    (hc : breakdown_contains remaining S[q].key = true) :
    push_found S m st chain remaining q
      = some { st with
          chain := chain ++ [q]
          remaining_breakdown := fun idx => remaining idx - key_at S q idx
          next_min_subkey := some q } := by
  unfold push_found
  rw [if_pos hlen, List.getElem?_eq_getElem hq]
  simp only
  have hcont := (breakdown_contains_iff _ _).mp hc
  rw [breakdown_subtract_spec
    (by intro idx; have := hcont idx; omega)
    (by intro idx; have := hcont idx; have := (hrem idx).2; have := (hkey idx).1; omega)]
  simp only [List.getLast?_concat]
  have hk : key_at S q = S[q].key := key_at_of_get (List.getElem?_eq_getElem hq)
  rw [hk]

theorem search_rank_nil (base width : Nat) : search_rank base width [] = 0 := by
  cases width <;> rfl

theorem search_rank_append (base : Nat) :
    ∀ (xs ys : List Nat) (width : Nat), xs.length ≤ width →
      search_rank base width (xs ++ ys)
        = search_rank base width xs + search_rank base (width - xs.length) ys := by
  intro xs
  induction xs with
  | nil =>
    intro ys width _
    rw [search_rank_nil]
    simp
  | cons d xs ih =>
    intro ys width hlen
    obtain ⟨w, rfl⟩ : ∃ w, width = w + 1 := ⟨width - 1, by simp at hlen; omega⟩
    rw [List.cons_append]
    show (d + 1) * base ^ w + search_rank base w (xs ++ ys)
      = (d + 1) * base ^ w + search_rank base w xs
        + search_rank base (w + 1 - (d :: xs).length) ys
    rw [ih ys w (by simp at hlen; omega), List.length_cons]
    rw [show w + 1 - (xs.length + 1) = w - xs.length by omega]
    omega

theorem search_rank_lt {base : Nat} (hbase : 0 < base) :
    ∀ (width : Nat) (xs : List Nat), (∀ d ∈ xs, d + 2 ≤ base) →
      search_rank base width xs < base ^ width := by
  intro width
  induction width with
  | zero => intro xs _; simp [search_rank]
  | succ w ih =>
    intro xs hxs
    cases xs with
    | nil => simp only [search_rank]; exact pow_pos hbase _
    | cons d ds =>
      simp only [search_rank]
      have h1 := ih ds (fun x hx => hxs x (List.mem_cons_of_mem _ hx))
      have h2 := hxs d (List.mem_cons_self _ _)
      have h3 : (d + 1) * base ^ w + base ^ w ≤ base * base ^ w := by
        have : (d + 1) * base ^ w + base ^ w = (d + 2) * base ^ w := by ring
        rw [this]
        exact Nat.mul_le_mul_right _ h2
      rw [pow_succ, Nat.mul_comm (base ^ w) base]
      omega

/-- Pushing a subkey at or behind the pointer raises the rank. -/
theorem rank_push {base : Nat} (hbase : 0 < base) (v nm q : Nat) (h : nm ≤ q) :
    search_rank base (v + 2) [nm] < search_rank base (v + 2) [q, q] := by
  simp only [search_rank, search_rank_nil]
  have hX : 0 < base ^ v := pow_pos hbase _
  have h1 : (nm + 1) * base ^ (v + 1) ≤ (q + 1) * base ^ (v + 1) :=
    Nat.mul_le_mul_right _ (by omega)
  have h2 : 0 < (q + 1) * base ^ v := Nat.mul_pos (by omega) hX
  omega

/-- Replacing the last subkey by a later one raises the rank. -/
theorem rank_replace {base : Nat} (hbase : 0 < base) (v prev nm q : Nat) (h : prev < q)
    (hnm : nm + 2 ≤ base) :
    search_rank base (v + 2) [prev, nm] < search_rank base (v + 2) [q, q] := by
  simp only [search_rank, search_rank_nil]
  have hX : 0 < base ^ v := pow_pos hbase _
  have hp : base ^ (v + 1) = base * base ^ v := by rw [pow_succ, Nat.mul_comm]
  have h1 : (prev + 1) * base ^ (v + 1) + base ^ (v + 1) ≤ (q + 1) * base ^ (v + 1) := by
    have : (prev + 1) * base ^ (v + 1) + base ^ (v + 1) = (prev + 2) * base ^ (v + 1) := by ring
    rw [this]
    exact Nat.mul_le_mul_right _ (by omega)
  have h2 : (nm + 1) * base ^ v < base ^ (v + 1) := by
    rw [hp]
    exact Nat.mul_lt_mul_of_pos_right (by omega) hX
  omega

/-- Dropping the last subkey and moving the pointer behind it raises the rank. -/
theorem rank_pop {base : Nat} (hbase : 0 < base) (v prev nm : Nat) (hnm : nm + 2 ≤ base) :
    search_rank base (v + 2) [prev, nm] < search_rank base (v + 2) [prev + 1] := by
  simp only [search_rank, search_rank_nil]
  have hX : 0 < base ^ v := pow_pos hbase _
  have hp : base ^ (v + 1) = base * base ^ v := by rw [pow_succ, Nat.mul_comm]
  have h2 : (nm + 1) * base ^ v < base ^ (v + 1) := by
    rw [hp]
    exact Nat.mul_lt_mul_of_pos_right (by omega) hX
  have h3 : (prev + 1 + 1) * base ^ (v + 1) = (prev + 1) * base ^ (v + 1) + base ^ (v + 1) := by
    ring
  omega

theorem sum_ge_length (l : List Int) (h : ∀ x ∈ l, 1 ≤ x) : (l.length : Int) ≤ l.sum := by
  induction l with
  | nil => simp
  | cons a l ih =>
    have h1 := h a (List.mem_cons_self _ _)
    have h2 := ih (fun x hx => h x (List.mem_cons_of_mem _ hx))
    simp only [List.length_cons, List.sum_cons]
    push_cast
    omega

/-- A chain whose keys fit into the reduced target is at most as long as the sum of the
target, every key having a positive sum. -/
theorem chain_length_le {S : List keylink_t} {R : breakdown_t}
    (hpos : ∀ k ∈ S, 0 < breakdown_sum k.key) {c : List Nat} (hc : ∀ p ∈ c, p < S.length)
    (hfit : ∀ idx, 0 ≤ R idx - chain_sum S c idx) : (c.length : Int) ≤ breakdown_sum R := by
  have h1 : breakdown_sum (chain_sum S c) ≤ breakdown_sum R :=
    breakdown_sum_le (fun idx => by have := hfit idx; omega)
  rw [breakdown_sum_chain_sum] at h1
  have h2 := sum_ge_length (c.map (fun p => breakdown_sum (key_at S p))) (by
    intro x hx
    obtain ⟨p, hp, rfl⟩ := List.mem_map.mp hx
    have := key_at_sum_pos hpos (hc p hp)
    omega)
  rw [List.length_map] at h2
  omega

/-- Pushing a fitting subkey on a chain keeps the invariant of the search loop. -/
theorem batch_push_inv {S : List keylink_t} {R : breakdown_t} (hR : letter_bag R)
    (hS : ∀ k ∈ S, letter_bag k.key) (hpos : ∀ k ∈ S, 0 < breakdown_sum k.key) {m : Nat}
    (hm : breakdown_sum R ≤ m) (st : search_t) {c : List Nat} {rem : breakdown_t} {q : Nat}
    (hc : ∀ p ∈ c, p < S.length) (hrem : ∀ idx, rem idx = R idx - chain_sum S c idx)
    (hnn : ∀ idx, 0 ≤ rem idx) (hq : q < S.length)
    (hcont : breakdown_contains rem S[q].key = true) :
    ∃ st1, push_found S m st c rem q = some st1 ∧ BatchInv S R st1 ∧ st1.chain = c ++ [q] ∧
      st1.next_min_subkey = some q ∧ c.length < m := by
  have hkey : key_at S q = S[q].key := key_at_of_get (List.getElem?_eq_getElem hq)
  have hle := (breakdown_contains_iff _ _).mp hcont
  have hc1 : ∀ p ∈ c ++ [q], p < S.length := by
    intro p hp
    rcases List.mem_append.mp hp with h | h
    · exact hc p h
    · rw [List.mem_singleton.mp h]; exact hq
  have hfit : ∀ idx, 0 ≤ R idx - chain_sum S (c ++ [q]) idx := by
    intro idx
    rw [chain_sum_concat, hkey]
    have := hle idx
    have := hrem idx
    omega
  have hlen : c.length < m := by
    have := chain_length_le hpos hc1 hfit
    rw [List.length_append, List.length_singleton] at this
    push_cast at this
    omega
  have hremb : letter_bag rem := by
    intro idx
    have := hrem idx
    have := chain_sum_nonneg hS c idx
    have := (hR idx).2
    have := hnn idx
    constructor <;> omega
  refine ⟨_, push_found_some st hq hlen hremb (hS _ (List.getElem_mem hq)) hcont, ?_, rfl, rfl,
    hlen⟩
  refine ⟨hc1, ?_, ?_, ?_⟩
  · intro idx
    simp only
    rw [chain_sum_concat, hrem idx]
    omega
  · intro idx
    simp only
    rw [hkey]
    have := hle idx
    omega
  · intro p hp
    cases Option.some.inj hp
    exact hq

theorem subkey_next_getD {S : List keylink_t} {prev : Nat} (hprev : prev < S.length) :
    (subkey_next S prev).getD S.length = prev + 1 := by
  unfold subkey_next
  split
  · rfl
  · simp only [Option.getD_none]
    omega

/-- The measure of a state whose chain is `c`, in terms of the rank of `c`. -/
theorem search_measure_eq (S : List keylink_t) (m : Nat) (st : search_t) (c ys : List Nat)
    (hlen : c.length ≤ m + 1)
    (hst : st.chain ++ [st.next_min_subkey.getD S.length] = c ++ ys) :
    search_measure S m st
      = search_rank (S.length + 2) (m + 1) c
        + search_rank (S.length + 2) (m + 1 - c.length) ys := by
  unfold search_measure
  rw [hst, search_rank_append _ c ys (m + 1) hlen]

/-- The scans for the next chain element succeed, keep the invariant and raise the measure. -/
theorem search_advance_some {S : List keylink_t} {R : breakdown_t} (hR : letter_bag R)
    (hS : ∀ k ∈ S, letter_bag k.key) (hpos : ∀ k ∈ S, 0 < breakdown_sum k.key) {m : Nat}
    (hm : breakdown_sum R ≤ m) {st : search_t} (hinv : BatchInv S R st)
    (hne : st.chain ≠ []) :
    ∃ st1, search_advance S m st = some st1 ∧ BatchInv S R st1 ∧
      search_measure S m st < search_measure S m st1 := by
  have hbase : 0 < S.length + 2 := by omega
  have hfit0 : ∀ idx, 0 ≤ R idx - chain_sum S st.chain idx := by
    intro idx
    have := hinv.remaining_eq idx
    have := hinv.nonneg idx
    omega
  have hlen0 : st.chain.length ≤ m := by
    have := chain_length_le hpos hinv.in_range hfit0
    omega
  have hnm : st.next_min_subkey.getD S.length + 2 ≤ S.length + 2 := by
    cases hn : st.next_min_subkey with
    | none => simp
    | some p =>
      have := hinv.next_range p hn
      simp only [Option.getD_some]
      omega
  unfold search_advance
  cases hf : find_next S st.remaining_breakdown st.next_min_subkey with
  | some q =>
    simp only
    obtain ⟨p, hp, hpq, hq, hcont⟩ := find_next_some hf
    obtain ⟨st1, hpush, hinv1, hch, hnx, hlen⟩ :=
      batch_push_inv hR hS hpos hm st hinv.in_range hinv.remaining_eq hinv.nonneg hq hcont
    refine ⟨st1, hpush, hinv1, ?_⟩
    rw [search_measure_eq S m st st.chain [p] (by omega) (by rw [hp]; rfl),
      search_measure_eq S m st1 st.chain [q, q] (by omega)
        (by rw [hch, hnx]; simp)]
    obtain ⟨v, hv⟩ : ∃ v, m + 1 - st.chain.length = v + 2 :=
      ⟨m - 1 - st.chain.length, by omega⟩
    rw [hv]
    have := rank_push hbase v p q hpq
    omega
  | none =>
    simp only
    obtain ⟨prev, hlast⟩ : ∃ prev, st.chain.getLast? = some prev := by
      cases hl : st.chain.getLast? with
      | none => exact absurd (List.getLast?_eq_none_iff.mp hl) hne
      | some prev => exact ⟨prev, rfl⟩
    have hchain := chain_eq_dropLast_concat hlast
    have hprev : prev < S.length := hinv.in_range prev (List.mem_of_getLast?_eq_some hlast)
    have hkey : key_at S prev = S[prev].key := key_at_of_get (List.getElem?_eq_getElem hprev)
    have hdrop : ∀ p ∈ st.chain.dropLast, p < S.length :=
      fun p hp => hinv.in_range p (List.mem_of_mem_dropLast hp)
    have hrem2 : ∀ idx, st.remaining_breakdown idx + S[prev].key idx
        = R idx - chain_sum S st.chain.dropLast idx := by
      intro idx
      have h1 := hinv.remaining_eq idx
      rw [hchain, chain_sum_concat, hkey] at h1
      omega
    have hnn2 : ∀ idx, 0 ≤ st.remaining_breakdown idx + S[prev].key idx := by
      intro idx
      have := hinv.nonneg idx
      have := (hS _ (List.getElem_mem hprev) idx).1
      omega
    have hadd : breakdown_add st.remaining_breakdown S[prev].key
        = some (fun idx => st.remaining_breakdown idx + S[prev].key idx) :=
      breakdown_add_spec
        (by intro idx; have := hnn2 idx; omega)
        (by
          intro idx
          have := hrem2 idx
          have := chain_sum_nonneg hS st.chain.dropLast idx
          have := (hR idx).2
          omega)
    have hlend : st.chain.dropLast.length + 1 ≤ m := by
      have : st.chain.length = st.chain.dropLast.length + 1 := by
        conv_lhs => rw [hchain]
        simp
      omega
    obtain ⟨v, hv⟩ : ∃ v, m + 1 - st.chain.dropLast.length = v + 2 :=
      ⟨m - 1 - st.chain.dropLast.length, by omega⟩
    have hm0 : search_measure S m st
        = search_rank (S.length + 2) (m + 1) st.chain.dropLast
          + search_rank (S.length + 2) (v + 2)
              [prev, st.next_min_subkey.getD S.length] := by
      rw [search_measure_eq S m st st.chain.dropLast
        [prev, st.next_min_subkey.getD S.length] (by omega)
        (by conv_lhs => rw [hchain]
            simp), hv]
    rw [hlast]
    simp only
    rw [List.getElem?_eq_getElem hprev]
    simp only
    rw [hadd]
    simp only
    cases hf2 : find_next S (fun idx => st.remaining_breakdown idx + S[prev].key idx)
        (subkey_next S prev) with
    | some q =>
      simp only
      obtain ⟨p, hp, hpq, hq, hcont⟩ := find_next_some hf2
      have hp1 : prev < q := by
        unfold subkey_next at hp
        split at hp
        · cases Option.some.inj hp
          omega
        · cases hp
      obtain ⟨st1, hpush, hinv1, hch, hnx, _⟩ :=
        batch_push_inv hR hS hpos hm st hdrop hrem2 hnn2 hq hcont
      refine ⟨st1, hpush, hinv1, ?_⟩
      rw [hm0, search_measure_eq S m st1 st.chain.dropLast [q, q] (by omega)
        (by rw [hch, hnx]; simp), hv]
      have := rank_replace hbase v prev (st.next_min_subkey.getD S.length) q hp1 hnm
      omega
    | none =>
      simp only
      refine ⟨_, rfl, ⟨hdrop, hrem2, hnn2, ?_⟩, ?_⟩
      · intro p hp
        simp only at hp
        unfold subkey_next at hp
        split at hp
        · cases Option.some.inj hp
          assumption
        · cases hp
      · rw [hm0, search_measure_eq S m _ st.chain.dropLast [prev + 1] (by omega)
          (by simp only; rw [subkey_next_getD hprev]), hv]
        have := rank_pop hbase v prev (st.next_min_subkey.getD S.length) hnm
        omega

/-- The printing loop, started with the pointers at row `q`, is left with the fuel
`expander_fuel links - q`, and no pointer it reads is null. -/
theorem print_rows_some (links : List keylink_t) (hne : links ≠ []) (inc : str_t) (n : Int) :
    ∀ (fuel q : Nat) (rc : Int) (out : List print_t),
      q < expander_fuel links → expander_fuel links - q ≤ fuel →
      ∃ r, print_rows links inc n fuel (odometer (links.map keylink_t.words) q) rc out
        = some r := by
  intro fuel
  induction fuel with
  | zero => intro q rc out hq hf; omega
  | succ f ih =>
    intro q rc out hq hf
    obtain ⟨l, ls, rfl⟩ := List.exists_cons_of_ne_nil hne
    have hmap := mapM_wordlink_word
      (odometer_ne_nil (words_ne_nil (l :: ls)) q)
    obtain ⟨Y, hY, hY1, hY2⟩ := carry_links_advance ls l q hq
    have hnext := wordlink_next_drop l.words (Nat.mod_lt q (words_length_pos l))
    unfold print_rows
    by_cases hc : n < 0 ∨ rc < n
    · rw [if_pos hc, hmap]
      simp only [List.map_cons, odometer] at hnext hY ⊢
      rw [hnext]
      simp only [hY]
      by_cases hlast : q + 1 < expander_fuel (l :: ls)
      · have hYe := hY1 hlast
        have hnl : Y.getLast? ≠ some [] := by
          rw [hYe]; exact odometer_getLast (l :: ls) (q + 1)
        rw [if_neg hnl, hYe]
        exact ih (q + 1) _ _ hlast (by omega)
      · rw [if_pos (hY2 hlast)]
        exact ⟨_, rfl⟩
    · rw [if_neg hc]
      exact ⟨_, rfl⟩

theorem expander_fuel_pos (links : List keylink_t) : 0 < expander_fuel links := by
  unfold expander_fuel
  apply List.prod_pos
  intro n hn
  simp only [List.mem_map] at hn
  obtain ⟨k, _, rfl⟩ := hn
  exact words_length_pos k

/-- The printing block succeeds on a chain that points into the subkey list. -/
theorem print_chain_some {S : List keylink_t} (inc : str_t) (n : Int) {st : search_t}
    (hrange : ∀ p ∈ st.chain, p < S.length) (hne : st.chain ≠ []) :
    ∃ st1, print_chain S inc n st = some st1 ∧ st1.chain = st.chain ∧
      st1.remaining_breakdown = st.remaining_breakdown ∧
      st1.next_min_subkey = st.next_min_subkey := by
  obtain ⟨hlinks, hlen⟩ := mapM_chain_links S st.chain hrange
  have hlne : chain_links S st.chain ≠ [] := by
    intro h0
    rw [h0] at hlen
    exact hne (List.length_eq_zero.mp hlen.symm)
  obtain ⟨r, hr⟩ := print_rows_some (chain_links S st.chain) hlne inc n
    (expander_fuel (chain_links S st.chain)) 0 st.result_count st.printed
    (expander_fuel_pos _) (by omega)
  rw [odometer_zero] at hr
  unfold print_chain
  rw [hlinks]
  simp only [hr, Option.map_some']
  exact ⟨_, rfl, rfl, rfl, rfl⟩

/-- One round of the search loop succeeds, keeps the invariant and raises the measure. -/
theorem search_step_some {S : List keylink_t} {R : breakdown_t} (hR : letter_bag R)
    (hS : ∀ k ∈ S, letter_bag k.key) (hpos : ∀ k ∈ S, 0 < breakdown_sum k.key) {m : Nat}
    (hm : breakdown_sum R ≤ m) (inc : str_t) (n : Int) {st : search_t}
    (hinv : BatchInv S R st) (hne : st.chain ≠ []) :
    ∃ st1, search_step S m inc n st = some st1 ∧ BatchInv S R st1 ∧
      search_measure S m st < search_measure S m st1 := by
  have hprint : ∃ st2, (if breakdown_is_empty st.remaining_breakdown then
        print_chain S inc n st else some st) = some st2 ∧ st2.chain = st.chain ∧
      st2.remaining_breakdown = st.remaining_breakdown ∧
      st2.next_min_subkey = st.next_min_subkey := by
    split
    · exact print_chain_some inc n hinv.in_range hne
    · exact ⟨st, rfl, rfl, rfl, rfl⟩
  obtain ⟨st2, h2, hc, hr, hx⟩ := hprint
  have hinv2 : BatchInv S R st2 :=
    ⟨by rw [hc]; exact hinv.in_range, by rw [hc, hr]; exact hinv.remaining_eq,
      by rw [hr]; exact hinv.nonneg, by rw [hx]; exact hinv.next_range⟩
  obtain ⟨st1, hadv, hinv1, hlt⟩ :=
    search_advance_some hR hS hpos hm hinv2 (by rw [hc]; exact hne)
  refine ⟨st1, ?_, hinv1, ?_⟩
  · unfold search_step
    rw [h2]
    exact hadv
  · have : search_measure S m st2 = search_measure S m st := by
      unfold search_measure
      rw [hc, hx]
    rw [← this]
    exact hlt

/-- The measure of a state that satisfies the invariant is below the bound. -/
theorem search_measure_lt {S : List keylink_t} {R : breakdown_t} (m : Nat) {st : search_t}
    (hinv : BatchInv S R st) :
    search_measure S m st < (S.length + 2) ^ (m + 1) := by
  unfold search_measure
  apply search_rank_lt (by omega)
  intro d hd
  rcases List.mem_append.mp hd with h | h
  · have := hinv.in_range d h
    omega
  · rw [List.mem_singleton.mp h]
    cases hn : st.next_min_subkey with
    | none => simp
    | some p =>
      have := hinv.next_range p hn
      simp only [Option.getD_some]
      omega

/-- The search loop ends: the fuel `(|S| + 2) ^ (m + 1)` minus the measure is enough. -/
theorem search_loop_some {S : List keylink_t} {R : breakdown_t} (hR : letter_bag R)
    (hS : ∀ k ∈ S, letter_bag k.key) (hpos : ∀ k ∈ S, 0 < breakdown_sum k.key) {m : Nat}
    (hm : breakdown_sum R ≤ m) (inc : str_t) (n : Int) :
    ∀ (fuel : Nat) (st : search_t), BatchInv S R st →
      (S.length + 2) ^ (m + 1) - search_measure S m st ≤ fuel →
      ∃ st1, search_loop S m inc n fuel st = some st1 := by
  intro fuel
  induction fuel with
  | zero =>
    intro st hinv hf
    have := search_measure_lt m hinv
    omega
  | succ fuel ih =>
    intro st hinv hf
    unfold search_loop
    split
    · rename_i hc
      have hne : st.chain ≠ [] := by
        intro h0
        rw [h0] at hc
        simp at hc
      obtain ⟨st1, hstep, hinv1, hlt⟩ := search_step_some hR hS hpos hm inc n hinv hne
      simp only [hstep, Option.some_bind]
      exact ih st1 hinv1 (by omega)
    · exact ⟨st, rfl⟩

/-- The search of `list_anagrams_for` returns for every subkey list whose keys are letter
tables with a positive sum that fit into the reduced target: enough fuel gives the output,
and no assertion fails. -/
theorem search_from_some {S : List keylink_t} {T R : breakdown_t} (hT : letter_bag T)
    (hR : letter_bag R) (hRT : ∀ idx, R idx ≤ T idx) (hS : ∀ k ∈ S, letter_bag k.key)
    (hpos : ∀ k ∈ S, 0 < breakdown_sum k.key) (hfit : ∀ k ∈ S, ∀ idx, k.key idx ≤ R idx)
    (inc : str_t) (n : Int) :
    ∃ fuel0, ∀ fuel, fuel0 ≤ fuel → ∃ out, search_from S fuel T R inc n = some out := by
  have hsumT := breakdown_sum_bound hT
  have hm : breakdown_sum R ≤ (toU32 (max 1 (breakdown_sum T)) : Nat) := by
    have h1 := toU32_of_small (x := max 1 (breakdown_sum T)) (by omega) (by omega)
    have h2 : breakdown_sum R ≤ breakdown_sum T := breakdown_sum_le hRT
    omega
  refine ⟨(S.length + 2) ^ (toU32 (max 1 (breakdown_sum T)) + 1), ?_⟩
  intro fuel hfuel
  unfold search_from
  cases S with
  | nil => exact ⟨[], rfl⟩
  | cons first rest =>
    simp only
    have hf := hfit first (List.mem_cons_self _ _)
    have hk := hS first (List.mem_cons_self _ _)
    have hund : breakdown_underflowed (fun idx => R idx - first.key idx) = false := by
      rw [Bool.eq_false_iff, Ne, breakdown_underflowed_iff]
      rintro ⟨idx, h⟩
      have := hf idx
      omega
    rw [breakdown_subtract_spec
      (by intro idx; have := hf idx; omega)
      (by intro idx; have := (hR idx).2; have := (hk idx).1; omega)]
    simp only [hund, Bool.not_false, if_true]
    have hinv : BatchInv (first :: rest) R
        { chain := [0], remaining_breakdown := fun idx => R idx - first.key idx,
          next_min_subkey := some 0, result_count := 0, printed := [] } := by
      refine ⟨?_, ?_, ?_, ?_⟩
      · intro p hp
        rw [List.mem_singleton.mp hp]
        simp
      · intro idx
        simp [chain_sum, key_at]
      · intro idx
        have := hf idx
        simp only
        omega
      · intro p hp
        cases Option.some.inj hp
        simp
    obtain ⟨st1, hl⟩ := search_loop_some hR hS hpos hm inc n fuel _ hinv (by omega)
    rw [hl]
    exact ⟨_, rfl⟩

theorem search_anagrams_some {hashtable : hashtable_t} (hown : index_own hashtable)
    (hpos : index_pos hashtable) {T R : breakdown_t} (hT : letter_bag T) (hR : letter_bag R)
    (hRT : ∀ idx, R idx ≤ T idx) (inc ex : str_t) (n : Int) :
    ∃ fuel0, ∀ fuel, fuel0 ≤ fuel →
      ∃ out, search_anagrams hashtable fuel T R inc ex n = some out := by
  unfold search_anagrams
  exact search_from_some hT hR hRT (subkeys_letter_bag hown) (subkeys_pos hpos)
    subkeys_contained inc n

/-- The batch enumerator returns: for an index whose classes hold words with the key as
their table and whose keys have a positive sum, there is an amount of fuel from which on
`list_anagrams_for` gives its output with two levels of calls, and no assertion fails. -/
theorem list_anagrams_for_some {hashtable : hashtable_t} (hown : index_own hashtable)
    (hpos : index_pos hashtable) {T I : breakdown_t} {inc : str_t} (hT : letter_bag T)
    (hI : breakdown_word inc = some I) (ex : str_t) (n : Int) :
    ∃ fuel0, ∀ depth fuel, 2 ≤ depth → fuel0 ≤ fuel →
      ∃ out, list_anagrams_for hashtable depth fuel T inc ex n = some out := by
  have hIb := breakdown_word_letter_bag hI
  by_cases hu : ∃ idx, T idx < I idx
  · have hM := missing_letter_bag hT hIb
    obtain ⟨fuel0, h0⟩ := search_anagrams_some hown hpos hM hM (fun _ => le_refl _) [] [] 20
    refine ⟨fuel0, ?_⟩
    intro depth fuel hd hf
    obtain ⟨d, rfl⟩ : ∃ d, depth = d + 2 := ⟨depth - 2, by omega⟩
    obtain ⟨out, hout⟩ := h0 fuel hf
    have h1 : list_anagrams_for hashtable (d + 2) fuel T inc ex n = _ :=
      list_body_shortfall _ hashtable fuel ex n hT hI hu
    rw [h1, (list_missing hashtable d fuel hT hIb hu 20).2, hout]
    exact ⟨_, rfl⟩
  · have hR : letter_bag (fun idx => T idx - I idx) := by
      intro idx
      have h1 : ¬ T idx < I idx := fun h => hu ⟨idx, h⟩
      have := (hT idx).2
      have := (hIb idx).1
      show 0 ≤ T idx - I idx ∧ T idx - I idx ≤ 127
      constructor <;> omega
    obtain ⟨fuel0, h0⟩ := search_anagrams_some hown hpos hT hR
      (fun idx => by have := (hIb idx).1; omega) inc ex n
    refine ⟨fuel0, ?_⟩
    intro depth fuel hd hf
    obtain ⟨d, rfl⟩ : ∃ d, depth = d + 1 := ⟨depth - 1, by omega⟩
    have h1 : list_anagrams_for hashtable (d + 1) fuel T inc ex n = _ :=
      list_body_valid _ hashtable fuel ex n hT hI hu
    rw [h1]
    split
    · exact ⟨_, rfl⟩
    · exact h0 fuel hf

/-- The bound on the result lines of a call of `list_anagrams_for` that returns. -/
theorem list_anagrams_for_limit (hashtable : hashtable_t) {T I : breakdown_t}
    {must_include : str_t} (must_exclude : str_t) (hT : letter_bag T)
    (hI : breakdown_word must_include = some I) {n : Int} (hn : 0 ≤ n)
    (hn32 : n < 2147483648) (hne : breakdown_is_empty (fun idx => T idx - I idx) = false)
    {depth fuel : Nat} {out : List print_t}
    (hout : list_anagrams_for hashtable depth fuel T must_include must_exclude n = some out) :
    ((¬ ∃ idx, T idx < I idx) → ((out.filter print_t.is_result).length : Int) ≤ n) ∧
    ((∃ idx, T idx < I idx) → (out.filter print_t.is_result).length ≤ 20) := by
  have hIb := breakdown_word_letter_bag hI
  have hlen : ∀ l : List print_t, (l.filter print_t.is_result).length ≤ l.length :=
    fun l => List.length_filter_le _ l
  cases depth with
  | zero => simp [list_anagrams_for] at hout
  | succ depth =>
    constructor
    · intro hu
      have hv : list_anagrams_for hashtable (depth + 1) fuel T must_include must_exclude n = _ :=
        list_body_valid _ hashtable fuel must_exclude n hT hI hu
      rw [hv, hne] at hout
      simp only [Bool.false_eq_true, if_false] at hout
      have h1 := search_anagrams_limit hn hn32 hout
      have h2 := hlen out
      omega
    · intro hu
      have hs : list_anagrams_for hashtable (depth + 1) fuel T must_include must_exclude n = _ :=
        list_body_shortfall _ hashtable fuel must_exclude n hT hI hu
      rw [hs, Option.map_eq_some'] at hout
      obtain ⟨additions, ha, rfl⟩ := hout
      cases depth with
      | zero => simp [list_anagrams_for] at ha
      | succ depth =>
        rw [(list_missing hashtable depth fuel hT hIb hu 20).2] at ha
        have h1 := search_anagrams_limit (n := 20) (by decide) (by decide) ha
        have h2 := hlen additions
        have h3 : (missing_report (fun idx => max 0 (I idx - T idx))).filter print_t.is_result
            = [] := by
          rw [List.filter_eq_nil_iff]
          intro e he
          simp only [missing_report, List.mem_cons, List.mem_append, List.mem_map,
            List.mem_singleton] at he
          rcases he with (rfl | ⟨idx, _, rfl⟩) | rfl | he
          · simp [print_t.is_result]
          · simp [print_t.is_result]
          · simp [print_t.is_result]
          · cases he
        rw [List.filter_append, h3, List.nil_append]
        omega

/-- What a capturing `record_for_undo` leaves: the entries up to the former current one, then
the state, which is the current entry. -/
theorem record_for_undo_true (state : ui_state_t) (history history1 : undo_history_t)
    (hrec : record_for_undo state history = some (true, history1)) :
    history1 = { entries := history.entries.take (record_position history) ++ [state],
                 current_entry := some (record_position history) } ∧
    record_position history ≤ history.entries.length := by
  unfold record_for_undo at hrec
  unfold record_position
  cases hc : history.current_entry with
  | none =>
    rw [hc] at hrec
    simp only [Option.some.injEq, Prod.mk.injEq, true_and] at hrec
    subst hrec
    simp
  | some current =>
    rw [hc] at hrec
    simp only at hrec
    cases he : history.entries[current]? with
    | none => rw [he] at hrec; simp at hrec
    | some previous =>
      rw [he] at hrec
      simp only at hrec
      split at hrec
      · simp only [Option.some.injEq, Prod.mk.injEq, true_and] at hrec
        subst hrec
        have hlt : current < history.entries.length := by
          by_contra hn
          rw [List.getElem?_eq_none (by omega)] at he
          simp at he
        exact ⟨rfl, by simp only; omega⟩
      · simp at hrec

/-- A state whose strings are those of the current entry is not captured. -/
theorem record_for_undo_same (state entry : ui_state_t) (history : undo_history_t)
    (current : Nat) (hcurrent : history.current_entry = some current)
    (hentry : history.entries[current]? = some entry)
    (hsame : state.ui_strs = entry.ui_strs) :
    record_for_undo state history = some (false, history) := by
  unfold record_for_undo
  rw [hcurrent]
  simp only [hentry]
  rw [if_neg]
  intro hd
  obtain ⟨i, hi⟩ := (do_record_iff state entry).mp hd
  exact hi (by rw [hsame])

/-- The entries of the history after a capturing `record_for_undo`: the new entry stands at
the position behind the former current entry and is the last one, and the entries before it
are those of the history before. -/
theorem record_for_undo_entries (state : ui_state_t) (history history1 : undo_history_t)
    (hrec : record_for_undo state history = some (true, history1)) :
    history1.entries = history.entries.take (record_position history) ++ [state] ∧
    history1.current_entry = some (record_position history) ∧
    history1.entries[record_position history]? = some state ∧
    history1.entries.length = record_position history + 1 ∧
    ∀ i, i < record_position history → history1.entries[i]? = history.entries[i]? := by
  obtain ⟨h1, hle⟩ := record_for_undo_true state history history1 hrec
  have hlen : (history.entries.take (record_position history)).length
      = record_position history := by
    rw [List.length_take]; omega
  have hlast : (history.entries.take (record_position history) ++ [state])[record_position history]?
      = some state := by
    rw [List.getElem?_append_right (by omega), hlen]
    simp
  have hlen1 : (history.entries.take (record_position history) ++ [state]).length
      = record_position history + 1 := by
    rw [List.length_append, hlen]; rfl
  subst h1
  refine ⟨rfl, rfl, hlast, hlen1, ?_⟩
  intro i hi
  simp only
  rw [List.getElem?_append_left (by omega), List.getElem?_take_of_lt hi]

/-- C21 (`record_for_undo` truncates the forward branch). When `record_for_undo` captures
(returns true), the entry list afterwards consists of the entries up to and including the
former current one, unchanged, followed by the new snapshot, a copy of the state: the entries
that followed the former current one are gone. The new snapshot is the current and the last
entry, its `previous` pointer is the former current entry (null when there was none), and a
`redo` that follows at once, with any state, returns false and leaves state and history as
they are. -/
theorem record_truncates (state : ui_state_t) (history history1 : undo_history_t)
    (hrec : record_for_undo state history = some (true, history1)) :
    history1.entries = history.entries.take (record_position history) ++ [state] ∧
    history1.current_entry = some (record_position history) ∧
    history1.entries[record_position history]? = some state ∧
    history1.entries.length = record_position history + 1 ∧
    entry_previous (record_position history) = history.current_entry ∧
    entry_next history1 (record_position history) = none ∧
    (∀ i, i < record_position history → history1.entries[i]? = history.entries[i]?) ∧
    ∀ state1, redo state1 history1 = some (false, state1, history1) := by
  obtain ⟨hent, hcur, hlast, hlen, hbefore⟩ :=
    record_for_undo_entries state history history1 hrec
  refine ⟨hent, hcur, hlast, hlen, ?_, ?_, hbefore, ?_⟩
  · unfold entry_previous record_position
    cases history.current_entry with
    | none => simp
    | some c => simp
  · unfold entry_next
    rw [hlen, if_neg (by omega)]
  · intro state1
    unfold redo entry_next
    simp only [hcur, hlast]
    rw [hlen, if_neg (by omega)]

/-- Witness of C21: the history holds the snapshots with the input strings empty, `a` and
`ab`, the current one being the first; the state with the input string `c` is captured, the
two snapshots that followed are gone, and `redo` does nothing. -/
theorem record_truncates_witness :
    ({ entries := [ui_state_zero, ui_state_of [99] [] [] 1],
       current_entry := some 1 } : undo_history_t).entries
      = ({ entries := [ui_state_zero, ui_state_of [97] [] [] 1, ui_state_of [97, 98] [] [] 2],
           current_entry := some 0 } : undo_history_t).entries.take
          (record_position
            { entries := [ui_state_zero, ui_state_of [97] [] [] 1, ui_state_of [97, 98] [] [] 2],
              current_entry := some 0 })
        ++ [ui_state_of [99] [] [] 1] ∧
    redo (ui_state_of [99, 100] [] [] 2)
        { entries := [ui_state_zero, ui_state_of [99] [] [] 1], current_entry := some 1 }
      = some (false, ui_state_of [99, 100] [] [] 2,
          { entries := [ui_state_zero, ui_state_of [99] [] [] 1], current_entry := some 1 }) :=
  have h := record_truncates (ui_state_of [99] [] [] 1)
    { entries := [ui_state_zero, ui_state_of [97] [] [] 1, ui_state_of [97, 98] [] [] 2],
      current_entry := some 0 }
    { entries := [ui_state_zero, ui_state_of [99] [] [] 1], current_entry := some 1 }
    (by decide)
  ⟨h.1, h.2.2.2.2.2.2.2 _⟩

/-- What `undo` does when the state has the strings of the current entry and this entry is
not the first: nothing is captured, the state takes the strings, the active field, the
cursor position and `skip_results` of the entry before, and that entry is the current
one. -/
theorem undo_of_same (state entry before : ui_state_t) (history : undo_history_t)
    (current : Nat) (hcurrent : history.current_entry = some (current + 1))
    (hentry : history.entries[current + 1]? = some entry)
    (hbefore : history.entries[current]? = some before)
    (hsame : state.ui_strs = entry.ui_strs) :
    undo state history
      = some (true, apply_undo_entry_to_state state before,
          { history with current_entry := some current }) := by
  unfold undo
  rw [record_for_undo_same state entry history (current + 1) hcurrent hentry hsame]
  simp only [hcurrent, hentry]
  unfold entry_previous
  simp only [Nat.add_one_ne_zero, if_false, Nat.add_sub_cancel, hbefore]

/-- What `redo` does when the current entry has a follower: the state takes the strings, the
active field, the cursor position and `skip_results` of the follower, which is the current
entry afterwards. -/
theorem redo_of_next (state entry next : ui_state_t) (history : undo_history_t)
    (current : Nat) (hcurrent : history.current_entry = some current)
    (hentry : history.entries[current]? = some entry)
    (hnext : history.entries[current + 1]? = some next) :
    redo state history
      = some (true, apply_undo_entry_to_state state next,
          { history with current_entry := some (current + 1) }) := by
  have hlt : current + 1 < history.entries.length := by
    by_contra hn
    rw [List.getElem?_eq_none (by omega)] at hnext
    simp at hnext
  unfold redo entry_next
  simp only [hcurrent, hentry]
  rw [if_pos hlt]
  simp only [hnext]

/-- A successful `redo` moved the current entry one step forward and took the state from the
new current entry. -/
theorem redo_true (state state1 : ui_state_t) (history history1 : undo_history_t)
    (hredo : redo state history = some (true, state1, history1)) :
    ∃ current entry next, history.current_entry = some current ∧
      history.entries[current]? = some entry ∧ history.entries[current + 1]? = some next ∧
      state1 = apply_undo_entry_to_state state next ∧
      history1 = { history with current_entry := some (current + 1) } := by
  unfold redo at hredo
  cases hc : history.current_entry with
  | none => rw [hc] at hredo; simp at hredo
  | some current =>
    rw [hc] at hredo
    simp only at hredo
    cases he : history.entries[current]? with
    | none => rw [he] at hredo; simp at hredo
    | some entry =>
      rw [he] at hredo
      simp only at hredo
      unfold entry_next at hredo
      split at hredo
      · simp at hredo
      · rename_i next hn
        split at hn
        · simp only [Option.some.injEq] at hn
          subst hn
          cases hx : history.entries[current + 1]? with
          | none => rw [hx] at hredo; simp at hredo
          | some nxt =>
            rw [hx] at hredo
            simp only [Option.some.injEq, Prod.mk.injEq, true_and] at hredo
            exact ⟨current, entry, nxt, rfl, he, hx, hredo.1.symm, hredo.2.symm⟩
        · simp at hn

/-- C22 (`undo` restores the pre-edit state). Let `record_for_undo` capture the state `s`,
let an edit change at least one string, giving `s1`, and let `record_for_undo` capture `s1`.
Then `undo`, called with `s1` (or any state that has the strings of `s1`), returns true, and
the three strings, the active field, the cursor position and `skip_results` of the state
afterwards are those of `s`; the other fields of the state stay, the entry of `s` is the
current one and no entry is added or removed. -/
theorem undo_restores (s s1 t : ui_state_t) (h0 h1 h2 : undo_history_t)
    (hrec1 : record_for_undo s h0 = some (true, h1))
    (hedit : ∃ i, s1.ui_strs i ≠ s.ui_strs i)
    (hrec2 : record_for_undo s1 h1 = some (true, h2))
    (hstrs : t.ui_strs = s1.ui_strs) :
    ∃ t1, undo t h2 = some (true, t1, { h2 with current_entry := h1.current_entry }) ∧
      t1.ui_strs = s.ui_strs ∧ t1.active_ui_str_idx = s.active_ui_str_idx ∧
      t1.cursor_pos = s.cursor_pos ∧ t1.skip_results = s.skip_results ∧
      t1 = apply_undo_entry_to_state t s ∧
      h2.entries[record_position h0]? = some s ∧
      h1.current_entry = some (record_position h0) := by
  have _ := hedit
  obtain ⟨_, c1, l1, _, _⟩ := record_for_undo_entries s h0 h1 hrec1
  obtain ⟨_, c2, l2, _, k2⟩ := record_for_undo_entries s1 h1 h2 hrec2
  have hp : record_position h1 = record_position h0 + 1 := by
    unfold record_position
    rw [c1]
    rfl
  rw [hp] at c2 l2 k2
  have hs : h2.entries[record_position h0]? = some s := by
    rw [k2 _ (Nat.lt_succ_self _)]; exact l1
  refine ⟨apply_undo_entry_to_state t s, ?_, rfl, rfl, rfl, rfl, rfl, hs, c1⟩
  rw [c1]
  exact undo_of_same t s1 s h2 (record_position h0) c2 l2 hs hstrs

/-- Witness of C22: the empty state is captured at the start, the input string becomes `c`
with the cursor behind it and is captured, and `undo` gives the empty input string and the
cursor position zero back. -/
theorem undo_restores_witness :
    ∃ t1, undo (ui_state_of [99] [] [] 1)
          { entries := [ui_state_zero, ui_state_of [99] [] [] 1], current_entry := some 1 }
        = some (true, t1,
            { entries := [ui_state_zero, ui_state_of [99] [] [] 1], current_entry := some 0 }) ∧
      t1.ui_strs = ui_state_zero.ui_strs ∧ t1.cursor_pos = 0 :=
  have h := undo_restores ui_state_zero (ui_state_of [99] [] [] 1) (ui_state_of [99] [] [] 1)
    { entries := [], current_entry := none } history_start
    { entries := [ui_state_zero, ui_state_of [99] [] [] 1], current_entry := some 1 }
    (by decide) ⟨0, by decide⟩ (by decide) rfl
  h.imp (fun _ ht => ⟨ht.1, ht.2.1, ht.2.2.2.1⟩)

/-- After a successful `redo`, `undo` returns true, the history is as it was before the
`redo`, and the state has the strings, the active field, the cursor position and
`skip_results` of the entry that was current before the `redo`. -/
theorem redo_then_undo (state state1 : ui_state_t) (history history1 : undo_history_t)
    (hredo : redo state history = some (true, state1, history1)) :
    ∃ current entry, history.current_entry = some current ∧
      history.entries[current]? = some entry ∧
      undo state1 history1 = some (true, apply_undo_entry_to_state state entry, history) := by
  obtain ⟨current, entry, next, hc, he, hn, hs, hh⟩ := redo_true state state1 history history1 hredo
  refine ⟨current, entry, hc, he, ?_⟩
  subst hs hh
  rw [undo_of_same (apply_undo_entry_to_state state next) next entry
    { history with current_entry := some (current + 1) } current rfl hn he rfl]
  cases history
  simp only at hc
  subst hc
  rfl

/-- C23 (`redo` followed by `undo`), evaluation at a failing input. The history holds the
snapshots of the empty state and of the input string `abc`, the first one being current, as
after typing `abc` and an `undo`; the state has the input string `x`, typed since and not
captured. `redo` succeeds and puts `abc` into the state, the `undo` that follows succeeds and
leaves the empty input string, not `x`: the strings after `redo` and `undo` are those of the
snapshot that was current, and `redo`, unlike `undo`, does not call `record_for_undo`
first. In the other order, `undo` and then `redo` from the same state and history, the input
string `x` is captured and comes back. -/
theorem redo_loses_edit :
    redo (ui_state_of [120] [] [] 1) history_undone
      = some (true, ui_state_of [97, 98, 99] [] [] 3,
          { history_undone with current_entry := some 1 }) ∧
    undo (ui_state_of [97, 98, 99] [] [] 3) { history_undone with current_entry := some 1 }
      = some (true, ui_state_zero, history_undone) ∧
    ui_state_zero.ui_strs 0 = [] ∧ (ui_state_of [120] [] [] 1).ui_strs 0 = [120] ∧
    undo (ui_state_of [120] [] [] 1) history_undone
      = some (true, ui_state_zero,
          { entries := [ui_state_zero, ui_state_of [120] [] [] 1], current_entry := some 0 }) ∧
    redo ui_state_zero
        { entries := [ui_state_zero, ui_state_of [120] [] [] 1], current_entry := some 0 }
      = some (true, ui_state_of [120] [] [] 1,
          { entries := [ui_state_zero, ui_state_of [120] [] [] 1], current_entry := some 1 }) ∧
    ¬ ∀ (state state1 state2 : ui_state_t) (history history1 history2 : undo_history_t),
        redo state history = some (true, state1, history1) →
        undo state1 history1 = some (true, state2, history2) →
        state2.ui_strs = state.ui_strs := by
  have h1 : redo (ui_state_of [120] [] [] 1) history_undone
      = some (true, ui_state_of [97, 98, 99] [] [] 3,
          { history_undone with current_entry := some 1 }) := by decide
  have h2 : undo (ui_state_of [97, 98, 99] [] [] 3)
        { history_undone with current_entry := some 1 }
      = some (true, ui_state_zero, history_undone) := by decide
  refine ⟨h1, h2, rfl, rfl, by decide, by decide, ?_⟩
  intro h
  have h3 := congrFun (h _ _ _ _ _ _ h1 h2) 0
  revert h3
  decide

theorem scan_class_result_of (R : breakdown_t) (ex : List str_t) (S : List keylink_t)
    (kl : keylink_t) :
    scan_class_result R ex S kl
      = match subkey_of R ex kl with
        | none => S
        | some k => insert_subkey S k := by
  unfold scan_class_result subkey_of
  by_cases hc : breakdown_contains R kl.key = true
  · rw [if_pos hc, if_pos hc]
    cases keep_words ex kl.words with
    | nil => rfl
    | cons word words => rfl
  · rw [if_neg hc, if_neg hc]

theorem foldl_scan_visited (R : breakdown_t) (ex : List str_t) (L : List keylink_t) :
    ∀ S : List keylink_t,
      L.foldl (scan_class_result R ex) S
        = (L.filterMap (subkey_of R ex)).foldl insert_subkey S := by
  induction L with
  | nil => intro S; rfl
  | cons kl L ih =>
    intro S
    rw [List.foldl_cons, ih, scan_class_result_of, List.filterMap_cons]
    cases subkey_of R ex kl with
    | none => rfl
    | some k => rfl

/-- The subkey list is built by inserting the subkeys of the visited classes one by one. -/
theorem find_subkeys_visited (hashtable : hashtable_t) (R : breakdown_t) (ex : List str_t) :
    find_subkeys hashtable R ex
      = (visited_subkeys hashtable R ex).foldl insert_subkey [] := by
  rw [find_subkeys_eq]
  exact foldl_scan_visited R ex (classes hashtable) []

/-- Inserting a subkey puts it behind the entries with its own `u32` sum and leaves the order
of the other entries as it is. -/
theorem filter_insert_subkey (s : Nat) (k : keylink_t) :
    ∀ S : List keylink_t,
      S.Pairwise (fun a b => toU32 (breakdown_sum a.key) ≥ toU32 (breakdown_sum b.key)) →
      (insert_subkey S k).filter (fun x => decide (toU32 (breakdown_sum x.key) = s))
        = S.filter (fun x => decide (toU32 (breakdown_sum x.key) = s))
          ++ [k].filter (fun x => decide (toU32 (breakdown_sum x.key) = s)) := by
  intro S
  induction S with
  | nil => intro _; rw [insert_subkey_nil]; rfl
  | cons a S ih =>
    intro hS
    rw [List.pairwise_cons] at hS
    rw [insert_subkey_cons]
    by_cases h : toU32 (breakdown_sum a.key) ≥ toU32 (breakdown_sum k.key)
    · rw [if_pos h, List.filter_cons, List.filter_cons, ih hS.2]
      split
      · rfl
      · rfl
    · rw [if_neg h]
      by_cases hk : toU32 (breakdown_sum k.key) = s
      · have hnone : (a :: S).filter (fun x => decide (toU32 (breakdown_sum x.key) = s)) = [] := by
          rw [List.filter_eq_nil_iff]
          intro x hx
          simp only [decide_eq_true_eq]
          rcases List.mem_cons.mp hx with rfl | hx
          · omega
          · have := hS.1 x hx
            omega
        rw [hnone, List.nil_append, List.filter_cons, if_pos (by simpa using hk), hnone]
        simp [hk]
      · rw [List.filter_cons, if_neg (by simpa using hk)]
        simp [hk]

theorem foldl_insert_sorted (L : List keylink_t) :
    ∀ S : List keylink_t,
      S.Pairwise (fun a b => toU32 (breakdown_sum a.key) ≥ toU32 (breakdown_sum b.key)) →
      (L.foldl insert_subkey S).Pairwise
        (fun a b => toU32 (breakdown_sum a.key) ≥ toU32 (breakdown_sum b.key)) := by
  induction L with
  | nil => intro S hS; exact hS
  | cons k L ih => intro S hS; exact ih _ (insert_subkey_sorted k hS)

/-- The insertion of the visited subkeys is stable: the entries with one `u32` sum keep the
order in which they were inserted. -/
theorem filter_foldl_insert (s : Nat) (L : List keylink_t) :
    ∀ S : List keylink_t,
      S.Pairwise (fun a b => toU32 (breakdown_sum a.key) ≥ toU32 (breakdown_sum b.key)) →
      (L.foldl insert_subkey S).filter (fun x => decide (toU32 (breakdown_sum x.key) = s))
        = S.filter (fun x => decide (toU32 (breakdown_sum x.key) = s))
          ++ L.filter (fun x => decide (toU32 (breakdown_sum x.key) = s)) := by
  induction L with
  | nil => intro S _; simp
  | cons k L ih =>
    intro S hS
    rw [List.foldl_cons, ih _ (insert_subkey_sorted k hS), filter_insert_subkey s k S hS,
      List.append_assoc, ← List.filter_append]
    rfl

theorem mem_visited_subkeys {hashtable : hashtable_t} {R : breakdown_t} {ex : List str_t}
    {x : keylink_t} (hx : x ∈ visited_subkeys hashtable R ex) :
    ∃ kl ∈ classes hashtable, x.key = kl.key := by
  unfold visited_subkeys at hx
  rw [List.mem_filterMap] at hx
  obtain ⟨kl, hkl, hsub⟩ := hx
  refine ⟨kl, hkl, ?_⟩
  unfold subkey_of at hsub
  split at hsub
  · split at hsub
    · cases hsub
    · cases Option.some.inj hsub; rfl
  · cases hsub

/-- For a table of counts from 0 to 127 the `u32` value of the sum is the sum. -/
theorem toU32_sum_of_letter_bag {a : breakdown_t} (h : letter_bag a) :
    (toU32 (breakdown_sum a) : Int) = breakdown_sum a := by
  have hb := breakdown_sum_bound h
  exact toU32_of_small hb.1 (by omega)

theorem with_sum_eq_u32 (s : Int) (L : List keylink_t) (hL : ∀ k ∈ L, letter_bag k.key) :
    with_sum s L
      = if 0 ≤ s then L.filter (fun x => decide (toU32 (breakdown_sum x.key) = s.toNat))
        else [] := by
  unfold with_sum
  by_cases h0 : 0 ≤ s
  · rw [if_pos h0]
    apply List.filter_congr
    intro x hx
    have h1 := toU32_sum_of_letter_bag (hL x hx)
    rw [decide_eq_decide]
    constructor <;> intro h <;> omega
  · rw [if_neg h0, List.filter_eq_nil_iff]
    intro x hx
    have h2 := breakdown_sum_bound (hL x hx)
    simp only [decide_eq_true_eq]
    omega

/-- C24 (the subkey list is sorted and stable). For an index whose class keys are tables of
counts from 0 to 127 (as `breakdown_word` makes them), the list that the filtering loop of
`begin_anagram_context` leaves for the reduced target `R` and the excluded words is the
result of inserting the subkeys of the visited classes one by one, in the order of the
traversal (bucket by bucket, each chain from its head); it is non-increasing in
`breakdown_sum` of the key; and for every sum its entries with that sum are the subkeys of
the visited classes with that sum in the order of the visit, so two entries with equal sum
stand in the order in which their classes were visited. -/
theorem subkeys_sorted_stable (hashtable : hashtable_t) (R : breakdown_t)
    (excluded_words : List str_t)
    (hkeys : ∀ i, ∀ kl ∈ hashtable.entries i, letter_bag kl.key) :
    find_subkeys hashtable R excluded_words
      = (visited_subkeys hashtable R excluded_words).foldl insert_subkey [] ∧
    (find_subkeys hashtable R excluded_words).Pairwise
      (fun a b => breakdown_sum a.key ≥ breakdown_sum b.key) ∧
    (∀ sum : Int, with_sum sum (find_subkeys hashtable R excluded_words)
      = with_sum sum (visited_subkeys hashtable R excluded_words)) ∧
    (find_subkeys hashtable R excluded_words).Perm
      (visited_subkeys hashtable R excluded_words) := by
  have hvis : ∀ k ∈ visited_subkeys hashtable R excluded_words, letter_bag k.key := by
    intro k hk
    obtain ⟨kl, hkl, hkey⟩ := mem_visited_subkeys hk
    obtain ⟨i, _, hi⟩ := mem_classes.mp hkl
    rw [hkey]
    exact hkeys i kl hi
  have hfind : ∀ k ∈ find_subkeys hashtable R excluded_words, letter_bag k.key := by
    intro k hk
    obtain ⟨kl, hkl, _, hkey, _⟩ := mem_find_subkeys hk
    obtain ⟨i, _, hi⟩ := mem_classes.mp hkl
    rw [hkey]
    exact hkeys i kl hi
  have hperm : ∀ (L S : List keylink_t), (L.foldl insert_subkey S).Perm (S ++ L) := by
    intro L
    induction L with
    | nil => intro S; simp
    | cons k L ih =>
      intro S
      rw [List.foldl_cons]
      refine (ih _).trans ?_
      have h1 := (insert_subkey_perm S k).append_right L
      rw [List.append_assoc] at h1
      exact h1
  refine ⟨find_subkeys_visited hashtable R excluded_words, ?_, ?_, ?_⟩
  · have hs := find_subkeys_sorted hashtable R excluded_words
    refine hs.imp_of_mem ?_
    intro a b ha hb hab
    have h1 := toU32_sum_of_letter_bag (hfind a ha)
    have h2 := toU32_sum_of_letter_bag (hfind b hb)
    omega
  · intro sum
    rw [with_sum_eq_u32 sum _ hfind, with_sum_eq_u32 sum _ hvis]
    split
    · have h := filter_foldl_insert sum.toNat (visited_subkeys hashtable R excluded_words) []
        List.Pairwise.nil
      rw [← find_subkeys_visited, List.filter_nil, List.nil_append] at h
      exact h
    · rfl
  · have h := hperm (visited_subkeys hashtable R excluded_words) []
    rw [← find_subkeys_visited, List.nil_append] at h
    exact h

/-- Witness of C24: the index of the example dictionary; the subkeys for the input
`listencat` are the six-letter class, then the class of cat. -/
theorem subkeys_sorted_stable_witness :
    (find_subkeys example_index bag_listencat []).Pairwise
      (fun a b => breakdown_sum a.key ≥ breakdown_sum b.key) ∧
    ∀ sum : Int, with_sum sum (find_subkeys example_index bag_listencat [])
      = with_sum sum (visited_subkeys example_index bag_listencat []) :=
  have h := subkeys_sorted_stable example_index bag_listencat []
    (fun _ _ hkl => index_own_key_letter_bag (index_of_entries_ok example_index_eq).1 hkl)
  ⟨h.2.1, h.2.2.1⟩

theorem toU32_eq_emod (x : Int) : (toU32 x : Int) = x % 4294967296 := by
  unfold toU32
  exact Int.toNat_of_nonneg (Int.emod_nonneg _ (by decide))

theorem toU32_congr {x y : Int} (h : x % 4294967296 = y % 4294967296) : toU32 x = toU32 y := by
  unfold toU32
  rw [h]

/-- The loop of `hash_breakdown` in `u32` gives the value of the recurrence in unbounded
integers, reduced modulo `2^32`. -/
theorem hash_loop_eq (breakdown : breakdown_t) :
    ∀ (idxs : List (Fin 27)) (r : Nat) (x : Int), (r : Int) = x % 4294967296 →
      ((idxs.foldl (fun result idx => toU32 (107 * (result : Int) + breakdown idx)) r : Nat) : Int)
        = hash_fold breakdown idxs x % 4294967296 := by
  intro idxs
  induction idxs with
  | nil => intro r x h; exact h
  | cons idx idxs ih =>
    intro r x h
    unfold hash_fold
    rw [List.foldl_cons, List.foldl_cons]
    apply ih
    rw [toU32_eq_emod, h]
    omega

/-- C27, as stated, fails: the hash of the table of `cat`, whose 27th slot is zero like that of
every table of a word, is not the value of the recurrence over the 26 letter counts. -/
theorem hash_fold_counterexample :
    bag_cat 26 = 0 ∧
    hash_breakdown bag_cat ≠ toU32 (hash_fold bag_cat letter_idxs 1) ∧
    hash_breakdown bag_cat = 3684382224 ∧ toU32 (hash_fold bag_cat letter_idxs 1) = 74573360 := by
  decide

/-- C27, amended (the hash runs over all 27 slots of the table). For every table,
`hash_breakdown` is the value, modulo `2^32`, of the left fold of `h ↦ 107 * h + c`, seeded
at 1, over the counts of the 27 slots in their order: the 26 letter counts `a` to `z` and
then the count of the 27th slot. So it is 107 times the value of the fold over the 26
letter counts, plus the 27th count, modulo `2^32`. -/
theorem hash_breakdown_fold (a : breakdown_t) :
    hash_breakdown a = toU32 (hash_fold a count_idxs 1) ∧
    hash_breakdown a = toU32 (107 * hash_fold a letter_idxs 1 + a 26) ∧
    (hash_breakdown a : Int) = hash_fold a count_idxs 1 % 4294967296 ∧
    count_idxs = letter_idxs ++ [26] ∧ letter_idxs.length = 26 := by
  have h3 : (hash_breakdown a : Int) = hash_fold a count_idxs 1 % 4294967296 :=
    hash_loop_eq a count_idxs 1 1 (by decide)
  have h1 : hash_breakdown a = toU32 (hash_fold a count_idxs 1) := by
    have : ((hash_breakdown a : Nat) : Int) = (toU32 (hash_fold a count_idxs 1) : Int) := by
      rw [h3, toU32_eq_emod]
    exact_mod_cast this
  have hsplit : count_idxs = letter_idxs ++ [26] := by decide
  have h2 : hash_fold a count_idxs 1 = 107 * hash_fold a letter_idxs 1 + a 26 := by
    unfold hash_fold
    rw [hsplit, List.foldl_append]
    rfl
  refine ⟨h1, ?_, h3, hsplit, by decide⟩
  rw [h1, h2]

/-- The scan of `hashtable_add_word` along a chain: the first class whose key equals the
table gets the word as its first word; the classes before and behind it stay. -/
theorem chain_add_word_at (word : str_t) (b : breakdown_t) (link : keylink_t)
    (B : List keylink_t) (hlink : link.key = b) :
    ∀ A : List keylink_t, (∀ k ∈ A, k.key ≠ b) →
      chain_add_word word b (A ++ link :: B)
        = A ++ { key := link.key, first_word := word,
                 more_words := link.first_word :: link.more_words } :: B := by
  intro A
  induction A with
  | nil =>
    intro _
    rw [List.nil_append, List.nil_append]
    unfold chain_add_word
    rw [if_pos ((breakdown_eq_iff _ _).mpr hlink)]
  | cons a A ih =>
    intro hA
    rw [List.cons_append, List.cons_append]
    unfold chain_add_word
    have ha : ¬ breakdown_eq a.key b = true := by
      rw [breakdown_eq_iff]
      exact hA a (List.mem_cons_self _ _)
    rw [if_neg ha, ih (fun k hk => hA k (List.mem_cons_of_mem _ hk))]

theorem any_key_eq_iff (chain : List keylink_t) (b : breakdown_t) :
    chain.any (fun link => breakdown_eq link.key b) = true ↔ ∃ k ∈ chain, k.key = b := by
  rw [List.any_eq_true]
  constructor
  · rintro ⟨k, hk, h⟩
    exact ⟨k, hk, (breakdown_eq_iff _ _).mp h⟩
  · rintro ⟨k, hk, h⟩
    exact ⟨k, hk, (breakdown_eq_iff _ _).mpr h⟩

/-- C26 (adding a word to an existing class prepends it). `hashtable_add_word` looks at the
chain of the bucket `hash_breakdown(breakdown) mod 131072`. When the chain has a class whose
key equals the table, the first such class gets the new word as the first element of its word
list, the previous elements following in their previous order, and its key, the other
classes of the chain and their order stay. When the chain has no such class, a new class with
the table as its key and exactly the word as its word list is put at the head of the chain.
The other buckets are not changed. -/
theorem add_word_prepends (hashtable : hashtable_t) (word : str_t) (breakdown : breakdown_t) :
    (∀ (A B : List keylink_t) (link : keylink_t),
      hashtable.entries (hash_breakdown breakdown % bucket_count) = A ++ link :: B →
      (∀ k ∈ A, k.key ≠ breakdown) → link.key = breakdown →
      ∃ link1,
        (hashtable_add_word hashtable word breakdown).entries
            (hash_breakdown breakdown % bucket_count) = A ++ link1 :: B ∧
        link1.key = link.key ∧ link1.words = word :: link.words) ∧
    ((∀ k ∈ hashtable.entries (hash_breakdown breakdown % bucket_count), k.key ≠ breakdown) →
      ∃ link1,
        (hashtable_add_word hashtable word breakdown).entries
            (hash_breakdown breakdown % bucket_count)
          = link1 :: hashtable.entries (hash_breakdown breakdown % bucket_count) ∧
        link1.key = breakdown ∧ link1.words = [word]) ∧
    ∀ j, j ≠ hash_breakdown breakdown % bucket_count →
      (hashtable_add_word hashtable word breakdown).entries j = hashtable.entries j := by
  refine ⟨?_, ?_, ?_⟩
  · intro A B link hchain hA hlink
    refine ⟨{ key := link.key, first_word := word,
              more_words := link.first_word :: link.more_words }, ?_, rfl, rfl⟩
    have hany : (hashtable.entries (hash_breakdown breakdown % bucket_count)).any
        (fun l => breakdown_eq l.key breakdown) = true := by
      rw [any_key_eq_iff, hchain]
      exact ⟨link, by simp, hlink⟩
    unfold hashtable_add_word
    simp only [hany, if_true, Function.update_same]
    rw [hchain]
    exact chain_add_word_at word breakdown link B hlink A hA
  · intro hnone
    refine ⟨{ key := breakdown, first_word := word, more_words := [] }, ?_, rfl, rfl⟩
    have hany : ¬ (hashtable.entries (hash_breakdown breakdown % bucket_count)).any
        (fun l => breakdown_eq l.key breakdown) = true := by
      rw [any_key_eq_iff]
      rintro ⟨k, hk, h⟩
      exact hnone k hk h
    unfold hashtable_add_word
    simp only [hany, Bool.false_eq_true, if_false, Function.update_same]
  · intro j hj
    unfold hashtable_add_word
    simp only
    split
    · exact Function.update_noteq hj _ _
    · exact Function.update_noteq hj _ _

/-- Witness of C26: the index holds the class of `cat` with the one word `cat`; adding `act`
with the same table gives the word list act, cat, and adding `dog` with its table to the
empty bucket of that table gives a new class with exactly this word. -/
theorem add_word_prepends_witness :
    (∃ link1,
      (hashtable_add_word (hashtable_add_word hashtable_empty [99, 97, 116] bag_cat)
          [97, 99, 116] bag_cat).entries (hash_breakdown bag_cat % bucket_count)
        = [] ++ link1 :: [] ∧
      link1.key = bag_cat ∧ link1.words = [[97, 99, 116], [99, 97, 116]]) ∧
    ∃ link1,
      (hashtable_add_word (hashtable_add_word hashtable_empty [99, 97, 116] bag_cat)
          [100, 111, 103] bag_dog).entries (hash_breakdown bag_dog % bucket_count)
        = link1 :: (hashtable_add_word hashtable_empty [99, 97, 116] bag_cat).entries
            (hash_breakdown bag_dog % bucket_count) ∧
      link1.key = bag_dog ∧ link1.words = [[100, 111, 103]] :=
  ⟨(add_word_prepends (hashtable_add_word hashtable_empty [99, 97, 116] bag_cat)
      [97, 99, 116] bag_cat).1 [] []
      { key := bag_cat, first_word := [99, 97, 116], more_words := [] }
      (by decide) (by intro k hk; cases hk) rfl,
   (add_word_prepends (hashtable_add_word hashtable_empty [99, 97, 116] bag_cat)
      [100, 111, 103] bag_dog).2.1 (by decide)⟩

/-- C25 (the classes of the index are the anagram classes). After any sequence of calls of
`hashtable_add_word`, each with a word and the table of this word, for the words `words` in
this order: two classes with one key lie in one bucket, and no bucket has two classes with
one key, so there is at most one class per table; every class lies in the bucket
`hash_breakdown(key) mod 131072`; the word list of a class holds exactly the indexed words
whose table is the key of the class, each as often as it was indexed; and every indexed word
is in the class of its table. -/
theorem index_classes (words : List str_t) (hashtable : hashtable_t)
    (hindex : index_of_words words = some hashtable) :
    (∀ i j, ∀ a ∈ hashtable.entries i, ∀ b ∈ hashtable.entries j, a.key = b.key → i = j) ∧
    (∀ i, (hashtable.entries i).Pairwise (fun a b => a.key ≠ b.key)) ∧
    (∀ i, ∀ kl ∈ hashtable.entries i, i = hash_breakdown kl.key % bucket_count) ∧
    (∀ i, ∀ kl ∈ hashtable.entries i, kl.words.Perm (words_of_table kl.key words)) ∧
    (∀ i, ∀ kl ∈ hashtable.entries i, ∀ w,
      kl.words.countP (fun x => decide (x = w))
        = if breakdown_word w = some kl.key then words.countP (fun x => decide (x = w))
          else 0) ∧
    (∀ w ∈ words, ∃ b, breakdown_word w = some b ∧
      ∃ kl ∈ hashtable.entries (hash_breakdown b % bucket_count), kl.key = b ∧ w ∈ kl.words) := by
  have hinv := index_of_words_inv hindex
  have hperm : ∀ i, ∀ kl ∈ hashtable.entries i, kl.words.Perm (words_of_table kl.key words) := by
    intro i kl hkl
    rw [hinv.words_eq i kl hkl]
    exact List.reverse_perm _
  refine ⟨?_, hinv.unique, hinv.bucket, hperm, ?_, ?_⟩
  · intro i j a ha b hb hab
    rw [hinv.bucket i a ha, hinv.bucket j b hb, hab]
  · intro i kl hkl w
    rw [(hperm i kl hkl).countP_eq]
    unfold words_of_table
    rw [List.countP_filter]
    split
    · rename_i hw
      apply List.countP_congr
      intro x _
      simp only [Bool.and_eq_true, decide_eq_true_eq]
      constructor
      · intro h; exact h.1
      · intro h
        subst h
        refine ⟨rfl, ?_⟩
        rw [hw]
        exact (breakdown_eq_iff _ _).mpr rfl
    · rename_i hw
      rw [List.countP_eq_zero]
      intro x _
      simp only [Bool.and_eq_true, decide_eq_true_eq, not_and]
      intro h
      subst h
      cases hb : breakdown_word x with
      | none => simp
      | some b =>
        simp only [breakdown_eq_iff]
        intro hk
        exact hw (by rw [hb, hk])
  · intro w hw
    have hsome : ∃ b, breakdown_word w = some b := by
      cases hb : breakdown_word w with
      | some b => exact ⟨b, rfl⟩
      | none =>
        exfalso
        have hstep : ∀ (l : List str_t) (s : hashtable_t), w ∈ l →
            l.foldlM add_own_word s = none := by
          intro l
          induction l with
          | nil => intro s h; cases h
          | cons a l ih =>
            intro s h
            rw [List.foldlM_cons]
            rcases List.mem_cons.mp h with rfl | h
            · simp [add_own_word, hb]
            · cases hs : add_own_word s a with
              | none => rfl
              | some s1 => exact ih s1 h
        unfold index_of_words at hindex
        rw [hstep words hashtable_empty hw] at hindex
        cases hindex
    obtain ⟨b, hb⟩ := hsome
    obtain ⟨kl, hkl, hkey⟩ := hinv.covered w hw b hb
    refine ⟨b, hb, kl, hkl, hkey, ?_⟩
    rw [(hperm _ kl hkl).mem_iff]
    unfold words_of_table
    rw [List.mem_filter]
    refine ⟨hw, ?_⟩
    rw [hb]
    exact (breakdown_eq_iff _ _).mpr hkey.symm

/-- Witness of C25: the index built from the example dictionary by `hashtable_add_word`. -/
theorem index_classes_witness :
    (∀ i, (example_index_words.entries i).Pairwise (fun a b => a.key ≠ b.key)) ∧
    (∀ i, ∀ kl ∈ example_index_words.entries i, i = hash_breakdown kl.key % bucket_count) ∧
    (∀ i, ∀ kl ∈ example_index_words.entries i,
      kl.words.Perm (words_of_table kl.key example_dictionary)) :=
  have h := index_classes example_dictionary example_index_words example_index_words_eq
  ⟨h.2.1, h.2.2.1, h.2.2.2.1⟩

/-- A chain whose keys fit into the reduced target and leave a letter over is shorter than the
sum of the target, every key having a positive sum. -/
theorem chain_length_lt {S : List keylink_t} {R : breakdown_t}
    (hpos : ∀ k ∈ S, 0 < breakdown_sum k.key) {c : List Nat} (hc : ∀ p ∈ c, p < S.length)
    (hfit : ∀ idx, 0 ≤ R idx - chain_sum S c idx)
    (hne : breakdown_is_empty (fun idx => R idx - chain_sum S c idx) = false) :
    (c.length : Int) < breakdown_sum R := by
  have h0 := sum_pos_of_not_empty hfit hne
  rw [breakdown_sum_sub, breakdown_sum_chain_sum] at h0
  have h2 := sum_ge_length (c.map (fun p => breakdown_sum (key_at S p))) (by
    intro x hx
    obtain ⟨p, hp, rfl⟩ := List.mem_map.mp hx
    have := key_at_sum_pos hpos (hc p hp)
    omega)
  rw [List.length_map] at h2
  omega

/-- Under the invariant a non-empty chain is at most as long as the sum of the reduced
target. -/
theorem safe_chain_length {S : List keylink_t} {R : breakdown_t} {M : Nat}
    {ctx : anagram_context_t} (hpos : ∀ k ∈ S, 0 < breakdown_sum k.key)
    (hinv : SafeInv S R M ctx) (hne : ctx.chain ≠ []) :
    (ctx.chain.length : Int) ≤ breakdown_sum R := by
  have h1 := chain_length_lt (R := R) hpos
    (fun q hq => hinv.search.in_range q (List.mem_of_mem_dropLast hq))
    hinv.search.prefix_ok (hinv.room hne)
  rw [List.length_dropLast] at h1
  have : 0 < ctx.chain.length := List.length_pos.mpr hne
  omega

/-- Progress and preservation: under the invariant no assertion of the loop body of
`compute_anagrams` fails, and the invariant holds afterwards. -/
theorem step_safe {S : List keylink_t} {R : breakdown_t} {M : Nat} {ctx : anagram_context_t}
    (hR : letter_bag R) (hS : ∀ k ∈ S, letter_bag k.key)
    (hpos : ∀ k ∈ S, 0 < breakdown_sum k.key) (hM : breakdown_sum R ≤ M)
    (hinv : SafeInv S R M ctx) (hne : ctx.chain ≠ []) :
    ∃ ctx1, compute_anagrams_step ctx = some ctx1 ∧ SafeInv S R M ctx1 := by
  have hsub := hinv.search.subkeys_eq
  have hS1 : ∀ k ∈ ctx.subkeys, letter_bag k.key := by rw [hsub]; exact hS
  have hstep : ∃ ctx1, compute_anagrams_step ctx = some ctx1 ∧ ctx1.chain_max_length = M ∧
      (ctx1.chain ≠ [] →
        breakdown_is_empty (fun idx => R idx - chain_sum S ctx1.chain.dropLast idx) = false) := by
    unfold compute_anagrams_step
    cases hnext : ctx.next_subkey_to_add with
    | some next =>
      simp only
      obtain ⟨hlast, hnonneg⟩ := hinv.search.next_ok next hnext
      by_cases hemp : breakdown_is_empty ctx.remaining_breakdown = true
      · rw [if_pos hemp]
        obtain ⟨links, hl⟩ := mapM_deref_exists S ctx.chain hinv.search.in_range
        rw [← hsub] at hl
        have hlen := (mapM_some_forall₂ _ _ _ hl).length_eq
        have hlne : links ≠ [] := by
          intro h0
          rw [h0] at hlen
          exact hne (List.length_eq_zero.mp hlen)
        rw [expand_chain_spec ctx links hl hlne]
        exact ⟨_, rfl, hinv.max_length, hinv.room⟩
      · rw [if_neg hemp]
        have hnu : ¬ breakdown_underflowed ctx.remaining_breakdown = true := by
          rw [breakdown_underflowed_iff]; push_neg; exact hnonneg
        rw [if_neg hnu]
        have hremfun : (fun idx => R idx - chain_sum S ctx.chain idx) = ctx.remaining_breakdown :=
          funext (fun idx => (hinv.search.remaining_eq idx).symm)
        have hrange : ∀ idx,
            -1 ≤ ctx.remaining_breakdown idx ∧ ctx.remaining_breakdown idx ≤ 127 := by
          intro idx
          have h1 := hnonneg idx
          have h2 := hinv.search.remaining_eq idx
          have := chain_sum_nonneg hS ctx.chain idx
          have := (hR idx).2
          constructor <;> omega
        have hemp2 : breakdown_is_empty ctx.remaining_breakdown = false := by
          rw [Bool.eq_false_iff]; exact hemp
        have hlt := chain_length_lt (R := R) hpos hinv.search.in_range
          (fun idx => by rw [← hinv.search.remaining_eq]; exact hnonneg idx)
          (by rw [hremfun]; exact hemp2)
        have hlen : ctx.chain.length < ctx.chain_max_length := by
          rw [hinv.max_length]
          have : (ctx.chain.length : Int) < M := by omega
          exact_mod_cast this
        have hp : next < ctx.subkeys.length := by
          rw [hsub]
          exact hinv.search.in_range next (List.mem_of_getLast?_eq_some hlast)
        rw [push_subkey_eq ctx _ _ _ hrange hS1, if_pos ⟨hlen, hp⟩]
        refine ⟨_, rfl, hinv.max_length, ?_⟩
        intro _
        simp only [pushed, List.dropLast_concat]
        rw [hremfun]
        exact hemp2
    | none =>
      simp only
      cases hlast : ctx.chain.getLast? with
      | none =>
        exfalso
        cases hc : ctx.chain with
        | nil => exact hne hc
        | cons a as => rw [hc] at hlast; simp [List.getLast?_cons] at hlast
      | some prev =>
        simp only
        obtain ⟨link, hlink, hadd⟩ := backtrack_add hR hS hinv.search hlast
        rw [hlink]
        simp only [hadd]
        have hpl := prefix_letter_bag hR hS hinv.search
        have hdrop_range : ∀ q ∈ ctx.chain.dropLast, q < S.length :=
          fun q hq => hinv.search.in_range q (List.mem_of_mem_dropLast hq)
        by_cases hp : prev + 1 < ctx.subkeys.length
        · rw [if_pos hp]
          have hlt := chain_length_lt (R := R) hpos hdrop_range hinv.search.prefix_ok (hinv.room hne)
          have hlen : ctx.chain.dropLast.length < ctx.chain_max_length := by
            rw [hinv.max_length]
            have : (ctx.chain.dropLast.length : Int) < M := by omega
            exact_mod_cast this
          rw [push_subkey_eq ctx _ _ _
            (fun idx => ⟨by have := (hpl idx).1; omega, (hpl idx).2⟩) hS1, if_pos ⟨hlen, hp⟩]
          refine ⟨_, rfl, hinv.max_length, ?_⟩
          intro _
          simp only [pushed, List.dropLast_concat]
          exact hinv.room hne
        · rw [if_neg hp]
          refine ⟨_, rfl, hinv.max_length, ?_⟩
          intro hne2
          simp only at hne2 ⊢
          have hroom := hinv.room hne
          rw [Bool.eq_false_iff, Ne, breakdown_is_empty_iff] at hroom ⊢
          intro hall
          apply hroom
          intro idx
          have h1 := hinv.search.prefix_ok idx
          have h2 := hall idx
          cases hl2 : ctx.chain.dropLast.getLast? with
          | none =>
            exfalso
            cases hd : ctx.chain.dropLast with
            | nil => exact hne2 hd
            | cons a as => rw [hd] at hl2; simp [List.getLast?_cons] at hl2
          | some q =>
            have hc2 := chain_eq_dropLast_concat hl2
            rw [hc2, chain_sum_concat] at h1 ⊢
            have := (key_at_nonneg hS q idx).1
            simp only at h2
            omega
  obtain ⟨ctx1, h1, h2, h3⟩ := hstep
  exact ⟨ctx1, h1, step_preserves_inv hR hS hinv.search h1, h2, h3⟩

theorem safe_state_step {S : List keylink_t} {R : breakdown_t} {M : Nat}
    {ctx : anagram_context_t} (hR : letter_bag R) (hS : ∀ k ∈ S, letter_bag k.key)
    (hpos : ∀ k ∈ S, 0 < breakdown_sum k.key) (hM : breakdown_sum R ≤ M)
    (hsafe : SafeState S R M ctx) (hne : ctx.chain ≠ []) :
    ∃ ctx1, compute_anagrams_step ctx = some ctx1 ∧ SafeState S R M ctx1 := by
  rcases hsafe with ⟨hnil, _⟩ | hinv
  · exact absurd hnil hne
  · obtain ⟨ctx1, h1, h2⟩ := step_safe hR hS hpos hM hinv hne
    exact ⟨ctx1, h1, Or.inr h2⟩

/-- From a safe state the loop of `compute_anagrams` runs any number of rounds without a
failing assertion and ends in a safe state. -/
theorem safe_state_loop {S : List keylink_t} {R : breakdown_t} {M : Nat}
    (hR : letter_bag R) (hS : ∀ k ∈ S, letter_bag k.key)
    (hpos : ∀ k ∈ S, 0 < breakdown_sum k.key) (hM : breakdown_sum R ≤ M) :
    ∀ (n : Nat) (ctx : anagram_context_t), SafeState S R M ctx →
      ∃ ctx1, compute_anagrams_loop n ctx = some ctx1 ∧ SafeState S R M ctx1 := by
  intro n
  induction n with
  | zero => intro ctx h; exact ⟨ctx, rfl, h⟩
  | succ n ih =>
    intro ctx h
    rw [loop_succ]
    by_cases hlen : ctx.chain.length > 0
    · rw [if_pos hlen]
      obtain ⟨ctx1, h1, h2⟩ := safe_state_step hR hS hpos hM h (List.length_pos.mp hlen)
      rw [h1]
      exact ih ctx1 h2
    · rw [if_neg hlen]
      exact ⟨ctx, rfl, h⟩

theorem safe_state_not_done {S : List keylink_t} {R : breakdown_t} {M : Nat}
    {ctx : anagram_context_t} (b : Bool) (h : SafeState S R M ctx) :
    SafeState S R M (set_not_done ctx b) := by
  rcases h with h | h
  · exact Or.inl h
  · exact Or.inr
      { search := ⟨h.search.subkeys_eq, h.search.in_range, h.search.sorted,
          h.search.remaining_eq, h.search.prefix_ok, h.search.next_ok⟩
        max_length := h.max_length
        room := h.room }

/-- From a safe state any sequence of calls of `compute_anagrams` returns, in a safe state. -/
theorem safe_state_calls {S : List keylink_t} {R : breakdown_t} {M : Nat}
    (hR : letter_bag R) (hS : ∀ k ∈ S, letter_bag k.key)
    (hpos : ∀ k ∈ S, 0 < breakdown_sum k.key) (hM : breakdown_sum R ≤ M) :
    ∀ (budgets : List Nat) (ctx : anagram_context_t), SafeState S R M ctx →
      ∃ ctx1, compute_anagrams_calls ctx budgets = some ctx1 ∧ SafeState S R M ctx1 := by
  intro budgets
  induction budgets with
  | nil => intro ctx h; exact ⟨ctx, rfl, h⟩
  | cons k ks ih =>
    intro ctx h
    obtain ⟨ctx1, h1, h2⟩ := safe_state_loop hR hS hpos hM k ctx h
    obtain ⟨ctx2, h3, h4⟩ := ih _ (safe_state_not_done (decide (ctx1.chain.length > 0)) h2)
    refine ⟨ctx2, ?_, h4⟩
    unfold compute_anagrams_calls at h3 ⊢
    rw [List.foldlM_cons, compute_anagrams_eq, h1]
    exact h3

/-- What a safe state gives: the bounds on the chain, no negative count under a set
`next_subkey_to_add`, and a next round without a failing assertion. -/
theorem safe_state_bounds {S : List keylink_t} {R : breakdown_t} {M : Nat}
    {ctx : anagram_context_t} (hR : letter_bag R) (hS : ∀ k ∈ S, letter_bag k.key)
    (hpos : ∀ k ∈ S, 0 < breakdown_sum k.key) (hM : breakdown_sum R ≤ M)
    (hsafe : SafeState S R M ctx) :
    (ctx.chain ≠ [] → (ctx.chain.length : Int) ≤ breakdown_sum R ∧
      ctx.chain.length ≤ ctx.chain_max_length) ∧
    (∀ p, ctx.next_subkey_to_add = some p → ∀ idx, 0 ≤ ctx.remaining_breakdown idx) ∧
    (ctx.chain ≠ [] → ∃ ctx1, compute_anagrams_step ctx = some ctx1) := by
  refine ⟨?_, ?_, ?_⟩
  · intro hne
    rcases hsafe with ⟨hnil, _⟩ | hinv
    · exact absurd hnil hne
    · have h1 := safe_chain_length hpos hinv hne
      refine ⟨h1, ?_⟩
      rw [hinv.max_length]
      have : (ctx.chain.length : Int) ≤ M := by omega
      exact_mod_cast this
  · intro p hp
    rcases hsafe with ⟨_, hnone⟩ | hinv
    · rw [hnone] at hp; cases hp
    · exact (hinv.search.next_ok p hp).2
  · intro hne
    obtain ⟨ctx1, h1, _⟩ := safe_state_step hR hS hpos hM hsafe hne
    exact ⟨ctx1, h1⟩

/-- The context of `begin_anagram_context` is a safe state: either the chain is empty, or the
search is set up with the invariant, for the reduced target `T - I` and the capacity of the
context, which the sum of the reduced target does not exceed. -/
theorem begin_safe {hashtable : hashtable_t} {T I : breakdown_t} (ex : str_t)
    (hT : letter_bag T) (hI : letter_bag I)
    (hown : index_own hashtable) (hpos : index_pos hashtable) :
    ∃ ctx0, begin_anagram_context hashtable T I ex = some ctx0 ∧
      ((ctx0.chain = [] ∧ ctx0.next_subkey_to_add = none) ∨
        (letter_bag (fun idx => T idx - I idx) ∧ (∀ k ∈ ctx0.subkeys, letter_bag k.key) ∧
          (∀ k ∈ ctx0.subkeys, 0 < breakdown_sum k.key) ∧
          breakdown_sum (fun idx => T idx - I idx) ≤ ctx0.chain_max_length ∧
          SafeInv ctx0.subkeys (fun idx => T idx - I idx) ctx0.chain_max_length ctx0)) := by
  obtain ⟨ctx0, hbegin, _, hcases⟩ := @begin_driver_inv hashtable T I ex hT hI hown
  refine ⟨ctx0, hbegin, ?_⟩
  cases hu : breakdown_underflowed (fun idx => T idx - I idx) with
  | true =>
    rw [begin_invalid ex hT hI hu] at hbegin
    cases Option.some.inj hbegin
    exact Or.inl ⟨rfl, rfl⟩
  | false =>
    cases hna : (!breakdown_is_empty I && breakdown_is_empty (fun idx => T idx - I idx)) with
    | true =>
      simp only [Bool.and_eq_true, Bool.not_eq_true'] at hna
      rw [begin_alone ex hT hI hna.1 hna.2] at hbegin
      cases Option.some.inj hbegin
      exact Or.inl ⟨rfl, rfl⟩
    | false =>
      have hbs := begin_search ex hT hI hown hu hna
      cases hS : find_subkeys hashtable (fun idx => T idx - I idx) (parse_excluded ex) with
      | nil =>
        rw [hS] at hbs
        rw [hbs] at hbegin
        cases Option.some.inj hbegin
        exact Or.inl ⟨rfl, rfl⟩
      | cons first rest =>
        rw [hS] at hbs
        simp only at hbs
        have hmem : ∀ k ∈ first :: rest,
            k ∈ find_subkeys hashtable (fun idx => T idx - I idx) (parse_excluded ex) := by
          intro k hk; rw [hS]; exact hk
        have hSbag : ∀ k ∈ first :: rest, letter_bag k.key :=
          fun k hk => subkeys_letter_bag hown k (hmem k hk)
        have hSpos : ∀ k ∈ first :: rest, 0 < breakdown_sum k.key :=
          fun k hk => subkeys_pos hpos k (hmem k hk)
        have hc := subkeys_contained first (hmem first (List.mem_cons_self _ _))
        have hfpos := hSpos first (List.mem_cons_self _ _)
        have hRnn : ∀ idx, 0 ≤ T idx - I idx := by
          intro idx
          by_contra hneg
          have : breakdown_underflowed (fun idx => T idx - I idx) = true :=
            (breakdown_underflowed_iff _).mpr ⟨idx, by omega⟩
          rw [hu] at this; cases this
        have hR : letter_bag (fun idx => T idx - I idx) := by
          intro idx
          have := hRnn idx; have := hT idx; have := hI idx
          constructor <;> simp only <;> omega
        have hRne : breakdown_is_empty (fun idx => T idx - I idx) = false := by
          rw [Bool.eq_false_iff, Ne, breakdown_is_empty_iff]
          intro h0
          have hz : ∀ idx, first.key idx = 0 := by
            intro idx
            have := h0 idx; have := hc idx; have := (hSbag first (List.mem_cons_self _ _) idx).1
            simp only at *
            omega
          have := breakdown_sum_zero hz
          omega
        have hTb := breakdown_sum_bound hT
        have hIb := breakdown_sum_bound hI
        have hsub := breakdown_sum_sub T I
        have hM : (toU32 (max 1 (breakdown_sum T)) : Int) = max 1 (breakdown_sum T) :=
          toU32_of_small (by omega) (by omega)
        rw [hbs] at hbegin
        cases Option.some.inj hbegin
        rcases hcases with hnil | ⟨_, _, _, hsearch⟩
        · cases hnil
        · refine Or.inr ⟨hR, hSbag, hSpos, ?_, hsearch, rfl, ?_⟩
          · simp only
            rw [hM]
            omega
          · intro _
            simp only [List.dropLast_single]
            have : (fun idx => T idx - I idx - chain_sum (first :: rest) [] idx)
                = fun idx => T idx - I idx := by
              funext idx; rw [chain_sum_nil]; omega
            rw [this]
            exact hRne

/-- C28 (chain bound and assertion safety). For an index whose class keys are the tables of
their words and are not empty, and a query with the input table `T` and the include table
`I`, `begin_anagram_context` returns a context, and in every state that calls of
`compute_anagrams` and rounds of its loop reach from it, none of them failing an assertion:
the chain is at most as long as the sum of `T`, and as the capacity `chain_max_length`; a
non-empty chain is at most as long as the sum of the reduced target `T - I`;
`remaining_breakdown` has no negative count whenever `next_subkey_to_add` is set; and when
the chain is not empty the next round of the loop runs without a failing assertion of
`compute_anagrams`, `breakdown_add` or `breakdown_subtract`. -/
theorem assertion_safety (hashtable : hashtable_t) (T I : breakdown_t) (must_exclude : str_t)
    (hT : letter_bag T) (hI : letter_bag I)
    (hown : index_own hashtable) (hpos : index_pos hashtable) :
    ∃ ctx0, begin_anagram_context hashtable T I must_exclude = some ctx0 ∧
      ∀ (budgets : List Nat) (n : Nat), ∃ ctx ctx1,
        compute_anagrams_calls ctx0 budgets = some ctx ∧
        compute_anagrams_loop n ctx = some ctx1 ∧
        (ctx1.chain.length : Int) ≤ breakdown_sum T ∧
        ctx1.chain.length ≤ ctx1.chain_max_length ∧
        (ctx1.chain ≠ [] →
          (ctx1.chain.length : Int) ≤ breakdown_sum (fun idx => T idx - I idx)) ∧
        (∀ p, ctx1.next_subkey_to_add = some p → ∀ idx, 0 ≤ ctx1.remaining_breakdown idx) ∧
        (ctx1.chain ≠ [] → ∃ ctx2, compute_anagrams_step ctx1 = some ctx2) := by
  obtain ⟨ctx0, hbegin, hcases⟩ := @begin_safe hashtable T I must_exclude hT hI hown hpos
  refine ⟨ctx0, hbegin, ?_⟩
  intro budgets n
  have hTb := breakdown_sum_bound hT
  have hIb := breakdown_sum_bound hI
  have hsub := breakdown_sum_sub T I
  have hfin : ∀ (S : List keylink_t) (R : breakdown_t) (M : Nat), letter_bag R →
      (∀ k ∈ S, letter_bag k.key) → (∀ k ∈ S, 0 < breakdown_sum k.key) → breakdown_sum R ≤ M →
      SafeState S R M ctx0 →
      ∃ ctx ctx1, compute_anagrams_calls ctx0 budgets = some ctx ∧
        compute_anagrams_loop n ctx = some ctx1 ∧
        (ctx1.chain ≠ [] → (ctx1.chain.length : Int) ≤ breakdown_sum R ∧
          ctx1.chain.length ≤ ctx1.chain_max_length) ∧
        (∀ p, ctx1.next_subkey_to_add = some p → ∀ idx, 0 ≤ ctx1.remaining_breakdown idx) ∧
        (ctx1.chain ≠ [] → ∃ ctx2, compute_anagrams_step ctx1 = some ctx2) := by
    intro S R M hR hS hSpos hM h0
    obtain ⟨ctx, h1, h2⟩ := safe_state_calls hR hS hSpos hM budgets ctx0 h0
    obtain ⟨ctx1, h3, h4⟩ := safe_state_loop hR hS hSpos hM n ctx h2
    exact ⟨ctx, ctx1, h1, h3, safe_state_bounds hR hS hSpos hM h4⟩
  have hlen0 : ∀ (c : anagram_context_t) (b : Int), 0 ≤ b →
      (c.chain ≠ [] → (c.chain.length : Int) ≤ b ∧ c.chain.length ≤ c.chain_max_length) →
      (c.chain.length : Int) ≤ b ∧ c.chain.length ≤ c.chain_max_length := by
    intro c b hb h
    by_cases hne : c.chain = []
    · rw [hne]
      exact ⟨by simpa using hb, Nat.zero_le _⟩
    · exact h hne
  have hz : breakdown_sum breakdown_zero = 0 := breakdown_sum_zero (fun _ => rfl)
  rcases hcases with hnil | ⟨hR, hS, hSpos, hM, hinv⟩
  · obtain ⟨ctx, ctx1, h1, h2, h3, h4, h5⟩ := hfin [] breakdown_zero 0
      (by intro idx; simp [breakdown_zero]) (by intro k hk; cases hk) (by intro k hk; cases hk)
      (by rw [hz]; rfl) (Or.inl hnil)
    have hnil1 : ctx1.chain = [] := by
      by_contra hne
      have := (h3 hne).1
      rw [hz] at this
      have hpos1 : 0 < ctx1.chain.length := List.length_pos.mpr hne
      omega
    refine ⟨ctx, ctx1, h1, h2, ?_, ?_, ?_, h4, h5⟩
    · rw [hnil1]; simpa using hTb.1
    · rw [hnil1]; exact Nat.zero_le _
    · intro hne; exact absurd hnil1 hne
  · obtain ⟨ctx, ctx1, h1, h2, h3, h4, h5⟩ := hfin _ _ _ hR hS hSpos hM (Or.inr hinv)
    have hRb := breakdown_sum_bound hR
    obtain ⟨h6, h7⟩ := hlen0 ctx1 _ hRb.1 h3
    refine ⟨ctx, ctx1, h1, h2, ?_, h7, fun hne => (h3 hne).1, h4, h5⟩
    omega

/-- Witness of C28: the query `listencat` over the example dictionary. -/
theorem assertion_safety_witness :
    ∃ ctx0, begin_anagram_context example_index bag_listencat breakdown_zero [] = some ctx0 ∧
      ∀ (budgets : List Nat) (n : Nat), ∃ ctx ctx1,
        compute_anagrams_calls ctx0 budgets = some ctx ∧
        compute_anagrams_loop n ctx = some ctx1 ∧
        (ctx1.chain.length : Int) ≤ breakdown_sum bag_listencat ∧
        ctx1.chain.length ≤ ctx1.chain_max_length ∧
        (ctx1.chain ≠ [] →
          (ctx1.chain.length : Int)
            ≤ breakdown_sum (fun idx => bag_listencat idx - breakdown_zero idx)) ∧
        (∀ p, ctx1.next_subkey_to_add = some p → ∀ idx, 0 ≤ ctx1.remaining_breakdown idx) ∧
        (ctx1.chain ≠ [] → ∃ ctx2, compute_anagrams_step ctx1 = some ctx2) :=
  assertion_safety example_index bag_listencat breakdown_zero []
    (breakdown_word_letter_bag bag_listencat_eq) (breakdown_word_letter_bag bag_empty_eq)
    (index_of_entries_ok example_index_eq).1 (index_of_entries_ok example_index_eq).2

theorem batch_reach_refl (S : List keylink_t) (m : Nat) (inc : str_t) (a : search_t) :
    BatchReach S m inc a a := ⟨0, fun fuel => by rw [Nat.zero_add]⟩

theorem batch_reach_trans {S : List keylink_t} {m : Nat} {inc : str_t} {a b c : search_t}
    (h1 : BatchReach S m inc a b) (h2 : BatchReach S m inc b c) : BatchReach S m inc a c := by
  obtain ⟨n1, h1⟩ := h1
  obtain ⟨n2, h2⟩ := h2
  refine ⟨n1 + n2, ?_⟩
  intro fuel
  rw [Nat.add_assoc, h1, h2]

theorem batch_reach_step {S : List keylink_t} {m : Nat} {inc : str_t} {a b : search_t}
    (hne : a.chain ≠ []) (hstep : search_step S m inc (-1) a = some b) :
    BatchReach S m inc a b := by
  refine ⟨1, ?_⟩
  intro fuel
  rw [Nat.add_comm]
  conv => lhs; unfold search_loop
  have hc : a.chain.length > 0 ∧ ((-1 : Int) < 0 ∨ a.result_count < -1) :=
    ⟨List.length_pos.mpr hne, Or.inl (by decide)⟩
  rw [if_pos hc]
  simp only [hstep, Option.some_bind]

/-- The printing loop without a bound on the results, started with the pointers at row `q`,
prints the rows `q, q + 1, ...` up to the last one, each behind the include string. -/
theorem print_rows_all (links : List keylink_t) (hne : links ≠ []) (inc : str_t) :
    ∀ (fuel q : Nat) (rc : Int) (out : List print_t),
      q < expander_fuel links → expander_fuel links - q ≤ fuel →
      ∃ rc1, print_rows links inc (-1) fuel (odometer (links.map keylink_t.words) q) rc out
        = some (rc1, out ++ ((List.range' q (expander_fuel links - q)).map
            (odometer_row (links.map keylink_t.words))).map (print_t.result_row inc)) := by
  intro fuel
  induction fuel with
  | zero => intro q rc out hq hf; omega
  | succ f ih =>
    intro q rc out hq hf
    obtain ⟨l, ls, rfl⟩ := List.exists_cons_of_ne_nil hne
    have hmap := mapM_wordlink_word
      (odometer_ne_nil (words_ne_nil (l :: ls)) q)
    obtain ⟨Y, hY, hY1, hY2⟩ := carry_links_advance ls l q hq
    have hnext := wordlink_next_drop l.words (Nat.mod_lt q (words_length_pos l))
    have hrange : List.range' q (expander_fuel (l :: ls) - q)
        = q :: List.range' (q + 1) (expander_fuel (l :: ls) - (q + 1)) := by
      have : expander_fuel (l :: ls) - q = (expander_fuel (l :: ls) - (q + 1)) + 1 := by omega
      rw [this, List.range'_succ]
    have hc : (-1 : Int) < 0 ∨ rc < -1 := Or.inl (by decide)
    unfold print_rows
    rw [if_pos hc, hmap]
    simp only [List.map_cons, odometer] at hnext hY ⊢
    rw [hnext]
    simp only [hY]
    by_cases hlast : q + 1 < expander_fuel (l :: ls)
    · have hYe := hY1 hlast
      have hnl : Y.getLast? ≠ some [] := by rw [hYe]; exact odometer_getLast (l :: ls) (q + 1)
      rw [if_neg hnl, hYe]
      obtain ⟨rc1, h1⟩ := ih (q + 1) (wrap32 (rc + 1))
        (out ++ [print_t.result_row inc
          ((l.words.drop (q % l.words.length)).headD [] ::
            (odometer (ls.map keylink_t.words) (q / l.words.length)).map
              (fun tmp => tmp.headD []))]) hlast (by omega)
      refine ⟨rc1, ?_⟩
      simp only [List.map_cons] at h1 ⊢
      rw [h1, hrange]
      simp [odometer_row, odometer]
    · rw [if_pos (hY2 hlast)]
      have : expander_fuel (l :: ls) - q = 1 := by omega
      rw [this]
      exact ⟨wrap32 (rc + 1), by simp [odometer_row, odometer]⟩

/-- The printing block without a bound on the results prints the rows of the chain. -/
theorem print_chain_all {S : List keylink_t} (inc : str_t) {c : List Nat} (rem : breakdown_t)
    (next : Option Nat) (rc : Int) (out : List print_t)
    (hrange : ∀ p ∈ c, p < S.length) (hne : c ≠ []) :
    ∃ rc1, print_chain S inc (-1) (batch_state c rem next rc out)
      = some (batch_state c rem next rc1 (out ++ print_chains S inc [c])) := by
  obtain ⟨hlinks, hlen⟩ := mapM_chain_links S c hrange
  have hlne : chain_links S c ≠ [] := by
    intro h0
    rw [h0] at hlen
    exact hne (List.length_eq_zero.mp hlen.symm)
  obtain ⟨rc1, hr⟩ := print_rows_all (chain_links S c) hlne inc
    (expander_fuel (chain_links S c)) 0 rc out (expander_fuel_pos _) (by omega)
  rw [odometer_zero] at hr
  refine ⟨rc1, ?_⟩
  unfold print_chain
  simp only [batch_state, hlinks, hr, Option.map_some']
  simp [print_chains, chain_rows, List.range_eq_range']

/-- The scan for a fitting subkey from position `s` on: what it finds is the first position
from `s` on whose key is contained in the remaining table. -/
theorem first_fit_drop (S : List keylink_t) (rem : breakdown_t) :
    ∀ (n s : Nat), s + n = S.length →
      (∀ q, first_fit rem (S.drop s) s = some q →
        s ≤ q ∧ q < S.length ∧ breakdown_contains rem (key_at S q) = true ∧
        ∀ x, s ≤ x → x < q → breakdown_contains rem (key_at S x) = false) ∧
      (first_fit rem (S.drop s) s = none →
        ∀ x, s ≤ x → x < S.length → breakdown_contains rem (key_at S x) = false) := by
  intro n
  induction n with
  | zero =>
    intro s hs
    have hd : S.drop s = [] := List.drop_eq_nil_iff.mpr (by omega)
    rw [hd]
    refine ⟨?_, ?_⟩
    · intro q hq; cases hq
    · intro _ x h1 h2; omega
  | succ n ih =>
    intro s hs
    have hlt : s < S.length := by omega
    have hd : S.drop s = S[s] :: S.drop (s + 1) := List.drop_eq_getElem_cons hlt
    have hkey : key_at S s = S[s].key := key_at_of_get (List.getElem?_eq_getElem hlt)
    obtain ⟨ih1, ih2⟩ := ih (s + 1) (by omega)
    rw [hd]
    unfold first_fit
    by_cases hc : breakdown_contains rem S[s].key = true
    · rw [if_pos hc]
      refine ⟨?_, ?_⟩
      · intro q hq
        cases Option.some.inj hq
        exact ⟨le_refl _, hlt, by rw [hkey]; exact hc, by intro x h1 h2; omega⟩
      · intro h; cases h
    · rw [if_neg hc]
      have hcs : breakdown_contains rem (key_at S s) = false := by
        rw [hkey, Bool.eq_false_iff]; exact hc
      refine ⟨?_, ?_⟩
      · intro q hq
        obtain ⟨h1, h2, h3, h4⟩ := ih1 q hq
        refine ⟨by omega, h2, h3, ?_⟩
        intro x hx1 hx2
        by_cases hxs : x = s
        · rw [hxs]; exact hcs
        · exact h4 x (by omega) hx2
      · intro h x hx1 hx2
        by_cases hxs : x = s
        · rw [hxs]; exact hcs
        · exact ih2 h x (by omega) hx2

theorem find_next_from (S : List keylink_t) (rem : breakdown_t) (s : Nat) :
    find_next S rem (some s) = first_fit rem (S.drop s) s := rfl

theorem find_next_behind (S : List keylink_t) (rem : breakdown_t) (p : Nat) :
    find_next S rem (subkey_next S p) = first_fit rem (S.drop (p + 1)) (p + 1) := by
  unfold subkey_next
  split
  · rfl
  · rename_i h
    have hd : S.drop (p + 1) = [] := List.drop_eq_nil_iff.mpr (by omega)
    rw [hd]
    rfl

/-- What the scan from position `s` on finds. -/
theorem first_fit_spec (S : List keylink_t) (rem : breakdown_t) (s : Nat) :
    (∀ q, first_fit rem (S.drop s) s = some q →
      s ≤ q ∧ q < S.length ∧ breakdown_contains rem (key_at S q) = true ∧
      ∀ x, s ≤ x → x < q → breakdown_contains rem (key_at S x) = false) ∧
    (first_fit rem (S.drop s) s = none →
      ∀ x, s ≤ x → x < S.length → breakdown_contains rem (key_at S x) = false) := by
  by_cases hs : s ≤ S.length
  · exact first_fit_drop S rem (S.length - s) s (by omega)
  · have hd : S.drop s = [] := List.drop_eq_nil_iff.mpr (by omega)
    rw [hd]
    refine ⟨?_, ?_⟩
    · intro q hq; cases hq
    · intro _ x h1 h2; omega

/-- A subkey whose key is not contained in the remaining table has no solution below it. -/
theorem dfs_not_fit (S : List keylink_t) (f : Nat) (rem : breakdown_t) (x : Nat)
    (h : breakdown_contains rem (key_at S x) = false) : dfs S f rem x = [] := by
  cases f with
  | zero => rfl
  | succ f =>
    rw [dfs_succ]
    have hu : breakdown_underflowed (fun idx => rem idx - key_at S x idx) = true := by
      rw [breakdown_underflowed_iff]
      have : ¬ ∀ idx, rem idx ≥ key_at S x idx := by
        intro hall
        rw [(breakdown_contains_iff _ _).mpr hall] at h
        cases h
      push_neg at this
      obtain ⟨idx, hidx⟩ := this
      exact ⟨idx, by omega⟩
    rw [if_pos hu]

/-- No key with a positive sum is contained in an empty table. -/
theorem not_contained_of_empty {S : List keylink_t} (hpos : ∀ k ∈ S, 0 < breakdown_sum k.key)
    {rem : breakdown_t} (hemp : breakdown_is_empty rem = true) {x : Nat} (hx : x < S.length) :
    breakdown_contains rem (key_at S x) = false := by
  rw [Bool.eq_false_iff, Ne, breakdown_contains_iff]
  intro hall
  have h1 := key_at_sum_pos hpos hx
  have h2 : breakdown_sum (key_at S x) ≤ breakdown_sum rem := breakdown_sum_le hall
  have h3 := breakdown_sum_zero ((breakdown_is_empty_iff rem).mp hemp)
  omega

theorem flatMap_range_nil {α : Type} (g : Nat → List α) (s n : Nat)
    (h : ∀ x, s ≤ x → x < s + n → g x = []) : (List.range' s n).flatMap g = [] := by
  rw [List.flatMap_eq_nil_iff]
  intro x hx
  rw [List.mem_range'_1] at hx
  exact h x hx.1 hx.2

theorem flatMap_range_skip {α : Type} (g : Nat → List α) (s q n : Nat) (hsq : s ≤ q)
    (hq : q < s + n) (hskip : ∀ x, s ≤ x → x < q → g x = []) :
    (List.range' s n).flatMap g = g q ++ (List.range' (q + 1) (s + n - (q + 1))).flatMap g := by
  have h1 : List.range' s n
      = List.range' s (q - s) ++ List.range' q (s + n - (q + 1) + 1) := by
    have h := List.range'_append_1 s (q - s) (s + n - (q + 1) + 1)
    have e1 : s + (q - s) = q := by omega
    have e2 : s + n - (q + 1) + 1 + (q - s) = n := by omega
    rw [e1, e2] at h
    exact h.symm
  rw [h1, List.flatMap_append, flatMap_range_nil g s (q - s) (fun x hx1 hx2 => hskip x hx1 (by omega)),
    List.nil_append, List.range'_succ, List.flatMap_cons]

theorem print_chains_nil (S : List keylink_t) (inc : str_t) : print_chains S inc [] = [] := rfl

theorem print_chains_append (S : List keylink_t) (inc : str_t) (a b : List (List Nat)) :
    print_chains S inc (a ++ b) = print_chains S inc a ++ print_chains S inc b := by
  unfold print_chains
  exact List.flatMap_append a b _

/-- The round of the search loop in which the last chain element is popped, when the scan
for a new chain element has found none. -/
theorem advance_pop {S : List keylink_t} {m : Nat} (hS : ∀ k ∈ S, letter_bag k.key)
    (c : List Nat) (rem : breakdown_t) (p : Nat) (nm : Option Nat) (rc : Int)
    (out : List print_t) (hrem : letter_bag rem) (hp : p < S.length)
    (hfit : ∀ idx, key_at S p idx ≤ rem idx) (hlen : c.length < m)
    (hnone : find_next S (fun idx => rem idx - key_at S p idx) nm = none) :
    search_advance S m (batch_state (c ++ [p]) (fun idx => rem idx - key_at S p idx) nm rc out)
      = some (after_state S c rem p rc out) := by
  have hget : S[p]? = some S[p] := List.getElem?_eq_getElem hp
  have hkey : key_at S p = S[p].key := key_at_of_get hget
  have hk := key_at_nonneg hS p
  have hadd := breakdown_add_spec (a := fun idx => rem idx - key_at S p idx) (b := S[p].key)
    (by intro idx; have := hrem idx; rw [← hkey]; simp only; omega)
    (by intro idx; have := hrem idx; rw [← hkey]; simp only; omega)
  have hfun : (fun idx => rem idx - key_at S p idx + S[p].key idx) = rem := by
    funext idx; rw [← hkey]; omega
  rw [hfun] at hadd
  have _ := hfit
  unfold search_advance after_state
  simp only [batch_state, hnone, List.getLast?_concat, hget, hadd, List.dropLast_concat]
  cases hf : find_next S rem (subkey_next S p) with
  | none => rfl
  | some q =>
    simp only
    obtain ⟨_, _, _, hq, hc⟩ := find_next_some hf
    rw [push_found_some _ hq hlen hrem (hS _ (List.getElem_mem hq)) hc]

/-- The round of the search loop at a solution: the rows of the chain are printed and the
last chain element is popped. -/
theorem step_solution {S : List keylink_t} {m : Nat} (hS : ∀ k ∈ S, letter_bag k.key)
    (hpos : ∀ k ∈ S, 0 < breakdown_sum k.key) (inc : str_t)
    (c : List Nat) (rem : breakdown_t) (p : Nat) (rc : Int) (out : List print_t)
    (hrem : letter_bag rem) (hp : p < S.length) (hc : ∀ q ∈ c, q < S.length)
    (hfit : ∀ idx, key_at S p idx ≤ rem idx) (hlen : c.length < m)
    (hemp : breakdown_is_empty (fun idx => rem idx - key_at S p idx) = true) :
    ∃ rc1, search_step S m inc (-1)
        (batch_state (c ++ [p]) (fun idx => rem idx - key_at S p idx) (some p) rc out)
      = some (after_state S c rem p rc1 (out ++ print_chains S inc [c ++ [p]])) := by
  have hrange : ∀ q ∈ c ++ [p], q < S.length := by
    intro q hq
    rcases List.mem_append.mp hq with h | h
    · exact hc q h
    · rw [List.mem_singleton.mp h]; exact hp
  obtain ⟨rc1, hprint⟩ := print_chain_all inc (fun idx => rem idx - key_at S p idx) (some p)
    rc out hrange (by simp)
  have hnone : find_next S (fun idx => rem idx - key_at S p idx) (some p) = none := by
    rw [find_next_from]
    cases hf : first_fit (fun idx => rem idx - key_at S p idx) (S.drop p) p with
    | none => rfl
    | some q =>
      obtain ⟨_, hq, hcont, _⟩ := (first_fit_spec S _ p).1 q hf
      rw [not_contained_of_empty hpos hemp hq] at hcont
      cases hcont
  refine ⟨rc1, ?_⟩
  unfold search_step
  have hemp1 : breakdown_is_empty
      (batch_state (c ++ [p]) (fun idx => rem idx - key_at S p idx) (some p) rc
        out).remaining_breakdown = true := hemp
  rw [if_pos hemp1, hprint, Option.some_bind]
  exact advance_pop hS c rem p (some p) rc1 _ hrem hp hfit hlen hnone

/-- The round of the search loop off a solution, when the scan for a new chain element
finds none: the last chain element is popped. -/
theorem step_scan_none {S : List keylink_t} {m : Nat} (hS : ∀ k ∈ S, letter_bag k.key)
    (inc : str_t) (c : List Nat) (rem : breakdown_t) (p : Nat) (nm : Option Nat) (rc : Int)
    (out : List print_t) (hrem : letter_bag rem) (hp : p < S.length)
    (hfit : ∀ idx, key_at S p idx ≤ rem idx) (hlen : c.length < m)
    (hemp : breakdown_is_empty (fun idx => rem idx - key_at S p idx) = false)
    (hnone : find_next S (fun idx => rem idx - key_at S p idx) nm = none) :
    search_step S m inc (-1)
        (batch_state (c ++ [p]) (fun idx => rem idx - key_at S p idx) nm rc out)
      = some (after_state S c rem p rc out) := by
  unfold search_step
  have hemp1 : ¬ breakdown_is_empty
      (batch_state (c ++ [p]) (fun idx => rem idx - key_at S p idx) nm rc
        out).remaining_breakdown = true := by
    rw [Bool.not_eq_true]; exact hemp
  rw [if_neg hemp1, Option.some_bind]
  exact advance_pop hS c rem p nm rc out hrem hp hfit hlen hnone

/-- The round of the search loop off a solution, when the scan for a new chain element
finds one: it is pushed. -/
theorem step_scan_some {S : List keylink_t} {m : Nat} (hS : ∀ k ∈ S, letter_bag k.key)
    (inc : str_t) (c : List Nat) (r : breakdown_t) (nm : Option Nat) (q : Nat) (rc : Int)
    (out : List print_t) (hr : letter_bag r) (hlen : c.length < m)
    (hemp : breakdown_is_empty r = false) (hfind : find_next S r nm = some q) :
    search_step S m inc (-1) (batch_state c r nm rc out)
      = some (batch_state (c ++ [q]) (fun idx => r idx - key_at S q idx) (some q) rc out) := by
  unfold search_step
  have hemp1 : ¬ breakdown_is_empty (batch_state c r nm rc out).remaining_breakdown = true := by
    rw [Bool.not_eq_true]; exact hemp
  rw [if_neg hemp1, Option.some_bind]
  unfold search_advance
  simp only [batch_state, hfind]
  obtain ⟨_, _, _, hq, hc⟩ := find_next_some hfind
  rw [push_found_some _ hq hlen hr (hS _ (List.getElem_mem hq)) hc]

/-- The rounds that search the later siblings of the subkey at `q0` on top of the chain `c`,
given that the search below every fitting subkey goes as `dfs` says: the loop reaches a state
with the chain `c` in which no further subkey fits. -/
theorem batch_siblings {S : List keylink_t} {m : Nat} (inc : str_t) (f : Nat) (c : List Nat)
    (r : breakdown_t)
    (hexp : ∀ q rc out, q < S.length → breakdown_contains r (key_at S q) = true →
      ∃ rc1, BatchReach S m inc
        (batch_state (c ++ [q]) (fun idx => r idx - key_at S q idx) (some q) rc out)
        (after_state S c r q rc1
          (out ++ print_chains S inc ((dfs S f r q).map (fun s => c ++ s))))) :
    ∀ (n k q0 : Nat) (rc : Int) (out : List print_t), k ≤ n → q0 + k + 1 = S.length →
      ∃ rc1 nm, find_next S r nm = none ∧
        BatchReach S m inc (after_state S c r q0 rc out)
          (batch_state c r nm rc1
            (out ++ print_chains S inc
              (((List.range' (q0 + 1) k).flatMap (dfs S f r)).map (fun s => c ++ s)))) := by
  intro n
  induction n with
  | zero =>
    intro k q0 rc out hk hq0
    have hk0 : k = 0 := by omega
    subst hk0
    cases hf : find_next S r (subkey_next S q0) with
    | none =>
      refine ⟨rc, subkey_next S q0, hf, ?_⟩
      have hst : after_state S c r q0 rc out = batch_state c r (subkey_next S q0) rc out := by
        unfold after_state; rw [hf]
      rw [hst]
      simp only [List.range'_zero, List.flatMap_nil, List.map_nil, print_chains_nil,
        List.append_nil]
      exact batch_reach_refl S m inc _
    | some q1 =>
      exfalso
      rw [find_next_behind] at hf
      obtain ⟨h1, h2, _, _⟩ := (first_fit_spec S r (q0 + 1)).1 q1 hf
      omega
  | succ n ih =>
    intro k q0 rc out hk hq0
    cases hf : find_next S r (subkey_next S q0) with
    | none =>
      refine ⟨rc, subkey_next S q0, hf, ?_⟩
      have hst : after_state S c r q0 rc out = batch_state c r (subkey_next S q0) rc out := by
        unfold after_state; rw [hf]
      rw [hst]
      rw [find_next_behind] at hf
      have hnone := (first_fit_spec S r (q0 + 1)).2 hf
      rw [flatMap_range_nil (dfs S f r) (q0 + 1) k
        (fun x hx1 hx2 => dfs_not_fit S f r x (hnone x hx1 (by omega)))]
      simp only [List.map_nil, print_chains_nil, List.append_nil]
      exact batch_reach_refl S m inc _
    | some q1 =>
      have hst : after_state S c r q0 rc out
          = batch_state (c ++ [q1]) (fun idx => r idx - key_at S q1 idx) (some q1) rc out := by
        unfold after_state; rw [hf]
      rw [hst]
      rw [find_next_behind] at hf
      obtain ⟨h1, h2, h3, h4⟩ := (first_fit_spec S r (q0 + 1)).1 q1 hf
      obtain ⟨rc1, hr1⟩ := hexp q1 rc out h2 h3
      obtain ⟨rc2, nm, hnm, hr2⟩ := ih (q0 + 1 + k - (q1 + 1)) q1 rc1
        (out ++ print_chains S inc ((dfs S f r q1).map (fun s => c ++ s)))
        (by omega) (by omega)
      refine ⟨rc2, nm, hnm, ?_⟩
      rw [flatMap_range_skip (dfs S f r) (q0 + 1) q1 k h1 (by omega)
        (fun x hx1 hx2 => dfs_not_fit S f r x (h4 x hx1 hx2)),
        List.map_append, print_chains_append, ← List.append_assoc]
      exact batch_reach_trans hr1 hr2

/-- The search below one pushed subkey: the loop reaches the state in which that subkey has
been popped, having printed exactly the rows of the chains of `dfs`, in order. -/
theorem batch_subtree {S : List keylink_t} {m : Nat} (hS : ∀ k ∈ S, letter_bag k.key)
    (hpos : ∀ k ∈ S, 0 < breakdown_sum k.key) (inc : str_t) :
    ∀ (f : Nat) (c : List Nat) (rem : breakdown_t) (p : Nat) (rc : Int) (out : List print_t),
      letter_bag rem → breakdown_contains rem (key_at S p) = true → breakdown_sum rem ≤ f →
      (c.length : Int) + breakdown_sum rem ≤ m → p < S.length → (∀ q ∈ c, q < S.length) →
      ∃ rc1, BatchReach S m inc
        (batch_state (c ++ [p]) (fun idx => rem idx - key_at S p idx) (some p) rc out)
        (after_state S c rem p rc1
          (out ++ print_chains S inc ((dfs S f rem p).map (fun s => c ++ s)))) := by
  intro f
  induction f with
  | zero =>
    intro c rem p rc out hrem hcont hsum _ hp _
    exfalso
    have h1 := key_at_sum_pos hpos hp
    have h2 : breakdown_sum (key_at S p) ≤ breakdown_sum rem :=
      breakdown_sum_le ((breakdown_contains_iff _ _).mp hcont)
    omega
  | succ f ih =>
    intro c rem p rc out hrem hcont hsum hcap hp hc
    have hfit := (breakdown_contains_iff _ _).mp hcont
    have hkpos := key_at_sum_pos hpos hp
    have hknn := key_at_nonneg hS p
    have hsumsub := breakdown_sum_sub rem (key_at S p)
    have hlen : c.length < m := by
      have h2 : breakdown_sum (key_at S p) ≤ breakdown_sum rem := breakdown_sum_le hfit
      have : (c.length : Int) < m := by omega
      exact_mod_cast this
    have hu : breakdown_underflowed (fun idx => rem idx - key_at S p idx) = false := by
      rw [Bool.eq_false_iff, Ne, breakdown_underflowed_iff]
      rintro ⟨idx, h⟩
      have := hfit idx
      omega
    have hne1 : c ++ [p] ≠ [] := by simp
    rw [dfs_succ, hu]
    simp only [Bool.false_eq_true, if_false]
    cases hemp : breakdown_is_empty (fun idx => rem idx - key_at S p idx) with
    | true =>
      simp only [if_true, List.map_cons, List.map_nil]
      obtain ⟨rc1, hstep⟩ := step_solution hS hpos inc c rem p rc out hrem hp hc hfit hlen hemp
      exact ⟨rc1, batch_reach_step hne1 hstep⟩
    | false =>
      simp only [Bool.false_eq_true, if_false]
      have hr1 : letter_bag (fun idx => rem idx - key_at S p idx) := by
        intro idx
        have := hrem idx; have := hknn idx; have := hfit idx
        constructor <;> simp only <;> omega
      have hr1pos := sum_pos_of_not_empty (fun idx => (hr1 idx).1) hemp
      cases hfind : find_next S (fun idx => rem idx - key_at S p idx) (some p) with
      | none =>
        have hstep := step_scan_none hS inc c rem p (some p) rc out hrem hp hfit hlen hemp hfind
        rw [find_next_from] at hfind
        have hnone := (first_fit_spec S _ p).2 hfind
        rw [flatMap_range_nil (dfs S f (fun idx => rem idx - key_at S p idx)) p (S.length - p)
          (fun x hx1 hx2 => dfs_not_fit S f _ x (hnone x hx1 (by omega)))]
        simp only [List.map_nil, print_chains_nil, List.append_nil]
        exact ⟨rc, batch_reach_step hne1 hstep⟩
      | some q =>
        have hfind1 := hfind
        rw [find_next_from] at hfind1
        obtain ⟨h1, h2, h3, h4⟩ := (first_fit_spec S _ p).1 q hfind1
        have hqpos := key_at_sum_pos hpos h2
        have hqle : breakdown_sum (key_at S q)
            ≤ breakdown_sum (fun idx => rem idx - key_at S p idx) :=
          breakdown_sum_le ((breakdown_contains_iff _ _).mp h3)
        have hlen1 : (c ++ [p]).length < m := by
          have : ((c.length : Int) + 1) < m := by omega
          rw [List.length_append, List.length_singleton]
          exact_mod_cast this
        have hcap1 : ((c ++ [p]).length : Int)
            + breakdown_sum (fun idx => rem idx - key_at S p idx) ≤ m := by
          rw [List.length_append, List.length_singleton]
          push_cast
          omega
        have hc1 : ∀ x ∈ c ++ [p], x < S.length := by
          intro x hx
          rcases List.mem_append.mp hx with h | h
          · exact hc x h
          · rw [List.mem_singleton.mp h]; exact hp
        have hstep := step_scan_some hS inc (c ++ [p]) _ (some p) q rc out hr1 hlen1 hemp hfind
        have hexp : ∀ x rc out, x < S.length →
            breakdown_contains (fun idx => rem idx - key_at S p idx) (key_at S x) = true →
            ∃ rc1, BatchReach S m inc
              (batch_state (c ++ [p] ++ [x])
                (fun idx => rem idx - key_at S p idx - key_at S x idx) (some x) rc out)
              (after_state S (c ++ [p]) (fun idx => rem idx - key_at S p idx) x rc1
                (out ++ print_chains S inc
                  ((dfs S f (fun idx => rem idx - key_at S p idx) x).map
                    (fun s => c ++ [p] ++ s)))) :=
          fun x rc out hx hcx => ih (c ++ [p]) _ x rc out hr1 hcx (by omega) hcap1 hx hc1
        obtain ⟨rc1, hsub⟩ := hexp q rc out h2 h3
        obtain ⟨rc2, nm, hnm, hsib⟩ := batch_siblings inc f (c ++ [p])
          (fun idx => rem idx - key_at S p idx) hexp (S.length - (q + 1))
          (S.length - (q + 1)) q rc1
          (out ++ print_chains S inc
            ((dfs S f (fun idx => rem idx - key_at S p idx) q).map (fun s => c ++ [p] ++ s)))
          (le_refl _) (by omega)
        have hpop := step_scan_none hS inc c rem p nm rc2
          (out ++ print_chains S inc
              ((dfs S f (fun idx => rem idx - key_at S p idx) q).map (fun s => c ++ [p] ++ s))
            ++ print_chains S inc
              (((List.range' (q + 1) (S.length - (q + 1))).flatMap
                (dfs S f (fun idx => rem idx - key_at S p idx))).map (fun s => c ++ [p] ++ s)))
          hrem hp hfit hlen hemp hnm
        refine ⟨rc2, ?_⟩
        have hrows : out ++ print_chains S inc
            ((((List.range' p (S.length - p)).flatMap
                (fun q => dfs S f (fun idx => rem idx - key_at S p idx) q)).map
              (fun s => p :: s)).map (fun s => c ++ s))
            = out ++ print_chains S inc
                ((dfs S f (fun idx => rem idx - key_at S p idx) q).map (fun s => c ++ [p] ++ s))
              ++ print_chains S inc
                (((List.range' (q + 1) (S.length - (q + 1))).flatMap
                  (dfs S f (fun idx => rem idx - key_at S p idx))).map
                    (fun s => c ++ [p] ++ s)) := by
          rw [flatMap_range_skip (fun q => dfs S f (fun idx => rem idx - key_at S p idx) q) p q
            (S.length - p) h1 (by omega)
            (fun x hx1 hx2 => dfs_not_fit S f _ x (h4 x hx1 hx2))]
          have e : p + (S.length - p) - (q + 1) = S.length - (q + 1) := by omega
          rw [e, List.map_map, List.map_append, print_chains_append, List.append_assoc]
          have hfun : ((fun s => c ++ s) ∘ fun s => p :: s) = fun s => c ++ [p] ++ s := by
            funext s; simp
          rw [hfun]
        rw [hrows]
        exact batch_reach_trans (batch_reach_step hne1 hstep)
          (batch_reach_trans hsub
            (batch_reach_trans hsib (batch_reach_step hne1 hpop)))

theorem search_loop_done (S : List keylink_t) (m : Nat) (inc : str_t) (n : Int) (fuel : Nat)
    (st : search_t) (h : st.chain = []) : search_loop S m inc n fuel st = some st := by
  unfold search_loop
  rw [if_neg (by rw [h]; simp)]

/-- The complete search of `list_anagrams_for` without a bound on the results: with enough
fuel the output is the rows of the chains of `all_solutions`, chain by chain. -/
theorem search_from_all {S : List keylink_t} {T R : breakdown_t} (hT : letter_bag T)
    (hR : letter_bag R) (hRT : ∀ idx, R idx ≤ T idx) (hS : ∀ k ∈ S, letter_bag k.key)
    (hpos : ∀ k ∈ S, 0 < breakdown_sum k.key) (hfit : ∀ k ∈ S, ∀ idx, k.key idx ≤ R idx)
    (inc : str_t) :
    ∃ fuel0, ∀ fuel, fuel0 ≤ fuel →
      search_from S fuel T R inc (-1) = some (print_chains S inc (all_solutions S R)) := by
  cases S with
  | nil => exact ⟨0, fun fuel _ => rfl⟩
  | cons first rest =>
    have hsumT := breakdown_sum_bound hT
    have hsumR := breakdown_sum_bound hR
    have hm : breakdown_sum R ≤ (toU32 (max 1 (breakdown_sum T)) : Nat) := by
      have h1 := toU32_of_small (x := max 1 (breakdown_sum T)) (by omega) (by omega)
      have h2 : breakdown_sum R ≤ breakdown_sum T := breakdown_sum_le hRT
      omega
    have hf := hfit first (List.mem_cons_self _ _)
    have hk := hS first (List.mem_cons_self _ _)
    have hkey0 : key_at (first :: rest) 0 = first.key := key_at_of_get (by simp)
    have hcont0 : breakdown_contains R (key_at (first :: rest) 0) = true := by
      rw [hkey0, breakdown_contains_iff]; exact hf
    have hF : breakdown_sum R ≤ ((breakdown_sum R).toNat : Int) := by
      rw [Int.toNat_of_nonneg hsumR.1]
    have hexp : ∀ q rc out, q < (first :: rest).length →
        breakdown_contains R (key_at (first :: rest) q) = true →
        ∃ rc1, BatchReach (first :: rest) (toU32 (max 1 (breakdown_sum T))) inc
          (batch_state ([] ++ [q]) (fun idx => R idx - key_at (first :: rest) q idx) (some q)
            rc out)
          (after_state (first :: rest) [] R q rc1
            (out ++ print_chains (first :: rest) inc
              ((dfs (first :: rest) (breakdown_sum R).toNat R q).map (fun s => [] ++ s)))) :=
      fun q rc out hq hc => batch_subtree hS hpos inc _ [] R q rc out hR hc hF
        (by simpa using hm) hq (by intro x hx; cases hx)
    obtain ⟨rc1, h1⟩ := hexp 0 0 [] (by simp) hcont0
    obtain ⟨rc2, nm, _, h2⟩ := batch_siblings inc (breakdown_sum R).toNat [] R hexp
      rest.length rest.length 0 rc1
      ([] ++ print_chains (first :: rest) inc
        ((dfs (first :: rest) (breakdown_sum R).toNat R 0).map (fun s => [] ++ s)))
      (le_refl _) (by simp)
    obtain ⟨n, hn⟩ := batch_reach_trans h1 h2
    refine ⟨n, ?_⟩
    intro fuel hfuel
    have hund : breakdown_underflowed (fun idx => R idx - first.key idx) = false := by
      rw [Bool.eq_false_iff, Ne, breakdown_underflowed_iff]
      rintro ⟨idx, h⟩
      have := hf idx
      omega
    have hloop := hn (fuel - n)
    rw [search_loop_done (first :: rest) (toU32 (max 1 (breakdown_sum T))) inc (-1) (fuel - n)
      (batch_state [] R nm rc2 _) rfl] at hloop
    have hfe : n + (fuel - n) = fuel := by omega
    rw [hfe] at hloop
    unfold search_from
    simp only
    rw [breakdown_subtract_spec
      (by intro idx; have := hf idx; omega)
      (by intro idx; have := (hR idx).2; have := (hk idx).1; omega)]
    simp only [hund, Bool.not_false, if_true]
    have hinit : batch_state [0] (fun idx => R idx - first.key idx) (some 0) 0 []
        = batch_state ([] ++ [0]) (fun idx => R idx - key_at (first :: rest) 0 idx) (some 0)
            0 [] := by
      rw [hkey0]; rfl
    unfold batch_state at hinit
    rw [hinit]
    have hloop1 := hloop
    unfold batch_state at hloop1
    rw [hloop1]
    have hmap : ∀ l : List (List Nat), l.map (fun s => [] ++ s) = l := by
      intro l; simp
    have hall : all_solutions (first :: rest) R
        = dfs (first :: rest) (breakdown_sum R).toNat R 0
          ++ (List.range' (0 + 1) rest.length).flatMap
              (dfs (first :: rest) (breakdown_sum R).toNat R) := by
      unfold all_solutions
      rw [List.range_eq_range', List.length_cons, List.range'_succ, List.flatMap_cons]
    rw [hall, print_chains_append, Option.map_some', hmap, hmap, List.nil_append]

theorem print_chains_cons (S : List keylink_t) (inc : str_t) (c : List Nat)
    (cs : List (List Nat)) :
    print_chains S inc (c :: cs)
      = (chain_rows S c).map (print_t.result_row inc) ++ print_chains S inc cs := by
  unfold print_chains
  rw [List.flatMap_cons]

/-- The word rows of the lines printed for a list of chains are the word rows of the records
that the driver stores for them. -/
theorem print_chains_rows (S : List keylink_t) (inc : str_t) (chains : List (List Nat)) :
    (print_chains S inc chains).filterMap print_t.row_words
        = (chains.flatMap (fun c =>
            (chain_rows S c).map (fun words =>
              ({ word_count := c.length, words := words } : anagram_result_t)))).map
          (fun r => r.words) ∧
    ∀ line ∈ print_chains S inc chains, ∃ words, line = print_t.result_row inc words := by
  induction chains with
  | nil => exact ⟨rfl, by intro line h; cases h⟩
  | cons c cs ih =>
    rw [print_chains_cons]
    constructor
    · rw [List.filterMap_append, ih.1, List.flatMap_cons, List.map_append, List.filterMap_map,
        List.map_map]
      congr 1
      have h1 : (print_t.row_words ∘ print_t.result_row inc) = some := by
        funext words; rfl
      rw [h1, List.filterMap_some]
      simp [Function.comp_def]
    · intro line hline
      rcases List.mem_append.mp hline with h | h
      · obtain ⟨words, _, rfl⟩ := List.mem_map.mp h
        exact ⟨words, rfl⟩
      · exact ih.2 line h

/-- C29 (the incremental driver refines the batch enumerator). For an index whose classes
hold words with the key as their table and whose keys are not empty, and a query whose
include fits into the input and does not use it up: `begin_anagram_context` returns a
context from which `compute_anagrams`, called with budgets that grant enough rounds in total,
runs to completion (empty chain, `not_done` false), and with enough fuel
`list_anagrams_for` with `max_results = -1` returns an output; every line of this output is a
result row behind the include string, and the sequence of the word tuples of these rows is,
in the same order, the sequence of the word tuples of the records that the driver has
stored. -/
theorem driver_refines_batch (hashtable : hashtable_t) (T I : breakdown_t)
    (must_include must_exclude : str_t)
    (hT : letter_bag T) (hI : breakdown_word must_include = some I)
    (hown : index_own hashtable) (hpos : index_pos hashtable)
    (hfit : ∀ idx, I idx ≤ T idx)
    (hne : breakdown_is_empty (fun idx => T idx - I idx) = false) :
    ∃ ctx0 ctxf rounds fuel0,
      begin_anagram_context hashtable T I must_exclude = some ctx0 ∧
      (∀ budgets : List Nat, budgets ≠ [] → rounds ≤ budgets.sum →
        compute_anagrams_calls ctx0 budgets = some ctxf) ∧
      ctxf.chain = [] ∧ ctxf.results.not_done = false ∧
      ∀ depth fuel, 1 ≤ depth → fuel0 ≤ fuel →
        ∃ out, list_anagrams_for hashtable depth fuel T must_include must_exclude (-1)
            = some out ∧
          out.filterMap print_t.row_words = ctxf.results.results.map (fun r => r.words) ∧
          ∀ line ∈ out, ∃ words, line = print_t.result_row must_include words := by
  have hIb := breakdown_word_letter_bag hI
  have hu : ¬ ∃ idx, T idx < I idx := by
    rintro ⟨idx, h⟩
    have := hfit idx
    omega
  have hund : breakdown_underflowed (fun idx => T idx - I idx) = false := by
    rw [Bool.eq_false_iff, Ne, breakdown_underflowed_iff]
    rintro ⟨idx, h⟩
    have := hfit idx
    omega
  have hR : letter_bag (fun idx => T idx - I idx) := by
    intro idx
    have := hfit idx; have := (hT idx).2; have := (hIb idx).1
    constructor <;> simp only <;> omega
  have hRT : ∀ idx, (fun idx => T idx - I idx) idx ≤ T idx := by
    intro idx
    have := (hIb idx).1
    simp only
    omega
  obtain ⟨ctx0, hbegin, _, _, t, ctxf0, hloop, hnil, _, hres⟩ :=
    @begin_run hashtable T I must_exclude hT hIb hown hpos
  have hsub := begin_subkeys must_exclude hT hIb hown hund hne hbegin
  have hres0 : ctx0.results.results = [] := by
    have hbs := @begin_search hashtable T I must_exclude hT hIb hown hund
      (by rw [hne]; simp)
    rw [hbs] at hbegin
    cases hf : find_subkeys hashtable (fun idx => T idx - I idx)
        (parse_excluded must_exclude) with
    | nil =>
      rw [hf] at hbegin
      cases Option.some.inj hbegin
      rfl
    | cons first rest =>
      rw [hf] at hbegin
      cases Option.some.inj hbegin
      rfl
  obtain ⟨fuel0, hfuel⟩ := search_from_all hT hR hRT
    (@subkeys_letter_bag hashtable hown (fun idx => T idx - I idx)
      (parse_excluded must_exclude))
    (subkeys_pos hpos) subkeys_contained must_include
  refine ⟨ctx0, set_not_done ctxf0 false, t, fuel0, hbegin, ?_, hnil, rfl, ?_⟩
  · intro budgets hb hsum
    exact calls_of_loop_done hloop hnil hb hsum
  · intro depth fuel hd hf
    obtain ⟨d, rfl⟩ : ∃ d, depth = d + 1 := ⟨depth - 1, by omega⟩
    have hv : list_anagrams_for hashtable (d + 1) fuel T must_include must_exclude (-1) = _ :=
      list_body_valid _ hashtable fuel must_exclude (-1) hT hI hu
    rw [hv, hne]
    simp only [Bool.false_eq_true, if_false]
    unfold search_anagrams
    rw [hfuel fuel hf]
    refine ⟨_, rfl, ?_, ?_⟩
    · have hrows := (print_chains_rows
        (find_subkeys hashtable (fun idx => T idx - I idx) (parse_excluded must_exclude))
        must_include
        (all_solutions
          (find_subkeys hashtable (fun idx => T idx - I idx) (parse_excluded must_exclude))
          (fun idx => T idx - I idx))).1
      rw [hrows]
      have hr2 : (set_not_done ctxf0 false).results.results = ctxf0.results.results := rfl
      rw [hr2, hres, emit_chains_results, hres0, List.nil_append, hsub]
    · exact (print_chains_rows _ _ _).2

/-- Witness of C29: the query `listencat` over the example dictionary, without include and
exclude strings. -/
theorem driver_refines_batch_witness :
    ∃ ctx0 ctxf rounds fuel0,
      begin_anagram_context example_index bag_listencat breakdown_zero [] = some ctx0 ∧
      (∀ budgets : List Nat, budgets ≠ [] → rounds ≤ budgets.sum →
        compute_anagrams_calls ctx0 budgets = some ctxf) ∧
      ctxf.chain = [] ∧ ctxf.results.not_done = false ∧
      ∀ depth fuel, 1 ≤ depth → fuel0 ≤ fuel →
        ∃ out, list_anagrams_for example_index depth fuel bag_listencat [] [] (-1) = some out ∧
          out.filterMap print_t.row_words = ctxf.results.results.map (fun r => r.words) ∧
          ∀ line ∈ out, ∃ words, line = print_t.result_row [] words :=
  driver_refines_batch example_index bag_listencat breakdown_zero [] []
    (breakdown_word_letter_bag bag_listencat_eq) bag_empty_eq
    (index_of_entries_ok example_index_eq).1 (index_of_entries_ok example_index_eq).2
    (by decide) (by decide)

/-- C30 (budget slicing does not change the outcome). For every context and budgets `a` and
`b` whose sum fits into `u32`, the call `compute_anagrams(ctx, a)` followed by
`compute_anagrams(ctx, b)` leaves the context that the single call
`compute_anagrams(ctx, a + b)` leaves: the same chain, remaining table, pointer
`next_subkey_to_add`, flag `not_done` and result list, and indeed the same context in every
field; and an assertion fails in the two calls exactly when one fails in the single call. -/
theorem budget_slicing (ctx : anagram_context_t) (a b : Nat) (hsum : a + b < 4294967296) :
    (compute_anagrams ctx a).bind (fun ctx1 => compute_anagrams ctx1 b)
      = compute_anagrams ctx ((a + b) % 4294967296) ∧
    ∀ ctx2, compute_anagrams ctx ((a + b) % 4294967296) = some ctx2 →
      ∃ ctx1 ctx3, compute_anagrams ctx a = some ctx1 ∧ compute_anagrams ctx1 b = some ctx3 ∧
        ctx3.chain = ctx2.chain ∧ ctx3.remaining_breakdown = ctx2.remaining_breakdown ∧
        ctx3.next_subkey_to_add = ctx2.next_subkey_to_add ∧
        ctx3.results.not_done = ctx2.results.not_done ∧
        ctx3.results.results = ctx2.results.results := by
  have hmod : (a + b) % 4294967296 = a + b := Nat.mod_eq_of_lt hsum
  have heq : (compute_anagrams ctx a).bind (fun ctx1 => compute_anagrams ctx1 b)
      = compute_anagrams ctx (a + b) := by
    have h := calls_eq_loop [a, b] ctx (by simp)
    unfold compute_anagrams_calls at h
    rw [List.foldlM_cons] at h
    have hsum2 : [a, b].sum = a + b := by simp
    rw [hsum2, ← compute_anagrams_eq] at h
    rw [← h]
    cases compute_anagrams ctx a with
    | none => rfl
    | some ctx1 =>
      simp only [Option.bind_eq_bind, Option.some_bind, List.foldlM_cons, List.foldlM_nil]
      cases compute_anagrams ctx1 b with
      | none => rfl
      | some ctx3 => rfl
  rw [hmod]
  refine ⟨heq, ?_⟩
  intro ctx2 h2
  rw [h2] at heq
  cases h1 : compute_anagrams ctx a with
  | none => rw [h1] at heq; cases heq
  | some ctx1 =>
    rw [h1] at heq
    exact ⟨ctx1, ctx2, rfl, heq, rfl, rfl, rfl, rfl, rfl⟩

/-- Witness of C30: the query `listencat` over the example dictionary, with the budgets 1
and 2. -/
theorem budget_slicing_witness :
    (compute_anagrams listencat_context 1).bind (fun ctx1 => compute_anagrams ctx1 2)
      = compute_anagrams listencat_context ((1 + 2) % 4294967296) :=
  (budget_slicing listencat_context 1 2 (by decide)).1

/-- The index of a word list exists when every word has a table. -/
theorem index_of_words_some (words : List str_t) :
    (∀ w ∈ words, ∃ b, breakdown_word w = some b) →
      ∀ s : hashtable_t, ∃ s1, words.foldlM add_own_word s = some s1 := by
  induction words with
  | nil => intro _ s; exact ⟨s, rfl⟩
  | cons a l ih =>
    intro h s
    obtain ⟨b, hb⟩ := h a (List.mem_cons_self _ _)
    rw [List.foldlM_cons]
    have hstep : add_own_word s a = some (hashtable_add_word s a b) := by
      unfold add_own_word
      rw [hb]
      rfl
    rw [hstep]
    exact ih (fun w hw => h w (List.mem_cons_of_mem _ hw)) _

/-- A word of an index that exists has a table. -/
theorem index_of_words_table {words : List str_t} {hashtable : hashtable_t}
    (hindex : index_of_words words = some hashtable) {w : str_t} (hw : w ∈ words) :
    ∃ b, breakdown_word w = some b := by
  cases hb : breakdown_word w with
  | some b => exact ⟨b, rfl⟩
  | none =>
    exfalso
    have hstep : ∀ (l : List str_t) (s : hashtable_t), w ∈ l →
        l.foldlM add_own_word s = none := by
      intro l
      induction l with
      | nil => intro s h; cases h
      | cons a l ih =>
        intro s h
        rw [List.foldlM_cons]
        rcases List.mem_cons.mp h with rfl | h
        · simp [add_own_word, hb]
        · cases hs : add_own_word s a with
          | none => rfl
          | some s1 => exact ih s1 h
    unfold index_of_words at hindex
    rw [hstep words hashtable_empty hw] at hindex
    cases hindex

/-- Every indexed word is in the word list of the class of its table. -/
theorem index_of_words_mem {words : List str_t} {hashtable : hashtable_t}
    (hindex : index_of_words words = some hashtable) {w : str_t} (hw : w ∈ words) :
    ∃ b, breakdown_word w = some b ∧
      ∃ kl ∈ hashtable.entries (hash_breakdown b % bucket_count), kl.key = b ∧ w ∈ kl.words := by
  have hinv := index_of_words_inv hindex
  obtain ⟨b, hb⟩ := index_of_words_table hindex hw
  obtain ⟨kl, hkl, hkey⟩ := hinv.covered w hw b hb
  refine ⟨b, hb, kl, hkl, hkey, ?_⟩
  rw [hinv.words_eq _ kl hkl, List.mem_reverse]
  unfold words_of_table
  rw [List.mem_filter]
  refine ⟨hw, ?_⟩
  rw [hb]
  exact (breakdown_eq_iff _ _).mpr hkey.symm

/-- The word list of a class holds a word as often as it was indexed when the key of the
class is its table, and not at all otherwise. -/
theorem index_of_words_count {words : List str_t} {hashtable : hashtable_t}
    (hindex : index_of_words words = some hashtable) :
    ∀ i, ∀ kl ∈ hashtable.entries i, ∀ w,
      kl.words.countP (fun x => decide (x = w))
        = if breakdown_word w = some kl.key then words.countP (fun x => decide (x = w))
          else 0 := by
  have hinv := index_of_words_inv hindex
  intro i kl hkl w
  rw [hinv.words_eq i kl hkl, (List.reverse_perm _).countP_eq]
  unfold words_of_table
  rw [List.countP_filter]
  split
  · rename_i hw
    apply List.countP_congr
    intro x _
    simp only [Bool.and_eq_true, decide_eq_true_eq]
    constructor
    · intro h; exact h.1
    · intro h
      subst h
      refine ⟨rfl, ?_⟩
      rw [hw]
      exact (breakdown_eq_iff _ _).mpr rfl
  · rename_i hw
    rw [List.countP_eq_zero]
    intro x _
    simp only [Bool.and_eq_true, decide_eq_true_eq, not_and]
    intro h
    subst h
    cases hb : breakdown_word x with
    | none => simp
    | some b =>
      simp only [breakdown_eq_iff]
      intro hk
      exact hw (by rw [hb, hk])

/-- The loop "Build hash" of `main` calls `hashtable_add_word` for the accepted entries of
the file, in file order, each with its own table. -/
theorem build_hash_eq (include_uppercase : Bool) (contents : str_t)
    (hbytes : ∀ c ∈ contents, c < 256) :
    build_hash include_uppercase contents
      = index_of_words
          ((contents.splitOnP is_linebreak).filter (entry_accepted include_uppercase)) := by
  unfold build_hash index_of_words
  rw [List.range_eq_range']
  have h := build_fold include_uppercase contents contents.length 0 0 true hashtable_empty
    (by omega) (le_refl _) (by simp) (by simp)
  rw [List.drop_zero] at h
  rw [h]
  congr 1
  apply List.filter_congr
  intro entry hentry
  unfold entry_accepted
  congr 1
  rw [Bool.eq_iff_iff, List.all_eq_true, List.all_eq_true]
  constructor
  · intro h c hc
    rw [← is_ascii_iff (hbytes c (splitOnP_subset _ contents entry hentry c hc))]
    exact h c hc
  · intro h c hc
    rw [is_ascii_iff (hbytes c (splitOnP_subset _ contents entry hentry c hc))]
    exact h c hc

/-- C18 (index acceptance rule). The loop "Build hash" of `main` over the bytes of the
dictionary file treats as entries the pieces of the file between line-break bytes (10 to 13)
and calls `hashtable_add_word`, in file order and with the bytes of the entry and their own
table, for exactly the entries that have no byte from `0x80` on, no uppercase letter unless
`include_uppercase` is set, and at least one letter. The loop ends with an index when no
accepted entry has one letter more than 127 times. In this index an entry of the file is in
the word list of a class exactly when it is accepted; an accepted entry is in the class that
lies in the bucket of its table and has this table as its key; every word of the index is an
accepted entry of the file, byte for byte; the word list of a class holds an entry as often
as it stands in the file as an accepted entry with the key of the class as its table; and
the word list of a class is the list of the accepted entries with this table, the last one
of the file first. -/
theorem index_acceptance (include_uppercase : Bool) (contents : str_t)
    (hbytes : ∀ c ∈ contents, c < 256) :
    build_hash include_uppercase contents
      = index_of_words
          ((contents.splitOnP is_linebreak).filter (entry_accepted include_uppercase)) ∧
    (∀ c, is_linebreak c = true ↔ 10 ≤ c ∧ c ≤ 13) ∧
    (∀ entry ∈ contents.splitOnP is_linebreak, ∀ c ∈ entry, is_linebreak c = false) ∧
    (List.zipWith (fun entry sep => entry ++ sep) (contents.splitOnP is_linebreak)
        (((contents.filter is_linebreak).map fun c => [c]) ++ [[]])).flatten = contents ∧
    ((∀ entry ∈ contents.splitOnP is_linebreak, entry_accepted include_uppercase entry = true →
        ∀ idx : Fin 27, letter_count entry idx.val ≤ 127) →
      ∃ hashtable, build_hash include_uppercase contents = some hashtable) ∧
    ∀ hashtable, build_hash include_uppercase contents = some hashtable →
      (∀ entry ∈ contents.splitOnP is_linebreak,
        (∃ i, ∃ kl ∈ hashtable.entries i, entry ∈ kl.words)
          ↔ entry_accepted include_uppercase entry = true) ∧
      (∀ entry ∈ contents.splitOnP is_linebreak,
        entry_accepted include_uppercase entry = true →
        ∃ b, breakdown_word entry = some b ∧
          ∃ kl ∈ hashtable.entries (hash_breakdown b % bucket_count),
            kl.key = b ∧ entry ∈ kl.words) ∧
      (∀ i, ∀ kl ∈ hashtable.entries i, ∀ w ∈ kl.words,
        w ∈ contents.splitOnP is_linebreak ∧ entry_accepted include_uppercase w = true) ∧
      (∀ i, ∀ kl ∈ hashtable.entries i, ∀ w,
        kl.words.countP (fun x => decide (x = w))
          = if breakdown_word w = some kl.key then
              (contents.splitOnP is_linebreak).countP
                (fun x => entry_accepted include_uppercase x && decide (x = w))
            else 0) ∧
      (∀ i, ∀ kl ∈ hashtable.entries i,
        kl.words
          = (words_of_table kl.key
              ((contents.splitOnP is_linebreak).filter
                (entry_accepted include_uppercase))).reverse) := by
  have hmain := build_hash_eq include_uppercase contents hbytes
  refine ⟨hmain, by intro c; simp [is_linebreak], splitOnP_pieces is_linebreak contents,
    List.splitOnP_spec is_linebreak contents, ?_, ?_⟩
  · intro hcount
    rw [hmain]
    unfold index_of_words
    refine index_of_words_some _ ?_ hashtable_empty
    intro w hw
    rw [List.mem_filter] at hw
    rw [breakdown_word_spec, if_pos (hcount w hw.1 hw.2)]
    exact ⟨_, rfl⟩
  · intro hashtable hb
    rw [hmain] at hb
    have hsupp : ∀ i, ∀ kl ∈ hashtable.entries i, ∀ w ∈ kl.words,
        w ∈ contents.splitOnP is_linebreak ∧ entry_accepted include_uppercase w = true := by
      intro i kl hkl w hw
      have := ((index_of_words_supp hb) i kl hkl).2 w hw
      rw [List.mem_filter] at this
      exact this
    have hmem : ∀ entry ∈ contents.splitOnP is_linebreak,
        entry_accepted include_uppercase entry = true →
        ∃ b, breakdown_word entry = some b ∧
          ∃ kl ∈ hashtable.entries (hash_breakdown b % bucket_count),
            kl.key = b ∧ entry ∈ kl.words := by
      intro entry hentry hacc
      exact index_of_words_mem hb (List.mem_filter.mpr ⟨hentry, hacc⟩)
    refine ⟨?_, hmem, hsupp, ?_, ?_⟩
    · intro entry hentry
      constructor
      · rintro ⟨i, kl, hkl, hw⟩
        exact (hsupp i kl hkl entry hw).2
      · intro hacc
        obtain ⟨b, _, kl, hkl, _, hw⟩ := hmem entry hentry hacc
        exact ⟨_, kl, hkl, hw⟩
    · intro i kl hkl w
      rw [index_of_words_count hb i kl hkl w, List.countP_filter]
      split
      · apply List.countP_congr
        intro x _
        rw [Bool.and_comm]
      · rfl
    · intro i kl hkl
      exact (index_of_words_inv hb).words_eq i kl hkl

/-- Witness of C18: the file `example_file` without `--upper`: the accepted entries are `cat`
and `act`; the index exists, both are in the class of their table, whose word list is act,
cat, and `Dog` and `12` are in no class. -/
theorem index_acceptance_witness :
    (example_file.splitOnP is_linebreak).filter (entry_accepted false)
      = [[99, 97, 116], [97, 99, 116]] ∧
    (∃ hashtable, build_hash false example_file = some hashtable) ∧
    ∀ hashtable, build_hash false example_file = some hashtable →
      (∃ kl ∈ hashtable.entries (hash_breakdown bag_cat % bucket_count),
        kl.key = bag_cat ∧ kl.words = [[97, 99, 116], [99, 97, 116]]) ∧
      (¬ ∃ i, ∃ kl ∈ hashtable.entries i, [68, 111, 103] ∈ kl.words) ∧
      (¬ ∃ i, ∃ kl ∈ hashtable.entries i, [49, 50] ∈ kl.words) :=
  have h := index_acceptance false example_file (by decide)
  ⟨by decide,
    h.2.2.2.2.1 (by decide),
    fun hashtable hb =>
      have hh := h.2.2.2.2.2 hashtable hb
      ⟨by
        obtain ⟨b, hb1, kl, hkl, hkey, _⟩ := hh.2.1 [99, 97, 116] (by decide) (by decide)
        have hbc : b = bag_cat := Option.some.inj (hb1.symm.trans bag_cat_eq)
        subst hbc
        refine ⟨kl, hkl, hkey, ?_⟩
        rw [hh.2.2.2.2 _ kl hkl, hkey]
        decide,
       fun hex => by
        have := (hh.1 [68, 111, 103] (by decide)).mp hex
        revert this
        decide,
       fun hex => by
        have := (hh.1 [49, 50] (by decide)).mp hex
        revert this
        decide⟩⟩

/-- The report of the missing letters, line by line: the sum of the missing counts, a line
for every slot in which the include has more than the input, in the order of the slots, with
the missing count, and the headline of the additions. -/
theorem missing_report_lines (T I : breakdown_t) (additions : List print_t) :
    missing_report (fun idx => max 0 (I idx - T idx)) ++ additions
      = print_t.missing_count (∑ idx : Fin 27, max 0 (I idx - T idx))
          :: (((List.finRange 27).filter (fun idx => decide (T idx < I idx))).map
                (fun idx => print_t.missing_letter (max 0 (I idx - T idx)) idx.val)
              ++ print_t.possible_additions :: additions) := by
  unfold missing_report
  rw [breakdown_sum_eq]
  have hf : count_idxs.filter (fun idx => decide (max 0 (I idx - T idx) ≠ 0))
      = (List.finRange 27).filter (fun idx => decide (T idx < I idx)) := by
    unfold count_idxs
    apply List.filter_congr
    intro idx _
    rw [decide_eq_decide]
    constructor
    · intro h
      by_contra hlt
      exact h (max_eq_left (by omega))
    · intro h hz
      have h2 : I idx - T idx ≤ max 0 (I idx - T idx) := le_max_right _ _
      omega
  rw [hf]
  simp only [List.cons_append, List.append_assoc, List.singleton_append, List.nil_append]

/-- C11 (shortfall descriptor). `list_anagrams_for`, called with the table `T` of an input
and an include of table `I`, prints the report of missing letters exactly when some letter
occurs more often in the include than in the input. The output of every call has a line for
a missing letter with the count `count` for the slot `idx` exactly when the include has more
of the letter of this slot than the input and `count` is `max(0, I idx - T idx)`. In
shortfall mode the table `max(0, I i - T i)` is not empty and its sum is positive, and the
output is: the line with the sum of these counts, the lines of the slots with a missing
letter in the order of the slots, each with its count `max(0, I i - T i)`, the headline of
the additions, and then the output of the nested call. The nested call has this table as its
target, empty include and exclude and the limit 20, and it does not report missing letters
itself: it runs the search and prints result rows only. Over an index built by `main` the
call returns, given enough fuel. -/
theorem shortfall_descriptor (hashtable : hashtable_t) (input must_include must_exclude : str_t)
    (T I : breakdown_t) (hT : breakdown_word input = some T)
    (hI : breakdown_word must_include = some I) (max_results : Int) (depth fuel : Nat) :
    (∀ out, list_anagrams_for hashtable (depth + 2) fuel T must_include must_exclude max_results
        = some out →
      ((∃ idx, T idx < I idx) ↔ ∃ sum, print_t.missing_count sum ∈ out) ∧
      (∀ sum, print_t.missing_count sum ∈ out →
        sum = ∑ idx : Fin 27, max 0 (I idx - T idx) ∧ 0 < sum) ∧
      (∀ count idx, print_t.missing_letter count idx ∈ out ↔
        ∃ i : Fin 27, i.val = idx ∧ T i < I i ∧ count = max 0 (I i - T i))) ∧
    ((∃ idx, T idx < I idx) →
      breakdown_is_empty (fun idx => max 0 (I idx - T idx)) = false ∧
      0 < ∑ idx : Fin 27, max 0 (I idx - T idx) ∧
      list_anagrams_for hashtable (depth + 2) fuel T must_include must_exclude max_results
        = (list_anagrams_for hashtable (depth + 1) fuel (fun idx => max 0 (I idx - T idx))
            [] [] 20).map
          (fun additions =>
            print_t.missing_count (∑ idx : Fin 27, max 0 (I idx - T idx))
              :: (((List.finRange 27).filter (fun idx => decide (T idx < I idx))).map
                    (fun idx => print_t.missing_letter (max 0 (I idx - T idx)) idx.val)
                  ++ print_t.possible_additions :: additions)) ∧
      list_anagrams_for hashtable (depth + 1) fuel (fun idx => max 0 (I idx - T idx)) [] [] 20
        = search_anagrams hashtable fuel (fun idx => max 0 (I idx - T idx))
            (fun idx => max 0 (I idx - T idx)) [] [] 20 ∧
      ∀ additions,
        list_anagrams_for hashtable (depth + 1) fuel (fun idx => max 0 (I idx - T idx))
            [] [] 20 = some additions →
        ∀ e ∈ additions, ∃ words, e = print_t.result_row [] words) ∧
    (∀ words, index_of_entries words = some hashtable →
      ∃ fuel0, ∀ fuel1, fuel0 ≤ fuel1 →
        ∃ out, list_anagrams_for hashtable (depth + 2) fuel1 T must_include must_exclude
          max_results = some out) := by
  have hTb := breakdown_word_letter_bag hT
  have hIb := breakdown_word_letter_bag hI
  have hshort : (∃ idx, T idx < I idx) →
      list_anagrams_for hashtable (depth + 2) fuel T must_include must_exclude max_results
        = (list_anagrams_for hashtable (depth + 1) fuel (fun idx => max 0 (I idx - T idx))
            [] [] 20).map
          (fun additions =>
            print_t.missing_count (∑ idx : Fin 27, max 0 (I idx - T idx))
              :: (((List.finRange 27).filter (fun idx => decide (T idx < I idx))).map
                    (fun idx => print_t.missing_letter (max 0 (I idx - T idx)) idx.val)
                  ++ print_t.possible_additions :: additions)) := by
    intro hu
    have h1 : list_anagrams_for hashtable (depth + 2) fuel T must_include must_exclude
        max_results = _ :=
      list_body_shortfall _ hashtable fuel must_exclude max_results hTb hI hu
    rw [h1]
    congr 1
    funext additions
    exact missing_report_lines T I additions
  have hrows : (∃ idx, T idx < I idx) → ∀ additions,
      list_anagrams_for hashtable (depth + 1) fuel (fun idx => max 0 (I idx - T idx))
          [] [] 20 = some additions →
      ∀ e ∈ additions, ∃ words, e = print_t.result_row [] words := by
    intro hu additions ha
    rw [(list_missing hashtable depth fuel hTb hIb hu 20).2] at ha
    exact search_anagrams_rows ha
  have hpos : (∃ idx, T idx < I idx) → 0 < ∑ idx : Fin 27, max 0 (I idx - T idx) := by
    intro hu
    rw [← breakdown_sum_eq (fun idx => max 0 (I idx - T idx))]
    exact sum_pos_of_not_empty (fun idx => le_max_left _ _)
      (list_missing hashtable depth fuel hTb hIb hu 20).1
  refine ⟨?_, fun hu => ⟨(list_missing hashtable depth fuel hTb hIb hu 20).1, hpos hu,
    hshort hu, (list_missing hashtable depth fuel hTb hIb hu 20).2, hrows hu⟩, ?_⟩
  swap
  · intro words hindex
    have hok := index_of_entries_ok hindex
    obtain ⟨fuel0, h0⟩ := list_anagrams_for_some hok.1 hok.2 hTb hI must_exclude max_results
    exact ⟨fuel0, fun fuel1 hf => h0 (depth + 2) fuel1 (by omega) hf⟩
  intro out hout
  by_cases hu : ∃ idx, T idx < I idx
  · rw [hshort hu, Option.map_eq_some'] at hout
    obtain ⟨additions, hadd, rfl⟩ := hout
    have hr := hrows hu additions hadd
    refine ⟨⟨fun _ => ⟨_, List.mem_cons_self _ _⟩, fun _ => hu⟩, ?_, ?_⟩
    · intro sum hmem
      rcases List.mem_cons.mp hmem with h | h
      · cases h
        exact ⟨rfl, hpos hu⟩
      · exfalso
        rcases List.mem_append.mp h with h | h
        · rw [List.mem_map] at h
          obtain ⟨_, _, h⟩ := h
          cases h
        · rcases List.mem_cons.mp h with h | h
          · cases h
          · obtain ⟨words, hw⟩ := hr _ h
            cases hw
    · intro count idx
      constructor
      · intro hmem
        rcases List.mem_cons.mp hmem with h | h
        · cases h
        · rcases List.mem_append.mp h with h | h
          · rw [List.mem_map] at h
            obtain ⟨i, hi, h⟩ := h
            rw [List.mem_filter, decide_eq_true_eq] at hi
            cases h
            exact ⟨i, rfl, hi.2, rfl⟩
          · rcases List.mem_cons.mp h with h | h
            · cases h
            · obtain ⟨words, hw⟩ := hr _ h
              cases hw
      · rintro ⟨i, rfl, hlt, rfl⟩
        refine List.mem_cons_of_mem _ (List.mem_append_left _ ?_)
        rw [List.mem_map]
        exact ⟨i, List.mem_filter.mpr ⟨List.mem_finRange i, by simpa using hlt⟩, rfl⟩
  · have hv : list_anagrams_for hashtable (depth + 2) fuel T must_include must_exclude
        max_results = _ :=
      list_body_valid _ hashtable fuel must_exclude max_results hTb hI hu
    rw [hv] at hout
    have hnone : ∀ e ∈ out, (∃ words, e = print_t.result_row must_include words)
        ∨ e = print_t.include_only must_include := by
      intro e he
      split at hout
      · cases Option.some.inj hout
        exact Or.inr (List.mem_singleton.mp he)
      · exact Or.inl (search_anagrams_rows hout e he)
    refine ⟨⟨fun h => absurd h hu, ?_⟩, ?_, ?_⟩
    · rintro ⟨sum, hmem⟩
      rcases hnone _ hmem with ⟨words, hw⟩ | hw <;> cases hw
    · intro sum hmem
      rcases hnone _ hmem with ⟨words, hw⟩ | hw <;> cases hw
    · intro count idx
      constructor
      · intro hmem
        rcases hnone _ hmem with ⟨words, hw⟩ | hw <;> cases hw
      · rintro ⟨i, _, hlt, _⟩
        exact absurd ⟨i, hlt⟩ hu

/-- Witness of C11: the input `listen` with the include `cat` over the example index: the
report counts two missing letters, one `a` (slot 0) and one `c` (slot 2), and no `t`. -/
theorem shortfall_descriptor_witness :
    (∃ idx, bag_listen idx < bag_cat idx) ∧
    list_anagrams_for example_index 2 1 bag_listen [99, 97, 116] [] (-1)
      = some [print_t.missing_count 2, print_t.missing_letter 1 0, print_t.missing_letter 1 2,
          print_t.possible_additions] ∧
    (∀ out, list_anagrams_for example_index 2 1 bag_listen [99, 97, 116] [] (-1) = some out →
      ((∃ idx, bag_listen idx < bag_cat idx) ↔ ∃ sum, print_t.missing_count sum ∈ out) ∧
      (∀ sum, print_t.missing_count sum ∈ out →
        sum = ∑ idx : Fin 27, max 0 (bag_cat idx - bag_listen idx) ∧ 0 < sum) ∧
      (∀ count idx, print_t.missing_letter count idx ∈ out ↔
        ∃ i : Fin 27, i.val = idx ∧ bag_listen i < bag_cat i
          ∧ count = max 0 (bag_cat i - bag_listen i))) ∧
    (∀ words, index_of_entries words = some example_index →
      ∃ fuel0, ∀ fuel1, fuel0 ≤ fuel1 →
        ∃ out, list_anagrams_for example_index 2 fuel1 bag_listen [99, 97, 116] [] (-1)
          = some out) :=
  have h := shortfall_descriptor example_index [108, 105, 115, 116, 101, 110] [99, 97, 116] []
    bag_listen bag_cat bag_listen_eq bag_cat_eq (-1) 0 1
  have hu : ∃ idx, bag_listen idx < bag_cat idx := ⟨0, by decide⟩
  ⟨hu,
    by
      rw [(h.2.1 hu).2.2.1, (h.2.1 hu).2.2.2.1, search_anagrams_eval example_index_classes]
      decide,
    h.1, h.2.2⟩

/-- C13, as stated, fails: for the input `listen` with the include `listencat` and the limit
1 the reduced target is not empty (it has the count -1 in the slots of `a`, `c` and `t`), and
the call over the example index prints three result rows, the rows of the nested call for
the three missing letters, whose limit is 20. -/
theorem result_limit_counterexample :
    breakdown_word [108, 105, 115, 116, 101, 110] = some bag_listen ∧
    breakdown_word [108, 105, 115, 116, 101, 110, 99, 97, 116] = some bag_listencat ∧
    breakdown_is_empty (fun idx => bag_listen idx - bag_listencat idx) = false ∧
    index_of_entries example_dictionary = some example_index ∧
    list_anagrams_for example_index 2 1 bag_listen [108, 105, 115, 116, 101, 110, 99, 97, 116]
        [] 1
      = some [print_t.missing_count 3, print_t.missing_letter 1 0, print_t.missing_letter 1 2,
          print_t.missing_letter 1 19, print_t.possible_additions,
          print_t.result_row [] [[116, 97, 99]], print_t.result_row [] [[97, 99, 116]],
          print_t.result_row [] [[99, 97, 116]]] ∧
    ∃ out,
      list_anagrams_for example_index 2 1 bag_listen
          [108, 105, 115, 116, 101, 110, 99, 97, 116] [] 1 = some out ∧
      ¬ ((out.filter print_t.is_result).length : Int) ≤ 1 := by
  have hTb := breakdown_word_letter_bag bag_listen_eq
  have hIb := breakdown_word_letter_bag bag_listencat_eq
  have hu : ∃ idx, bag_listen idx < bag_listencat idx := ⟨0, by decide⟩
  have h1 : list_anagrams_for example_index 2 1 bag_listen
      [108, 105, 115, 116, 101, 110, 99, 97, 116] [] 1 = _ :=
    list_body_shortfall _ example_index 1 [] 1 hTb bag_listencat_eq hu
  have hout : list_anagrams_for example_index 2 1 bag_listen
      [108, 105, 115, 116, 101, 110, 99, 97, 116] [] 1
      = some [print_t.missing_count 3, print_t.missing_letter 1 0, print_t.missing_letter 1 2,
          print_t.missing_letter 1 19, print_t.possible_additions,
          print_t.result_row [] [[116, 97, 99]], print_t.result_row [] [[97, 99, 116]],
          print_t.result_row [] [[99, 97, 116]]] := by
    rw [h1, (list_missing example_index 0 1 hTb hIb hu 20).2,
      search_anagrams_eval example_index_classes]
    decide
  exact ⟨bag_listen_eq, bag_listencat_eq, by decide, example_index_eq, hout, _, hout,
    by decide⟩

/-- C13, amended (result limit). Take a call of `list_anagrams_for` with the table `T` of an
input, an include of table `I` such that `T - I` is not empty, and a limit `n ≥ 0` (an
`i32`). Over every index, a run that returns has printed at most `n` result lines when the
include fits into the input, also when a solution chain has more than `n` word combinations;
when the include does not fit, it has printed at most 20, the lines of the nested call for
the missing letters, whatever `n` is. Over an index built by `main` the call does return:
from some amount of fuel on, with two levels of calls, it gives its output and no assertion
fails. -/
theorem result_limit (hashtable : hashtable_t) (input must_include must_exclude : str_t)
    (T I : breakdown_t) (hT : breakdown_word input = some T)
    (hI : breakdown_word must_include = some I) (n : Int) (hn : 0 ≤ n)
    (hn32 : n < 2147483648) (hne : breakdown_is_empty (fun idx => T idx - I idx) = false) :
    (∀ depth fuel out,
      list_anagrams_for hashtable depth fuel T must_include must_exclude n = some out →
      ((¬ ∃ idx, T idx < I idx) → ((out.filter print_t.is_result).length : Int) ≤ n) ∧
      ((∃ idx, T idx < I idx) → (out.filter print_t.is_result).length ≤ 20)) ∧
    (∀ words, index_of_entries words = some hashtable →
      ∃ fuel0, ∀ depth fuel, 2 ≤ depth → fuel0 ≤ fuel →
        ∃ out, list_anagrams_for hashtable depth fuel T must_include must_exclude n
          = some out) := by
  have hTb := breakdown_word_letter_bag hT
  refine ⟨?_, ?_⟩
  · intro depth fuel out hout
    exact list_anagrams_for_limit hashtable must_exclude hTb hI hn hn32 hne hout
  · intro words hindex
    have hok := index_of_entries_ok hindex
    exact list_anagrams_for_some hok.1 hok.2 hTb hI must_exclude n

/-- Witness of C13: the query `cat` with the limit 2 over the example index prints two of the
three word combinations of its one solution chain. -/
theorem result_limit_witness :
    list_anagrams_for example_index 2 1 bag_cat [] [] 2
      = some [print_t.result_row [] [[116, 97, 99]], print_t.result_row [] [[97, 99, 116]]] ∧
    list_anagrams_for example_index 2 1 bag_cat [] [] (-1)
      = some [print_t.result_row [] [[116, 97, 99]], print_t.result_row [] [[97, 99, 116]],
          print_t.result_row [] [[99, 97, 116]]] ∧
    (∀ depth fuel out, list_anagrams_for example_index depth fuel bag_cat [] [] 2 = some out →
      ((¬ ∃ idx, bag_cat idx < breakdown_zero idx) →
        ((out.filter print_t.is_result).length : Int) ≤ 2) ∧
      ((∃ idx, bag_cat idx < breakdown_zero idx) →
        (out.filter print_t.is_result).length ≤ 20)) ∧
    (∀ words, index_of_entries words = some example_index →
      ∃ fuel0, ∀ depth fuel, 2 ≤ depth → fuel0 ≤ fuel →
        ∃ out, list_anagrams_for example_index depth fuel bag_cat [] [] 2 = some out) := by
  have hv : ∀ n, list_anagrams_for example_index 2 1 bag_cat [] [] n
      = search_from (example_classes.foldl (scan_class_result bag_cat (parse_excluded [])) [])
          1 bag_cat bag_cat [] n := by
    intro n
    have h1 : list_anagrams_for example_index 2 1 bag_cat [] [] n = _ :=
      list_body_valid _ example_index 1 [] n (breakdown_word_letter_bag bag_cat_eq)
        bag_empty_eq (by decide)
    have hsub : (fun idx => bag_cat idx - breakdown_zero idx) = bag_cat := by
      funext idx; simp [breakdown_zero]
    rw [h1, hsub, search_anagrams_eval example_index_classes]
    rfl
  exact ⟨by rw [hv]; decide, by rw [hv]; decide,
    result_limit example_index [99, 97, 116] [] [] bag_cat breakdown_zero bag_cat_eq
      bag_empty_eq 2 (by decide) (by decide) (by decide)⟩

end Anagram
